import Mathlib

/-!
# denote-tasks: recurrence engine and filter-query language

A shallow embedding of `internal/recurrence/recurrence.go`, of
`internal/query/token.go`, `parser.go` and `ast.go`, and of the due-date
helpers of `internal/denote/types.go`, with the properties their specification
states.

Conventions of the embedding.

* A Go `string` is a `List Char` holding one element per byte of the string
  (for ASCII text, bytes and characters coincide).
* Go's `int` is `Int`; the only integers the code computes with are interval
  counts accepted by `strconv.Atoi`, which are within the 64-bit range, and
  whole numbers of days obtained from a `time.Duration`, whose 64-bit range is
  modelled by the saturation of `Time.Sub`.  The integers of a record and of
  the configuration are only compared.
* In package `recurrence` a `(value, error)` result is a pair whose second
  component is `none` when the Go error is `nil`.  In package `query` it is a
  `Result`, which also tells a run-time panic and the exhaustion of the depth
  allowed to the recursive parser from the results the code returns.
* The standard-library functions the code calls (`strings`, `strconv`, `time`,
  `unicode`) are modelled after their documentation in the namespaces of the
  same name.
* The current time, which `NextDueDate` and the due-date helpers read from
  `time.Now()`, is an argument of these functions and of `Evaluate`, and so
  is the local location, `time.Now().Location()`, of the due-date helpers.
-/

set_option autoImplicit false

/-! ## Package `strings` -/

namespace strings

/-- The six ASCII white-space bytes (`\t`, `\n`, `\v`, `\f`, `\r`, space). -/
def asciiSpace (c : Char) : Bool :=
  c == ' ' || c == '\t' || c == '\n' || c == '\x0b' || c == '\x0c' || c == '\r'

/-- Number of bytes taken by the white-space character encoded at the head of
`s`, or `0` when `s` does not begin with one.  Besides the ASCII white space
these are the UTF-8 encodings of U+0085, U+00A0, U+1680, U+2000..U+200A,
U+2028, U+2029, U+202F, U+205F and U+3000, the characters for which
`unicode.IsSpace` holds. -/
def leadingSpace (s : List Char) : Nat :=
  match s with
  | [] => 0
  | c :: r =>
    if asciiSpace c then 1
    else if c == '\xc2' then
      match r with
      | d :: _ => if d == '\x85' || d == '\xa0' then 2 else 0
      | [] => 0
    else if c == '\xe1' then
      match r with
      | d :: e :: _ => if d == '\x9a' && e == '\x80' then 3 else 0
      | _ => 0
    else if c == '\xe2' then
      match r with
      | d :: e :: _ =>
        if d == '\x80' && (('\x80' ≤ e && e ≤ '\x8a') || e == '\xa8' || e == '\xa9' || e == '\xaf')
        then 3
        else if d == '\x81' && e == '\x9f' then 3 else 0
      | _ => 0
    else if c == '\xe3' then
      match r with
      | d :: e :: _ => if d == '\x80' && e == '\x80' then 3 else 0
      | _ => 0
    else 0

/-- Number of bytes taken by the white-space character encoded at the end of
the string whose reversal is `s` (the bytes are met last to first). -/
def trailingSpace (s : List Char) : Nat :=
  match s with
  | [] => 0
  | c :: r =>
    if asciiSpace c then 1
    else
      match r with
      | d :: r2 =>
        if d == '\xc2' && (c == '\x85' || c == '\xa0') then 2
        else
          match r2 with
          | e :: _ =>
            if e == '\xe1' && d == '\x9a' && c == '\x80' then 3
            else if e == '\xe2' && d == '\x80' &&
                (('\x80' ≤ c && c ≤ '\x8a') || c == '\xa8' || c == '\xa9' || c == '\xaf') then 3
            else if e == '\xe2' && d == '\x81' && c == '\x9f' then 3
            else if e == '\xe3' && d == '\x80' && c == '\x80' then 3
            else 0
          | [] => 0
      | [] => 0

/-- Strips white-space characters from the front, as long as one is found. -/
def trimLeft (s : List Char) : List Char :=
  if h : leadingSpace s = 0 then s else trimLeft (s.drop (leadingSpace s))
termination_by s.length
decreasing_by
  simp only [List.length_drop]
  have : s ≠ [] := by
    intro hs
    apply h
    rw [hs]
    rfl
  have := List.length_pos.mpr this
  omega

/-- Strips white-space characters from the front of a reversed string. -/
def trimRightRev (s : List Char) : List Char :=
  if h : trailingSpace s = 0 then s else trimRightRev (s.drop (trailingSpace s))
termination_by s.length
decreasing_by
  simp only [List.length_drop]
  have : s ≠ [] := by
    intro hs
    apply h
    rw [hs]
    rfl
  have := List.length_pos.mpr this
  omega

/-- Library function `strings.TrimSpace`: the string without leading and trailing white space,
as defined by Unicode. -/
def TrimSpace (s : List Char) : List Char :=
  (trimRightRev (trimLeft s).reverse).reverse

/-- Library function `strings.ToLower`.  ASCII upper-case letters are mapped to lower case;
bytes outside ASCII are kept (Go maps the non-ASCII letters they encode by
the Unicode tables, which this model does not carry). -/
def ToLower (s : List Char) : List Char := s.map Char.toLower

/-- Library function `strings.ToUpper`, with the same scope as `ToLower`.  No
letter of `AND`, `OR` or `NOT` is the upper case of a letter outside ASCII, so
whether the upper-cased form of a word is one of these keywords is decided by
its ASCII letters alone. -/
def ToUpper (s : List Char) : List Char := s.map Char.toUpper

/-- Library function `strings.HasPrefix`. -/
def HasPrefix (s pre : List Char) : Bool := pre.isPrefixOf s

/-- Library function `strings.Split(s, sep)` for a one-byte separator: the pieces of `s`
between the occurrences of `sep`; always at least one piece. -/
def Split (s : List Char) (sep : Char) : List (List Char) :=
  match s with
  | [] => [[]]
  | c :: r =>
    if c = sep then [] :: Split r sep
    else
      match Split r sep with
      | [] => [[c]]
      | p :: ps => (c :: p) :: ps

/-- Library function `strings.Join(parts, sep)` for a one-byte separator. -/
def Join (parts : List (List Char)) (sep : Char) : List Char :=
  match parts with
  | [] => []
  | [p] => p
  | p :: q :: ps => p ++ sep :: Join (q :: ps) sep

/-- Library function `strings.Contains(s, substr)`: `substr` occurs in `s` as a
run of consecutive bytes (the empty string occurs in every string). -/
def Contains (s substr : List Char) : Bool :=
  s.tails.any (fun t => substr.isPrefixOf t)

end strings

/-! ## Package `strconv` -/

namespace strconv

/-- Value of a run of decimal digits, `none` when a byte is not a digit.
`acc` is the value of the digits read so far. -/
def parseDigits (acc : Nat) (s : List Char) : Option Nat :=
  match s with
  | [] => some acc
  | c :: r =>
    if '0' ≤ c ∧ c ≤ '9' then parseDigits (acc * 10 + (c.toNat - '0'.toNat)) r else none

/-- Library function `strconv.Atoi` on a 64-bit platform: an optional sign followed by one or
more decimal digits, whose value fits a signed 64-bit integer.  `none` stands
for a non-nil error (syntax or range). -/
def Atoi (s : List Char) : Option Int :=
  match s with
  | [] => none
  | c :: r =>
    if c = '-' then
      if r = [] then none
      else
        match parseDigits 0 r with
        | some v => if v ≤ 2 ^ 63 then some (-(v : Int)) else none
        | none => none
    else if c = '+' then
      if r = [] then none
      else
        match parseDigits 0 r with
        | some v => if v < 2 ^ 63 then some (v : Int) else none
        | none => none
    else
      match parseDigits 0 (c :: r) with
      | some v => if v < 2 ^ 63 then some (v : Int) else none
      | none => none

/-- The text printed by the verb `%d` for an `int`. -/
def formatInt (n : Int) : List Char :=
  if n < 0 then '-' :: (Nat.repr n.natAbs).toList else (Nat.repr n.toNat).toList

/-- The bytes of `xs` are decimal digits. -/
def IsDigits (xs : List Char) : Prop := ∀ c ∈ xs, '0' ≤ c ∧ c ≤ '9'

end strconv

/-! ## Package `time`

Dates follow the proleptic Gregorian calendar.  A `Time` is a wall-clock
reading in a location with a fixed offset from UTC; values are not bounded,
so the model describes `time.Time` as long as the dates stay within the range
that type can represent. -/

namespace time

/-- A day of the week (`time.Weekday`). -/
inductive Weekday where
  | Sunday | Monday | Tuesday | Wednesday | Thursday | Friday | Saturday
  deriving DecidableEq, Repr

/-- The weekday numbered `i` modulo 7, Sunday being 0. -/
def Weekday.ofInt (i : Int) : Weekday :=
  let r := i % 7
  if r = 0 then .Sunday else if r = 1 then .Monday else if r = 2 then .Tuesday
  else if r = 3 then .Wednesday else if r = 4 then .Thursday else if r = 5 then .Friday
  else .Saturday

/-- The number of a weekday, Sunday being 0. -/
def Weekday.toInt : Weekday → Int
  | .Sunday => 0 | .Monday => 1 | .Tuesday => 2 | .Wednesday => 3
  | .Thursday => 4 | .Friday => 5 | .Saturday => 6

/-- Whether `year` is a leap year. -/
def isLeap (year : Int) : Bool :=
  year % 4 == 0 && (year % 100 != 0 || year % 400 == 0)

/-- One for a leap year, zero otherwise. -/
def leapDays (year : Int) : Int := if isLeap year then 1 else 0

/-- Days of a non-leap year before the month numbered `m`, January being 0. -/
def daysBefore (m : Int) : Int :=
  if m ≤ 0 then 0 else if m = 1 then 31 else if m = 2 then 59 else if m = 3 then 90
  else if m = 4 then 120 else if m = 5 then 151 else if m = 6 then 181
  else if m = 7 then 212 else if m = 8 then 243 else if m = 9 then 273
  else if m = 10 then 304 else if m = 11 then 334 else 365

/-- Days from 1970-01-01 to January 1 of `year` (negative before 1970). -/
def daysSinceEpoch (year : Int) : Int :=
  let y := year - 1
  365 * y + y / 4 - y / 100 + y / 400 - 719162

/-- Days from 1970-01-01 to the first day of the month with index `k`, where
month `m` (January being 0) of year `y` has index `12 * y + m`. -/
def monthStart (k : Int) : Int :=
  let year := k / 12
  let m := k % 12
  daysSinceEpoch year + daysBefore m + (if 2 ≤ m then leapDays year else 0)

/-- Day number of the date `year`-`month`-`day`, counted from 1970-01-01.
As in `time.Date`, `month` and `day` may lie outside their usual ranges and
are normalised: month 13 is January of the next year, day 0 is the last day
of the previous month. -/
def dateToDay (year month day : Int) : Int :=
  monthStart (12 * year + (month - 1)) + (day - 1)

/-- The year containing day number `x`, and the zero-based day within that
year, by 400-, 100-, 4- and 1-year cycles counted from 0001-01-01. -/
def yearOfDay (x : Int) : Int × Int :=
  let d := x + 719162
  let n400 := d / 146097
  let d1 := d % 146097
  let n100 := min (d1 / 36524) 3
  let d2 := d1 - 36524 * n100
  let n4 := d2 / 1461
  let d3 := d2 % 1461
  let n1 := min (d3 / 365) 3
  (400 * n400 + 100 * n100 + 4 * n4 + n1 + 1, d3 - 365 * n1)

/-- The month (January being 0) containing the zero-based day `yday` of a year
with `leap` extra days in February. -/
def monthOfYday (leap yday : Int) : Int :=
  if yday < 31 then 0 else if yday < 59 + leap then 1 else if yday < 90 + leap then 2
  else if yday < 120 + leap then 3 else if yday < 151 + leap then 4
  else if yday < 181 + leap then 5 else if yday < 212 + leap then 6
  else if yday < 243 + leap then 7 else if yday < 273 + leap then 8
  else if yday < 304 + leap then 9 else if yday < 334 + leap then 10 else 11

/-- Year, month (1..12) and day of the month of day number `x`. -/
def civil (x : Int) : Int × Int × Int :=
  let (year, yday) := yearOfDay x
  let m := monthOfYday (leapDays year) yday
  (year, m + 1, yday - (daysBefore m + (if 2 ≤ m then leapDays year else 0)) + 1)

/-- An instant with the location it is read in. -/
structure Time where
  /-- Day number of the calendar date in the location, 1970-01-01 being 0. -/
  day : Int
  /-- Nanoseconds elapsed since midnight in the location. -/
  nsec : Nat
  /-- Offset of the location, in seconds east of UTC. -/
  offset : Int
  deriving DecidableEq, Repr

/-- The zero value `time.Time{}`: 0001-01-01 00:00:00 UTC. -/
def Time.zero : Time := ⟨-719162, 0, 0⟩

/-- Nanoseconds from 1970-01-01 00:00:00 UTC to the instant. -/
def Time.instant (t : Time) : Int :=
  (t.day * 86400 - t.offset) * 1000000000 + t.nsec

/-- Library function `time.Date`, with the clock reading given in nanoseconds since midnight. -/
def Date (year month day : Int) (nsec : Nat) (offset : Int) : Time :=
  ⟨dateToDay year month day, nsec, offset⟩

/-- Method `t.Date()`: year, month and day of `t` in its location. -/
def Time.Date (t : Time) : Int × Int × Int := civil t.day

/-- Method `t.AddDate(years, months, days)`: the given amounts are added to the
calendar date of `t` and the result is normalised as `time.Date` does; the
clock reading and the location are those of `t`. -/
def Time.AddDate (t : Time) (years months days : Int) : Time :=
  time.Date (t.Date.1 + years) (t.Date.2.1 + months) (t.Date.2.2 + days) t.nsec t.offset

/-- Method `t.Before(u)`: the instant `t` is earlier than `u`. -/
def Time.Before (t u : Time) : Bool := decide (t.instant < u.instant)

/-- Method `t.Weekday()`; 1970-01-01 was a Thursday. -/
def Time.Weekday (t : Time) : Weekday := Weekday.ofInt (t.day + 4)

/-- Whether the byte `c` is a decimal digit. -/
def isDigit (c : Char) : Bool := decide ('0' ≤ c ∧ c ≤ '9')

/-- The value of the decimal digit `c`. -/
def digitVal (c : Char) : Int := (c.toNat : Int) - ('0'.toNat : Int)

/-- Number of days of the month `month` (1..12) of `year`. -/
def daysIn (month year : Int) : Int :=
  if month = 2 then (if isLeap year then 29 else 28)
  else if month = 4 ∨ month = 6 ∨ month = 9 ∨ month = 11 then 30 else 31

/-- A location (`*time.Location`), as far as the code depends on it: the offset
from UTC, in seconds east, in effect at midnight of each day (days numbered
from 1970-01-01).  Where clocks change for daylight saving time the offset is
not the same for all days.  Locations in which the clocks change at midnight
itself, so that midnight of some day does not exist or exists twice, are
outside the model. -/
structure Location where
  midnightOffset : Int → Int

/-- A location whose offset never changes, such as UTC. -/
def Location.fixed (offset : Int) : Location := ⟨fun _ => offset⟩

/-- Library function `time.Date(year, month, day, 0, 0, 0, 0, loc)`: midnight of a date in a
location. -/
def DateIn (year month day : Int) (loc : Location) : Time :=
  ⟨dateToDay year month day, 0, loc.midnightOffset (dateToDay year month day)⟩

/-- Library function `time.ParseInLocation` for the layout "2006-01-02": the
value must be four digits, a hyphen, two digits, a hyphen and two digits, with
nothing before or after, the month in 1..12 and the day a day of that month.
The result is midnight of that date in the location; `none` stands for a
non-nil error. -/
def ParseInLocation (value : List Char) (loc : Location) : Option Time :=
  match value with
  | [y1, y2, y3, y4, s1, m1, m2, s2, d1, d2] =>
    if isDigit y1 && isDigit y2 && isDigit y3 && isDigit y4 && isDigit m1 && isDigit m2
        && isDigit d1 && isDigit d2 && s1 == '-' && s2 == '-' then
      let year := digitVal y1 * 1000 + digitVal y2 * 100 + digitVal y3 * 10 + digitVal y4
      let month := digitVal m1 * 10 + digitVal m2
      let day := digitVal d1 * 10 + digitVal d2
      if month ≤ 0 ∨ 12 < month then none
      else if day < 1 ∨ daysIn month year < day then none
      else some (DateIn year month day loc)
    else none
  | _ => none

/-- The least `time.Duration`, a signed 64-bit count of nanoseconds. -/
def minDuration : Int := -(2 ^ 63)

/-- The greatest `time.Duration`. -/
def maxDuration : Int := 2 ^ 63 - 1

/-- Method `t.Sub(u)`: the duration `t - u` in nanoseconds; when the difference
does not fit a `Duration` the result is the least or the greatest duration. -/
def Time.Sub (t u : Time) : Int :=
  let d := t.instant - u.instant
  if d < minDuration then minDuration else if maxDuration < d then maxDuration else d

/-- Method `d.Hours()`: the duration as a number of hours.  The source computes
with 64-bit floating point; the model computes with exact rationals.  The
durations the code passes are whole numbers of seconds or a saturation value
of `Sub`: their quotient by 24 hours is a whole number, which floating point
gives exactly, or is farther from every whole number than the rounding error,
so that the conversion to `int` gives the same result. -/
def Duration.Hours (d : Int) : ℚ := (d : ℚ) / 3600000000000

/-- The conversion `int(x)` of a floating-point number: the fraction is
discarded (truncation toward zero). -/
def truncate (x : ℚ) : Int := if 0 ≤ x then ⌊x⌋ else ⌈x⌉

/-- The decimal digits of `x` padded with zeros to `width` digits, after a minus
sign when `x` is negative (`appendInt`). -/
def appendInt (x : Int) (width : Nat) : List Char :=
  let digits := (Nat.repr x.natAbs).toList
  let padded := List.replicate (width - digits.length) '0' ++ digits
  if x < 0 then '-' :: padded else padded

/-- Method `t.Format` for the layout "2006-01-02". -/
def Time.Format (t : Time) : List Char :=
  appendInt t.Date.1 4 ++ '-' :: appendInt t.Date.2.1 2 ++ '-' :: appendInt t.Date.2.2 2

end time

/-! ### Calendar facts -/

namespace time

theorem cycles_start (a b c e : Int) (hb : 0 ≤ b ∧ b ≤ 3) (hc : 0 ≤ c ∧ c ≤ 24)
    (he : 0 ≤ e ∧ e ≤ 3) :
    daysSinceEpoch (400 * a + 100 * b + 4 * c + e + 1)
      = 146097 * a + 36524 * b + 1461 * c + 365 * e - 719162 := by
  simp only [daysSinceEpoch]
  have h4 : (400 * a + 100 * b + 4 * c + e + 1 - 1) / 4 = 100 * a + 25 * b + c := by omega
  have h100 : (400 * a + 100 * b + 4 * c + e + 1 - 1) / 100 = 4 * a + b := by omega
  have h400 : (400 * a + 100 * b + 4 * c + e + 1 - 1) / 400 = a := by omega
  rw [h4, h100, h400]; omega

theorem cycles_leap (a b c e : Int) (hb : 0 ≤ b ∧ b ≤ 3) (hc : 0 ≤ c ∧ c ≤ 24)
    (he : 0 ≤ e ∧ e ≤ 3) :
    isLeap (400 * a + 100 * b + 4 * c + e + 1) = true ↔ (e = 3 ∧ (c ≠ 24 ∨ b = 3)) := by
  simp only [isLeap, Bool.and_eq_true, Bool.or_eq_true, beq_iff_eq, bne_iff_ne, ne_eq]
  omega

/-- The year found for a day number starts on or before that day, and the day
falls within the year. -/
theorem yearOfDay_spec (x : Int) :
    daysSinceEpoch (yearOfDay x).1 + (yearOfDay x).2 = x ∧ 0 ≤ (yearOfDay x).2 ∧
    (yearOfDay x).2 < 365 + leapDays (yearOfDay x).1 := by
  simp only [yearOfDay]
  generalize hb : min ((x + 719162) % 146097 / 36524) 3 = b
  generalize hc : ((x + 719162) % 146097 - 36524 * b) / 1461 = c
  generalize he : min (((x + 719162) % 146097 - 36524 * b) % 1461 / 365) 3 = e
  have hb' : 0 ≤ b ∧ b ≤ 3 := by omega
  have hc' : 0 ≤ c ∧ c ≤ 24 := by omega
  have he' : 0 ≤ e ∧ e ≤ 3 := by omega
  rw [cycles_start _ b c e hb' hc' he']
  refine ⟨by omega, by omega, ?_⟩
  unfold leapDays
  by_cases hl : isLeap (400 * ((x + 719162) / 146097) + 100 * b + 4 * c + e + 1) = true
  · rw [if_pos hl]; omega
  · rw [if_neg hl]
    rw [cycles_leap _ b c e hb' hc' he'] at hl
    omega

theorem leapDays_range (year : Int) : leapDays year = 0 ∨ leapDays year = 1 := by
  unfold leapDays
  split <;> simp

/-- The month found for a day of the year contains that day. -/
theorem monthOfYday_spec (l yday : Int) (hl : l = 0 ∨ l = 1) (h0 : 0 ≤ yday)
    (h1 : yday < 365 + l) :
    0 ≤ monthOfYday l yday ∧ monthOfYday l yday ≤ 11 ∧
    daysBefore (monthOfYday l yday) + (if 2 ≤ monthOfYday l yday then l else 0) ≤ yday ∧
    yday < daysBefore (monthOfYday l yday) + (if 2 ≤ monthOfYday l yday then l else 0) + 31 := by
  generalize hm : monthOfYday l yday = m
  unfold monthOfYday at hm
  by_cases c0 : yday < 31
  · rw [if_pos c0] at hm; subst hm; simp [daysBefore]; omega
  rw [if_neg c0] at hm
  by_cases c1 : yday < 59 + l
  · rw [if_pos c1] at hm; subst hm; simp [daysBefore]; omega
  rw [if_neg c1] at hm
  by_cases c2 : yday < 90 + l
  · rw [if_pos c2] at hm; subst hm; simp [daysBefore]; omega
  rw [if_neg c2] at hm
  by_cases c3 : yday < 120 + l
  · rw [if_pos c3] at hm; subst hm; simp [daysBefore]; omega
  rw [if_neg c3] at hm
  by_cases c4 : yday < 151 + l
  · rw [if_pos c4] at hm; subst hm; simp [daysBefore]; omega
  rw [if_neg c4] at hm
  by_cases c5 : yday < 181 + l
  · rw [if_pos c5] at hm; subst hm; simp [daysBefore]; omega
  rw [if_neg c5] at hm
  by_cases c6 : yday < 212 + l
  · rw [if_pos c6] at hm; subst hm; simp [daysBefore]; omega
  rw [if_neg c6] at hm
  by_cases c7 : yday < 243 + l
  · rw [if_pos c7] at hm; subst hm; simp [daysBefore]; omega
  rw [if_neg c7] at hm
  by_cases c8 : yday < 273 + l
  · rw [if_pos c8] at hm; subst hm; simp [daysBefore]; omega
  rw [if_neg c8] at hm
  by_cases c9 : yday < 304 + l
  · rw [if_pos c9] at hm; subst hm; simp [daysBefore]; omega
  rw [if_neg c9] at hm
  by_cases c10 : yday < 334 + l
  · rw [if_pos c10] at hm; subst hm; simp [daysBefore]; omega
  rw [if_neg c10] at hm
  subst hm; simp [daysBefore]; omega

/-- Converting a day number to a calendar date and back gives the day number. -/
theorem dateToDay_civil (x : Int) :
    dateToDay (civil x).1 (civil x).2.1 (civil x).2.2 = x := by
  obtain ⟨hy, h0, h1⟩ := yearOfDay_spec x
  obtain ⟨m0, m1, _, _⟩ := monthOfYday_spec (leapDays (yearOfDay x).1) (yearOfDay x).2
    (leapDays_range _) h0 h1
  simp only [civil, dateToDay, monthStart]
  generalize monthOfYday (leapDays (yearOfDay x).1) (yearOfDay x).2 = m at m0 m1 ⊢
  have e1 : (12 * (yearOfDay x).1 + (m + 1 - 1)) / 12 = (yearOfDay x).1 := by omega
  have e2 : (12 * (yearOfDay x).1 + (m + 1 - 1)) % 12 = m := by omega
  rw [e1, e2]
  omega

theorem daysSinceEpoch_succ (y : Int) :
    daysSinceEpoch (y + 1) = daysSinceEpoch y + 365 + leapDays y := by
  simp only [daysSinceEpoch, leapDays, isLeap]
  split <;> simp_all <;> omega

/-- Every month has at least 28 days. -/
theorem monthStart_succ (k : Int) : monthStart k + 28 ≤ monthStart (k + 1) := by
  simp only [monthStart]
  rcases leapDays_range (k / 12) with hl | hl <;>
  by_cases h11 : k % 12 = 11
  all_goals first
    | (have e1 : (k + 1) / 12 = k / 12 + 1 := by omega
       have e2 : (k + 1) % 12 = 0 := by omega
       rw [e1, e2, h11, daysSinceEpoch_succ, hl]
       simp [daysBefore] <;> omega)
    | (have e1 : (k + 1) / 12 = k / 12 := by omega
       have e2 : (k + 1) % 12 = k % 12 + 1 := by omega
       have e3 : 0 ≤ k % 12 ∧ k % 12 ≤ 10 := by omega
       rw [e1, e2, hl]
       generalize k % 12 = m at e3 ⊢
       obtain ⟨e3, e4⟩ := e3
       interval_cases m <;> simp [daysBefore] <;> omega)

theorem monthStart_add_nat (k : Int) (n : Nat) : monthStart k + 28 * n ≤ monthStart (k + n) := by
  induction n with
  | zero => simp
  | succ n ih =>
    have := monthStart_succ (k + n)
    have e : k + ((n + 1 : Nat) : Int) = k + n + 1 := by push_cast; ring
    rw [e]
    push_cast
    omega

/-- The first days of two months `n` apart are at least `28 * n` days apart. -/
theorem monthStart_add (k n : Int) (hn : 0 ≤ n) : monthStart k + 28 * n ≤ monthStart (k + n) := by
  have := monthStart_add_nat k n.toNat
  rwa [Int.toNat_of_nonneg hn] at this

end time

namespace time

theorem AddDate_nsec (t : Time) (y m d : Int) : (t.AddDate y m d).nsec = t.nsec := rfl

theorem AddDate_offset (t : Time) (y m d : Int) : (t.AddDate y m d).offset = t.offset := rfl

/-- Adding `d` days moves the calendar date by exactly `d` days. -/
theorem AddDate_days (t : Time) (d : Int) : (t.AddDate 0 0 d).day = t.day + d := by
  have h := dateToDay_civil t.day
  simp only [Time.AddDate, Time.Date, Date, dateToDay, add_zero] at h ⊢
  omega

/-- Adding `n` months moves the calendar date forward by at least `28 * n` days. -/
theorem AddDate_months (t : Time) (n : Int) (hn : 0 ≤ n) :
    t.day + 28 * n ≤ (t.AddDate 0 n 0).day := by
  have h := dateToDay_civil t.day
  have hm := monthStart_add (12 * (civil t.day).1 + ((civil t.day).2.1 - 1)) n hn
  have e : 12 * ((civil t.day).1 + 0) + ((civil t.day).2.1 + n - 1)
      = 12 * (civil t.day).1 + ((civil t.day).2.1 - 1) + n := by ring
  simp only [Time.AddDate, Time.Date, Date, dateToDay, add_zero] at h ⊢
  rw [add_zero] at e
  rw [e]
  omega

/-- Adding `n` years moves the calendar date forward by at least `336 * n` days. -/
theorem AddDate_years (t : Time) (n : Int) (hn : 0 ≤ n) :
    t.day + 336 * n ≤ (t.AddDate n 0 0).day := by
  have h := dateToDay_civil t.day
  have hm := monthStart_add (12 * (civil t.day).1 + ((civil t.day).2.1 - 1)) (12 * n) (by omega)
  have e : 12 * ((civil t.day).1 + n) + ((civil t.day).2.1 + 0 - 1)
      = 12 * (civil t.day).1 + ((civil t.day).2.1 - 1) + 12 * n := by ring
  simp only [Time.AddDate, Time.Date, Date, dateToDay, add_zero] at h ⊢
  rw [add_zero] at e
  rw [e]
  omega

theorem instant_lt_of_day_lt (t u : Time) (hn : u.nsec = t.nsec) (ho : u.offset = t.offset)
    (hd : t.day < u.day) : t.instant < u.instant := by
  simp only [Time.instant, hn, ho]
  omega

end time

/-! ## Package `recurrence` (`internal/recurrence/recurrence.go`) -/

namespace recurrence

open time

/-- The errors built by `fmt.Errorf` in the package, one constructor for each
message, carrying the values the message quotes. -/
inductive Error where
  /-- Message "empty recurrence pattern" -/
  | emptyPattern
  /-- Message "invalid recurrence pattern: %q (expected daily, weekly, monthly, yearly, or every ...)" -/
  | expectedEvery (pattern : List Char)
  /-- Message "invalid recurrence pattern: %q (missing interval after 'every')" -/
  | missingInterval (pattern : List Char)
  /-- Message "invalid recurrence interval: %d (must be positive)" -/
  | notPositive (n : Int)
  /-- Message "invalid recurrence pattern: %q (unknown day or interval: %q)" -/
  | unknownDayOrInterval (pattern p : List Char)
  /-- Message "invalid recurrence pattern: %q" -/
  | invalidPattern (pattern : List Char)
  /-- Message "unknown day: %q" -/
  | unknownDay (p : List Char)
  /-- Message "no weekdays specified" -/
  | noWeekdays
  deriving DecidableEq, Repr

/-- The table `weekdayNames`: full names and three-letter abbreviations. -/
def weekdayNames : List (List Char × Weekday) :=
  [ ("sunday".toList, .Sunday), ("sun".toList, .Sunday),
    ("monday".toList, .Monday), ("mon".toList, .Monday),
    ("tuesday".toList, .Tuesday), ("tue".toList, .Tuesday),
    ("wednesday".toList, .Wednesday), ("wed".toList, .Wednesday),
    ("thursday".toList, .Thursday), ("thu".toList, .Thursday),
    ("friday".toList, .Friday), ("fri".toList, .Friday),
    ("saturday".toList, .Saturday), ("sat".toList, .Saturday) ]

/-- The map access `weekdayNames[p]`; `none` when the key is absent. -/
def weekdayOf (p : List Char) : Option Weekday := weekdayNames.lookup p

/-- Whether a byte is one of the interval units `d`, `w`, `m`, `y`. -/
def isUnit (unit : Char) : Prop := unit = 'd' ∨ unit = 'w' ∨ unit = 'm' ∨ unit = 'y'

instance (unit : Char) : Decidable (isUnit unit) := by unfold isUnit; infer_instance

/-- The weekday loop of `ParsePattern`: each part is trimmed and looked up;
the first unknown part ends the function with an error; `days` holds the
parts accepted so far. -/
def parseDays (pattern : List Char) (parts : List (List Char)) (days : List (List Char)) :
    List Char × Option Error :=
  match parts with
  | [] => ("every ".toList ++ strings.Join days ',', none)
  | p :: ps =>
    let p := strings.TrimSpace p
    match weekdayOf p with
    | none => ([], some (.unknownDayOrInterval pattern p))
    | some _ => parseDays pattern ps (days ++ [p])

/-- The interval attempt of `ParsePattern` (`every <N>d/w/m/y`): the value
returned when the function returns from within it, `none` when control falls
through to the weekday loop. -/
def parseInterval (spec : List Char) : Option (List Char × Option Error) :=
  if 2 ≤ spec.length then
    let unit := spec.getLastD ' '
    let numStr := spec.dropLast
    if isUnit unit then
      match strconv.Atoi numStr with
      | some n =>
        if n ≤ 0 then some ([], some (.notPositive n))
        else some ("every ".toList ++ strconv.formatInt n ++ [unit], none)
      | none => none
    else none
  else none

/-- Function `ParsePattern`: validates and normalises a recurrence pattern. -/
def ParsePattern (pattern : List Char) : List Char × Option Error :=
  let pattern := strings.TrimSpace (strings.ToLower pattern)
  if pattern = [] then ([], some .emptyPattern)
  else if pattern = "daily".toList ∨ pattern = "weekly".toList ∨ pattern = "monthly".toList
      ∨ pattern = "yearly".toList then (pattern, none)
  else if ¬ strings.HasPrefix pattern "every ".toList then ([], some (.expectedEvery pattern))
  else
    let spec := strings.TrimSpace (pattern.drop 6)
    if spec = [] then ([], some (.missingInterval pattern))
    else
      match parseInterval spec with
      | some r => r
      | none => parseDays pattern (strings.Split spec ',') []

/-- One pass of the body of the loop of `advanceByInterval`: the `switch` on
the unit; an unknown unit leaves the date as it is.  The product `n * 7` is
not reduced modulo 2^64: a count for which it would wrap is above 10^18 weeks
and takes the date out of the range of `time.Time`, which the model of dates
leaves aside altogether. -/
def addInterval (next : Time) (n : Int) (unit : Char) : Time :=
  if unit = 'd' then next.AddDate 0 0 n
  else if unit = 'w' then next.AddDate 0 0 (n * 7)
  else if unit = 'm' then next.AddDate 0 n 0
  else if unit = 'y' then next.AddDate n 0 0
  else next

/-- One interval of a positive count moves the instant forward. -/
theorem addInterval_instant (t : Time) (n : Int) (unit : Char) (hn : 0 < n) (hu : isUnit unit) :
    t.instant < (addInterval t n unit).instant := by
  unfold addInterval
  have hd := AddDate_days t n
  have hw := AddDate_days t (n * 7)
  have hm := AddDate_months t n (le_of_lt hn)
  have hy := AddDate_years t n (le_of_lt hn)
  split_ifs with h1 h2 h3 h4
  · exact instant_lt_of_day_lt _ _ rfl rfl (by omega)
  · exact instant_lt_of_day_lt _ _ rfl rfl (by omega)
  · exact instant_lt_of_day_lt _ _ rfl rfl (by omega)
  · exact instant_lt_of_day_lt _ _ rfl rfl (by omega)
  · unfold isUnit at hu; tauto

/-- Function `advanceByInterval`: adds the interval to `currentDue` until the result is
not before `today`, at least once.  Every call in the package passes a count
`n > 0` and one of the four units, which is the precondition `h`; it makes the
loop end, the instant growing at each pass. -/
def advanceByInterval (currentDue : Time) (n : Int) (unit : Char) (today : Time)
    (h : 0 < n ∧ isUnit unit) : Time :=
  if hb : (addInterval currentDue n unit).Before today then
    advanceByInterval (addInterval currentDue n unit) n unit today h
  else addInterval currentDue n unit
termination_by (today.instant - currentDue.instant).toNat
decreasing_by
  have h1 := addInterval_instant currentDue n unit h.1 h.2
  simp only [Time.Before, decide_eq_true_eq] at hb
  omega

/-- The search loop of `nextMatchingWeekday`, with `k` passes left: the first
candidate whose weekday is in `weekdays`, one day being added at each pass;
after the last pass the candidate reached is returned. -/
def searchWeekday (weekdays : List Weekday) (k : Nat) (candidate : Time) : Time :=
  match k with
  | 0 => candidate
  | k + 1 =>
    if candidate.Weekday ∈ weekdays then candidate
    else searchWeekday weekdays k (candidate.AddDate 0 0 1)

/-- Function `nextMatchingWeekday`: the set `daySet` is membership in `weekdays`; the
search starts the day after `currentDue`, or at `today` when that is later,
and makes at most 7 passes. -/
def nextMatchingWeekday (currentDue : Time) (weekdays : List Weekday) (today : Time) : Time :=
  let candidate := currentDue.AddDate 0 0 1
  let candidate := if candidate.Before today then today else candidate
  searchWeekday weekdays 7 candidate

/-- The weekday loop of `parseEverySpec`: the weekdays of the parts, or the
first part (trimmed) that is not in the table. -/
def collectWeekdays (parts : List (List Char)) (weekdays : List Weekday) :
    Except (List Char) (List Weekday) :=
  match parts with
  | [] => .ok weekdays
  | p :: ps =>
    let p := strings.TrimSpace p
    match weekdayOf p with
    | none => .error p
    | some wd => collectWeekdays ps (weekdays ++ [wd])

/-- The interval attempt of `parseEverySpec`: the date returned when the spec
is a positive count followed by a unit, `none` when control falls through to
the weekday loop. -/
def intervalDate (spec : List Char) (currentDue today : Time) : Option Time :=
  if 2 ≤ spec.length then
    let unit := spec.getLastD ' '
    let numStr := spec.dropLast
    if hu : isUnit unit then
      match strconv.Atoi numStr with
      | some n =>
        if hn : 0 < n then some (advanceByInterval currentDue n unit today ⟨hn, hu⟩) else none
      | none => none
    else none
  else none

/-- Function `parseEverySpec`: the date for the text after `every`. -/
def parseEverySpec (spec : List Char) (currentDue today : Time) : Time × Option Error :=
  match intervalDate spec currentDue today with
  | some t => (t, none)
  | none =>
    match collectWeekdays (strings.Split spec ',') [] with
    | .error p => (Time.zero, some (.unknownDay p))
    | .ok weekdays =>
      if weekdays.length = 0 then (Time.zero, some .noWeekdays)
      else (nextMatchingWeekday currentDue weekdays today, none)

/-- Midnight of the day of `now` in its location:
`time.Date(now.Year(), now.Month(), now.Day(), 0, 0, 0, 0, now.Location())`. -/
def midnight (now : Time) : Time :=
  time.Date now.Date.1 now.Date.2.1 now.Date.2.2 0 now.offset

/-- Function `NextDueDate`: the next due date for a pattern and the current due date.
`now` is the value of `time.Now()`; `today` is midnight of that day in the
location of `now`. -/
def NextDueDate (pattern : List Char) (currentDue : Time) (now : Time) : Time × Option Error :=
  let pattern := strings.TrimSpace (strings.ToLower pattern)
  let today := midnight now
  if pattern = "daily".toList then
    (advanceByInterval currentDue 1 'd' today (by decide), none)
  else if pattern = "weekly".toList then
    (advanceByInterval currentDue 1 'w' today (by decide), none)
  else if pattern = "monthly".toList then
    (advanceByInterval currentDue 1 'm' today (by decide), none)
  else if pattern = "yearly".toList then
    (advanceByInterval currentDue 1 'y' today (by decide), none)
  else if strings.HasPrefix pattern "every ".toList then
    let spec := strings.TrimSpace (pattern.drop 6)
    let r := parseEverySpec spec currentDue today
    if r.2 ≠ none then (Time.zero, r.2) else (r.1, none)
  else (Time.zero, some (.invalidPattern pattern))

end recurrence

/-! ### Vocabulary of the statements about the recurrence engine -/

namespace recurrence

open time

/-- The trimmed, lower-cased form of a pattern, on which both `ParsePattern`
and `NextDueDate` work. -/
def normalize (pattern : List Char) : List Char :=
  strings.TrimSpace (strings.ToLower pattern)

/-- The four keywords. -/
def keywords : List (List Char) :=
  ["daily".toList, "weekly".toList, "monthly".toList, "yearly".toList]

/-- The pattern `p` (trimmed and lower-cased) is an interval pattern with
count `n` and unit `u`: a keyword, standing for one day, week, month or year,
or `every ` followed by a count `n > 0` that `strconv.Atoi` accepts and by the
unit. -/
def IsInterval (p : List Char) (n : Int) (u : Char) : Prop :=
  (p = "daily".toList ∧ n = 1 ∧ u = 'd') ∨ (p = "weekly".toList ∧ n = 1 ∧ u = 'w') ∨
  (p = "monthly".toList ∧ n = 1 ∧ u = 'm') ∨ (p = "yearly".toList ∧ n = 1 ∧ u = 'y') ∨
  (strings.HasPrefix p "every ".toList = true ∧ isUnit u ∧ 0 < n ∧
    ∃ s, strings.TrimSpace (p.drop 6) = s ++ [u] ∧ strconv.Atoi s = some n)

/-- The pattern `p` (trimmed and lower-cased) is a weekday list: `every `
followed by comma-separated tokens that are, once trimmed, keys of
`weekdayNames`. -/
def IsWeekdayList (p : List Char) : Prop :=
  strings.HasPrefix p "every ".toList = true ∧
  ∀ t ∈ strings.Split (strings.TrimSpace (p.drop 6)) ',',
    weekdayOf (strings.TrimSpace t) ≠ none

/-- The weekday `w` is named by one of the tokens of the spec. -/
def InDaySet (spec : List Char) (w : Weekday) : Prop :=
  ∃ t ∈ strings.Split spec ',', weekdayOf (strings.TrimSpace t) = some w

/-- The date `d` days after `t`, at the same clock reading and location. -/
def plusDays (t : Time) (d : Int) : Time := ⟨t.day + d, t.nsec, t.offset⟩

/-- The first candidate of the weekday search: the day after the current due
date, or today when that day is before today. -/
def searchStart (currentDue today : Time) : Time :=
  if (plusDays currentDue 1).Before today then today else plusDays currentDue 1

/-- The pattern `p` (trimmed and lower-cased) is written `every <n><unit>`,
with a count `n > 0` that `strconv.Atoi` accepts. -/
def IsEvery (p : List Char) (n : Int) (u : Char) : Prop :=
  strings.HasPrefix p "every ".toList = true ∧ isUnit u ∧ 0 < n ∧
    ∃ s, strings.TrimSpace (p.drop 6) = s ++ [u] ∧ strconv.Atoi s = some n

/-- The normalised pattern `p` is a weekday list: `every ` followed by names
of the table `weekdayNames`, at least one, separated by commas. -/
def IsDayList (p : List Char) (days : List (List Char)) : Prop :=
  days ≠ [] ∧ (∀ d ∈ days, d ∈ weekdayNames.map Prod.fst) ∧
    p = "every ".toList ++ strings.Join days ','

end recurrence

/-! ## Package `config` -/

namespace config

/-- Modelled from the spec: the settings object, whose declaration is not part
of the sources at hand.  The only attribute the code reads is the due-soon
horizon, a number of days (`cfg.SoonHorizon`, a Go `int`). -/
structure Config where
  SoonHorizon : Int
  deriving DecidableEq, Repr

end config

/-! ## Package `denote` (`internal/denote/types.go`) -/

namespace denote

open time

/-- The frontmatter of a task (`TaskMetadata`), without the fields `Type`,
`RelatedPeople`, `RelatedTasks` and `RelatedIdeas`, which the code embedded
here does not read. -/
structure TaskMetadata where
  Title : List Char
  IndexID : Int
  Status : List Char
  Priority : List Char
  DueDate : List Char
  StartDate : List Char
  TodayDate : List Char
  Estimate : Int
  ProjectID : List Char
  Area : List Char
  Assignee : List Char
  Recur : List Char
  Tags : List (List Char)
  deriving DecidableEq, Repr

/-- A task (`Task`): its metadata and the text of its file.  The embedded `File`
and the field `ModTime` are not read by the code embedded here. -/
structure Task where
  TaskMetadata : denote.TaskMetadata
  Content : List Char
  deriving DecidableEq, Repr

/-- Method `t.IsTaggedForToday()`, with the current time `now`. -/
def Task.IsTaggedForToday (t : Task) (now : Time) : Bool :=
  if t.TaskMetadata.TodayDate = [] then false
  else
    let today := now.Format
    decide (t.TaskMetadata.TodayDate = today)

/-- Function `IsOverdue(dueDateStr)`, with the current time `now` and the local
location `loc`. -/
def IsOverdue (dueDateStr : List Char) (now : Time) (loc : Location) : Bool :=
  if dueDateStr = [] then false
  else
    match ParseInLocation dueDateStr loc with
    | none => false
    | some dueDate =>
      let nowStart := DateIn now.Date.1 now.Date.2.1 now.Date.2.2 loc
      let dueStart := DateIn dueDate.Date.1 dueDate.Date.2.1 dueDate.Date.2.2 loc
      dueStart.Before nowStart

/-- Function `IsDueSoon(dueDateStr, horizonDays)`, with the current time `now`
and the local location `loc`. -/
def IsDueSoon (dueDateStr : List Char) (horizonDays : Int) (now : Time) (loc : Location) :
    Bool :=
  if dueDateStr = [] then false
  else
    match ParseInLocation dueDateStr loc with
    | none => false
    | some dueDate =>
      let nowStart := DateIn now.Date.1 now.Date.2.1 now.Date.2.2 loc
      let dueStart := DateIn dueDate.Date.1 dueDate.Date.2.1 dueDate.Date.2.2 loc
      let daysUntil := truncate (Duration.Hours (dueStart.Sub nowStart) / 24)
      decide (daysUntil ≥ 0) && decide (daysUntil ≤ horizonDays)

/-- Function `DaysUntilDue(dueDateStr)`, with the current time `now` and the
local location `loc`. -/
def DaysUntilDue (dueDateStr : List Char) (now : Time) (loc : Location) : Int :=
  if dueDateStr = [] then 0
  else
    match ParseInLocation dueDateStr loc with
    | none => 0
    | some dueDate =>
      let nowStart := DateIn now.Date.1 now.Date.2.1 now.Date.2.2 loc
      let dueStart := DateIn dueDate.Date.1 dueDate.Date.2.1 dueDate.Date.2.2 loc
      truncate (Duration.Hours (dueStart.Sub nowStart) / 24)

/-- Function `IsDueThisWeek(dueDateStr)`, with the current time `now` and the
local location `loc`. -/
def IsDueThisWeek (dueDateStr : List Char) (now : Time) (loc : Location) : Bool :=
  let days := DaysUntilDue dueDateStr now loc
  decide (days ≥ 0) && decide (days ≤ 7)

end denote

/-! ## Package `unicode` -/

namespace unicode

/-- Library function `unicode.IsSpace` on a rune below 256, which is what `rune(query[pos])`
is for a byte of the query: the ASCII white space, U+0085 and U+00A0. -/
def IsSpace (r : Char) : Bool :=
  r == '\t' || r == '\n' || r == '\x0b' || r == '\x0c' || r == '\r' || r == ' ' ||
  r == '\x85' || r == '\xa0'

end unicode

/-! ## Package `query` (`internal/query/token.go`, `parser.go`, `ast.go`) -/

namespace query

/-- The type of a token (`TokenType`). -/
inductive TokenType where
  | TokenField | TokenColon | TokenGT | TokenLT | TokenEQ | TokenNE | TokenValue
  | TokenAND | TokenOR | TokenNOT | TokenLeftParen | TokenRightParen | TokenEOF
  deriving DecidableEq, Repr

/-- A lexical token (`Token`); `Typ` is the field `Type` of the source. -/
structure Token where
  Typ : TokenType
  Value : List Char
  Pos : Nat
  deriving DecidableEq, Repr

/-- A node of the abstract syntax tree (`Node`): a `ComparisonNode`, or a
`BooleanNode` whose right child is absent (`nil`) for `NOT`. -/
inductive Node where
  | comparison (Field Operator Value : List Char)
  | boolean (Op : List Char) (Left : Node) (Right : Option Node)
  deriving Repr

/-- The errors built by `fmt.Errorf` in the package, one constructor for each
message, carrying the position and the token or character the message shows. -/
inductive Error where
  /-- Message "unexpected character at position %d: %c" -/
  | unexpectedCharacter (pos : Nat) (c : Char)
  /-- Message "expected field name at position %d, got %s" -/
  | expectedField (pos : Nat) (got : Token)
  /-- Message "expected operator (:, >, <, =, !=) at position %d, got %s" -/
  | expectedOperator (pos : Nat) (got : Token)
  /-- Message "expected value at position %d, got %s" -/
  | expectedValue (pos : Nat) (got : Token)
  /-- Message "expected ) at position %d" -/
  | expectedRightParen (pos : Nat)
  /-- Message "unexpected token at position %d: %s" -/
  | unexpectedToken (pos : Nat) (got : Token)
  deriving DecidableEq, Repr

/-- What a call of a function returning `(T, error)` comes to: a value with a
nil error, an error with no value, a run-time panic for an index out of
range, or no result within the number of nested calls allowed to the model
(`timeout`, see `parseExpression`). -/
inductive Result (α : Type) where
  | ok (v : α)
  | err (e : Error)
  | panic
  | timeout
  deriving Repr

/-- Sequencing: the first outcome that is not a value ends the computation. -/
def Result.bind {α β : Type} (r : Result α) (f : α → Result β) : Result β :=
  match r with
  | .ok v => f v
  | .err e => .err e
  | .panic => .panic
  | .timeout => .timeout

instance : Monad Result where
  pure := Result.ok
  bind := Result.bind

/-- A byte that the word loop of `Tokenize` steps over: not white space and
none of `(`, `)`, `:`, `>`, `<`, `=`, `!`. -/
def isWordByte (c : Char) : Bool :=
  !unicode.IsSpace c && c != '(' && c != ')' && c != ':' && c != '>' && c != '<' &&
  c != '=' && c != '!'

/-- The token made of a word read at offset `start`: a keyword token when the
upper-cased word is `AND`, `OR` or `NOT`; otherwise a value when the last
token so far is a comparison operator, and a field if not. -/
def wordToken (word : List Char) (start : Nat) (tokens : List Token) : Token :=
  let wordUpper := strings.ToUpper word
  if wordUpper = "AND".toList then ⟨.TokenAND, word, start⟩
  else if wordUpper = "OR".toList then ⟨.TokenOR, word, start⟩
  else if wordUpper = "NOT".toList then ⟨.TokenNOT, word, start⟩
  else
    match tokens.getLast? with
    | some last =>
      if last.Typ = .TokenColon ∨ last.Typ = .TokenGT ∨ last.Typ = .TokenLT ∨
          last.Typ = .TokenEQ ∨ last.Typ = .TokenNE then ⟨.TokenValue, word, start⟩
      else ⟨.TokenField, word, start⟩
    | none => ⟨.TokenField, word, start⟩

theorem dropWhile_length_lt (c : Char) (cs : List Char)
    (h : (c :: cs).takeWhile isWordByte ≠ []) :
    ((c :: cs).dropWhile isWordByte).length < (c :: cs).length := by
  have hc : isWordByte c = true := by
    by_contra hn
    apply h
    simp [List.takeWhile, hn]
  have h1 : (c :: cs).dropWhile isWordByte = cs.dropWhile isWordByte := by
    simp [List.dropWhile, hc]
  have h2 : (cs.dropWhile isWordByte).length ≤ cs.length :=
    (List.dropWhile_sublist _).length_le
  rw [h1, List.length_cons]
  omega

/-- The loop of `Tokenize`: `rest` is the part of the query from offset `pos`
on, `tokens` the tokens appended so far. -/
def tokenizeLoop (rest : List Char) (pos : Nat) (tokens : List Token) : Result (List Token) :=
  match rest with
  | [] => .ok (tokens ++ [⟨.TokenEOF, [], pos⟩])
  | c :: cs =>
    if unicode.IsSpace c then tokenizeLoop cs (pos + 1) tokens
    else if c = '(' then tokenizeLoop cs (pos + 1) (tokens ++ [⟨.TokenLeftParen, ['('], pos⟩])
    else if c = ')' then tokenizeLoop cs (pos + 1) (tokens ++ [⟨.TokenRightParen, [')'], pos⟩])
    else if c = ':' then tokenizeLoop cs (pos + 1) (tokens ++ [⟨.TokenColon, [':'], pos⟩])
    else if c = '>' then tokenizeLoop cs (pos + 1) (tokens ++ [⟨.TokenGT, ['>'], pos⟩])
    else if c = '<' then tokenizeLoop cs (pos + 1) (tokens ++ [⟨.TokenLT, ['<'], pos⟩])
    else if c = '=' then tokenizeLoop cs (pos + 1) (tokens ++ [⟨.TokenEQ, ['='], pos⟩])
    else if c = '!' ∧ cs.head? = some '=' then
      tokenizeLoop (cs.drop 1) (pos + 2) (tokens ++ [⟨.TokenNE, ['!', '='], pos⟩])
    else if h : (c :: cs).takeWhile isWordByte = [] then .err (.unexpectedCharacter pos c)
    else
      tokenizeLoop ((c :: cs).dropWhile isWordByte)
        (pos + ((c :: cs).takeWhile isWordByte).length)
        (tokens ++ [wordToken ((c :: cs).takeWhile isWordByte) pos tokens])
termination_by rest.length
decreasing_by
  all_goals simp_wf
  all_goals first
    | omega
    | exact dropWhile_length_lt _ _ (by assumption)

/-- Function `Tokenize`: the tokens of a query, ending with the EOF token. -/
def Tokenize (query : List Char) : Result (List Token) :=
  tokenizeLoop (strings.TrimSpace query) 0 []

/-- The state of the recursive-descent parser (`Parser`). -/
structure Parser where
  tokens : List Token
  pos : Nat
  deriving Repr

/-- The slice access `tokens[i]`, for an index computed in `int`: a panic when
the index is negative or not below the length. -/
def index (tokens : List Token) (i : Int) : Result Token :=
  if i < 0 then .panic
  else
    match tokens[i.toNat]? with
    | some t => .ok t
    | none => .panic

/-- Method `p.current()`: the token at `pos`, the last token when `pos` is past the
end. -/
def Parser.current (p : Parser) : Result Token :=
  if p.pos ≥ p.tokens.length then index p.tokens ((p.tokens.length : Int) - 1)
  else index p.tokens p.pos

/-- Method `p.isAtEnd()`. -/
def Parser.isAtEnd (p : Parser) : Result Bool := do
  let t ← p.current
  pure (t.Typ == .TokenEOF)

/-- Method `p.advance()`: the token returned, and the parser after the call. -/
def Parser.advance (p : Parser) : Result (Token × Parser) := do
  let atEnd ← p.isAtEnd
  let p1 : Parser := if !atEnd then { p with pos := p.pos + 1 } else p
  let t ← index p1.tokens ((p1.pos : Int) - 1)
  pure (t, p1)

/-- Method `p.check(t)`. -/
def Parser.check (p : Parser) (t : TokenType) : Result Bool := do
  let atEnd ← p.isAtEnd
  if atEnd then pure false
  else
    let c ← p.current
    pure (c.Typ == t)

/-- Method `p.match(t)`, for the single token type every call passes: whether the
token was matched, and the parser after the call. -/
def Parser.match1 (p : Parser) (t : TokenType) : Result (Bool × Parser) := do
  let c ← p.check t
  if c then
    let (_, p1) ← p.advance
    pure (true, p1)
  else pure (false, p)

/-- Method `p.parseComparison()`: `FIELD operator VALUE`. -/
def Parser.parseComparison (p : Parser) : Result (Node × Parser) := do
  let isField ← p.check .TokenField
  if !isField then
    let c ← p.current
    .err (.expectedField c.Pos c)
  else
    let (field, p) ← p.advance
    let c1 ← p.check .TokenColon
    let c2 ← p.check .TokenGT
    let c3 ← p.check .TokenLT
    let c4 ← p.check .TokenEQ
    let c5 ← p.check .TokenNE
    if !c1 && !c2 && !c3 && !c4 && !c5 then
      let c ← p.current
      .err (.expectedOperator c.Pos c)
    else
      let (operator, p) ← p.advance
      let isValue ← p.check .TokenValue
      if !isValue then
        let c ← p.current
        .err (.expectedValue c.Pos c)
      else
        let (value, p) ← p.advance
        pure (.comparison field.Value operator.Value value.Value, p)

mutual

/-- Method `p.parseExpression()`: `term (OR term)*`.  The first argument bounds the
depth of the nested calls (a pass of a loop counts as a call); when it is
used up the outcome is `timeout`. -/
def Parser.parseExpression (fuel : Nat) (p : Parser) : Result (Node × Parser) :=
  match fuel with
  | 0 => .timeout
  | fuel + 1 => do
    let (node, p) ← Parser.parseTerm fuel p
    Parser.parseExpressionLoop fuel node p

/-- The loop `for p.match(TokenOR)` of `parseExpression`. -/
def Parser.parseExpressionLoop (fuel : Nat) (node : Node) (p : Parser) :
    Result (Node × Parser) :=
  match fuel with
  | 0 => .timeout
  | fuel + 1 => do
    let (m, p) ← p.match1 .TokenOR
    if m then
      let (right, p) ← Parser.parseTerm fuel p
      Parser.parseExpressionLoop fuel (.boolean "OR".toList node (some right)) p
    else pure (node, p)

/-- Method `p.parseTerm()`: `factor (AND factor)*`. -/
def Parser.parseTerm (fuel : Nat) (p : Parser) : Result (Node × Parser) :=
  match fuel with
  | 0 => .timeout
  | fuel + 1 => do
    let (node, p) ← Parser.parseFactor fuel p
    Parser.parseTermLoop fuel node p

/-- The loop `for p.match(TokenAND)` of `parseTerm`. -/
def Parser.parseTermLoop (fuel : Nat) (node : Node) (p : Parser) : Result (Node × Parser) :=
  match fuel with
  | 0 => .timeout
  | fuel + 1 => do
    let (m, p) ← p.match1 .TokenAND
    if m then
      let (right, p) ← Parser.parseFactor fuel p
      Parser.parseTermLoop fuel (.boolean "AND".toList node (some right)) p
    else pure (node, p)

/-- Method `p.parseFactor()`: `NOT factor | ( expression ) | comparison`. -/
def Parser.parseFactor (fuel : Nat) (p : Parser) : Result (Node × Parser) :=
  match fuel with
  | 0 => .timeout
  | fuel + 1 => do
    let (isNot, p) ← p.match1 .TokenNOT
    if isNot then
      let (node, p) ← Parser.parseFactor fuel p
      pure (.boolean "NOT".toList node none, p)
    else
      let (isParen, p) ← p.match1 .TokenLeftParen
      if isParen then
        let (node, p) ← Parser.parseExpression fuel p
        let (closed, p) ← p.match1 .TokenRightParen
        if !closed then
          let c ← p.current
          .err (.expectedRightParen c.Pos)
        else pure (node, p)
      else p.parseComparison

end

/-- Function `Parse`: the syntax tree of a query, or the error of the tokenizer or of
the parser.  The depth allowed to the nested calls of the parser is four
times the number of tokens, plus four. -/
def Parse (query : List Char) : Result Node := do
  let tokens ← Tokenize query
  let parser : Parser := ⟨tokens, 0⟩
  let (node, parser) ← parser.parseExpression (4 * tokens.length + 4)
  let atEnd ← parser.isAtEnd
  if !atEnd then
    let c ← parser.current
    .err (.unexpectedToken c.Pos c)
  else pure node

open denote

/-- Function `compareString(actual, operator, expected)`. -/
def compareString (actual operator expected : List Char) : Bool :=
  if operator = ":".toList then decide (actual = expected)
  else if operator = "=".toList then decide (actual = expected)
  else if operator = "!=".toList then decide (actual ≠ expected)
  else false

/-- Function `compareInt(actual, operator, expectedStr)`. -/
def compareInt (actual : Int) (operator expectedStr : List Char) : Bool :=
  match strconv.Atoi expectedStr with
  | none => false
  | some expected =>
    if operator = ":".toList ∨ operator = "=".toList then decide (actual = expected)
    else if operator = ">".toList then decide (actual > expected)
    else if operator = "<".toList then decide (actual < expected)
    else if operator = "!=".toList then decide (actual ≠ expected)
    else false

/-- Method `(n *ComparisonNode) Evaluate(task, cfg)` for the node with the given
field, operator and value, at the current time `now` in the local location
`loc`. -/
def ComparisonNode.Evaluate (Field Operator Value : List Char) (task : Task)
    (cfg : config.Config) (now : time.Time) (loc : time.Location) : Bool :=
  let field := strings.ToLower Field
  let value := strings.ToLower Value
  if field = "status".toList then
    compareString (strings.ToLower task.TaskMetadata.Status) Operator value
  else if field = "priority".toList then
    compareString (strings.ToLower task.TaskMetadata.Priority) Operator value
  else if field = "area".toList then
    compareString (strings.ToLower task.TaskMetadata.Area) Operator value
  else if field = "assignee".toList then
    compareString (strings.ToLower task.TaskMetadata.Assignee) Operator value
  else if field = "project_id".toList then
    if value = "empty".toList then
      let isEmpty := decide (task.TaskMetadata.ProjectID = [])
      decide (Operator = ":".toList) && isEmpty
    else if value = "set".toList then
      let isSet := decide (task.TaskMetadata.ProjectID ≠ [])
      decide (Operator = ":".toList) && isSet
    else compareString task.TaskMetadata.ProjectID Operator value
  else if field = "estimate".toList then
    compareInt task.TaskMetadata.Estimate Operator value
  else if field = "index_id".toList then
    compareInt task.TaskMetadata.IndexID Operator value
  else if field = "due".toList ∨ field = "due_date".toList then
    if value = "empty".toList then
      let isEmpty := decide (task.TaskMetadata.DueDate = [])
      decide (Operator = ":".toList) && isEmpty
    else if value = "set".toList then
      let isSet := decide (task.TaskMetadata.DueDate ≠ [])
      decide (Operator = ":".toList) && isSet
    else if value = "overdue".toList then
      let isOverdue := IsOverdue task.TaskMetadata.DueDate now loc
      decide (Operator = ":".toList) && isOverdue
    else if value = "today".toList then
      let daysUntil := DaysUntilDue task.TaskMetadata.DueDate now loc
      let isToday := decide (daysUntil = 0)
      decide (Operator = ":".toList) && isToday
    else if value = "week".toList then
      let isThisWeek := IsDueThisWeek task.TaskMetadata.DueDate now loc
      decide (Operator = ":".toList) && isThisWeek
    else if value = "soon".toList then
      let isSoon := IsDueSoon task.TaskMetadata.DueDate cfg.SoonHorizon now loc
      decide (Operator = ":".toList) && isSoon
    else compareString task.TaskMetadata.DueDate Operator value
  else if field = "start".toList ∨ field = "start_date".toList then
    if value = "empty".toList then
      let isEmpty := decide (task.TaskMetadata.StartDate = [])
      decide (Operator = ":".toList) && isEmpty
    else if value = "set".toList then
      let isSet := decide (task.TaskMetadata.StartDate ≠ [])
      decide (Operator = ":".toList) && isSet
    else compareString task.TaskMetadata.StartDate Operator value
  else if field = "today".toList ∨ field = "today_date".toList then
    if value = "tagged".toList ∨ value = "true".toList then
      decide (Operator = ":".toList) && task.IsTaggedForToday now
    else compareString task.TaskMetadata.TodayDate Operator value
  else if field = "title".toList then
    compareString (strings.ToLower task.TaskMetadata.Title) Operator value
  else if field = "tag".toList ∨ field = "tags".toList then
    task.TaskMetadata.Tags.any (fun tag => compareString (strings.ToLower tag) Operator value)
  else if field = "recur".toList then
    if value = "empty".toList then
      let isEmpty := decide (task.TaskMetadata.Recur = [])
      decide (Operator = ":".toList) && isEmpty
    else if value = "set".toList then
      let isSet := decide (task.TaskMetadata.Recur ≠ [])
      decide (Operator = ":".toList) && isSet
    else compareString (strings.ToLower task.TaskMetadata.Recur) Operator value
  else if field = "content".toList ∨ field = "body".toList ∨ field = "text".toList then
    if Operator = ":".toList ∨ Operator = "=".toList then
      strings.Contains (strings.ToLower task.Content) value
    else if Operator = "!=".toList then
      !strings.Contains (strings.ToLower task.Content) value
    else false
  else false

/-- Method `Evaluate(task, cfg)` of a node, at the current time `now` in the
local location `loc`: a comparison evaluates as `ComparisonNode.Evaluate`, a
`BooleanNode` by its operator, the right operand being evaluated only when
the left one does not decide the result.  Evaluating an absent (`nil`) right
operand is a run-time panic. -/
def Node.Evaluate (n : Node) (task : Task) (cfg : config.Config) (now : time.Time)
    (loc : time.Location) : Result Bool :=
  match n with
  | .comparison Field Operator Value =>
    .ok (ComparisonNode.Evaluate Field Operator Value task cfg now loc)
  | .boolean Op Left Right =>
    if Op = "AND".toList then
      match Left.Evaluate task cfg now loc with
      | .ok true =>
        match Right with
        | some right => right.Evaluate task cfg now loc
        | none => .panic
      | r => r
    else if Op = "OR".toList then
      match Left.Evaluate task cfg now loc with
      | .ok false =>
        match Right with
        | some right => right.Evaluate task cfg now loc
        | none => .panic
      | r => r
    else if Op = "NOT".toList then
      match Left.Evaluate task cfg now loc with
      | .ok b => .ok (!b)
      | r => r
    else .ok false

end query

/-! ### Vocabulary of the statements about the query language -/

namespace query

/-- A word of the tokenizer that becomes a field or a value: a non-empty run
of word bytes that is not `AND`, `OR` or `NOT` in any letter case. -/
def IsWord (w : List Char) : Prop :=
  w ≠ [] ∧ (∀ x ∈ w, isWordByte x = true) ∧
  strings.ToUpper w ≠ "AND".toList ∧ strings.ToUpper w ≠ "OR".toList ∧
  strings.ToUpper w ≠ "NOT".toList

instance (w : List Char) : Decidable (IsWord w) := by unfold IsWord; infer_instance

/-- The token type of a comparison operator, `none` for any other text. -/
def operatorType (op : List Char) : Option TokenType :=
  if op = [':'] then some .TokenColon
  else if op = ['>'] then some .TokenGT
  else if op = ['<'] then some .TokenLT
  else if op = ['='] then some .TokenEQ
  else if op = ['!', '='] then some .TokenNE
  else none

/-- A comparison clause `FIELD operator VALUE`, as the three texts. -/
structure Clause where
  field : List Char
  op : List Char
  value : List Char

/-- The text of a clause: the three texts one after the other. -/
def Clause.text (c : Clause) : List Char := c.field ++ c.op ++ c.value

/-- The comparison node of a clause. -/
def Clause.node (c : Clause) : Node := .comparison c.field c.op c.value

/-- A clause is well formed when its field and value are words, its operator
is one of `:`, `>`, `<`, `=`, `!=`, and its text neither begins nor ends with
a white-space character (which `strings.TrimSpace` would strip from a query
beginning or ending with the clause). -/
def Clause.WellFormed (c : Clause) : Prop :=
  IsWord c.field ∧ IsWord c.value ∧ operatorType c.op ≠ none ∧
  strings.leadingSpace c.text = 0 ∧ strings.trailingSpace c.text.reverse = 0

instance (c : Clause) : Decidable c.WellFormed := by unfold Clause.WellFormed; infer_instance

/-- The text after a word ends it: it is empty or begins with a byte that is
not a word byte. -/
def EndsWord (r : List Char) : Prop := ∀ d r1, r = d :: r1 → isWordByte d = false

/-- The token type of the operator of a clause. -/
def Clause.opType (c : Clause) : TokenType := (operatorType c.op).getD .TokenColon

/-- The tokens of a clause whose text begins at offset `pos`. -/
def clauseTokens (c : Clause) (pos : Nat) : List Token :=
  [⟨.TokenField, c.field, pos⟩, ⟨c.opType, c.op, pos + c.field.length⟩,
   ⟨.TokenValue, c.value, pos + c.field.length + c.op.length⟩]

/-- Types and texts of the tokens of a clause. -/
def clauseShape (c : Clause) : List (TokenType × List Char) :=
  [(.TokenField, c.field), (c.opType, c.op), (.TokenValue, c.value)]

/-- The tokens of the part of a chain after its first clause, that part
beginning at offset `pos`: for each clause the keyword and the clause. -/
def chainTokens (ty : TokenType) (keyword : List Char) (pos : Nat) (more : List Clause) :
    List Token :=
  match more with
  | [] => []
  | c :: cs =>
    ⟨ty, keyword, pos + 1⟩ :: clauseTokens c (pos + keyword.length + 2) ++
      chainTokens ty keyword (pos + keyword.length + 2 + c.text.length) cs

/-- Whether a token type is one of the five comparison operators. -/
def isOperator (ty : TokenType) : Bool :=
  ty == .TokenColon || ty == .TokenGT || ty == .TokenLT || ty == .TokenEQ || ty == .TokenNE

/-- Type and text of a token, without its position. -/
def Token.shape (t : Token) : TokenType × List Char := (t.Typ, t.Value)

/-- The node `left AND right`. -/
def Node.and (left right : Node) : Node := .boolean "AND".toList left (some right)

/-- The node `left OR right`. -/
def Node.or (left right : Node) : Node := .boolean "OR".toList left (some right)

/-- The node `NOT child`. -/
def Node.not (child : Node) : Node := .boolean "NOT".toList child none

/-- The text of a chain of clauses: the first clause, then each further clause
after a blank, the keyword and a blank. -/
def chainText (keyword : List Char) (first : Clause) (more : List Clause) : List Char :=
  first.text ++ (more.map fun c => ' ' :: keyword ++ ' ' :: c.text).flatten

/-- The left-leaning tree of a chain: `((first op c1) op c2) ... op ck`. -/
def chainNode (op : List Char) (first : Clause) (more : List Clause) : Node :=
  more.foldl (fun left c => .boolean op left (some c.node)) first.node

/-- The token type of a keyword written in any letter case, `none` for any
other word. -/
def keywordType (k : List Char) : Option TokenType :=
  if strings.ToUpper k = "AND".toList then some .TokenAND
  else if strings.ToUpper k = "OR".toList then some .TokenOR
  else if strings.ToUpper k = "NOT".toList then some .TokenNOT
  else none

/-- The loop of `Tokenize` with a bound on the number of passes, for evaluation. -/
def tokenizeFuel (fuel : Nat) (rest : List Char) (pos : Nat) (tokens : List Token) :
    Result (List Token) :=
  match fuel with
  | 0 => .timeout
  | fuel + 1 =>
    match rest with
    | [] => .ok (tokens ++ [⟨.TokenEOF, [], pos⟩])
    | c :: cs =>
      if unicode.IsSpace c then tokenizeFuel fuel cs (pos + 1) tokens
      else if c = '(' then tokenizeFuel fuel cs (pos + 1) (tokens ++ [⟨.TokenLeftParen, ['('], pos⟩])
      else if c = ')' then tokenizeFuel fuel cs (pos + 1) (tokens ++ [⟨.TokenRightParen, [')'], pos⟩])
      else if c = ':' then tokenizeFuel fuel cs (pos + 1) (tokens ++ [⟨.TokenColon, [':'], pos⟩])
      else if c = '>' then tokenizeFuel fuel cs (pos + 1) (tokens ++ [⟨.TokenGT, ['>'], pos⟩])
      else if c = '<' then tokenizeFuel fuel cs (pos + 1) (tokens ++ [⟨.TokenLT, ['<'], pos⟩])
      else if c = '=' then tokenizeFuel fuel cs (pos + 1) (tokens ++ [⟨.TokenEQ, ['='], pos⟩])
      else if c = '!' ∧ cs.head? = some '=' then
        tokenizeFuel fuel (cs.drop 1) (pos + 2) (tokens ++ [⟨.TokenNE, ['!', '='], pos⟩])
      else if (c :: cs).takeWhile isWordByte = [] then .err (.unexpectedCharacter pos c)
      else
        tokenizeFuel fuel ((c :: cs).dropWhile isWordByte)
          (pos + ((c :: cs).takeWhile isWordByte).length)
          (tokens ++ [wordToken ((c :: cs).takeWhile isWordByte) pos tokens])

end query

/-! ### Vocabulary of the statements about the evaluation of queries -/

namespace denote

/-- A task with no metadata and no text. -/
def Task.blank : Task := ⟨⟨[], 0, [], [], [], [], [], 0, [], [], [], [], []⟩, []⟩

end denote

namespace time

/-- The location of New York for the days of 2026: five hours west of UTC, and
four hours from 2026-03-08 02:00 to 2026-11-01 02:00, so that the offset at
midnight is four hours from March 9 to November 1. -/
def Location.newYork2026 : Location :=
  ⟨fun day => if dateToDay 2026 3 9 ≤ day ∧ day ≤ dateToDay 2026 11 1 then -14400 else -18000⟩

/-- The midnights of the location follow each other in the order of the days:
the midnight of an earlier day is an earlier instant. -/
def Location.Ordered (loc : Location) : Prop :=
  ∀ a b : Int, a < b →
    (⟨a, 0, loc.midnightOffset a⟩ : Time).instant < (⟨b, 0, loc.midnightOffset b⟩ : Time).instant

end time

namespace query

open denote

/-- The attribute of a record that a string field names. -/
def fieldValue (field : List Char) (task : Task) : List Char :=
  if field = "status".toList then task.TaskMetadata.Status
  else if field = "priority".toList then task.TaskMetadata.Priority
  else if field = "area".toList then task.TaskMetadata.Area
  else if field = "assignee".toList then task.TaskMetadata.Assignee
  else if field = "project_id".toList then task.TaskMetadata.ProjectID
  else if field = "due".toList ∨ field = "due_date".toList then task.TaskMetadata.DueDate
  else if field = "start".toList ∨ field = "start_date".toList then task.TaskMetadata.StartDate
  else if field = "today".toList ∨ field = "today_date".toList then task.TaskMetadata.TodayDate
  else if field = "title".toList then task.TaskMetadata.Title
  else if field = "recur".toList then task.TaskMetadata.Recur
  else []

/-- The reserved literals of a field, by its lower-cased name. -/
def sentinels (field : List Char) : List (List Char) :=
  if field = "project_id".toList ∨ field = "start".toList ∨ field = "start_date".toList ∨
      field = "recur".toList then ["empty".toList, "set".toList]
  else if field = "due".toList ∨ field = "due_date".toList then
    ["empty".toList, "set".toList, "overdue".toList, "today".toList, "week".toList,
     "soon".toList]
  else if field = "today".toList ∨ field = "today_date".toList then
    ["tagged".toList, "true".toList]
  else []

/-- The fields with the reserved literals `empty` and `set`. -/
def blankFields : List (List Char) :=
  ["project_id".toList, "due".toList, "due_date".toList, "start".toList,
   "start_date".toList, "recur".toList]

/-- The value of the comparison of a clause on a task. -/
def Clause.Evaluate (c : Clause) (task : Task) (cfg : config.Config) (now : time.Time)
    (loc : time.Location) : Bool :=
  ComparisonNode.Evaluate c.field c.op c.value task cfg now loc

end query

/-! ### Vocabulary of the statements about trailing tokens -/

namespace query

/-- The token lists `L` and `M` hold tokens of the same types, none of them EOF,
at every index below `k`. -/
def SameTypes (L M : List Token) (k : Nat) : Prop :=
  ∀ i, i < k → ∃ t u, L[i]? = some t ∧ M[i]? = some u ∧ t.Typ = u.Typ ∧ t.Typ ≠ .TokenEOF

/-- The token before index `j` of `L` can end an expression: it is a value or
a closing parenthesis. -/
def EndsOK (L : List Token) (j : Nat) : Prop :=
  ∃ i t, j = i + 1 ∧ L[i]? = some t ∧ (t.Typ = .TokenValue ∨ t.Typ = .TokenRightParen)

/-- A parsing function that succeeds on `L` from a position up to `k` moves to
a later position up to `k`, just after a value or a closing parenthesis, and
succeeds on `M` with the same move. -/
def SimStep (F : Parser → Result (Node × Parser)) (L M : List Token) (k : Nat) : Prop :=
  ∀ pos n p2, pos ≤ k → F ⟨L, pos⟩ = .ok (n, p2) →
    ∃ pos2 n2, p2 = ⟨L, pos2⟩ ∧ pos < pos2 ∧ pos2 ≤ k ∧
      F ⟨M, pos⟩ = .ok (n2, ⟨M, pos2⟩) ∧ EndsOK L pos2

/-- The same for a loop, which starts after a value or a closing parenthesis
and may stay where it is. -/
def SimLoop (F : Node → Parser → Result (Node × Parser)) (L M : List Token) (k : Nat) :
    Prop :=
  ∀ node node1 pos n p2, pos ≤ k → EndsOK L pos → F node ⟨L, pos⟩ = .ok (n, p2) →
    ∃ pos2 n2, p2 = ⟨L, pos2⟩ ∧ pos ≤ pos2 ∧ pos2 ≤ k ∧
      F node1 ⟨M, pos⟩ = .ok (n2, ⟨M, pos2⟩) ∧ EndsOK L pos2


/-- The outcome `r` with more fuel: `s` is `r`, unless `r` ran out of fuel. -/
def Result.le {α : Type} (r s : Result α) : Prop := r = .timeout ∨ r = s


/-- A byte of the encoding of a white-space character: a white-space byte of
the tokenizer, or a byte outside ASCII. -/
def Soft (b : Char) : Prop := unicode.IsSpace b = true ∨ 128 ≤ b.toNat

/-- The tokenizer on the text `r` fails, or appends a first token that is
neither `AND`, `OR` nor EOF, whatever the tokens found before. -/
def Starts (r : List Char) : Prop :=
  ∀ pos acc, (∃ e, tokenizeLoop r pos acc = .err e) ∨
    (∃ r1 pos1 x, tokenizeLoop r pos acc = tokenizeLoop r1 pos1 (acc ++ [x]) ∧
      x.Typ ≠ .TokenAND ∧ x.Typ ≠ .TokenOR ∧ x.Typ ≠ .TokenEOF)

/-- The word `w` stands in the text `pre ++ w ++ post` as a maximal run of
word bytes: it is not empty, its bytes are word bytes, and neither the byte
before it nor the byte after it, if any, is a word byte. -/
def MaximalWord (pre w post : List Char) : Prop :=
  w ≠ [] ∧ (∀ x ∈ w, isWordByte x = true) ∧ EndsWord post ∧ EndsWord pre.reverse

/-- The token type that the description of the tokenizer gives to a word:
the keyword the word spells, in any letter case; if it spells none, a value
when the token before it is a comparison operator, and a field when it is
not, or when there is no token before it. -/
def wordClass (w : List Char) (prev : Option Token) : TokenType :=
  match keywordType w with
  | some ty => ty
  | none =>
    match prev with
    | some t => if isOperator t.Typ then .TokenValue else .TokenField
    | none => .TokenField

/-- The byte of `s` at offset `i` is a `!`, and the byte after it, if there
is one, is not a `=`. -/
def BadBangAt (s : List Char) (i : Nat) : Prop := s[i]? = some '!' ∧ s[i + 1]? ≠ some '='

instance (s : List Char) (i : Nat) : Decidable (BadBangAt s i) := by
  unfold BadBangAt; infer_instance

/-- The text contains a `!` that is not immediately followed by `=`. -/
def BadBang (s : List Char) : Prop := ∃ i, i < s.length ∧ BadBangAt s i

instance (s : List Char) : Decidable (BadBang s) := by
  unfold BadBang; infer_instance

/-- A token as the tokenizer makes it: the text of a field or of a value is a
word that is no keyword, and the text of a comparison operator is that
operator. -/
def GoodToken (t : Token) : Prop :=
  ((t.Typ = .TokenField ∨ t.Typ = .TokenValue) → IsWord t.Value) ∧
  (isOperator t.Typ = true → operatorType t.Value = some t.Typ)

instance (t : Token) : Decidable (GoodToken t) := by unfold GoodToken; infer_instance

/-- The outcome `r` of a function of the parser called at the position `pos`
of the tokens `L`, whose EOF token is at the position `k`: an error, or a node
with the parser left on the same tokens at a position from `pos + d` on and
not beyond `k`. -/
def Steps (L : List Token) (k pos d : Nat) (r : Result (Node × Parser)) : Prop :=
  (∃ e, r = .err e) ∨ ∃ n pos2, r = .ok (n, ⟨L, pos2⟩) ∧ pos + d ≤ pos2 ∧ pos2 ≤ k

end query

/-! ## Facts about `strings` -/

namespace strings

theorem leadingSpace_append (a r : List Char) (h : 3 ≤ a.length) :
    leadingSpace (a ++ r) = leadingSpace a := by
  match a, h with
  | x :: y :: z :: a1, _ => rfl

theorem trailingSpace_append (a r : List Char) (h : 3 ≤ a.length) :
    trailingSpace (a ++ r) = trailingSpace a := by
  match a, h with
  | x :: y :: z :: a1, _ => rfl

theorem TrimSpace_stable (s : List Char) (h1 : leadingSpace s = 0)
    (h2 : trailingSpace s.reverse = 0) : TrimSpace s = s := by
  unfold TrimSpace
  rw [trimLeft, dif_pos h1, trimRightRev, dif_pos h2, List.reverse_reverse]

/-- Lower-casing a byte keeps it, or turns an upper-case ASCII letter into a
lower-case one; in the second case neither byte is a digit or a sign. -/
theorem toLower_cases (c : Char) :
    c.toLower = c ∨
      (¬ ('0' ≤ c ∧ c ≤ '9') ∧ ¬ ('0' ≤ c.toLower ∧ c.toLower ≤ '9') ∧ c ≠ '-' ∧ c ≠ '+' ∧
        c.toLower ≠ '-' ∧ c.toLower ≠ '+') := by
  by_cases h : 65 ≤ c.toNat ∧ c.toNat ≤ 90
  · right
    obtain ⟨n, hn⟩ : ∃ n, c.toNat = n := ⟨_, rfl⟩
    have hc : c = Char.ofNat n := by rw [← hn, Char.ofNat_toNat]
    rw [hn] at h
    obtain ⟨h1, h2⟩ := h
    subst hc
    interval_cases n <;> decide
  · left
    unfold Char.toLower
    simp only [ge_iff_le]
    rw [if_neg h]

theorem leadingSpace_low (c : Char) (r : List Char) (hc : c.toNat < 128)
    (hs : asciiSpace c = false) : leadingSpace (c :: r) = 0 := by
  have h1 : (c == '\xc2') = false := by
    rw [beq_eq_false_iff_ne]; intro h; rw [h] at hc; revert hc; decide
  have h2 : (c == '\xe1') = false := by
    rw [beq_eq_false_iff_ne]; intro h; rw [h] at hc; revert hc; decide
  have h3 : (c == '\xe2') = false := by
    rw [beq_eq_false_iff_ne]; intro h; rw [h] at hc; revert hc; decide
  have h4 : (c == '\xe3') = false := by
    rw [beq_eq_false_iff_ne]; intro h; rw [h] at hc; revert hc; decide
  simp [leadingSpace, hs, h1, h2, h3, h4]

theorem trailingSpace_low (c : Char) (r : List Char) (hc : c.toNat < 128)
    (hs : asciiSpace c = false) : trailingSpace (c :: r) = 0 := by
  have h1 : (c == '\x85') = false := by
    rw [beq_eq_false_iff_ne]; intro h; rw [h] at hc; revert hc; decide
  have h2 : (c == '\xa0') = false := by
    rw [beq_eq_false_iff_ne]; intro h; rw [h] at hc; revert hc; decide
  have h3 : (c == '\x80') = false := by
    rw [beq_eq_false_iff_ne]; intro h; rw [h] at hc; revert hc; decide
  have h4 : (c == '\x9f') = false := by
    rw [beq_eq_false_iff_ne]; intro h; rw [h] at hc; revert hc; decide
  have h5 : (c == '\xa8') = false := by
    rw [beq_eq_false_iff_ne]; intro h; rw [h] at hc; revert hc; decide
  have h6 : (c == '\xa9') = false := by
    rw [beq_eq_false_iff_ne]; intro h; rw [h] at hc; revert hc; decide
  have h7 : (c == '\xaf') = false := by
    rw [beq_eq_false_iff_ne]; intro h; rw [h] at hc; revert hc; decide
  have h8 : decide ('\x80' ≤ c) = false := by
    rw [decide_eq_false_iff_not]
    intro h
    have : (128 : Nat) ≤ c.toNat := h
    omega
  match r with
  | [] => simp [trailingSpace, hs]
  | [d] => simp [trailingSpace, hs, h1, h2]
  | d :: e :: r2 => simp [trailingSpace, hs, h1, h2, h3, h4, h5, h6, h7, h8]

end strings

/-! ## Facts about `strconv` -/

namespace strconv

theorem parseDigits_ToLower (s : List Char) (acc : Nat) :
    parseDigits acc (strings.ToLower s) = parseDigits acc s := by
  induction s generalizing acc with
  | nil => rfl
  | cons c r ih =>
    simp only [strings.ToLower, List.map_cons, parseDigits]
    rcases strings.toLower_cases c with h | ⟨h1, h2, _⟩
    · rw [h]
      split_ifs
      · exact ih _
      · rfl
    · rw [if_neg h1, if_neg h2]

theorem Atoi_ToLower (s : List Char) : Atoi (strings.ToLower s) = Atoi s := by
  cases s with
  | nil => rfl
  | cons c r =>
    have hr : (List.map Char.toLower r = []) ↔ r = [] := by simp
    have hp := fun acc => parseDigits_ToLower r acc
    simp only [strings.ToLower] at hp
    rcases strings.toLower_cases c with h | ⟨h1, h2, h3, h4, h5, h6⟩
    · simp only [strings.ToLower, List.map_cons, Atoi, h, hr, hp]
      have := parseDigits_ToLower (c :: r) 0
      simp only [strings.ToLower, List.map_cons, h] at this
      rw [this]
    · simp only [strings.ToLower, List.map_cons, Atoi, if_neg h3, if_neg h4, if_neg h5, if_neg h6]
      simp only [parseDigits, if_neg h1, if_neg h2]

theorem digitChar_digit (d : Nat) (h : d < 10) :
    ('0' ≤ d.digitChar ∧ d.digitChar ≤ '9') ∧ d.digitChar.toNat - '0'.toNat = d := by
  interval_cases d <;> decide

theorem parseDigits_append (xs ys : List Char) (acc : Nat) :
    parseDigits acc (xs ++ ys) = (parseDigits acc xs).bind (fun v => parseDigits v ys) := by
  induction xs generalizing acc with
  | nil => rfl
  | cons c r ih =>
    simp only [List.cons_append, parseDigits]
    split_ifs
    · exact ih _
    · rfl

theorem toDigitsCore_spec (f : Nat) : ∀ (n : Nat) (ds : List Char), n < f →
    ∃ xs, Nat.toDigitsCore 10 f n ds = xs ++ ds ∧ xs ≠ [] ∧ IsDigits xs ∧
      ∀ acc, ∃ k, parseDigits acc xs = some (acc * 10 ^ k + n) := by
  induction f with
  | zero => intro n ds h; omega
  | succ f ih =>
    intro n ds h
    obtain ⟨hd, hv⟩ := digitChar_digit (n % 10) (Nat.mod_lt _ (by decide))
    simp only [Nat.toDigitsCore]
    by_cases h0 : n / 10 = 0
    · rw [if_pos h0]
      refine ⟨[(n % 10).digitChar], rfl, by simp, ?_, ?_⟩
      · intro c hc
        rw [List.mem_singleton] at hc
        rw [hc]; exact hd
      · intro acc
        refine ⟨1, ?_⟩
        simp only [parseDigits]
        rw [if_pos hd, hv]
        congr 1
        omega
    · rw [if_neg h0]
      obtain ⟨xs, e, hne, hdig, hp⟩ := ih (n / 10) ((n % 10).digitChar :: ds) (by omega)
      refine ⟨xs ++ [(n % 10).digitChar], by rw [e]; simp, by simp, ?_, ?_⟩
      · intro c hc
        rw [List.mem_append, List.mem_singleton] at hc
        rcases hc with hc | hc
        · exact hdig c hc
        · rw [hc]; exact hd
      · intro acc
        obtain ⟨k, hk⟩ := hp acc
        refine ⟨k + 1, ?_⟩
        rw [parseDigits_append, hk]
        simp only [Option.bind, parseDigits]
        rw [if_pos hd, hv]
        congr 1
        rw [pow_succ]
        have := Nat.div_add_mod n 10
        nlinarith [this]

/-- The decimal text of a natural number: digits, at least one, that
`parseDigits` reads back as the number. -/
theorem repr_spec (n : Nat) :
    (Nat.repr n).toList ≠ [] ∧ IsDigits (Nat.repr n).toList ∧
      parseDigits 0 (Nat.repr n).toList = some n := by
  obtain ⟨xs, e, hne, hdig, hp⟩ := toDigitsCore_spec (n + 1) n [] (by omega)
  have e2 : (Nat.repr n).toList = xs := by
    simp only [Nat.repr, Nat.toDigits, e, List.append_nil, List.asString]
    rfl
  rw [e2]
  refine ⟨hne, hdig, ?_⟩
  obtain ⟨k, hk⟩ := hp 0
  rw [hk]; simp

theorem Atoi_formatInt (n : Int) (h0 : 0 ≤ n) (h : n < 2 ^ 63) :
    Atoi (formatInt n) = some n := by
  obtain ⟨hne, hdig, hp⟩ := repr_spec n.toNat
  unfold formatInt
  rw [if_neg (by omega)]
  match hxs : (Nat.repr n.toNat).toList, hne with
  | c :: r, _ =>
    rw [hxs] at hdig hp
    have hc := hdig c (List.mem_cons_self _ _)
    have h1 : c ≠ '-' := by rintro rfl; revert hc; decide
    have h2 : c ≠ '+' := by rintro rfl; revert hc; decide
    simp only [Atoi, if_neg h1, if_neg h2, hp]
    rw [if_pos (by omega)]
    congr 1
    omega

theorem Atoi_lt (s : List Char) (n : Int) (h : Atoi s = some n) : n < 2 ^ 63 := by
  unfold Atoi at h
  split at h
  · cases h
  · split_ifs at h
    all_goals
      split at h
      · split_ifs at h
        cases h
        omega
      · cases h

end strconv

/-! ## Facts about the due-date helpers -/

namespace time

theorem truncate_Hours (x : Int) :
    truncate (Duration.Hours x / 24) = Int.tdiv x 86400000000000 := by
  have e : ∀ y : Int, Duration.Hours y / 24 = (y : ℚ) / ((86400000000000 : ℕ) : ℚ) := by
    intro y
    unfold Duration.Hours
    rw [div_div]
    norm_num
  unfold truncate
  by_cases hx : 0 ≤ x
  · have h0 : (0 : ℚ) ≤ Duration.Hours x / 24 := by
      rw [e]
      exact div_nonneg (by exact_mod_cast hx) (by norm_num)
    rw [if_pos h0, e, Rat.floor_intCast_div_natCast, Int.tdiv_eq_ediv hx (by norm_num)]
    rfl
  · have hx1 : x < 0 := by omega
    have h0 : ¬ (0 : ℚ) ≤ Duration.Hours x / 24 := by
      rw [e, not_le]
      exact div_neg_of_neg_of_pos (by exact_mod_cast hx1) (by norm_num)
    have e2 : Duration.Hours x / 24 = -(((-x : Int) : ℚ) / ((86400000000000 : ℕ) : ℚ)) := by
      rw [e]
      push_cast
      ring
    rw [if_neg h0, e2, Int.ceil_neg, Rat.floor_intCast_div_natCast]
    have h3 : x.tdiv 86400000000000 = -((-x).tdiv 86400000000000) := by
      rw [Int.neg_tdiv, neg_neg]
    rw [h3, Int.tdiv_eq_ediv (by omega) (by norm_num)]
    rfl

/-- Midnight of the date of `t` in a location. -/
theorem DateIn_Date (t : Time) (loc : Location) :
    DateIn t.Date.1 t.Date.2.1 t.Date.2.2 loc = ⟨t.day, 0, loc.midnightOffset t.day⟩ := by
  have h := dateToDay_civil t.day
  unfold DateIn Time.Date
  rw [h]

end time

namespace denote

open time

theorem DaysUntilDue_nil (now : Time) (loc : Location) : DaysUntilDue [] now loc = 0 := by
  simp [DaysUntilDue]

theorem DaysUntilDue_parsed (s : List Char) (now : Time) (loc : Location) (d : Time)
    (h : ParseInLocation s loc = some d) :
    DaysUntilDue s now loc =
      Int.tdiv ((⟨d.day, 0, loc.midnightOffset d.day⟩ : Time).Sub
        ⟨now.day, 0, loc.midnightOffset now.day⟩) 86400000000000 := by
  have hs : s ≠ [] := by
    intro e
    rw [e] at h
    simp [ParseInLocation] at h
  simp only [DaysUntilDue, if_neg hs, h, DateIn_Date, truncate_Hours]

theorem IsDueSoon_parsed (s : List Char) (horizon : Int) (now : Time) (loc : Location)
    (d : Time) (h : ParseInLocation s loc = some d) :
    IsDueSoon s horizon now loc =
      (decide (Int.tdiv ((⟨d.day, 0, loc.midnightOffset d.day⟩ : Time).Sub
          ⟨now.day, 0, loc.midnightOffset now.day⟩) 86400000000000 ≥ 0) &&
        decide (Int.tdiv ((⟨d.day, 0, loc.midnightOffset d.day⟩ : Time).Sub
          ⟨now.day, 0, loc.midnightOffset now.day⟩) 86400000000000 ≤ horizon)) := by
  have hs : s ≠ [] := by
    intro e
    rw [e] at h
    simp [ParseInLocation] at h
  simp only [IsDueSoon, if_neg hs, h, DateIn_Date, truncate_Hours]

theorem IsOverdue_parsed (s : List Char) (now : Time) (loc : Location)
    (d : Time) (h : ParseInLocation s loc = some d) :
    IsOverdue s now loc =
      (⟨d.day, 0, loc.midnightOffset d.day⟩ : Time).Before
        ⟨now.day, 0, loc.midnightOffset now.day⟩ := by
  have hs : s ≠ [] := by
    intro e
    rw [e] at h
    simp [ParseInLocation] at h
  simp only [IsOverdue, if_neg hs, h, DateIn_Date]

end denote

/-! ## Facts about the recurrence engine -/

namespace recurrence

open time

theorem hasPrefix_every (p : List Char) (h : strings.HasPrefix p "every ".toList = true) :
    ∃ r, p = 'e' :: 'v' :: 'e' :: 'r' :: 'y' :: ' ' :: r := by
  match p, h with
  | c1 :: c2 :: c3 :: c4 :: c5 :: c6 :: r, h =>
    simp [strings.HasPrefix, List.isPrefixOf] at h
    obtain ⟨h1, h2, h3, h4, h5, h6⟩ := h
    subst h1 h2 h4 h5 h6
    exact ⟨r, by rw [← h3]⟩
  | [], h => simp [strings.HasPrefix, List.isPrefixOf] at h
  | [_], h => simp [strings.HasPrefix, List.isPrefixOf] at h
  | [_, _], h => simp [strings.HasPrefix, List.isPrefixOf] at h
  | [_, _, _], h => simp [strings.HasPrefix, List.isPrefixOf] at h
  | [_, _, _, _], h => simp [strings.HasPrefix, List.isPrefixOf] at h
  | [_, _, _, _, _], h => simp [strings.HasPrefix, List.isPrefixOf] at h

theorem every_not_keyword (p : List Char) (h : strings.HasPrefix p "every ".toList = true) :
    p ≠ [] ∧ p ∉ keywords := by
  obtain ⟨r, rfl⟩ := hasPrefix_every p h
  simp [keywords]

theorem atoi_ne_nil (s : List Char) (n : Int) (h : strconv.Atoi s = some n) : s ≠ [] := by
  intro hs
  rw [hs] at h
  simp [strconv.Atoi] at h

theorem formatInt_pos (n : Int) (h : 0 < n) : strconv.formatInt n = (Nat.repr n.toNat).toList := by
  unfold strconv.formatInt
  rw [if_neg (by omega)]

/-- What `ParsePattern` computes once the pattern is known to begin with
`every `: the interval attempt, then the weekday loop. -/
theorem ParsePattern_every (input : List Char)
    (hpre : strings.HasPrefix (normalize input) "every ".toList = true) :
    ParsePattern input =
      if strings.TrimSpace ((normalize input).drop 6) = [] then
        ([], some (.missingInterval (normalize input)))
      else
        match parseInterval (strings.TrimSpace ((normalize input).drop 6)) with
        | some r => r
        | none => parseDays (normalize input)
            (strings.Split (strings.TrimSpace ((normalize input).drop 6)) ',') [] := by
  obtain ⟨h1, h2⟩ := every_not_keyword _ hpre
  unfold normalize at *
  simp only [keywords, List.mem_cons, List.mem_singleton, not_or, List.not_mem_nil, or_false] at h2
  unfold ParsePattern
  simp only [hpre, h1, h2, if_false, false_or, not_true_eq_false]

theorem getLastD_append_singleton (s : List Char) (u d : Char) : (s ++ [u]).getLastD d = u := by
  cases s with
  | nil => rfl
  | cons a s => simp [List.getLastD]

theorem eq_dropLast_append_getLastD (spec : List Char) (h : spec ≠ []) (d : Char) :
    spec = spec.dropLast ++ [spec.getLastD d] := by
  induction spec with
  | nil => exact absurd rfl h
  | cons a s ih =>
    cases s with
    | nil => rfl
    | cons b s =>
      have := ih (by simp)
      simp only [List.dropLast_cons₂, List.cons_append, List.getLastD_cons] at this ⊢
      rw [← this]

/-- The interval attempt on a count followed by a unit. -/
theorem parseInterval_some (s : List Char) (u : Char) (n : Int) (hu : isUnit u)
    (hn : strconv.Atoi s = some n) :
    parseInterval (s ++ [u]) =
      if n ≤ 0 then some ([], some (.notPositive n))
      else some ("every ".toList ++ strconv.formatInt n ++ [u], none) := by
  have hs : s ≠ [] := atoi_ne_nil s n hn
  have hlen : 2 ≤ (s ++ [u]).length := by
    have := List.length_pos.mpr hs
    simp only [List.length_append, List.length_singleton]
    omega
  unfold parseInterval
  simp only [getLastD_append_singleton, List.dropLast_concat, hn, hlen, hu, if_true]

/-- The interval attempt falls through exactly when the spec is not a string
accepted by `strconv.Atoi` followed by a unit. -/
theorem parseInterval_none (spec : List Char) :
    parseInterval spec = none ↔
      ∀ s u n, spec = s ++ [u] → isUnit u → strconv.Atoi s ≠ some n := by
  constructor
  · intro h s u n hs hu hn
    rw [hs, parseInterval_some s u n hu hn] at h
    split_ifs at h
  · intro h
    unfold parseInterval
    by_cases h2 : 2 ≤ spec.length
    · by_cases hu : isUnit (spec.getLastD ' ')
      · cases hA : strconv.Atoi spec.dropLast with
        | none => simp only [h2, hu, hA, if_true]
        | some n =>
          exfalso
          have hne : spec ≠ [] := by
            intro h0; rw [h0] at h2; simp at h2
          exact h _ _ n (eq_dropLast_append_getLastD spec hne ' ') hu hA
      · simp only [h2, hu, if_true, if_false]
    · simp only [h2, if_false]

theorem lookup_eq_none_iff {β : Type} (l : List (List Char × β)) (a : List Char) :
    l.lookup a = none ↔ a ∉ l.map Prod.fst := by
  induction l with
  | nil => simp
  | cons x xs ih =>
    obtain ⟨k, v⟩ := x
    rw [List.lookup_cons, List.map_cons, List.mem_cons, not_or]
    by_cases h : a = k
    · have hb : (a == k) = true := by simpa using h
      rw [hb]
      simp only [h, not_true_eq_false, false_and, iff_false]
      exact fun hh => Option.noConfusion hh
    · have hb : (a == k) = false := by simpa using h
      rw [hb]
      simp only [ih, h, not_false_eq_true, true_and]

theorem weekdayOf_eq_none (t : List Char) :
    weekdayOf t = none ↔ t ∉ weekdayNames.map Prod.fst :=
  lookup_eq_none_iff weekdayNames t

theorem weekdayOf_ne_none (t : List Char) :
    weekdayOf t ≠ none ↔ t ∈ weekdayNames.map Prod.fst := by
  rw [Ne, weekdayOf_eq_none, not_not]

/-- The weekday loop accepts the parts when each trimmed part is in the
table, and then joins the trimmed parts after those already accepted. -/
theorem parseDays_ok (pattern : List Char) (parts days : List (List Char))
    (h : ∀ t ∈ parts, weekdayOf (strings.TrimSpace t) ≠ none) :
    parseDays pattern parts days =
      ("every ".toList ++ strings.Join (days ++ parts.map strings.TrimSpace) ',', none) := by
  induction parts generalizing days with
  | nil => simp [parseDays]
  | cons p ps ih =>
    simp only [parseDays]
    have hp := h p (List.mem_cons_self _ _)
    cases hw : weekdayOf (strings.TrimSpace p) with
    | none => exact absurd hw hp
    | some w =>
      simp only []
      rw [ih _ (fun t ht => h t (List.mem_cons_of_mem _ ht))]
      simp

theorem parseDays_error (pattern : List Char) (parts days : List (List Char))
    (h : ∃ t ∈ parts, weekdayOf (strings.TrimSpace t) = none) :
    ∃ e, parseDays pattern parts days = ([], some e) := by
  induction parts generalizing days with
  | nil => obtain ⟨t, ht, _⟩ := h; simp at ht
  | cons p ps ih =>
    simp only [parseDays]
    cases hw : weekdayOf (strings.TrimSpace p) with
    | none => exact ⟨_, rfl⟩
    | some w =>
      obtain ⟨t, ht, hn⟩ := h
      rcases List.mem_cons.mp ht with rfl | ht
      · rw [hw] at hn; cases hn
      · exact ih _ ⟨t, ht, hn⟩

/-- C4: when the trimmed, lower-cased input is `every ` followed (after
trimming) by `s ++ [u]`, with `u` one of d, w, m, y and `s` a string that
`strconv.Atoi` parses to `n`, `ParsePattern` returns `every <n><u>` with `n`
in decimal and no error if `n > 0`, and an error with the empty string if
`n ≤ 0`. -/
theorem C4_ParsePattern_interval (input s : List Char) (u : Char) (n : Int)
    (hpre : strings.HasPrefix (normalize input) "every ".toList = true)
    (hspec : strings.TrimSpace ((normalize input).drop 6) = s ++ [u])
    (hu : isUnit u) (hn : strconv.Atoi s = some n) :
    (0 < n → ParsePattern input = ("every ".toList ++ (Nat.repr n.toNat).toList ++ [u], none)) ∧
    (n ≤ 0 → ParsePattern input = ([], some (Error.notPositive n))) := by
  rw [ParsePattern_every input hpre, hspec, parseInterval_some s u n hu hn]
  have hne : s ++ [u] ≠ [] := by simp
  rw [if_neg hne]
  constructor
  · intro h
    rw [if_neg (by omega), formatInt_pos n h]
  · intro h
    rw [if_pos h]

/-- C4 at concrete inputs. -/
theorem C4_ParsePattern_interval_witness :
    strings.HasPrefix (normalize "Every  14d ".toList) "every ".toList = true ∧
    ParsePattern "Every  14d ".toList = ("every 14d".toList, none) ∧
    ParsePattern "every -1w".toList = ([], some (Error.notPositive (-1))) := by
  have e1 : normalize "Every  14d ".toList = "every  14d".toList := by
    simp [normalize, strings.ToLower, strings.TrimSpace, strings.trimLeft, strings.trimRightRev,
      strings.leadingSpace, strings.trailingSpace, strings.asciiSpace]
  have e2 : strings.TrimSpace ((normalize "Every  14d ".toList).drop 6) = "14".toList ++ ['d'] := by
    rw [e1]
    simp [strings.TrimSpace, strings.trimLeft, strings.trimRightRev,
      strings.leadingSpace, strings.trailingSpace, strings.asciiSpace]
  have e3 : normalize "every -1w".toList = "every -1w".toList := by
    simp [normalize, strings.ToLower, strings.TrimSpace, strings.trimLeft, strings.trimRightRev,
      strings.leadingSpace, strings.trailingSpace, strings.asciiSpace]
  have e4 : strings.TrimSpace ((normalize "every -1w".toList).drop 6) = "-1".toList ++ ['w'] := by
    rw [e3]
    simp [strings.TrimSpace, strings.trimLeft, strings.trimRightRev,
      strings.leadingSpace, strings.trailingSpace, strings.asciiSpace]
  have p1 : strings.HasPrefix (normalize "Every  14d ".toList) "every ".toList = true := by
    rw [e1]; decide
  have p3 : strings.HasPrefix (normalize "every -1w".toList) "every ".toList = true := by
    rw [e3]; decide
  refine ⟨p1, ?_, ?_⟩
  · exact (C4_ParsePattern_interval _ "14".toList 'd' 14 p1 e2 (by decide) (by decide)).1 (by decide)
  · exact (C4_ParsePattern_interval _ "-1".toList 'w' (-1) p3 e4 (by decide) (by decide)).2 (by decide)

/-- C6: an input whose trimmed, lower-cased form is one of the keywords
daily, weekly, monthly, yearly is returned as that keyword, with no error. -/
theorem C6_ParsePattern_keyword (input kw : List Char) (hkw : kw ∈ keywords)
    (h : normalize input = kw) : ParsePattern input = (kw, none) := by
  unfold normalize at h
  unfold ParsePattern
  simp only [h]
  simp only [keywords, List.mem_cons, List.mem_singleton, List.not_mem_nil, or_false] at hkw
  have hne : kw ≠ [] := by
    rcases hkw with rfl | rfl | rfl | rfl <;> decide
  rw [if_neg hne, if_pos hkw]

/-- C6 at concrete inputs. -/
theorem C6_ParsePattern_keyword_witness :
    ParsePattern "Daily".toList = ("daily".toList, none) ∧
    ParsePattern " \tWEEKLY\n".toList = ("weekly".toList, none) := by
  constructor
  · exact C6_ParsePattern_keyword _ _ (by decide)
      (by simp [normalize, strings.ToLower, strings.TrimSpace, strings.trimLeft,
        strings.trimRightRev, strings.leadingSpace, strings.trailingSpace, strings.asciiSpace])
  · exact C6_ParsePattern_keyword _ _ (by decide)
      (by simp [normalize, strings.ToLower, strings.TrimSpace, strings.trimLeft,
        strings.trimRightRev, strings.leadingSpace, strings.trailingSpace, strings.asciiSpace])

theorem time_eq_of_fields (t u : Time) (hd : t.day = u.day) (hn : t.nsec = u.nsec)
    (ho : t.offset = u.offset) : t = u := by
  cases t; cases u; simp_all

/-- Adding `d` days changes the day number only. -/
theorem AddDate_days_eq (t : Time) (d : Int) : t.AddDate 0 0 d = ⟨t.day + d, t.nsec, t.offset⟩ :=
  time_eq_of_fields _ _ (AddDate_days t d) rfl rfl

/-- Midnight of a day is that day, with the clock at zero. -/
theorem midnight_eq (now : Time) : midnight now = ⟨now.day, 0, now.offset⟩ := by
  have h := dateToDay_civil now.day
  unfold midnight time.Date Time.Date
  rw [h]

theorem advanceByInterval_unfold (cd : Time) (n : Int) (u : Char) (today : Time)
    (h : 0 < n ∧ isUnit u) :
    advanceByInterval cd n u today h =
      if (addInterval cd n u).Before today then advanceByInterval (addInterval cd n u) n u today h
      else addInterval cd n u := by
  rw [advanceByInterval]
  split_ifs <;> rfl

/-- The loop of `advanceByInterval` returns the first date, among those
reached by adding the interval once, twice, ... to `currentDue`, that is not
before `today`. -/
theorem advanceByInterval_spec (n : Int) (u : Char) (today : Time) (h : 0 < n ∧ isUnit u)
    (cd : Time) :
    ∃ k : Nat, 1 ≤ k ∧
      advanceByInterval cd n u today h = (fun t => addInterval t n u)^[k] cd ∧
      ((fun t => addInterval t n u)^[k] cd).Before today = false ∧
      ∀ j : Nat, 1 ≤ j → j < k → ((fun t => addInterval t n u)^[j] cd).Before today = true := by
  generalize hm : (today.instant - cd.instant).toNat = m
  induction m using Nat.strong_induction_on generalizing cd with
  | _ m ih =>
    rw [advanceByInterval_unfold]
    by_cases hb : (addInterval cd n u).Before today = true
    · rw [if_pos hb]
      have hlt := addInterval_instant cd n u h.1 h.2
      have hb2 : (addInterval cd n u).instant < today.instant := by
        simpa [Time.Before] using hb
      obtain ⟨k, hk1, hres, hnb, hmin⟩ :=
        ih (today.instant - (addInterval cd n u).instant).toNat (by omega)
          (addInterval cd n u) rfl
      refine ⟨k + 1, by omega, ?_, ?_, ?_⟩
      · rw [hres, Function.iterate_succ_apply]
      · rw [Function.iterate_succ_apply]; exact hnb
      · intro j hj1 hjk
        obtain ⟨i, rfl⟩ : ∃ i, j = i + 1 := ⟨j - 1, by omega⟩
        rw [Function.iterate_succ_apply]
        by_cases hi : i = 0
        · subst hi; simpa using hb
        · exact hmin i (by omega) (by omega)
    · rw [if_neg hb]
      refine ⟨1, le_refl 1, rfl, ?_, ?_⟩
      · simpa using hb
      · intro j hj1 hjk; omega

theorem IsInterval.pos_unit {p : List Char} {n : Int} {u : Char} (h : IsInterval p n u) :
    0 < n ∧ isUnit u := by
  rcases h with ⟨_, rfl, rfl⟩ | ⟨_, rfl, rfl⟩ | ⟨_, rfl, rfl⟩ | ⟨_, rfl, rfl⟩ | ⟨_, hu, hn, _⟩
  · decide
  · decide
  · decide
  · decide
  · exact ⟨hn, hu⟩

/-- The interval attempt of `parseEverySpec` on a positive count and a unit. -/
theorem intervalDate_some (s : List Char) (u : Char) (n : Int) (cd today : Time)
    (hu : isUnit u) (hn : strconv.Atoi s = some n) (hpos : 0 < n) :
    intervalDate (s ++ [u]) cd today = some (advanceByInterval cd n u today ⟨hpos, hu⟩) := by
  have hs : s ≠ [] := atoi_ne_nil s n hn
  have hlen : 2 ≤ (s ++ [u]).length := by
    have := List.length_pos.mpr hs
    simp only [List.length_append, List.length_singleton]
    omega
  unfold intervalDate
  simp only [getLastD_append_singleton, List.dropLast_concat, hn, hlen, hu, hpos, if_true,
    dite_true]

/-- What the interval attempt of `parseEverySpec` returns, when it returns. -/
theorem intervalDate_eq_some (spec : List Char) (cd today t : Time)
    (h : intervalDate spec cd today = some t) :
    ∃ s u n, ∃ hp : 0 < n ∧ isUnit u, spec = s ++ [u] ∧ strconv.Atoi s = some n ∧
      t = advanceByInterval cd n u today hp := by
  unfold intervalDate at h
  by_cases a : 2 ≤ spec.length
  · by_cases b : isUnit (spec.getLastD ' ')
    · cases hA : strconv.Atoi spec.dropLast with
      | none =>
        simp only [a, b, hA, if_true, dite_true] at h
        cases h
      | some n =>
        by_cases c : 0 < n
        · simp only [a, b, hA, c, if_true, dite_true, Option.some.injEq] at h
          have hne : spec ≠ [] := by
            intro h0; rw [h0] at a; simp at a
          exact ⟨_, _, n, ⟨c, b⟩, eq_dropLast_append_getLastD spec hne ' ', hA, h.symm⟩
        · simp only [a, b, hA, c, if_true, dite_true, dite_false] at h
          cases h
    · simp only [a, b, if_true, dite_false] at h
      cases h
  · simp only [a, if_false] at h
    cases h

/-- What `NextDueDate` computes for a pattern beginning with `every `. -/
theorem NextDueDate_every (pattern : List Char) (cd now : Time)
    (hpre : strings.HasPrefix (normalize pattern) "every ".toList = true) :
    NextDueDate pattern cd now =
      if (parseEverySpec (strings.TrimSpace ((normalize pattern).drop 6)) cd (midnight now)).2
          ≠ none then
        (Time.zero,
          (parseEverySpec (strings.TrimSpace ((normalize pattern).drop 6)) cd (midnight now)).2)
      else
        ((parseEverySpec (strings.TrimSpace ((normalize pattern).drop 6)) cd (midnight now)).1,
          none) := by
  obtain ⟨h1, h2⟩ := every_not_keyword _ hpre
  unfold normalize at *
  simp only [keywords, List.mem_cons, List.mem_singleton, not_or, List.not_mem_nil, or_false] at h2
  unfold NextDueDate
  simp only [hpre, h2, if_false, if_true]

/-- For an interval pattern `NextDueDate` is the loop of `advanceByInterval`. -/
theorem NextDueDate_interval (pattern : List Char) (cd now : Time) (n : Int) (u : Char)
    (h : IsInterval (normalize pattern) n u) (hp : 0 < n ∧ isUnit u) :
    NextDueDate pattern cd now = (advanceByInterval cd n u (midnight now) hp, none) := by
  rcases h with ⟨hk, rfl, rfl⟩ | ⟨hk, rfl, rfl⟩ | ⟨hk, rfl, rfl⟩ | ⟨hk, rfl, rfl⟩ |
    ⟨hpre, hu, hn, s, hs, hA⟩
  · unfold normalize at hk
    unfold NextDueDate
    simp only [hk, if_true]
  · unfold normalize at hk
    unfold NextDueDate
    simp only [hk, if_true]
    rfl
  · unfold normalize at hk
    unfold NextDueDate
    simp only [hk, if_true]
    rfl
  · unfold normalize at hk
    unfold NextDueDate
    simp only [hk, if_true]
    rfl
  · rw [NextDueDate_every pattern cd now hpre, hs]
    unfold parseEverySpec
    rw [intervalDate_some s u n cd (midnight now) hu hA hn]
    simp

/-- Every weekday is met within seven consecutive days. -/
theorem weekday_cover (d : Int) (w : Weekday) :
    ∃ j : Nat, j < 7 ∧ Weekday.ofInt (d + j) = w := by
  refine ⟨((w.toInt - d) % 7).toNat, by omega, ?_⟩
  have h0 : 0 ≤ (w.toInt - d) % 7 := Int.emod_nonneg _ (by decide)
  rw [Int.toNat_of_nonneg h0]
  have hw : 0 ≤ w.toInt ∧ w.toInt < 7 := by cases w <;> decide
  have hmod : (d + (w.toInt - d) % 7) % 7 = w.toInt := by omega
  unfold Weekday.ofInt
  simp only [hmod]
  cases w <;> rfl

/-- The search loop stops at the first candidate, among the `k` it may
inspect, whose weekday is accepted. -/
theorem searchWeekday_spec (S : List Weekday) (k : Nat) (cand : Time) :
    ∃ i : Nat, i ≤ k ∧ searchWeekday S k cand = cand.AddDate 0 0 i ∧
      (∀ j : Nat, j < i → (cand.AddDate 0 0 j).Weekday ∉ S) ∧
      (i < k → (cand.AddDate 0 0 i).Weekday ∈ S) := by
  induction k generalizing cand with
  | zero =>
    refine ⟨0, le_refl 0, ?_, ?_, ?_⟩
    · rw [AddDate_days_eq]; simp [searchWeekday]
    · intro j hj; omega
    · intro h; omega
  | succ k ih =>
    unfold searchWeekday
    by_cases hc : cand.Weekday ∈ S
    · rw [if_pos hc]
      refine ⟨0, by omega, ?_, ?_, ?_⟩
      · rw [AddDate_days_eq]; simp
      · intro j hj; omega
      · intro _
        rw [AddDate_days_eq]
        simpa [Time.Weekday] using hc
    · rw [if_neg hc]
      obtain ⟨i, hi, hres, hmin, hin⟩ := ih (cand.AddDate 0 0 1)
      have e : ∀ j : Nat, (cand.AddDate 0 0 1).AddDate 0 0 j = cand.AddDate 0 0 ((j + 1 : Nat)) := by
        intro j
        simp only [AddDate_days_eq]
        congr 1
        push_cast
        ring
      refine ⟨i + 1, by omega, ?_, ?_, ?_⟩
      · rw [hres, e]
      · intro j hj
        by_cases h0 : j = 0
        · subst h0
          rw [AddDate_days_eq]
          simpa [Time.Weekday] using hc
        · obtain ⟨j', rfl⟩ : ∃ j', j = j' + 1 := ⟨j - 1, by omega⟩
          rw [← e]
          exact hmin j' (by omega)
      · intro h
        rw [← e]
        exact hin (by omega)

/-- With a weekday to look for, the search of `nextMatchingWeekday` ends
within its first seven candidates, on the first one whose weekday is accepted. -/
theorem searchWeekday_seven (S : List Weekday) (cand : Time) (hS : S ≠ []) :
    ∃ i : Nat, i ≤ 6 ∧ searchWeekday S 7 cand = cand.AddDate 0 0 i ∧
      (cand.AddDate 0 0 i).Weekday ∈ S ∧
      (∀ j : Nat, j < i → (cand.AddDate 0 0 j).Weekday ∉ S) := by
  obtain ⟨i, hi, hres, hmin, hin⟩ := searchWeekday_spec S 7 cand
  have hlt : i < 7 := by
    by_contra hge
    obtain ⟨w, hw⟩ := List.exists_mem_of_ne_nil S hS
    obtain ⟨j, hj, hjw⟩ := weekday_cover (cand.day + 4) w
    apply hmin j (by omega)
    rw [AddDate_days_eq]
    simp only [Time.Weekday]
    have : cand.day + ↑j + 4 = cand.day + 4 + ↑j := by ring
    rw [this, hjw]
    exact hw
  exact ⟨i, by omega, hres, hin hlt, hmin⟩

/-- The weekday loop of `parseEverySpec` on parts that are all in the table. -/
theorem collectWeekdays_ok (parts : List (List Char)) (acc : List Weekday)
    (h : ∀ t ∈ parts, weekdayOf (strings.TrimSpace t) ≠ none) :
    ∃ ws, collectWeekdays parts acc = .ok ws ∧
      ∀ w, w ∈ ws ↔ w ∈ acc ∨ ∃ t ∈ parts, weekdayOf (strings.TrimSpace t) = some w := by
  induction parts generalizing acc with
  | nil => exact ⟨acc, rfl, by simp⟩
  | cons p ps ih =>
    simp only [collectWeekdays]
    have hp := h p (List.mem_cons_self _ _)
    cases hw : weekdayOf (strings.TrimSpace p) with
    | none => exact absurd hw hp
    | some wd =>
      obtain ⟨ws, hres, hmem⟩ := ih (acc ++ [wd]) (fun t ht => h t (List.mem_cons_of_mem _ ht))
      refine ⟨ws, hres, ?_⟩
      intro w
      rw [hmem w]
      constructor
      · rintro (h1 | ⟨t, ht, hwt⟩)
        · rcases List.mem_append.mp h1 with h1 | h1
          · exact Or.inl h1
          · have hwd : w = wd := by simpa using h1
            exact Or.inr ⟨p, List.mem_cons_self _ _, by rw [hw, hwd]⟩
        · exact Or.inr ⟨t, List.mem_cons_of_mem _ ht, hwt⟩
      · rintro (h1 | ⟨t, ht, hwt⟩)
        · exact Or.inl (List.mem_append.mpr (Or.inl h1))
        · rcases List.mem_cons.mp ht with rfl | ht
          · rw [hw] at hwt
            have hwd : wd = w := by simpa using hwt
            exact Or.inl (List.mem_append.mpr (Or.inr (by simp [hwd])))
          · exact Or.inr ⟨t, ht, hwt⟩

/-- The weekday loop of `parseEverySpec` on parts of which one is unknown. -/
theorem collectWeekdays_error (parts : List (List Char)) (acc : List Weekday)
    (h : ∃ t ∈ parts, weekdayOf (strings.TrimSpace t) = none) :
    ∃ p, collectWeekdays parts acc = .error p := by
  induction parts generalizing acc with
  | nil => obtain ⟨t, ht, _⟩ := h; simp at ht
  | cons p ps ih =>
    simp only [collectWeekdays]
    cases hw : weekdayOf (strings.TrimSpace p) with
    | none => exact ⟨_, rfl⟩
    | some w =>
      obtain ⟨t, ht, hn⟩ := h
      rcases List.mem_cons.mp ht with rfl | ht
      · rw [hw] at hn; cases hn
      · exact ih _ ⟨t, ht, hn⟩

theorem Split_ne_nil (s : List Char) (sep : Char) : strings.Split s sep ≠ [] := by
  cases s with
  | nil => simp [strings.Split]
  | cons c r =>
    unfold strings.Split
    split_ifs
    · simp
    · cases strings.Split r sep <;> simp

theorem digit_cases (c : Char) (h : '0' ≤ c ∧ c ≤ '9') :
    c ∈ ['0', '1', '2', '3', '4', '5', '6', '7', '8', '9'] := by
  have h1 : 48 ≤ c.toNat := h.1
  have h2 : c.toNat ≤ 57 := h.2
  have hc : c = Char.ofNat c.toNat := (Char.ofNat_toNat c).symm
  rw [hc]
  generalize c.toNat = k at h1 h2
  interval_cases k <;> decide

theorem parseDigits_digits (s : List Char) (acc v : Nat) (h : strconv.parseDigits acc s = some v) :
    ∀ c ∈ s, '0' ≤ c ∧ c ≤ '9' := by
  induction s generalizing acc with
  | nil => intro c hc; simp at hc
  | cons a r ih =>
    unfold strconv.parseDigits at h
    by_cases ha : '0' ≤ a ∧ a ≤ '9'
    · rw [if_pos ha] at h
      intro c hc
      rcases List.mem_cons.mp hc with rfl | hc
      · exact ha
      · exact ih _ h c hc
    · rw [if_neg ha] at h
      cases h

/-- A string accepted by `strconv.Atoi` is a sign or a digit followed by digits. -/
theorem atoi_shape (s : List Char) (n : Int) (h : strconv.Atoi s = some n) :
    ∃ c r, s = c :: r ∧ c ∈ ['-', '+', '0', '1', '2', '3', '4', '5', '6', '7', '8', '9'] ∧
      ∀ x ∈ r, x ∈ ['0', '1', '2', '3', '4', '5', '6', '7', '8', '9'] := by
  cases s with
  | nil => simp [strconv.Atoi] at h
  | cons c r =>
    refine ⟨c, r, rfl, ?_⟩
    unfold strconv.Atoi at h
    simp only [] at h
    by_cases hm : c = '-'
    · rw [if_pos hm] at h
      refine ⟨by rw [hm]; decide, ?_⟩
      split_ifs at h
      cases hd : strconv.parseDigits 0 r with
      | none => rw [hd] at h; cases h
      | some v => exact fun x hx => digit_cases x (parseDigits_digits r 0 v hd x hx)
    · rw [if_neg hm] at h
      by_cases hp : c = '+'
      · rw [if_pos hp] at h
        refine ⟨by rw [hp]; decide, ?_⟩
        split_ifs at h
        cases hd : strconv.parseDigits 0 r with
        | none => rw [hd] at h; cases h
        | some v => exact fun x hx => digit_cases x (parseDigits_digits r 0 v hd x hx)
      · rw [if_neg hp] at h
        cases hd : strconv.parseDigits 0 (c :: r) with
        | none => rw [hd] at h; cases h
        | some v =>
          have hall := parseDigits_digits (c :: r) 0 v hd
          refine ⟨?_, fun x hx => digit_cases x (hall x (List.mem_cons_of_mem _ hx))⟩
          have := digit_cases c (hall c (List.mem_cons_self _ _))
          simp only [List.mem_cons] at this ⊢
          tauto

theorem Split_no_sep (s : List Char) (sep : Char) (h : ∀ c ∈ s, c ≠ sep) :
    strings.Split s sep = [s] := by
  induction s with
  | nil => rfl
  | cons c r ih =>
    unfold strings.Split
    rw [if_neg (h c (List.mem_cons_self _ _)), ih (fun x hx => h x (List.mem_cons_of_mem _ hx))]

/-- A count followed by a unit is not a weekday name, trimmed or not. -/
theorem interval_not_weekday (s : List Char) (u : Char) (n : Int) (hu : isUnit u)
    (hA : strconv.Atoi s = some n) :
    strings.Split (s ++ [u]) ',' = [s ++ [u]] ∧
    weekdayOf (strings.TrimSpace (s ++ [u])) = none := by
  obtain ⟨c, r, rfl, hc, hr⟩ := atoi_shape s n hA
  have hu4 : u ∈ ['d', 'w', 'm', 'y'] := by
    unfold isUnit at hu
    simp only [List.mem_cons, List.mem_singleton, List.not_mem_nil, or_false]
    exact hu
  constructor
  · apply Split_no_sep
    intro x hx
    rcases List.mem_append.mp hx with hx | hx
    · rcases List.mem_cons.mp hx with rfl | hx
      · intro h; rw [h] at hc; revert hc; decide
      · intro h; have := hr x hx; rw [h] at this; revert this; decide
    · intro h
      have : x = u := by simpa using hx
      rw [← this, h] at hu4
      revert hu4; decide
  · have hl : strings.leadingSpace (c :: r ++ [u]) = 0 := by
      simp only [List.mem_cons, List.mem_singleton, List.not_mem_nil, or_false] at hc
      rcases hc with rfl | rfl | rfl | rfl | rfl | rfl | rfl | rfl | rfl | rfl | rfl | rfl <;>
        simp [strings.leadingSpace, strings.asciiSpace]
    have ht : strings.trailingSpace (c :: r ++ [u]).reverse = 0 := by
      rw [List.reverse_append, List.reverse_singleton, List.singleton_append]
      simp only [List.mem_cons, List.mem_singleton, List.not_mem_nil, or_false] at hu4
      generalize (c :: r).reverse = rev
      cases rev with
      | nil => rcases hu4 with rfl | rfl | rfl | rfl <;> simp [strings.trailingSpace, strings.asciiSpace]
      | cons d r2 =>
        cases r2 with
        | nil =>
          rcases hu4 with rfl | rfl | rfl | rfl <;>
            simp [strings.trailingSpace, strings.asciiSpace]
        | cons e r3 =>
          rcases hu4 with rfl | rfl | rfl | rfl <;>
            simp [strings.trailingSpace, strings.asciiSpace]
    rw [strings.TrimSpace_stable _ hl ht, weekdayOf_eq_none]
    intro hmem
    have key : ∀ name : List Char, name ∈ weekdayNames.map Prod.fst →
        strconv.Atoi name.dropLast = none := by decide
    have := key _ hmem
    rw [List.dropLast_concat, hA] at this
    cases this

/-- On a weekday list the interval attempt of `parseEverySpec` falls through. -/
theorem intervalDate_weekdays (spec : List Char) (cd today : Time)
    (h : ∀ t ∈ strings.Split spec ',', weekdayOf (strings.TrimSpace t) ≠ none) :
    intervalDate spec cd today = none := by
  cases hi : intervalDate spec cd today with
  | none => rfl
  | some t =>
    exfalso
    obtain ⟨s, u, n, hp, rfl, hA, _⟩ := intervalDate_eq_some spec cd today t hi
    obtain ⟨h1, h2⟩ := interval_not_weekday s u n hp.2 hA
    exact h (s ++ [u]) (by rw [h1]; simp) h2

theorem parseEverySpec_interval (s : List Char) (u : Char) (n : Int) (cd today : Time)
    (hp : 0 < n ∧ isUnit u) (hA : strconv.Atoi s = some n) :
    parseEverySpec (s ++ [u]) cd today = (advanceByInterval cd n u today hp, none) := by
  unfold parseEverySpec
  rw [intervalDate_some s u n cd today hp.2 hA hp.1]

theorem parseEverySpec_weekdays (spec : List Char) (cd today : Time)
    (h : ∀ t ∈ strings.Split spec ',', weekdayOf (strings.TrimSpace t) ≠ none) :
    ∃ ws, ws ≠ [] ∧ (∀ w, w ∈ ws ↔ InDaySet spec w) ∧
      parseEverySpec spec cd today = (nextMatchingWeekday cd ws today, none) := by
  obtain ⟨ws, hres, hmem⟩ := collectWeekdays_ok (strings.Split spec ',') [] h
  have hmem2 : ∀ w, w ∈ ws ↔ InDaySet spec w := by
    intro w
    rw [hmem w]
    simp [InDaySet]
  have hne : ws ≠ [] := by
    obtain ⟨t, ht⟩ := List.exists_mem_of_ne_nil _ (Split_ne_nil spec ',')
    cases hw : weekdayOf (strings.TrimSpace t) with
    | none => exact absurd hw (h t ht)
    | some w =>
      have : w ∈ ws := (hmem2 w).mpr ⟨t, ht, hw⟩
      exact List.ne_nil_of_mem this
  refine ⟨ws, hne, hmem2, ?_⟩
  unfold parseEverySpec
  rw [intervalDate_weekdays spec cd today h, hres]
  have hlen : ¬ ws.length = 0 := by
    intro h0; exact hne (List.length_eq_zero.mp h0)
  simp only [hlen, if_false]

theorem parseEverySpec_error (spec : List Char) (cd today : Time)
    (hi : intervalDate spec cd today = none)
    (h : ∃ t ∈ strings.Split spec ',', weekdayOf (strings.TrimSpace t) = none) :
    ∃ e, parseEverySpec spec cd today = (Time.zero, some e) := by
  obtain ⟨p, hp⟩ := collectWeekdays_error (strings.Split spec ',') [] h
  unfold parseEverySpec
  rw [hi, hp]
  exact ⟨_, rfl⟩

theorem advanceByInterval_not_before (cd : Time) (n : Int) (u : Char) (today : Time)
    (hp : 0 < n ∧ isUnit u) : (advanceByInterval cd n u today hp).Before today = false := by
  obtain ⟨k, _, hres, hnb, _⟩ := advanceByInterval_spec n u today hp cd
  rw [hres]; exact hnb

theorem nextMatchingWeekday_eq (cd : Time) (ws : List Weekday) (today : Time) :
    nextMatchingWeekday cd ws today = searchWeekday ws 7 (searchStart cd today) := by
  unfold nextMatchingWeekday searchStart plusDays
  simp only [AddDate_days_eq]

theorem searchStart_not_before (cd today : Time) :
    (searchStart cd today).instant ≥ today.instant ∧
    (searchStart cd today).instant ≥ (plusDays cd 1).instant := by
  unfold searchStart
  by_cases h : (plusDays cd 1).Before today = true
  · rw [if_pos h]
    have : (plusDays cd 1).instant < today.instant := by simpa [Time.Before] using h
    omega
  · rw [if_neg h]
    have : ¬ (plusDays cd 1).instant < today.instant := by simpa [Time.Before] using h
    omega

theorem plusDays_instant (t : Time) (i : Nat) : t.instant ≤ (plusDays t i).instant := by
  unfold plusDays Time.instant
  simp only
  omega

theorem nextMatchingWeekday_not_before (cd : Time) (ws : List Weekday) (today : Time) :
    (nextMatchingWeekday cd ws today).Before today = false := by
  rw [nextMatchingWeekday_eq]
  obtain ⟨i, _, hres, _, _⟩ := searchWeekday_spec ws 7 (searchStart cd today)
  rw [hres, AddDate_days_eq]
  have h1 := (searchStart_not_before cd today).1
  have h2 := plusDays_instant (searchStart cd today) i
  unfold plusDays at h2
  simp only [Time.Before, decide_eq_false_iff_not, not_lt]
  omega

/-- What `parseEverySpec` returns: the result of one of its two loops with no
error, or the zero time with an error. -/
theorem parseEverySpec_result (spec : List Char) (cd today : Time) :
    ((parseEverySpec spec cd today).2 = none ∧
      (parseEverySpec spec cd today).1.Before today = false) ∨
    (∃ e, parseEverySpec spec cd today = (Time.zero, some e)) := by
  cases hi : intervalDate spec cd today with
  | some t =>
    obtain ⟨s, u, n, hp, rfl, hA, rfl⟩ := intervalDate_eq_some spec cd today t hi
    left
    rw [parseEverySpec_interval s u n cd today hp hA]
    exact ⟨rfl, advanceByInterval_not_before _ _ _ _ _⟩
  | none =>
    by_cases h : ∀ t ∈ strings.Split spec ',', weekdayOf (strings.TrimSpace t) ≠ none
    · obtain ⟨ws, _, _, hres⟩ := parseEverySpec_weekdays spec cd today h
      left
      rw [hres]
      exact ⟨rfl, nextMatchingWeekday_not_before _ _ _⟩
    · right
      push_neg at h
      exact parseEverySpec_error spec cd today hi h

/-- C1: whenever `NextDueDate` accepts the pattern (returns no error), the
date it returns is not before today, midnight of the current day, whatever
the current due date. -/
theorem C1_NextDueDate_not_before_today (pattern : List Char) (currentDue now : Time)
    (h : (NextDueDate pattern currentDue now).2 = none) :
    (NextDueDate pattern currentDue now).1.Before (midnight now) = false := by
  by_cases hk : ∃ n u, IsInterval (normalize pattern) n u
  · obtain ⟨n, u, hI⟩ := hk
    rw [NextDueDate_interval pattern currentDue now n u hI hI.pos_unit]
    exact advanceByInterval_not_before _ _ _ _ _
  · by_cases hpre : strings.HasPrefix (normalize pattern) "every ".toList = true
    · rw [NextDueDate_every pattern currentDue now hpre] at h ⊢
      rcases parseEverySpec_result (strings.TrimSpace ((normalize pattern).drop 6)) currentDue
        (midnight now) with ⟨h1, h2⟩ | ⟨e, he⟩
      · rw [if_neg (by simp [h1])]
        exact h2
      · rw [he] at h
        simp at h
    · exfalso
      have hkw : normalize pattern ∉ keywords := by
        intro hmem
        apply hk
        simp only [keywords, List.mem_cons, List.mem_singleton, List.not_mem_nil, or_false] at hmem
        rcases hmem with h1 | h1 | h1 | h1
        · exact ⟨1, 'd', Or.inl ⟨h1, rfl, rfl⟩⟩
        · exact ⟨1, 'w', Or.inr (Or.inl ⟨h1, rfl, rfl⟩)⟩
        · exact ⟨1, 'm', Or.inr (Or.inr (Or.inl ⟨h1, rfl, rfl⟩))⟩
        · exact ⟨1, 'y', Or.inr (Or.inr (Or.inr (Or.inl ⟨h1, rfl, rfl⟩)))⟩
      unfold normalize at hkw hpre
      simp only [keywords, List.mem_cons, List.mem_singleton, not_or, List.not_mem_nil,
        or_false] at hkw
      unfold NextDueDate at h
      simp only [hkw, hpre, if_false] at h
      cases h

/-- C1 at concrete inputs. -/
theorem C1_NextDueDate_not_before_today_witness :
    (NextDueDate "weekly".toList (Date 2020 1 1 0 0) (Date 2026 11 4 36000000000000 3600)).2 = none ∧
    (NextDueDate "weekly".toList (Date 2020 1 1 0 0) (Date 2026 11 4 36000000000000 3600)).1.Before
      (midnight (Date 2026 11 4 36000000000000 3600)) = false := by
  have hI : IsInterval (normalize "weekly".toList) 1 'w' := by
    right; left
    refine ⟨?_, rfl, rfl⟩
    simp [normalize, strings.ToLower, strings.TrimSpace, strings.trimLeft,
        strings.trimRightRev, strings.leadingSpace, strings.trailingSpace, strings.asciiSpace]
  have h2 : (NextDueDate "weekly".toList (Date 2020 1 1 0 0)
      (Date 2026 11 4 36000000000000 3600)).2 = none := by
    rw [NextDueDate_interval _ _ _ 1 'w' hI (by decide)]
  exact ⟨h2, C1_NextDueDate_not_before_today _ _ _ h2⟩

/-- C3: for a weekday-list pattern `NextDueDate` returns, with no error, the
earliest date whose weekday is named in the list, searching day by day from
the start of the search: the day after the current due date, or today when
that day is before today.  The result is at most 6 days after the start, its
weekday is in the set, and no earlier date of the search has a weekday in the
set. -/
theorem C3_NextDueDate_weekdays (pattern : List Char) (currentDue now : Time)
    (h : IsWeekdayList (normalize pattern)) :
    ∃ i : Nat, i ≤ 6 ∧
      NextDueDate pattern currentDue now
        = (plusDays (searchStart currentDue (midnight now)) i, none) ∧
      InDaySet (strings.TrimSpace ((normalize pattern).drop 6))
        (plusDays (searchStart currentDue (midnight now)) i).Weekday ∧
      (∀ j : Nat, j < i → ¬ InDaySet (strings.TrimSpace ((normalize pattern).drop 6))
        (plusDays (searchStart currentDue (midnight now)) j).Weekday) ∧
      (plusDays (searchStart currentDue (midnight now)) i).Before (midnight now) = false ∧
      (plusDays (searchStart currentDue (midnight now)) i).Before (plusDays currentDue 1)
        = false := by
  obtain ⟨hpre, hall⟩ := h
  obtain ⟨ws, hne, hmem, hres⟩ :=
    parseEverySpec_weekdays (strings.TrimSpace ((normalize pattern).drop 6)) currentDue
      (midnight now) hall
  obtain ⟨i, hi, hsearch, hin, hmin⟩ :=
    searchWeekday_seven ws (searchStart currentDue (midnight now)) hne
  rw [AddDate_days_eq] at hsearch hin
  refine ⟨i, hi, ?_, ?_, ?_, ?_, ?_⟩
  · rw [NextDueDate_every pattern currentDue now hpre, hres, nextMatchingWeekday_eq, hsearch]
    simp [plusDays]
  · exact (hmem _).mp hin
  · intro j hj hd
    have := hmin j hj
    rw [AddDate_days_eq] at this
    exact this ((hmem _).mpr hd)
  · have h1 := (searchStart_not_before currentDue (midnight now)).1
    have h2 := plusDays_instant (searchStart currentDue (midnight now)) i
    simp only [Time.Before, decide_eq_false_iff_not, not_lt]
    omega
  · have h1 := (searchStart_not_before currentDue (midnight now)).2
    have h2 := plusDays_instant (searchStart currentDue (midnight now)) i
    simp only [Time.Before, decide_eq_false_iff_not, not_lt]
    omega

/-- C3 at concrete inputs. -/
theorem C3_NextDueDate_weekdays_witness :
    IsWeekdayList (normalize "every wed,fri".toList) ∧
    (Date 2099 1 5 0 0).Weekday = Weekday.Monday ∧
    NextDueDate "every wed,fri".toList (Date 2099 1 5 0 0) (Date 2026 11 4 0 0)
      = (Date 2099 1 7 0 0, none) ∧
    (Date 2099 1 7 0 0).Weekday = Weekday.Wednesday := by
  have e1 : normalize "every wed,fri".toList = "every wed,fri".toList := by
    simp [normalize, strings.ToLower, strings.TrimSpace, strings.trimLeft, strings.trimRightRev,
      strings.leadingSpace, strings.trailingSpace, strings.asciiSpace]
  have e2 : strings.TrimSpace ("every wed,fri".toList.drop 6) = "wed,fri".toList := by
    simp [strings.TrimSpace, strings.trimLeft, strings.trimRightRev,
      strings.leadingSpace, strings.trailingSpace, strings.asciiSpace]
  have e3 : strings.TrimSpace "wed".toList = "wed".toList := strings.TrimSpace_stable _ rfl rfl
  have e4 : strings.TrimSpace "fri".toList = "fri".toList := strings.TrimSpace_stable _ rfl rfl
  have split : strings.Split "wed,fri".toList ',' = ["wed".toList, "fri".toList] := by decide
  have hW : IsWeekdayList (normalize "every wed,fri".toList) := by
    rw [e1]
    refine ⟨by decide, ?_⟩
    rw [e2, split]
    intro t ht
    simp only [List.mem_cons, List.mem_singleton, List.not_mem_nil, or_false] at ht
    rcases ht with rfl | rfl
    · rw [e3]; decide
    · rw [e4]; decide
  have m : midnight (Date 2026 11 4 0 0) = Date 2026 11 4 0 0 := by
    rw [midnight_eq]; rfl
  have hstart : searchStart (Date 2099 1 5 0 0) (Date 2026 11 4 0 0) = Date 2099 1 6 0 0 := by
    decide
  have inSet : ∀ w, InDaySet "wed,fri".toList w ↔ (w = Weekday.Wednesday ∨ w = Weekday.Friday) := by
    intro w
    unfold InDaySet
    rw [split]
    simp only [List.mem_cons, List.mem_singleton, List.not_mem_nil, or_false, exists_eq_or_imp,
      exists_eq_left, e3, e4]
    have w1 : weekdayOf "wed".toList = some Weekday.Wednesday := by decide
    have w2 : weekdayOf "fri".toList = some Weekday.Friday := by decide
    rw [w1, w2]
    simp only [Option.some.injEq]
    constructor
    · rintro (h | h)
      · exact Or.inl h.symm
      · exact Or.inr h.symm
    · rintro (h | h)
      · exact Or.inl h.symm
      · exact Or.inr h.symm
  refine ⟨hW, by decide, ?_, by decide⟩
  obtain ⟨i, hi, hres, hin, hmin, _, _⟩ :=
    C3_NextDueDate_weekdays "every wed,fri".toList (Date 2099 1 5 0 0) (Date 2026 11 4 0 0) hW
  rw [e1, e2, m, hstart] at hin hmin
  rw [m, hstart] at hres
  rw [hres]
  have hi1 : i = 1 := by
    by_contra hne
    by_cases h0 : i = 0
    · subst h0
      rw [inSet] at hin
      revert hin; decide
    · apply hmin 1 (by omega)
      rw [inSet]
      decide
  subst hi1
  decide

/-- The loop of `advanceByInterval` depends on the count and the unit only
through the step they stand for. -/
theorem advanceByInterval_congr (n : Int) (u : Char) (m : Int) (v : Char) (today : Time)
    (h : 0 < n ∧ isUnit u) (k : 0 < m ∧ isUnit v)
    (hf : ∀ t, addInterval t n u = addInterval t m v) (cd : Time) :
    advanceByInterval cd n u today h = advanceByInterval cd m v today k := by
  generalize hm : (today.instant - cd.instant).toNat = d
  induction d using Nat.strong_induction_on generalizing cd with
  | _ d ih =>
    rw [advanceByInterval_unfold, advanceByInterval_unfold cd m v, ← hf cd]
    by_cases hb : (addInterval cd n u).Before today = true
    · rw [if_pos hb, if_pos hb]
      have hlt := addInterval_instant cd n u h.1 h.2
      simp only [Time.Before, decide_eq_true_eq] at hb
      exact ih _ (by omega) _ rfl
    · rw [if_neg hb, if_neg hb]

theorem normalize_plain (s : List Char) (h1 : strings.ToLower s = s)
    (h2 : strings.leadingSpace s = 0) (h3 : strings.trailingSpace s.reverse = 0) :
    normalize s = s := by
  unfold normalize
  rw [h1]
  exact strings.TrimSpace_stable s h2 h3

theorem isInterval_keyword_daily : IsInterval (normalize "daily".toList) 1 'd' := by
  refine Or.inl ⟨?_, rfl, rfl⟩
  simp [normalize, strings.ToLower, strings.TrimSpace, strings.trimLeft,
    strings.trimRightRev, strings.leadingSpace, strings.trailingSpace, strings.asciiSpace]

theorem isInterval_keyword_weekly : IsInterval (normalize "weekly".toList) 1 'w' := by
  refine Or.inr (Or.inl ⟨?_, rfl, rfl⟩)
  simp [normalize, strings.ToLower, strings.TrimSpace, strings.trimLeft,
    strings.trimRightRev, strings.leadingSpace, strings.trailingSpace, strings.asciiSpace]

theorem isInterval_keyword_monthly : IsInterval (normalize "monthly".toList) 1 'm' := by
  refine Or.inr (Or.inr (Or.inl ⟨?_, rfl, rfl⟩))
  simp [normalize, strings.ToLower, strings.TrimSpace, strings.trimLeft,
    strings.trimRightRev, strings.leadingSpace, strings.trailingSpace, strings.asciiSpace]

theorem isInterval_keyword_yearly : IsInterval (normalize "yearly".toList) 1 'y' := by
  refine Or.inr (Or.inr (Or.inr (Or.inl ⟨?_, rfl, rfl⟩)))
  simp [normalize, strings.ToLower, strings.TrimSpace, strings.trimLeft,
    strings.trimRightRev, strings.leadingSpace, strings.trailingSpace, strings.asciiSpace]

/-- The interval read from a pattern `every <digit><unit>` that is already
trimmed and in lower case. -/
theorem isEvery_digit (p : List Char) (d u : Char) (n : Int)
    (hp : p = "every ".toList ++ [d, u]) (hn : normalize p = p)
    (ht : strings.TrimSpace [d, u] = [d, u])
    (hu : isUnit u) (h0 : 0 < n) (hA : strconv.Atoi [d] = some n) :
    IsEvery (normalize p) n u := by
  rw [hn]
  subst hp
  exact ⟨rfl, hu, h0, [d], ht, hA⟩

theorem IsEvery.isInterval {p : List Char} {n : Int} {u : Char} (h : IsEvery p n u) :
    IsInterval p n u := Or.inr (Or.inr (Or.inr (Or.inr h)))

theorem isEvery_1d : IsEvery (normalize "every 1d".toList) 1 'd' :=
  isEvery_digit _ '1' 'd' 1 rfl
    (by simp [normalize, strings.ToLower, strings.TrimSpace, strings.trimLeft,
      strings.trimRightRev, strings.leadingSpace, strings.trailingSpace, strings.asciiSpace])
    (strings.TrimSpace_stable _ rfl rfl) (by decide) (by decide) (by decide)

theorem isEvery_7d : IsEvery (normalize "every 7d".toList) 7 'd' :=
  isEvery_digit _ '7' 'd' 7 rfl
    (by simp [normalize, strings.ToLower, strings.TrimSpace, strings.trimLeft,
      strings.trimRightRev, strings.leadingSpace, strings.trailingSpace, strings.asciiSpace])
    (strings.TrimSpace_stable _ rfl rfl) (by decide) (by decide) (by decide)

theorem isEvery_1w : IsEvery (normalize "every 1w".toList) 1 'w' :=
  isEvery_digit _ '1' 'w' 1 rfl
    (by simp [normalize, strings.ToLower, strings.TrimSpace, strings.trimLeft,
      strings.trimRightRev, strings.leadingSpace, strings.trailingSpace, strings.asciiSpace])
    (strings.TrimSpace_stable _ rfl rfl) (by decide) (by decide) (by decide)

theorem isEvery_1m : IsEvery (normalize "every 1m".toList) 1 'm' :=
  isEvery_digit _ '1' 'm' 1 rfl
    (by simp [normalize, strings.ToLower, strings.TrimSpace, strings.trimLeft,
      strings.trimRightRev, strings.leadingSpace, strings.trailingSpace, strings.asciiSpace])
    (strings.TrimSpace_stable _ rfl rfl) (by decide) (by decide) (by decide)

theorem isEvery_1y : IsEvery (normalize "every 1y".toList) 1 'y' :=
  isEvery_digit _ '1' 'y' 1 rfl
    (by simp [normalize, strings.ToLower, strings.TrimSpace, strings.trimLeft,
      strings.trimRightRev, strings.leadingSpace, strings.trailingSpace, strings.asciiSpace])
    (strings.TrimSpace_stable _ rfl rfl) (by decide) (by decide) (by decide)

/-- C25: each keyword is the same recurrence as the interval with count 1:
for every current due date and every value of the clock, `NextDueDate` gives
for `daily` what it gives for `every 1d`, for `weekly` what it gives for
`every 1w` and for `every 7d`, for `monthly` what it gives for `every 1m`, and
for `yearly` what it gives for `every 1y`. -/
theorem C25_keywords_are_intervals (currentDue now : Time) :
    NextDueDate "daily".toList currentDue now = NextDueDate "every 1d".toList currentDue now ∧
    NextDueDate "weekly".toList currentDue now = NextDueDate "every 1w".toList currentDue now ∧
    NextDueDate "every 1w".toList currentDue now = NextDueDate "every 7d".toList currentDue now ∧
    NextDueDate "monthly".toList currentDue now = NextDueDate "every 1m".toList currentDue now ∧
    NextDueDate "yearly".toList currentDue now = NextDueDate "every 1y".toList currentDue now := by
  refine ⟨?_, ?_, ?_, ?_, ?_⟩
  · rw [NextDueDate_interval _ _ _ 1 'd' isInterval_keyword_daily (by decide),
      NextDueDate_interval _ _ _ 1 'd' isEvery_1d.isInterval (by decide)]
  · rw [NextDueDate_interval _ _ _ 1 'w' isInterval_keyword_weekly (by decide),
      NextDueDate_interval _ _ _ 1 'w' isEvery_1w.isInterval (by decide)]
  · rw [NextDueDate_interval _ _ _ 1 'w' isEvery_1w.isInterval (by decide),
      NextDueDate_interval _ _ _ 7 'd' isEvery_7d.isInterval (by decide),
      advanceByInterval_congr 1 'w' 7 'd' _ (by decide) (by decide) (fun t => by
        simp [addInterval])]
  · rw [NextDueDate_interval _ _ _ 1 'm' isInterval_keyword_monthly (by decide),
      NextDueDate_interval _ _ _ 1 'm' isEvery_1m.isInterval (by decide)]
  · rw [NextDueDate_interval _ _ _ 1 'y' isInterval_keyword_yearly (by decide),
      NextDueDate_interval _ _ _ 1 'y' isEvery_1y.isInterval (by decide)]

theorem digit_plain (c : Char) (h : '0' ≤ c ∧ c ≤ '9') :
    c.toLower = c ∧ c.toNat < 128 ∧ strings.asciiSpace c = false := by
  have h1 : (48 : Nat) ≤ c.toNat := h.1
  have h2 : c.toNat ≤ 57 := h.2
  have e : c = Char.ofNat c.toNat := (Char.ofNat_toNat c).symm
  generalize c.toNat = k at h1 h2 e
  subst e
  interval_cases k <;> decide

theorem unit_plain (u : Char) (hu : isUnit u) :
    u.toLower = u ∧ u.toNat < 128 ∧ strings.asciiSpace u = false := by
  rcases hu with rfl | rfl | rfl | rfl <;> decide

theorem toLower_digits (xs : List Char) (h : strconv.IsDigits xs) : strings.ToLower xs = xs := by
  induction xs with
  | nil => rfl
  | cons c r ih =>
    simp only [strings.ToLower, List.map_cons]
    rw [(digit_plain c (h c (List.mem_cons_self _ _))).1]
    congr 1
    exact ih (fun d hd => h d (List.mem_cons_of_mem _ hd))

/-- A count written in digits followed by a unit is free of surrounding white
space. -/
theorem TrimSpace_count_unit (xs : List Char) (u : Char) (hx : xs ≠ [])
    (hd : strconv.IsDigits xs) (hu : isUnit u) :
    strings.TrimSpace (xs ++ [u]) = xs ++ [u] := by
  apply strings.TrimSpace_stable
  · match xs, hx with
    | c :: r, _ =>
      obtain ⟨_, h1, h2⟩ := digit_plain c (hd c (List.mem_cons_self _ _))
      exact strings.leadingSpace_low c _ h1 h2
  · rw [List.reverse_append]
    obtain ⟨_, h1, h2⟩ := unit_plain u hu
    exact strings.trailingSpace_low u _ h1 h2

/-- The normalised form `every <n><unit>` of an interval is read by
`NextDueDate` as the interval it was written from. -/
theorem isInterval_normalized (n : Int) (u : Char) (h0 : 0 < n) (hlt : n < 2 ^ 63)
    (hu : isUnit u) :
    normalize ("every ".toList ++ strconv.formatInt n ++ [u])
        = "every ".toList ++ strconv.formatInt n ++ [u] ∧
      IsInterval (normalize ("every ".toList ++ strconv.formatInt n ++ [u])) n u := by
  obtain ⟨hne, hdig, _⟩ := strconv.repr_spec n.toNat
  rw [← formatInt_pos n h0] at hne hdig
  have hA := strconv.Atoi_formatInt n (le_of_lt h0) hlt
  generalize strconv.formatInt n = xs at hne hdig hA
  obtain ⟨hl, h1, h2⟩ := unit_plain u hu
  have e1 : normalize ("every ".toList ++ xs ++ [u]) = "every ".toList ++ xs ++ [u] := by
    apply normalize_plain
    · simp only [strings.ToLower, List.map_append, List.map_cons, List.map_nil, hl]
      have := toLower_digits xs hdig
      simp only [strings.ToLower] at this
      rw [this]
      rfl
    · exact strings.leadingSpace_low 'e' _ (by decide) (by decide)
    · rw [List.reverse_append]
      exact strings.trailingSpace_low u _ h1 h2
  refine ⟨e1, ?_⟩
  rw [e1]
  refine Or.inr (Or.inr (Or.inr (Or.inr ⟨by simp [strings.HasPrefix], hu, h0, xs, ?_, hA⟩)))
  have e2 : ("every ".toList ++ xs ++ [u]).drop 6 = xs ++ [u] := by simp
  rw [e2]
  exact TrimSpace_count_unit xs u hne hdig hu

/-- What `ParsePattern` returns for an interval: `every `, the count in
decimal, the unit. -/
theorem ParsePattern_isEvery (input : List Char) (n : Int) (u : Char)
    (h : IsEvery (normalize input) n u) :
    ParsePattern input = ("every ".toList ++ strconv.formatInt n ++ [u], none) ∧ n < 2 ^ 63 := by
  obtain ⟨hpre, hu, hn, s, hs, hA⟩ := h
  refine ⟨?_, strconv.Atoi_lt s n hA⟩
  rw [ParsePattern_every input hpre, hs, parseInterval_some s u n hu hA]
  rw [if_neg (by simp), if_neg (by omega)]

/-- What `ParsePattern` returns for a keyword, whatever its letter case and the
white space around it. -/
theorem ParsePattern_of_keyword (input : List Char) (hkw : normalize input ∈ keywords) :
    ParsePattern input = (normalize input, none) := by
  unfold ParsePattern
  unfold normalize at hkw ⊢
  simp only [keywords, List.mem_cons, List.mem_singleton, List.not_mem_nil, or_false] at hkw
  have hne : strings.TrimSpace (strings.ToLower input) ≠ [] := by
    rcases hkw with h | h | h | h <;> rw [h] <;> decide
  simp only [if_neg hne, if_pos hkw]

theorem normalize_keyword (kw : List Char) (h : kw ∈ keywords) : normalize kw = kw := by
  simp only [keywords, List.mem_cons, List.mem_singleton, List.not_mem_nil, or_false] at h
  rcases h with rfl | rfl | rfl | rfl <;>
    simp [normalize, strings.ToLower, strings.TrimSpace, strings.trimLeft,
      strings.trimRightRev, strings.leadingSpace, strings.trailingSpace, strings.asciiSpace]

end recurrence

/-! ## Facts about the query language -/

namespace query

theorem tokenizeLoop_nil (pos : Nat) (toks : List Token) :
    tokenizeLoop [] pos toks = .ok (toks ++ [⟨.TokenEOF, [], pos⟩]) := by
  rw [tokenizeLoop]

theorem tokenizeLoop_blank (cs : List Char) (pos : Nat) (toks : List Token) :
    tokenizeLoop (' ' :: cs) pos toks = tokenizeLoop cs (pos + 1) toks := by
  rw [tokenizeLoop]
  simp [unicode.IsSpace]

theorem tokenizeLoop_lparen (cs : List Char) (pos : Nat) (toks : List Token) :
    tokenizeLoop ('(' :: cs) pos toks
      = tokenizeLoop cs (pos + 1) (toks ++ [⟨.TokenLeftParen, ['('], pos⟩]) := by
  rw [tokenizeLoop]
  simp [unicode.IsSpace]

theorem tokenizeLoop_rparen (cs : List Char) (pos : Nat) (toks : List Token) :
    tokenizeLoop (')' :: cs) pos toks
      = tokenizeLoop cs (pos + 1) (toks ++ [⟨.TokenRightParen, [')'], pos⟩]) := by
  rw [tokenizeLoop]
  simp [unicode.IsSpace]

/-- The tokenizer on a comparison operator. -/
theorem tokenizeLoop_operator (op : List Char) (ty : TokenType) (h : operatorType op = some ty)
    (cs : List Char) (pos : Nat) (toks : List Token) :
    tokenizeLoop (op ++ cs) pos toks
      = tokenizeLoop cs (pos + op.length) (toks ++ [⟨ty, op, pos⟩]) := by
  unfold operatorType at h
  split_ifs at h with h1 h2 h3 h4 h5 <;> cases h <;> subst op
  · rw [List.singleton_append, tokenizeLoop]; simp [unicode.IsSpace]
  · rw [List.singleton_append, tokenizeLoop]; simp [unicode.IsSpace]
  · rw [List.singleton_append, tokenizeLoop]; simp [unicode.IsSpace]
  · rw [List.singleton_append, tokenizeLoop]; simp [unicode.IsSpace]
  · show tokenizeLoop ('!' :: '=' :: cs) pos toks = _
    rw [tokenizeLoop]; simp [unicode.IsSpace]

theorem takeWhile_word (w r : List Char) (hw : ∀ x ∈ w, isWordByte x = true) (hr : EndsWord r) :
    (w ++ r).takeWhile isWordByte = w ∧ (w ++ r).dropWhile isWordByte = r := by
  induction w with
  | nil =>
    cases r with
    | nil => simp
    | cons d r1 => simp [List.takeWhile, List.dropWhile, hr d r1 rfl]
  | cons a w ih =>
    have ha := hw a (List.mem_cons_self _ _)
    obtain ⟨h1, h2⟩ := ih (fun x hx => hw x (List.mem_cons_of_mem _ hx))
    simp [List.takeWhile, List.dropWhile, ha, h1, h2]

/-- The tokenizer on a word followed by text that ends it. -/
theorem tokenizeLoop_word (w r : List Char) (hne : w ≠ []) (hw : ∀ x ∈ w, isWordByte x = true)
    (hr : EndsWord r) (pos : Nat) (toks : List Token) :
    tokenizeLoop (w ++ r) pos toks
      = tokenizeLoop r (pos + w.length) (toks ++ [wordToken w pos toks]) := by
  obtain ⟨h1, h2⟩ := takeWhile_word w r hw hr
  cases w with
  | nil => exact absurd rfl hne
  | cons c w =>
    have hc := hw c (List.mem_cons_self _ _)
    simp only [isWordByte, Bool.and_eq_true, Bool.not_eq_true', bne_iff_ne, ne_eq] at hc
    obtain ⟨⟨⟨⟨⟨⟨⟨c1, c2⟩, c3⟩, c4⟩, c5⟩, c6⟩, c7⟩, c8⟩ := hc
    rw [List.cons_append] at h1 h2 ⊢
    rw [tokenizeLoop]
    simp only [c1, c2, c3, c4, c5, c6, c7, c8, h1, h2, if_false, false_and, Bool.false_eq_true,
      dite_false, reduceCtorEq]

theorem endsWord_nil : EndsWord [] := by
  intro d r1 h; cases h

theorem endsWord_cons (d : Char) (r : List Char) (h : isWordByte d = false) :
    EndsWord (d :: r) := by
  intro d1 r1 h1
  cases h1
  exact h

theorem endsWord_operator (op : List Char) (ty : TokenType) (h : operatorType op = some ty)
    (r : List Char) : EndsWord (op ++ r) := by
  unfold operatorType at h
  split_ifs at h with h1 h2 h3 h4 h5 <;> subst op <;> exact endsWord_cons _ _ (by decide)

theorem operator_length (op : List Char) (ty : TokenType) (h : operatorType op = some ty) :
    1 ≤ op.length ∧ isOperator ty = true := by
  unfold operatorType at h
  split_ifs at h with h1 h2 h3 h4 h5 <;> subst op <;> cases h <;> decide

/-- A word read when the last token is not a comparison operator is a field. -/
theorem wordToken_field (w : List Char) (hw : IsWord w) (pos : Nat) (toks : List Token)
    (hl : ∀ t, toks.getLast? = some t → isOperator t.Typ = false) :
    wordToken w pos toks = ⟨.TokenField, w, pos⟩ := by
  obtain ⟨_, _, k1, k2, k3⟩ := hw
  unfold wordToken
  simp only [k1, k2, k3, if_false]
  cases hlast : toks.getLast? with
  | none => rfl
  | some last =>
    have := hl last hlast
    simp only [isOperator, Bool.or_eq_false_iff, beq_eq_false_iff_ne, ne_eq] at this
    obtain ⟨⟨⟨⟨a1, a2⟩, a3⟩, a4⟩, a5⟩ := this
    simp only [a1, a2, a3, a4, a5, or_self, if_false]

/-- A word read right after a comparison operator is a value. -/
theorem wordToken_value (w : List Char) (hw : IsWord w) (pos : Nat) (toks : List Token)
    (last : Token) (hl : isOperator last.Typ = true) :
    wordToken w pos (toks ++ [last]) = ⟨.TokenValue, w, pos⟩ := by
  obtain ⟨_, _, k1, k2, k3⟩ := hw
  unfold wordToken
  have hlast : (toks ++ [last]).getLast? = some last := by simp
  simp only [k1, k2, k3, if_false, hlast]
  simp only [isOperator, Bool.or_eq_true, beq_iff_eq] at hl
  have : last.Typ = .TokenColon ∨ last.Typ = .TokenGT ∨ last.Typ = .TokenLT ∨
      last.Typ = .TokenEQ ∨ last.Typ = .TokenNE := by tauto
  simp only [this, if_true]

theorem opType_eq (c : Clause) (h : operatorType c.op ≠ none) :
    operatorType c.op = some c.opType := by
  unfold Clause.opType
  cases ho : operatorType c.op with
  | none => exact absurd ho h
  | some ty => rfl

/-- The tokenizer on a clause, when the last token so far is not a comparison
operator and the text after the clause ends its value. -/
theorem tokenizeLoop_clause (c : Clause) (hc : c.WellFormed) (r : List Char) (hr : EndsWord r)
    (pos : Nat) (toks : List Token)
    (hl : ∀ t, toks.getLast? = some t → isOperator t.Typ = false) :
    tokenizeLoop (c.text ++ r) pos toks
      = tokenizeLoop r (pos + c.text.length) (toks ++ clauseTokens c pos) := by
  obtain ⟨hf, hv, ho, _, _⟩ := hc
  have ho := opType_eq c ho
  have e : c.text ++ r = c.field ++ (c.op ++ (c.value ++ r)) := by
    simp [Clause.text, List.append_assoc]
  rw [e, tokenizeLoop_word c.field _ hf.1 hf.2.1 (endsWord_operator c.op _ ho _),
    wordToken_field c.field hf pos toks hl, tokenizeLoop_operator c.op _ ho,
    tokenizeLoop_word c.value r hv.1 hv.2.1 hr,
    wordToken_value c.value hv _ _ _ (operator_length c.op _ ho).2]
  simp only [Clause.text, clauseTokens, List.length_append, List.append_assoc,
    List.singleton_append, Nat.add_assoc, List.cons_append, List.nil_append]

theorem clause_length (c : Clause) (hc : c.WellFormed) : 3 ≤ c.text.length := by
  obtain ⟨hf, hv, ho, _, _⟩ := hc
  have h1 := List.length_pos.mpr hf.1
  have h2 := List.length_pos.mpr hv.1
  have h3 := (operator_length c.op _ (opType_eq c ho)).1
  simp only [Clause.text, List.length_append]
  omega

theorem clauseTokens_last (c : Clause) (pos : Nat) (toks : List Token) :
    ∀ t, (toks ++ clauseTokens c pos).getLast? = some t → isOperator t.Typ = false := by
  intro t ht
  simp [clauseTokens] at ht
  rw [← ht]
  rfl

theorem wordToken_AND (pos : Nat) (toks : List Token) :
    wordToken "AND".toList pos toks = ⟨.TokenAND, "AND".toList, pos⟩ := by
  simp [wordToken, strings.ToUpper]

theorem wordToken_OR (pos : Nat) (toks : List Token) :
    wordToken "OR".toList pos toks = ⟨.TokenOR, "OR".toList, pos⟩ := by
  simp [wordToken, strings.ToUpper]

theorem wordToken_NOT (pos : Nat) (toks : List Token) :
    wordToken "NOT".toList pos toks = ⟨.TokenNOT, "NOT".toList, pos⟩ := by
  simp [wordToken, strings.ToUpper]

/-- The tokenizer on a keyword standing between two blanks. -/
theorem tokenizeLoop_keyword (kw : List Char) (ty : TokenType) (hne : kw ≠ [])
    (hw : ∀ x ∈ kw, isWordByte x = true)
    (hk : ∀ pos toks, wordToken kw pos toks = ⟨ty, kw, pos⟩)
    (r : List Char) (pos : Nat) (toks : List Token) :
    tokenizeLoop (' ' :: kw ++ ' ' :: r) pos toks
      = tokenizeLoop r (pos + kw.length + 2) (toks ++ [⟨ty, kw, pos + 1⟩]) := by
  rw [List.cons_append, tokenizeLoop_blank, tokenizeLoop_word kw _ hne hw
    (endsWord_cons _ _ (by decide)), hk, tokenizeLoop_blank]
  have e : pos + 1 + kw.length + 1 = pos + kw.length + 2 := by omega
  rw [e]

theorem tokenizeLoop_AND (r : List Char) (pos : Nat) (toks : List Token) :
    tokenizeLoop (" AND ".toList ++ r) pos toks
      = tokenizeLoop r (pos + 5) (toks ++ [⟨.TokenAND, "AND".toList, pos + 1⟩]) :=
  tokenizeLoop_keyword "AND".toList .TokenAND (by decide) (by decide) wordToken_AND r pos toks

theorem tokenizeLoop_OR (r : List Char) (pos : Nat) (toks : List Token) :
    tokenizeLoop (" OR ".toList ++ r) pos toks
      = tokenizeLoop r (pos + 4) (toks ++ [⟨.TokenOR, "OR".toList, pos + 1⟩]) :=
  tokenizeLoop_keyword "OR".toList .TokenOR (by decide) (by decide) wordToken_OR r pos toks

theorem tokenizeLoop_NOT (r : List Char) (pos : Nat) (toks : List Token) :
    tokenizeLoop ("NOT ".toList ++ r) pos toks
      = tokenizeLoop r (pos + 4) (toks ++ [⟨.TokenNOT, "NOT".toList, pos⟩]) := by
  show tokenizeLoop ("NOT".toList ++ ' ' :: r) pos toks = _
  rw [tokenizeLoop_word "NOT".toList _ (by decide) (by decide)
    (endsWord_cons _ _ (by decide)), wordToken_NOT, tokenizeLoop_blank]
  rfl

/-- The tokenizer on the part of a chain after its first clause. -/
theorem tokenizeLoop_chain (kw : List Char) (ty : TokenType) (hne : kw ≠ [])
    (hw : ∀ x ∈ kw, isWordByte x = true)
    (hk : ∀ pos toks, wordToken kw pos toks = ⟨ty, kw, pos⟩) (hty : isOperator ty = false)
    (more : List Clause) (hm : ∀ c ∈ more, c.WellFormed) (pos : Nat) (toks : List Token) :
    tokenizeLoop (more.map fun c => ' ' :: kw ++ ' ' :: c.text).flatten pos toks
      = .ok (toks ++ chainTokens ty kw pos more ++
          [⟨.TokenEOF, [], pos + ((more.map fun c => ' ' :: kw ++ ' ' :: c.text).flatten).length⟩])
    := by
  induction more generalizing pos toks with
  | nil => simp [chainTokens, tokenizeLoop_nil]
  | cons c cs ih =>
    have hc := hm c (List.mem_cons_self _ _)
    have hcs : ∀ c ∈ cs, c.WellFormed := fun x hx => hm x (List.mem_cons_of_mem _ hx)
    have hend : EndsWord (cs.map fun c => ' ' :: kw ++ ' ' :: c.text).flatten := by
      cases cs with
      | nil => exact endsWord_nil
      | cons d ds => exact endsWord_cons _ _ (by decide)
    have e : ((c :: cs).map fun c => ' ' :: kw ++ ' ' :: c.text).flatten
        = ' ' :: kw ++ ' ' :: (c.text ++ (cs.map fun c => ' ' :: kw ++ ' ' :: c.text).flatten) := by
      simp
    rw [e, tokenizeLoop_keyword kw ty hne hw hk,
      tokenizeLoop_clause c hc _ hend _ _ (by
        intro t ht
        simp at ht
        rw [← ht]; exact hty),
      ih hcs]
    simp only [chainTokens, List.append_assoc, List.singleton_append, List.cons_append,
      List.length_cons, List.length_append, List.nil_append]
    generalize (List.map _ cs).flatten.length = n
    have e : pos + kw.length + 2 + c.text.length + n
        = pos + (kw.length + (c.text.length + n + 1) + 1) := by omega
    rw [e]

@[simp] theorem Result.ok_bind {α β : Type} (v : α) (f : α → Result β) :
    (Result.ok v >>= f) = f v := rfl

@[simp] theorem Result.pure_eq {α : Type} (v : α) : (pure v : Result α) = Result.ok v := rfl

/-- The token at the position of the parser, seen from the types and texts of
the tokens left. -/
theorem shape_head (tokens : List Token) (pos : Nat) (ty : TokenType) (v : List Char)
    (S : List (TokenType × List Char))
    (h : (tokens.drop pos).map Token.shape = (ty, v) :: S) :
    ∃ t, tokens[pos]? = some t ∧ t.Typ = ty ∧ t.Value = v ∧ pos < tokens.length ∧
      (tokens.drop (pos + 1)).map Token.shape = S := by
  cases hd : tokens.drop pos with
  | nil => rw [hd] at h; cases h
  | cons t rest =>
    rw [hd] at h
    simp only [List.map_cons, List.cons.injEq, Token.shape, Prod.mk.injEq] at h
    obtain ⟨⟨h1, h2⟩, h3⟩ := h
    have hlt : pos < tokens.length := by
      by_contra hge
      rw [List.drop_eq_nil_of_le (by omega)] at hd
      cases hd
    refine ⟨t, ?_, h1, h2, hlt, ?_⟩
    · have := congrArg (fun l => l[0]?) hd
      simpa using this
    · have e : tokens.drop (pos + 1) = (tokens.drop pos).drop 1 := by
        rw [List.drop_drop]
      rw [e, hd]
      exact h3

theorem index_ofNat (tokens : List Token) (i : Nat) (t : Token) (h : tokens[i]? = some t) :
    index tokens (i : Int) = .ok t := by
  unfold index
  simp [h]

theorem current_shape (tokens : List Token) (pos : Nat) (t : Token)
    (h : tokens[pos]? = some t) (hlt : pos < tokens.length) :
    Parser.current ⟨tokens, pos⟩ = .ok t := by
  unfold Parser.current
  simp only [ge_iff_le, Nat.not_le.mpr hlt, if_false]
  exact index_ofNat tokens pos t h

theorem isAtEnd_shape (tokens : List Token) (pos : Nat) (t : Token)
    (h : tokens[pos]? = some t) (hlt : pos < tokens.length) :
    Parser.isAtEnd ⟨tokens, pos⟩ = .ok (t.Typ == .TokenEOF) := by
  unfold Parser.isAtEnd
  rw [current_shape tokens pos t h hlt]
  rfl

theorem check_shape (tokens : List Token) (pos : Nat) (t : Token)
    (h : tokens[pos]? = some t) (hlt : pos < tokens.length) (ty : TokenType) :
    Parser.check ⟨tokens, pos⟩ ty = .ok (t.Typ != .TokenEOF && t.Typ == ty) := by
  unfold Parser.check
  rw [isAtEnd_shape tokens pos t h hlt, current_shape tokens pos t h hlt]
  by_cases he : t.Typ = .TokenEOF
  · simp [he]
  · simp [he]

theorem advance_shape (tokens : List Token) (pos : Nat) (t : Token)
    (h : tokens[pos]? = some t) (hlt : pos < tokens.length) (hne : t.Typ ≠ .TokenEOF) :
    Parser.advance ⟨tokens, pos⟩ = .ok (t, ⟨tokens, pos + 1⟩) := by
  unfold Parser.advance
  rw [isAtEnd_shape tokens pos t h hlt]
  have hb : (t.Typ == TokenType.TokenEOF) = false := by simpa using hne
  simp only [Result.ok_bind, hb, Bool.not_false, if_true]
  have e : (((pos + 1 : Nat) : Int) - 1) = (pos : Int) := by push_cast; ring
  rw [e, index_ofNat tokens pos t h]
  rfl

/-- Function `match` on the type of the token at the position, which is not EOF. -/
theorem match1_hit (tokens : List Token) (pos : Nat) (ty : TokenType) (v : List Char)
    (S : List (TokenType × List Char))
    (h : (tokens.drop pos).map Token.shape = (ty, v) :: S) (hne : ty ≠ .TokenEOF) :
    Parser.match1 ⟨tokens, pos⟩ ty = .ok (true, ⟨tokens, pos + 1⟩) := by
  obtain ⟨t, ht, hty, _, hlt, _⟩ := shape_head tokens pos ty v S h
  unfold Parser.match1
  rw [check_shape tokens pos t ht hlt, advance_shape tokens pos t ht hlt (by rw [hty]; exact hne)]
  simp [hty, hne]

/-- Function `match` on another type than that of the token at the position. -/
theorem match1_miss (tokens : List Token) (pos : Nat) (ty ty1 : TokenType) (v : List Char)
    (S : List (TokenType × List Char))
    (h : (tokens.drop pos).map Token.shape = (ty, v) :: S) (hne : ty ≠ ty1) :
    Parser.match1 ⟨tokens, pos⟩ ty1 = .ok (false, ⟨tokens, pos⟩) := by
  obtain ⟨t, ht, hty, _, hlt, _⟩ := shape_head tokens pos ty v S h
  unfold Parser.match1
  rw [check_shape tokens pos t ht hlt]
  simp [hty, hne]

/-- Function `parseComparison` on the three tokens of a clause. -/
theorem parseComparison_clause (tokens : List Token) (pos : Nat) (f o v : List Char)
    (ty : TokenType) (hop : isOperator ty = true) (S : List (TokenType × List Char))
    (h : (tokens.drop pos).map Token.shape
      = (.TokenField, f) :: (ty, o) :: (.TokenValue, v) :: S) :
    Parser.parseComparison ⟨tokens, pos⟩ = .ok (.comparison f o v, ⟨tokens, pos + 3⟩) := by
  obtain ⟨t1, ht1, hty1, hv1, hlt1, h1⟩ := shape_head tokens pos _ _ _ h
  obtain ⟨t2, ht2, hty2, hv2, hlt2, h2⟩ := shape_head tokens (pos + 1) _ _ _ h1
  obtain ⟨t3, ht3, hty3, hv3, hlt3, h3⟩ := shape_head tokens (pos + 1 + 1) _ _ _ h2
  have hopne : ty ≠ .TokenEOF := by
    intro he; rw [he] at hop; revert hop; decide
  have hc : (ty == .TokenColon || ty == .TokenGT || ty == .TokenLT || ty == .TokenEQ ||
      ty == .TokenNE) = true := hop
  unfold Parser.parseComparison
  rw [check_shape tokens pos t1 ht1 hlt1]
  simp only [hty1, Result.ok_bind]
  rw [advance_shape tokens pos t1 ht1 hlt1 (by rw [hty1]; decide)]
  simp only [Result.ok_bind]
  rw [check_shape tokens (pos + 1) t2 ht2 hlt2, check_shape tokens (pos + 1) t2 ht2 hlt2,
    check_shape tokens (pos + 1) t2 ht2 hlt2, check_shape tokens (pos + 1) t2 ht2 hlt2,
    check_shape tokens (pos + 1) t2 ht2 hlt2]
  simp only [hty2, Result.ok_bind]
  rw [advance_shape tokens (pos + 1) t2 ht2 hlt2 (by rw [hty2]; exact hopne)]
  simp only [Result.ok_bind]
  rw [check_shape tokens (pos + 1 + 1) t3 ht3 hlt3]
  simp only [hty3, Result.ok_bind]
  rw [advance_shape tokens (pos + 1 + 1) t3 ht3 hlt3 (by rw [hty3]; decide)]
  simp only [Bool.or_eq_true, beq_iff_eq] at hc
  have hne : (ty != TokenType.TokenEOF) = true := by simpa using hopne
  rcases hc with (((hc | hc) | hc) | hc) | hc <;> subst hc <;>
    simp [hv1, hv2, hv3]

theorem clauseShape_operator (c : Clause) (hc : c.WellFormed) : isOperator c.opType = true :=
  (operator_length c.op _ (opType_eq c hc.2.2.1)).2

/-- Function `parseFactor` on the tokens of a clause. -/
theorem parseFactor_clause (f : Nat) (tokens : List Token) (pos : Nat) (c : Clause)
    (hc : c.WellFormed) (S : List (TokenType × List Char))
    (h : (tokens.drop pos).map Token.shape = clauseShape c ++ S) :
    Parser.parseFactor (f + 1) ⟨tokens, pos⟩ = .ok (c.node, ⟨tokens, pos + 3⟩) := by
  simp only [clauseShape, List.cons_append, List.nil_append] at h
  unfold Parser.parseFactor
  rw [match1_miss tokens pos _ .TokenNOT _ _ h (by decide)]
  simp only [Result.ok_bind, Bool.false_eq_true, if_false]
  rw [match1_miss tokens pos _ .TokenLeftParen _ _ h (by decide)]
  simp only [Result.ok_bind, Bool.false_eq_true, if_false]
  exact parseComparison_clause tokens pos _ _ _ _ (clauseShape_operator c hc) S h

/-- Function `parseFactor` on `NOT`: the factor after it, negated. -/
theorem parseFactor_not (f : Nat) (tokens : List Token) (pos : Nat) (v : List Char)
    (S : List (TokenType × List Char))
    (h : (tokens.drop pos).map Token.shape = (.TokenNOT, v) :: S) :
    Parser.parseFactor (f + 1) ⟨tokens, pos⟩ =
      (Parser.parseFactor f ⟨tokens, pos + 1⟩ >>= fun r => .ok (Node.not r.1, r.2)) := by
  conv_lhs => unfold Parser.parseFactor
  rw [match1_hit tokens pos _ _ _ h (by decide)]
  simp only [Result.ok_bind, if_true]
  rfl

/-- Function `parseFactor` on `(`: the expression after it, then `)`. -/
theorem parseFactor_paren (f : Nat) (tokens : List Token) (pos : Nat) (v : List Char)
    (S : List (TokenType × List Char))
    (h : (tokens.drop pos).map Token.shape = (.TokenLeftParen, v) :: S) :
    Parser.parseFactor (f + 1) ⟨tokens, pos⟩ =
      (Parser.parseExpression f ⟨tokens, pos + 1⟩ >>= fun r =>
        r.2.match1 .TokenRightParen >>= fun m =>
          if !m.1 then (m.2.current >>= fun c => .err (.expectedRightParen c.Pos))
          else .ok (r.1, m.2)) := by
  conv_lhs => unfold Parser.parseFactor
  rw [match1_miss tokens pos _ .TokenNOT _ _ h (by decide)]
  simp only [Result.ok_bind, Bool.false_eq_true, if_false]
  rw [match1_hit tokens pos _ _ _ h (by decide)]
  simp only [Result.ok_bind, if_true]
  rfl

/-- A pass of the loop of `parseTerm` on `AND`. -/
theorem parseTermLoop_and (f : Nat) (node : Node) (tokens : List Token) (pos : Nat)
    (v : List Char) (S : List (TokenType × List Char))
    (h : (tokens.drop pos).map Token.shape = (.TokenAND, v) :: S) :
    Parser.parseTermLoop (f + 1) node ⟨tokens, pos⟩ =
      (Parser.parseFactor f ⟨tokens, pos + 1⟩ >>= fun r =>
        Parser.parseTermLoop f (Node.and node r.1) r.2) := by
  conv_lhs => unfold Parser.parseTermLoop
  rw [match1_hit tokens pos _ _ _ h (by decide)]
  simp only [Result.ok_bind, if_true]
  rfl

/-- The loop of `parseTerm` ends on a token that is not `AND`. -/
theorem parseTermLoop_end (f : Nat) (node : Node) (tokens : List Token) (pos : Nat)
    (ty : TokenType) (v : List Char) (S : List (TokenType × List Char))
    (h : (tokens.drop pos).map Token.shape = (ty, v) :: S) (hne : ty ≠ .TokenAND) :
    Parser.parseTermLoop (f + 1) node ⟨tokens, pos⟩ = .ok (node, ⟨tokens, pos⟩) := by
  unfold Parser.parseTermLoop
  rw [match1_miss tokens pos _ .TokenAND _ _ h hne]
  simp only [Result.ok_bind, Bool.false_eq_true, if_false]
  rfl

/-- A pass of the loop of `parseExpression` on `OR`. -/
theorem parseExpressionLoop_or (f : Nat) (node : Node) (tokens : List Token) (pos : Nat)
    (v : List Char) (S : List (TokenType × List Char))
    (h : (tokens.drop pos).map Token.shape = (.TokenOR, v) :: S) :
    Parser.parseExpressionLoop (f + 1) node ⟨tokens, pos⟩ =
      (Parser.parseTerm f ⟨tokens, pos + 1⟩ >>= fun r =>
        Parser.parseExpressionLoop f (Node.or node r.1) r.2) := by
  conv_lhs => unfold Parser.parseExpressionLoop
  rw [match1_hit tokens pos _ _ _ h (by decide)]
  simp only [Result.ok_bind, if_true]
  rfl

/-- The loop of `parseExpression` ends on a token that is not `OR`. -/
theorem parseExpressionLoop_end (f : Nat) (node : Node) (tokens : List Token) (pos : Nat)
    (ty : TokenType) (v : List Char) (S : List (TokenType × List Char))
    (h : (tokens.drop pos).map Token.shape = (ty, v) :: S) (hne : ty ≠ .TokenOR) :
    Parser.parseExpressionLoop (f + 1) node ⟨tokens, pos⟩ = .ok (node, ⟨tokens, pos⟩) := by
  unfold Parser.parseExpressionLoop
  rw [match1_miss tokens pos _ .TokenOR _ _ h hne]
  simp only [Result.ok_bind, Bool.false_eq_true, if_false]
  rfl

theorem parseTerm_succ (f : Nat) (p : Parser) :
    Parser.parseTerm (f + 1) p =
      (Parser.parseFactor f p >>= fun r => Parser.parseTermLoop f r.1 r.2) := by
  conv_lhs => unfold Parser.parseTerm

theorem parseExpression_succ (f : Nat) (p : Parser) :
    Parser.parseExpression (f + 1) p =
      (Parser.parseTerm f p >>= fun r => Parser.parseExpressionLoop f r.1 r.2) := by
  conv_lhs => unfold Parser.parseExpression

theorem drop_shape (tokens : List Token) (pos k : Nat) (A S : List (TokenType × List Char))
    (hA : A.length = k) (h : (tokens.drop pos).map Token.shape = A ++ S) :
    (tokens.drop (pos + k)).map Token.shape = S := by
  have e : tokens.drop (pos + k) = (tokens.drop pos).drop k := by
    rw [List.drop_drop]
  rw [e, List.map_drop, h, ← hA, List.drop_left]

/-- Function `parseTerm` on a single clause followed by a token that is not `AND`. -/
theorem parseTerm_clause (f : Nat) (tokens : List Token) (pos : Nat) (c : Clause)
    (hc : c.WellFormed) (ty : TokenType) (v : List Char) (S : List (TokenType × List Char))
    (h : (tokens.drop pos).map Token.shape = clauseShape c ++ (ty, v) :: S)
    (hne : ty ≠ .TokenAND) :
    Parser.parseTerm (f + 2) ⟨tokens, pos⟩ = .ok (c.node, ⟨tokens, pos + 3⟩) := by
  rw [parseTerm_succ, parseFactor_clause f tokens pos c hc _ h]
  simp only [Result.ok_bind]
  exact parseTermLoop_end f _ tokens (pos + 3) ty v S
    (drop_shape tokens pos 3 (clauseShape c) _ rfl h) hne

/-- The loop of `parseTerm` on a run of `AND clause` followed by a token that
is not `AND`: the clauses are folded to the left. -/
theorem parseTermLoop_chain (more : List Clause) (hm : ∀ c ∈ more, c.WellFormed) (f : Nat)
    (hf : more.length < f) (node : Node) (tokens : List Token) (pos : Nat)
    (kw : List Char) (ty : TokenType) (v : List Char) (S : List (TokenType × List Char))
    (h : (tokens.drop pos).map Token.shape
      = (more.map fun c => (TokenType.TokenAND, kw) :: clauseShape c).flatten ++ (ty, v) :: S)
    (hne : ty ≠ .TokenAND) :
    Parser.parseTermLoop f node ⟨tokens, pos⟩
      = .ok (more.foldl (fun left c => Node.and left c.node) node,
          ⟨tokens, pos + 4 * more.length⟩) := by
  induction more generalizing f node pos with
  | nil =>
    obtain ⟨f, rfl⟩ : ∃ g, f = g + 1 := ⟨f - 1, by simp at hf; omega⟩
    simp only [List.map_nil, List.flatten_nil, List.nil_append] at h
    rw [parseTermLoop_end f node tokens pos ty v S h hne]
    rfl
  | cons c cs ih =>
    obtain ⟨f, rfl⟩ : ∃ g, f = g + 2 := ⟨f - 2, by simp at hf; omega⟩
    have hc := hm c (List.mem_cons_self _ _)
    have hcs : ∀ c ∈ cs, c.WellFormed := fun x hx => hm x (List.mem_cons_of_mem _ hx)
    simp only [List.map_cons, List.flatten_cons, List.cons_append, List.append_assoc] at h
    have h1 := drop_shape tokens pos 1 [(TokenType.TokenAND, kw)] _ rfl h
    have h4 := drop_shape tokens (pos + 1) 3 (clauseShape c) _ rfl h1
    rw [parseTermLoop_and (f + 1) node tokens pos kw _ h,
      parseFactor_clause f tokens (pos + 1) c hc _ h1]
    simp only [Result.ok_bind]
    rw [ih hcs (f + 1) (by simp at hf; omega) _ (pos + 1 + 3) h4]
    simp only [List.foldl_cons, List.length_cons]
    congr 3
    omega

/-- The loop of `parseExpression` on a run of `OR clause` followed by a
token that is neither `OR` nor `AND`: the clauses are folded to the left. -/
theorem parseExpressionLoop_chain (more : List Clause) (hm : ∀ c ∈ more, c.WellFormed) (f : Nat)
    (hf : more.length + 2 < f) (node : Node) (tokens : List Token) (pos : Nat)
    (kw : List Char) (ty : TokenType) (v : List Char) (S : List (TokenType × List Char))
    (h : (tokens.drop pos).map Token.shape
      = (more.map fun c => (TokenType.TokenOR, kw) :: clauseShape c).flatten ++ (ty, v) :: S)
    (hne : ty ≠ .TokenOR) (hna : ty ≠ .TokenAND) :
    Parser.parseExpressionLoop f node ⟨tokens, pos⟩
      = .ok (more.foldl (fun left c => Node.or left c.node) node,
          ⟨tokens, pos + 4 * more.length⟩) := by
  induction more generalizing f node pos with
  | nil =>
    obtain ⟨f, rfl⟩ : ∃ g, f = g + 1 := ⟨f - 1, by simp at hf; omega⟩
    simp only [List.map_nil, List.flatten_nil, List.nil_append] at h
    rw [parseExpressionLoop_end f node tokens pos ty v S h hne]
    rfl
  | cons c cs ih =>
    obtain ⟨f, rfl⟩ : ∃ g, f = g + 3 := ⟨f - 3, by simp at hf; omega⟩
    have hc := hm c (List.mem_cons_self _ _)
    have hcs : ∀ c ∈ cs, c.WellFormed := fun x hx => hm x (List.mem_cons_of_mem _ hx)
    simp only [List.map_cons, List.flatten_cons, List.cons_append, List.append_assoc] at h
    have h1 := drop_shape tokens pos 1 [(TokenType.TokenOR, kw)] _ rfl h
    have h4 := drop_shape tokens (pos + 1) 3 (clauseShape c) _ rfl h1
    have hnext : ∃ ty1 v1 S1,
        (cs.map fun c => (TokenType.TokenOR, kw) :: clauseShape c).flatten ++ (ty, v) :: S
          = (ty1, v1) :: S1 ∧ ty1 ≠ .TokenAND := by
      cases cs with
      | nil => exact ⟨ty, v, S, rfl, hna⟩
      | cons d ds => exact ⟨.TokenOR, kw, _, rfl, by decide⟩
    obtain ⟨ty1, v1, S1, hS1, hty1⟩ := hnext
    rw [parseExpressionLoop_or (f + 2) node tokens pos kw _ h,
      parseTerm_clause f tokens (pos + 1) c hc ty1 v1 S1 (by rw [h1, hS1]; rfl) hty1]
    simp only [Result.ok_bind]
    rw [ih hcs (f + 2) (by simp at hf; omega) _ (pos + 1 + 3) h4]
    simp only [List.foldl_cons, List.length_cons]
    congr 3
    omega

/-- A text that begins with a well-formed clause and ends with one is left as
it is by `strings.TrimSpace`. -/
theorem TrimSpace_clauses (a b : Clause) (ha : a.WellFormed) (hb : b.WellFormed)
    (s x y : List Char) (h1 : s = a.text ++ x) (h2 : s = y ++ b.text) :
    strings.TrimSpace s = s := by
  apply strings.TrimSpace_stable
  · rw [h1, strings.leadingSpace_append _ _ (clause_length a ha)]
    exact ha.2.2.2.1
  · rw [h2, List.reverse_append,
      strings.trailingSpace_append _ _ (by rw [List.length_reverse]; exact clause_length b hb)]
    exact hb.2.2.2.2

/-- A text that begins with a byte that is neither white space nor the first
byte of an encoded white-space character, and ends with a well-formed clause,
is left as it is by `strings.TrimSpace`. -/
theorem TrimSpace_after (b : Clause) (hb : b.WellFormed) (s y : List Char)
    (h1 : strings.leadingSpace s = 0) (h2 : s = y ++ b.text) :
    strings.TrimSpace s = s := by
  apply strings.TrimSpace_stable _ h1
  rw [h2, List.reverse_append,
    strings.trailingSpace_append _ _ (by rw [List.length_reverse]; exact clause_length b hb)]
  exact hb.2.2.2.2

/-- The tokenizer on a clause that ends the query. -/
theorem tokenizeLoop_clause_end (c : Clause) (hc : c.WellFormed) (pos : Nat) (toks : List Token)
    (hl : ∀ t, toks.getLast? = some t → isOperator t.Typ = false) :
    tokenizeLoop c.text pos toks
      = .ok (toks ++ clauseTokens c pos ++ [⟨.TokenEOF, [], pos + c.text.length⟩]) := by
  have := tokenizeLoop_clause c hc [] endsWord_nil pos toks hl
  rw [List.append_nil] at this
  rw [this, tokenizeLoop_nil]

theorem isAtEnd_of_shape (tokens : List Token) (pos : Nat) (ty : TokenType) (v : List Char)
    (S : List (TokenType × List Char))
    (h : (tokens.drop pos).map Token.shape = (ty, v) :: S) :
    Parser.isAtEnd ⟨tokens, pos⟩ = .ok (ty == .TokenEOF) := by
  obtain ⟨t, ht, hty, _, hlt, _⟩ := shape_head tokens pos ty v S h
  rw [isAtEnd_shape tokens pos t ht hlt, hty]

theorem clauseTokens_shape (c : Clause) (pos : Nat) :
    (clauseTokens c pos).map Token.shape = clauseShape c := rfl

theorem chainTokens_shape (ty : TokenType) (kw : List Char) (pos : Nat) (more : List Clause) :
    (chainTokens ty kw pos more).map Token.shape
      = (more.map fun c => (ty, kw) :: clauseShape c).flatten := by
  induction more generalizing pos with
  | nil => rfl
  | cons c cs ih =>
    simp only [chainTokens, List.map_cons, List.map_append, clauseTokens_shape, ih,
      List.flatten_cons, List.cons_append]
    rfl

/-- What `Parse` returns once the tokens are known and `parseExpression` has
consumed them all but the EOF token. -/
theorem Parse_of_tokens (q : List Char) (tokens : List Token) (node : Node) (pos : Nat)
    (v : List Char) (S : List (TokenType × List Char))
    (hq : strings.TrimSpace q = q)
    (ht : tokenizeLoop q 0 [] = .ok tokens)
    (hp : Parser.parseExpression (4 * tokens.length + 4) ⟨tokens, 0⟩
      = .ok (node, ⟨tokens, pos⟩))
    (hend : (tokens.drop pos).map Token.shape = (.TokenEOF, v) :: S) :
    Parse q = .ok node := by
  unfold Parse Tokenize
  rw [hq, ht]
  simp only [Result.ok_bind]
  rw [hp]
  simp only [Result.ok_bind]
  rw [isAtEnd_of_shape tokens pos _ v S hend]
  rfl

theorem endsWord_OR (r : List Char) : EndsWord (" OR ".toList ++ r) :=
  endsWord_cons ' ' _ (by decide)

theorem endsWord_AND (r : List Char) : EndsWord (" AND ".toList ++ r) :=
  endsWord_cons ' ' _ (by decide)

theorem endsWord_close (r : List Char) : EndsWord (") AND ".toList ++ r) :=
  endsWord_cons ')' _ (by decide)

theorem last_nil : ∀ t, ([] : List Token).getLast? = some t → isOperator t.Typ = false := by
  intro t ht; simp at ht

theorem last_keyword (ty : TokenType) (hk : isOperator ty = false) (toks : List Token)
    (v : List Char) (pos : Nat) :
    ∀ t, (toks ++ [(⟨ty, v, pos⟩ : Token)]).getLast? = some t → isOperator t.Typ = false := by
  intro t ht
  simp at ht
  rw [← ht]; exact hk

/-- Query `a OR b AND c` is `a OR (b AND c)`. -/
theorem Parse_or_and (a b c : Clause) (ha : a.WellFormed) (hb : b.WellFormed)
    (hc : c.WellFormed) :
    Parse (a.text ++ " OR ".toList ++ b.text ++ " AND ".toList ++ c.text)
      = .ok (a.node.or (b.node.and c.node)) := by
  have hq := TrimSpace_clauses a c ha hc
    (a.text ++ " OR ".toList ++ b.text ++ " AND ".toList ++ c.text)
    (" OR ".toList ++ (b.text ++ (" AND ".toList ++ c.text)))
    (a.text ++ " OR ".toList ++ b.text ++ " AND ".toList)
    (by simp only [List.append_assoc]) rfl
  have ht : tokenizeLoop (a.text ++ " OR ".toList ++ b.text ++ " AND ".toList ++ c.text) 0 []
      = .ok ([] ++ clauseTokens a 0 ++ [⟨.TokenOR, "OR".toList, 0 + a.text.length + 1⟩]
          ++ clauseTokens b (0 + a.text.length + 4)
          ++ [⟨.TokenAND, "AND".toList, 0 + a.text.length + 4 + b.text.length + 1⟩]
          ++ clauseTokens c (0 + a.text.length + 4 + b.text.length + 5)
          ++ [⟨.TokenEOF, [], 0 + a.text.length + 4 + b.text.length + 5 + c.text.length⟩]) := by
    have e : a.text ++ " OR ".toList ++ b.text ++ " AND ".toList ++ c.text
        = a.text ++ (" OR ".toList ++ (b.text ++ (" AND ".toList ++ c.text))) := by
      simp only [List.append_assoc]
    rw [e, tokenizeLoop_clause a ha _ (endsWord_OR _) 0 [] last_nil,
      tokenizeLoop_OR,
      tokenizeLoop_clause b hb _ (endsWord_AND _) _ _
        (last_keyword .TokenOR rfl _ _ _),
      tokenizeLoop_AND,
      tokenizeLoop_clause_end c hc _ _ (last_keyword .TokenAND rfl _ _ _)]
  have h0 : ∀ toks, toks = [] ++ clauseTokens a 0 ++ [⟨.TokenOR, "OR".toList, 0 + a.text.length + 1⟩]
          ++ clauseTokens b (0 + a.text.length + 4)
          ++ [⟨.TokenAND, "AND".toList, 0 + a.text.length + 4 + b.text.length + 1⟩]
          ++ clauseTokens c (0 + a.text.length + 4 + b.text.length + 5)
          ++ [⟨.TokenEOF, [], 0 + a.text.length + 4 + b.text.length + 5 + c.text.length⟩] →
      (toks.drop 0).map Token.shape = clauseShape a ++ ((.TokenOR, "OR".toList) ::
        (clauseShape b ++ ((.TokenAND, "AND".toList) :: (clauseShape c ++ [(.TokenEOF, [])]))))
      ∧ toks.length = 12 := by
    rintro toks rfl
    constructor
    · rfl
    · rfl
  generalize [] ++ clauseTokens a 0 ++ [⟨.TokenOR, "OR".toList, 0 + a.text.length + 1⟩]
          ++ clauseTokens b (0 + a.text.length + 4)
          ++ [⟨.TokenAND, "AND".toList, 0 + a.text.length + 4 + b.text.length + 1⟩]
          ++ clauseTokens c (0 + a.text.length + 4 + b.text.length + 5)
          ++ [⟨.TokenEOF, [], 0 + a.text.length + 4 + b.text.length + 5 + c.text.length⟩]
      = tokens at ht h0
  obtain ⟨h0, hlen⟩ := h0 tokens rfl
  have h3 := drop_shape tokens 0 3 (clauseShape a) _ rfl h0
  have h4 := drop_shape tokens (0 + 3) 1 [(.TokenOR, "OR".toList)] _ rfl h3
  have h7 := drop_shape tokens (0 + 3 + 1) 3 (clauseShape b) _ rfl h4
  have h8 := drop_shape tokens (0 + 3 + 1 + 3) 1 [(.TokenAND, "AND".toList)] _ rfl h7
  have h11 := drop_shape tokens (0 + 3 + 1 + 3 + 1) 3 (clauseShape c) _ rfl h8
  apply Parse_of_tokens _ tokens _ (0 + 3 + 1 + 3 + 1 + 3) [] [] hq ht ?_ h11
  rw [hlen]
  show Parser.parseExpression (49 + 2 + 1) _ = _
  rw [parseExpression_succ, parseTerm_clause _ tokens 0 a ha _ _ _ h0 (by decide)]
  simp only [Result.ok_bind]
  show Parser.parseExpressionLoop (50 + 1) _ _ = _
  rw [parseExpressionLoop_or _ _ tokens _ _ _ h3]
  show (Parser.parseTerm (49 + 1) _ >>= _) = _
  rw [parseTerm_succ, parseFactor_clause _ tokens _ b hb _ h4]
  simp only [Result.ok_bind]
  show Parser.parseTermLoop (48 + 1) _ _ >>= _ = _
  rw [parseTermLoop_and _ _ tokens _ _ _ h7]
  show ((Parser.parseFactor (47 + 1) _ >>= _) >>= _) = _
  rw [parseFactor_clause _ tokens _ c hc _ h8]
  simp only [Result.ok_bind]
  show Parser.parseTermLoop (47 + 1) _ _ >>= _ = _
  rw [parseTermLoop_end _ _ tokens _ _ _ _ h11 (by decide)]
  simp only [Result.ok_bind]
  show Parser.parseExpressionLoop (49 + 1) _ _ = _
  rw [parseExpressionLoop_end _ _ tokens _ _ _ _ h11 (by decide)]

/-- Query `a AND b OR c` is `(a AND b) OR c`. -/
theorem Parse_and_or (a b c : Clause) (ha : a.WellFormed) (hb : b.WellFormed)
    (hc : c.WellFormed) :
    Parse (a.text ++ " AND ".toList ++ b.text ++ " OR ".toList ++ c.text)
      = .ok ((a.node.and b.node).or c.node) := by
  have hq := TrimSpace_clauses a c ha hc
    (a.text ++ " AND ".toList ++ b.text ++ " OR ".toList ++ c.text)
    (" AND ".toList ++ (b.text ++ (" OR ".toList ++ c.text)))
    (a.text ++ " AND ".toList ++ b.text ++ " OR ".toList)
    (by simp only [List.append_assoc]) rfl
  have ht : tokenizeLoop (a.text ++ " AND ".toList ++ b.text ++ " OR ".toList ++ c.text) 0 []
      = .ok ([] ++ clauseTokens a 0 ++ [⟨.TokenAND, "AND".toList, 0 + a.text.length + 1⟩]
          ++ clauseTokens b (0 + a.text.length + 5)
          ++ [⟨.TokenOR, "OR".toList, 0 + a.text.length + 5 + b.text.length + 1⟩]
          ++ clauseTokens c (0 + a.text.length + 5 + b.text.length + 4)
          ++ [⟨.TokenEOF, [], 0 + a.text.length + 5 + b.text.length + 4 + c.text.length⟩]) := by
    have e : a.text ++ " AND ".toList ++ b.text ++ " OR ".toList ++ c.text
        = a.text ++ (" AND ".toList ++ (b.text ++ (" OR ".toList ++ c.text))) := by
      simp only [List.append_assoc]
    rw [e, tokenizeLoop_clause a ha _ (endsWord_AND _) 0 [] last_nil,
      tokenizeLoop_AND,
      tokenizeLoop_clause b hb _ (endsWord_OR _) _ _ (last_keyword .TokenAND rfl _ _ _),
      tokenizeLoop_OR,
      tokenizeLoop_clause_end c hc _ _ (last_keyword .TokenOR rfl _ _ _)]
  have h0 : ∀ toks, toks = [] ++ clauseTokens a 0
          ++ [⟨.TokenAND, "AND".toList, 0 + a.text.length + 1⟩]
          ++ clauseTokens b (0 + a.text.length + 5)
          ++ [⟨.TokenOR, "OR".toList, 0 + a.text.length + 5 + b.text.length + 1⟩]
          ++ clauseTokens c (0 + a.text.length + 5 + b.text.length + 4)
          ++ [⟨.TokenEOF, [], 0 + a.text.length + 5 + b.text.length + 4 + c.text.length⟩] →
      (toks.drop 0).map Token.shape = clauseShape a ++ ((.TokenAND, "AND".toList) ::
        (clauseShape b ++ ((.TokenOR, "OR".toList) :: (clauseShape c ++ [(.TokenEOF, [])]))))
      ∧ toks.length = 12 := by
    rintro toks rfl
    exact ⟨rfl, rfl⟩
  generalize [] ++ clauseTokens a 0 ++ [⟨.TokenAND, "AND".toList, 0 + a.text.length + 1⟩]
          ++ clauseTokens b (0 + a.text.length + 5)
          ++ [⟨.TokenOR, "OR".toList, 0 + a.text.length + 5 + b.text.length + 1⟩]
          ++ clauseTokens c (0 + a.text.length + 5 + b.text.length + 4)
          ++ [⟨.TokenEOF, [], 0 + a.text.length + 5 + b.text.length + 4 + c.text.length⟩]
      = tokens at ht h0
  obtain ⟨h0, hlen⟩ := h0 tokens rfl
  have h3 := drop_shape tokens 0 3 (clauseShape a) _ rfl h0
  have h4 := drop_shape tokens (0 + 3) 1 [(.TokenAND, "AND".toList)] _ rfl h3
  have h7 := drop_shape tokens (0 + 3 + 1) 3 (clauseShape b) _ rfl h4
  have h8 := drop_shape tokens (0 + 3 + 1 + 3) 1 [(.TokenOR, "OR".toList)] _ rfl h7
  have h11 := drop_shape tokens (0 + 3 + 1 + 3 + 1) 3 (clauseShape c) _ rfl h8
  apply Parse_of_tokens _ tokens _ (0 + 3 + 1 + 3 + 1 + 3) [] [] hq ht ?_ h11
  rw [hlen]
  show Parser.parseExpression (51 + 1) _ = _
  rw [parseExpression_succ]
  show (Parser.parseTerm (50 + 1) _ >>= _) = _
  rw [parseTerm_succ, parseFactor_clause _ tokens 0 a ha _ h0]
  simp only [Result.ok_bind]
  show (Parser.parseTermLoop (49 + 1) _ _ >>= _) = _
  rw [parseTermLoop_and _ _ tokens _ _ _ h3]
  show ((Parser.parseFactor (48 + 1) _ >>= _) >>= _) = _
  rw [parseFactor_clause _ tokens _ b hb _ h4]
  simp only [Result.ok_bind]
  show (Parser.parseTermLoop (48 + 1) _ _ >>= _) = _
  rw [parseTermLoop_end _ _ tokens _ _ _ _ h7 (by decide)]
  simp only [Result.ok_bind]
  show Parser.parseExpressionLoop (50 + 1) _ _ = _
  rw [parseExpressionLoop_or _ _ tokens _ _ _ h7]
  show (Parser.parseTerm (48 + 2) _ >>= _) = _
  rw [parseTerm_clause _ tokens _ c hc _ _ _ h8 (by decide)]
  simp only [Result.ok_bind]
  show Parser.parseExpressionLoop (49 + 1) _ _ = _
  rw [parseExpressionLoop_end _ _ tokens _ _ _ _ h11 (by decide)]

/-- Query `NOT a AND b` is `(NOT a) AND b`. -/
theorem Parse_not_and (a b : Clause) (ha : a.WellFormed) (hb : b.WellFormed) :
    Parse ("NOT ".toList ++ a.text ++ " AND ".toList ++ b.text)
      = .ok (a.node.not.and b.node) := by
  have hq := TrimSpace_after b hb
    ("NOT ".toList ++ a.text ++ " AND ".toList ++ b.text)
    ("NOT ".toList ++ a.text ++ " AND ".toList) rfl rfl
  have ht : tokenizeLoop ("NOT ".toList ++ a.text ++ " AND ".toList ++ b.text) 0 []
      = .ok ([] ++ [⟨.TokenNOT, "NOT".toList, 0⟩] ++ clauseTokens a (0 + 4)
          ++ [⟨.TokenAND, "AND".toList, 0 + 4 + a.text.length + 1⟩]
          ++ clauseTokens b (0 + 4 + a.text.length + 5)
          ++ [⟨.TokenEOF, [], 0 + 4 + a.text.length + 5 + b.text.length⟩]) := by
    have e : "NOT ".toList ++ a.text ++ " AND ".toList ++ b.text
        = "NOT ".toList ++ (a.text ++ (" AND ".toList ++ b.text)) := by
      simp only [List.append_assoc]
    rw [e, tokenizeLoop_NOT,
      tokenizeLoop_clause a ha _ (endsWord_AND _) _ _ (last_keyword .TokenNOT rfl _ _ _),
      tokenizeLoop_AND,
      tokenizeLoop_clause_end b hb _ _ (last_keyword .TokenAND rfl _ _ _)]
  have h0 : ∀ toks, toks = [] ++ [⟨.TokenNOT, "NOT".toList, 0⟩] ++ clauseTokens a (0 + 4)
          ++ [⟨.TokenAND, "AND".toList, 0 + 4 + a.text.length + 1⟩]
          ++ clauseTokens b (0 + 4 + a.text.length + 5)
          ++ [⟨.TokenEOF, [], 0 + 4 + a.text.length + 5 + b.text.length⟩] →
      (toks.drop 0).map Token.shape = (.TokenNOT, "NOT".toList) :: (clauseShape a ++
        ((.TokenAND, "AND".toList) :: (clauseShape b ++ [(.TokenEOF, [])])))
      ∧ toks.length = 9 := by
    rintro toks rfl
    exact ⟨rfl, rfl⟩
  generalize [] ++ [(⟨.TokenNOT, "NOT".toList, 0⟩ : Token)] ++ clauseTokens a (0 + 4)
          ++ [⟨.TokenAND, "AND".toList, 0 + 4 + a.text.length + 1⟩]
          ++ clauseTokens b (0 + 4 + a.text.length + 5)
          ++ [⟨.TokenEOF, [], 0 + 4 + a.text.length + 5 + b.text.length⟩]
      = tokens at ht h0
  obtain ⟨h0, hlen⟩ := h0 tokens rfl
  have h1 := drop_shape tokens 0 1 [(.TokenNOT, "NOT".toList)] _ rfl h0
  have h4 := drop_shape tokens (0 + 1) 3 (clauseShape a) _ rfl h1
  have h5 := drop_shape tokens (0 + 1 + 3) 1 [(.TokenAND, "AND".toList)] _ rfl h4
  have h8 := drop_shape tokens (0 + 1 + 3 + 1) 3 (clauseShape b) _ rfl h5
  apply Parse_of_tokens _ tokens _ (0 + 1 + 3 + 1 + 3) [] [] hq ht ?_ h8
  rw [hlen]
  show Parser.parseExpression (39 + 1) _ = _
  rw [parseExpression_succ]
  show (Parser.parseTerm (38 + 1) _ >>= _) = _
  rw [parseTerm_succ]
  show ((Parser.parseFactor (37 + 1) _ >>= _) >>= _) = _
  rw [parseFactor_not _ tokens 0 _ _ h0]
  show (((Parser.parseFactor (36 + 1) _ >>= _) >>= _) >>= _) = _
  rw [parseFactor_clause _ tokens _ a ha _ h1]
  simp only [Result.ok_bind]
  show (Parser.parseTermLoop (37 + 1) _ _ >>= _) = _
  rw [parseTermLoop_and _ _ tokens _ _ _ h4]
  show ((Parser.parseFactor (36 + 1) _ >>= _) >>= _) = _
  rw [parseFactor_clause _ tokens _ b hb _ h5]
  simp only [Result.ok_bind]
  show (Parser.parseTermLoop (36 + 1) _ _ >>= _) = _
  rw [parseTermLoop_end _ _ tokens _ _ _ _ h8 (by decide)]
  simp only [Result.ok_bind]
  show Parser.parseExpressionLoop (38 + 1) _ _ = _
  rw [parseExpressionLoop_end _ _ tokens _ _ _ _ h8 (by decide)]

theorem tokenizeLoop_close (r : List Char) (pos : Nat) (toks : List Token) :
    tokenizeLoop (") AND ".toList ++ r) pos toks
      = tokenizeLoop r (pos + 1 + 5) (toks ++ [⟨.TokenRightParen, [')'], pos⟩]
          ++ [⟨.TokenAND, "AND".toList, pos + 1 + 1⟩]) := by
  show tokenizeLoop (')' :: (" AND ".toList ++ r)) pos toks = _
  rw [tokenizeLoop_rparen, tokenizeLoop_AND]

/-- Query `(a OR b) AND c` is `(a OR b) AND c`: the group is one factor. -/
theorem Parse_group_and (a b c : Clause) (ha : a.WellFormed) (hb : b.WellFormed)
    (hc : c.WellFormed) :
    Parse ("(".toList ++ a.text ++ " OR ".toList ++ b.text ++ ") AND ".toList ++ c.text)
      = .ok ((a.node.or b.node).and c.node) := by
  have hq := TrimSpace_after c hc
    ("(".toList ++ a.text ++ " OR ".toList ++ b.text ++ ") AND ".toList ++ c.text)
    ("(".toList ++ a.text ++ " OR ".toList ++ b.text ++ ") AND ".toList) rfl rfl
  have ht : tokenizeLoop
        ("(".toList ++ a.text ++ " OR ".toList ++ b.text ++ ") AND ".toList ++ c.text) 0 []
      = .ok ([] ++ [⟨.TokenLeftParen, ['('], 0⟩] ++ clauseTokens a (0 + 1)
          ++ [⟨.TokenOR, "OR".toList, 0 + 1 + a.text.length + 1⟩]
          ++ clauseTokens b (0 + 1 + a.text.length + 4)
          ++ [⟨.TokenRightParen, [')'], 0 + 1 + a.text.length + 4 + b.text.length⟩]
          ++ [⟨.TokenAND, "AND".toList, 0 + 1 + a.text.length + 4 + b.text.length + 1 + 1⟩]
          ++ clauseTokens c (0 + 1 + a.text.length + 4 + b.text.length + 1 + 5)
          ++ [⟨.TokenEOF, [],
            0 + 1 + a.text.length + 4 + b.text.length + 1 + 5 + c.text.length⟩]) := by
    have e : "(".toList ++ a.text ++ " OR ".toList ++ b.text ++ ") AND ".toList ++ c.text
        = '(' :: (a.text ++ (" OR ".toList ++ (b.text ++ (") AND ".toList ++ c.text)))) := by
      simp only [List.append_assoc]
      rfl
    rw [e, tokenizeLoop_lparen,
      tokenizeLoop_clause a ha _ (endsWord_OR _) _ _ (last_keyword .TokenLeftParen rfl _ _ _),
      tokenizeLoop_OR,
      tokenizeLoop_clause b hb _ (endsWord_close _) _ _ (last_keyword .TokenOR rfl _ _ _),
      tokenizeLoop_close,
      tokenizeLoop_clause_end c hc _ _ (last_keyword .TokenAND rfl _ _ _)]
  have h0 : ∀ toks, toks = [] ++ [⟨.TokenLeftParen, ['('], 0⟩] ++ clauseTokens a (0 + 1)
          ++ [⟨.TokenOR, "OR".toList, 0 + 1 + a.text.length + 1⟩]
          ++ clauseTokens b (0 + 1 + a.text.length + 4)
          ++ [⟨.TokenRightParen, [')'], 0 + 1 + a.text.length + 4 + b.text.length⟩]
          ++ [⟨.TokenAND, "AND".toList, 0 + 1 + a.text.length + 4 + b.text.length + 1 + 1⟩]
          ++ clauseTokens c (0 + 1 + a.text.length + 4 + b.text.length + 1 + 5)
          ++ [⟨.TokenEOF, [],
            0 + 1 + a.text.length + 4 + b.text.length + 1 + 5 + c.text.length⟩] →
      (toks.drop 0).map Token.shape = (.TokenLeftParen, ['(']) :: (clauseShape a ++
        ((.TokenOR, "OR".toList) :: (clauseShape b ++ ((.TokenRightParen, [')']) ::
          ((.TokenAND, "AND".toList) :: (clauseShape c ++ [(.TokenEOF, [])]))))))
      ∧ toks.length = 14 := by
    rintro toks rfl
    exact ⟨rfl, rfl⟩
  generalize [] ++ [(⟨.TokenLeftParen, ['('], 0⟩ : Token)] ++ clauseTokens a (0 + 1)
          ++ [⟨.TokenOR, "OR".toList, 0 + 1 + a.text.length + 1⟩]
          ++ clauseTokens b (0 + 1 + a.text.length + 4)
          ++ [⟨.TokenRightParen, [')'], 0 + 1 + a.text.length + 4 + b.text.length⟩]
          ++ [⟨.TokenAND, "AND".toList, 0 + 1 + a.text.length + 4 + b.text.length + 1 + 1⟩]
          ++ clauseTokens c (0 + 1 + a.text.length + 4 + b.text.length + 1 + 5)
          ++ [⟨.TokenEOF, [],
            0 + 1 + a.text.length + 4 + b.text.length + 1 + 5 + c.text.length⟩]
      = tokens at ht h0
  obtain ⟨h0, hlen⟩ := h0 tokens rfl
  have h1 := drop_shape tokens 0 1 [(.TokenLeftParen, ['('])] _ rfl h0
  have h4 := drop_shape tokens (0 + 1) 3 (clauseShape a) _ rfl h1
  have h5 := drop_shape tokens (0 + 1 + 3) 1 [(.TokenOR, "OR".toList)] _ rfl h4
  have h8 := drop_shape tokens (0 + 1 + 3 + 1) 3 (clauseShape b) _ rfl h5
  have h9 := drop_shape tokens (0 + 1 + 3 + 1 + 3) 1 [(.TokenRightParen, [')'])] _ rfl h8
  have h10 := drop_shape tokens (0 + 1 + 3 + 1 + 3 + 1) 1 [(.TokenAND, "AND".toList)] _ rfl h9
  have h13 := drop_shape tokens (0 + 1 + 3 + 1 + 3 + 1 + 1) 3 (clauseShape c) _ rfl h10
  apply Parse_of_tokens _ tokens _ (0 + 1 + 3 + 1 + 3 + 1 + 1 + 3) [] [] hq ht ?_ h13
  rw [hlen]
  show Parser.parseExpression (59 + 1) _ = _
  rw [parseExpression_succ]
  show (Parser.parseTerm (58 + 1) _ >>= _) = _
  rw [parseTerm_succ]
  show ((Parser.parseFactor (57 + 1) _ >>= _) >>= _) = _
  rw [parseFactor_paren _ tokens 0 _ _ h0]
  show (((Parser.parseExpression (56 + 1) _ >>= _) >>= _) >>= _) = _
  rw [parseExpression_succ]
  show ((((Parser.parseTerm (54 + 2) _ >>= _) >>= _) >>= _) >>= _) = _
  rw [parseTerm_clause _ tokens _ a ha _ _ _ h1 (by decide)]
  simp only [Result.ok_bind]
  show (((Parser.parseExpressionLoop (55 + 1) _ _ >>= _) >>= _) >>= _) = _
  rw [parseExpressionLoop_or _ _ tokens _ _ _ h4]
  show ((((Parser.parseTerm (53 + 2) _ >>= _) >>= _) >>= _) >>= _) = _
  rw [parseTerm_clause _ tokens _ b hb _ _ _ h5 (by decide)]
  simp only [Result.ok_bind]
  show (((Parser.parseExpressionLoop (54 + 1) _ _ >>= _) >>= _) >>= _) = _
  rw [parseExpressionLoop_end _ _ tokens _ _ _ _ h8 (by decide)]
  simp only [Result.ok_bind]
  rw [match1_hit tokens _ _ _ _ h8 (by decide)]
  simp only [Result.ok_bind, Bool.not_true, Bool.false_eq_true, if_false]
  show (Parser.parseTermLoop (57 + 1) _ _ >>= _) = _
  rw [parseTermLoop_and _ _ tokens _ _ _ h9]
  show ((Parser.parseFactor (56 + 1) _ >>= _) >>= _) = _
  rw [parseFactor_clause _ tokens _ c hc _ h10]
  simp only [Result.ok_bind]
  show (Parser.parseTermLoop (56 + 1) _ _ >>= _) = _
  rw [parseTermLoop_end _ _ tokens _ _ _ _ h13 (by decide)]
  simp only [Result.ok_bind]
  show Parser.parseExpressionLoop (58 + 1) _ _ = _
  rw [parseExpressionLoop_end _ _ tokens _ _ _ _ h13 (by decide)]

/-- C9: `NOT` binds tightest, then `AND`, then `OR`, and a parenthesised
group is a single factor: for well-formed comparison clauses `a`, `b`, `c`,
`a OR b AND c` parses to `OR(a, AND(b, c))`, `a AND b OR c` to
`OR(AND(a, b), c)`, `NOT a AND b` to `AND(NOT a, b)` and `(a OR b) AND c` to
`AND(OR(a, b), c)`. -/
theorem C9_Parse_precedence (a b c : Clause) (ha : a.WellFormed) (hb : b.WellFormed)
    (hc : c.WellFormed) :
    Parse (a.text ++ " OR ".toList ++ b.text ++ " AND ".toList ++ c.text)
      = .ok (a.node.or (b.node.and c.node)) ∧
    Parse (a.text ++ " AND ".toList ++ b.text ++ " OR ".toList ++ c.text)
      = .ok ((a.node.and b.node).or c.node) ∧
    Parse ("NOT ".toList ++ a.text ++ " AND ".toList ++ b.text)
      = .ok (a.node.not.and b.node) ∧
    Parse ("(".toList ++ a.text ++ " OR ".toList ++ b.text ++ ") AND ".toList ++ c.text)
      = .ok ((a.node.or b.node).and c.node) :=
  ⟨Parse_or_and a b c ha hb hc, Parse_and_or a b c ha hb hc, Parse_not_and a b ha hb,
    Parse_group_and a b c ha hb hc⟩

/-- C9 at `status:open`, `priority=p1`, `estimate>3`. -/
theorem C9_Parse_precedence_witness :
    (⟨"status".toList, ":".toList, "open".toList⟩ : Clause).WellFormed ∧
    Parse "status:open OR priority=p1 AND estimate>3".toList
      = .ok (.boolean "OR".toList (.comparison "status".toList ":".toList "open".toList)
          (some (.boolean "AND".toList (.comparison "priority".toList "=".toList "p1".toList)
            (some (.comparison "estimate".toList ">".toList "3".toList))))) ∧
    Parse "(status:open OR priority=p1) AND estimate>3".toList
      = .ok (.boolean "AND".toList
          (.boolean "OR".toList (.comparison "status".toList ":".toList "open".toList)
            (some (.comparison "priority".toList "=".toList "p1".toList)))
          (some (.comparison "estimate".toList ">".toList "3".toList))) :=
  ⟨by decide,
    (C9_Parse_precedence ⟨"status".toList, ":".toList, "open".toList⟩
      ⟨"priority".toList, "=".toList, "p1".toList⟩ ⟨"estimate".toList, ">".toList, "3".toList⟩
      (by decide) (by decide) (by decide)).1,
    (C9_Parse_precedence ⟨"status".toList, ":".toList, "open".toList⟩
      ⟨"priority".toList, "=".toList, "p1".toList⟩ ⟨"estimate".toList, ">".toList, "3".toList⟩
      (by decide) (by decide) (by decide)).2.2.2⟩

theorem chainText_ends (kw : List Char) (first : Clause) (more : List Clause)
    (hf : first.WellFormed) (hm : ∀ c ∈ more, c.WellFormed) :
    ∃ (y : List Char) (last : Clause), last.WellFormed ∧
      chainText kw first more = y ++ last.text := by
  rcases List.eq_nil_or_concat more with rfl | ⟨init, l, rfl⟩
  · exact ⟨[], first, hf, by simp [chainText]⟩
  · refine ⟨first.text ++ (init.map fun c => ' ' :: kw ++ ' ' :: c.text).flatten ++ ' ' :: kw ++ [' '],
      l, hm l (by simp), ?_⟩
    simp [chainText, List.append_assoc]

/-- The tokens of a chain of clauses. -/
theorem tokenize_chain (kw : List Char) (ty : TokenType) (hne : kw ≠ [])
    (hw : ∀ x ∈ kw, isWordByte x = true)
    (hk : ∀ pos toks, wordToken kw pos toks = ⟨ty, kw, pos⟩) (hty : isOperator ty = false)
    (first : Clause) (more : List Clause) (hf : first.WellFormed)
    (hm : ∀ c ∈ more, c.WellFormed) :
    ∃ tokens, tokenizeLoop (chainText kw first more) 0 [] = .ok tokens ∧
      tokens.map Token.shape = clauseShape first ++
        ((more.map fun c => (ty, kw) :: clauseShape c).flatten ++ [(.TokenEOF, [])]) ∧
      tokens.length = 4 * more.length + 4 := by
  have hend : EndsWord (more.map fun c => ' ' :: kw ++ ' ' :: c.text).flatten := by
    cases more with
    | nil => exact endsWord_nil
    | cons d ds => exact endsWord_cons _ _ (by decide)
  unfold chainText
  rw [tokenizeLoop_clause first hf _ hend 0 [] (by intro t ht; simp at ht),
    tokenizeLoop_chain kw ty hne hw hk hty more hm]
  refine ⟨_, rfl, ?_, ?_⟩
  · simp only [List.nil_append, List.map_append, clauseTokens_shape, chainTokens_shape,
      List.map_cons, List.map_nil, List.append_assoc]
    rfl
  · have hlen : ∀ (pos : Nat) (cs : List Clause),
        (chainTokens ty kw pos cs).length = 4 * cs.length := by
      intro pos cs
      induction cs generalizing pos with
      | nil => rfl
      | cons c cs ih =>
        simp only [chainTokens, List.length_cons, List.length_append, ih, clauseTokens,
          List.length_nil]
        omega
    simp only [List.nil_append, List.length_append, hlen, clauseTokens, List.length_cons,
      List.length_nil]
    omega

/-- C10: `AND` and `OR` are left-associative in `Parse`: a chain of
well-formed clauses joined by ` AND ` (and likewise by ` OR `) parses to the
left-leaning tree `((c1 op c2) op c3) ... op ck`, the right child of every
node of the chain being a single clause. -/
theorem C10_Parse_left_associative (first : Clause) (more : List Clause)
    (hf : first.WellFormed) (hm : ∀ c ∈ more, c.WellFormed) :
    Parse (chainText "AND".toList first more) = .ok (chainNode "AND".toList first more) ∧
    Parse (chainText "OR".toList first more) = .ok (chainNode "OR".toList first more) := by
  constructor
  · obtain ⟨y, last, hlast, hy⟩ := chainText_ends "AND".toList first more hf hm
    obtain ⟨tokens, ht, hshape, hlen⟩ := tokenize_chain "AND".toList .TokenAND (by decide)
      (by decide) wordToken_AND (by decide) first more hf hm
    have hq := TrimSpace_clauses first last hf hlast _ _ y rfl hy
    have h0 : (tokens.drop 0).map Token.shape = clauseShape first ++
        ((more.map fun c => (TokenType.TokenAND, "AND".toList) :: clauseShape c).flatten
          ++ [(.TokenEOF, [])]) := by
      rw [List.drop_zero]; exact hshape
    have h3 := drop_shape tokens 0 3 (clauseShape first) _ rfl h0
    have hE := drop_shape tokens (0 + 3) (4 * more.length)
      ((more.map fun c => (TokenType.TokenAND, "AND".toList) :: clauseShape c).flatten) _
      (by
        rw [List.length_flatten]
        simp only [List.map_map]
        have : ((fun l : List (TokenType × List Char) => l.length) ∘
            fun c : Clause => (TokenType.TokenAND, "AND".toList) :: clauseShape c)
            = fun _ => 4 := by
          funext c; rfl
        rw [this]
        simp [Nat.mul_comm]) h3
    apply Parse_of_tokens _ tokens _ (0 + 3 + 4 * more.length) [] [] hq ht ?_ hE
    have hF : 4 * tokens.length + 4 = (16 * more.length + 17) + 1 + 1 + 1 := by omega
    rw [hF, parseExpression_succ, parseTerm_succ,
      parseFactor_clause _ tokens 0 first hf _ h0]
    simp only [Result.ok_bind]
    rw [parseTermLoop_chain more hm _ (by omega) _ tokens (0 + 3) "AND".toList .TokenEOF [] []
      h3 (by decide)]
    simp only [Result.ok_bind]
    rw [parseExpressionLoop_end _ _ tokens _ .TokenEOF [] [] hE (by decide)]
    rfl
  · obtain ⟨y, last, hlast, hy⟩ := chainText_ends "OR".toList first more hf hm
    obtain ⟨tokens, ht, hshape, hlen⟩ := tokenize_chain "OR".toList .TokenOR (by decide)
      (by decide) wordToken_OR (by decide) first more hf hm
    have hq := TrimSpace_clauses first last hf hlast _ _ y rfl hy
    have h0 : (tokens.drop 0).map Token.shape = clauseShape first ++
        ((more.map fun c => (TokenType.TokenOR, "OR".toList) :: clauseShape c).flatten
          ++ [(.TokenEOF, [])]) := by
      rw [List.drop_zero]; exact hshape
    have h3 := drop_shape tokens 0 3 (clauseShape first) _ rfl h0
    have hE := drop_shape tokens (0 + 3) (4 * more.length)
      ((more.map fun c => (TokenType.TokenOR, "OR".toList) :: clauseShape c).flatten) _
      (by
        rw [List.length_flatten]
        simp only [List.map_map]
        have : ((fun l : List (TokenType × List Char) => l.length) ∘
            fun c : Clause => (TokenType.TokenOR, "OR".toList) :: clauseShape c)
            = fun _ => 4 := by
          funext c; rfl
        rw [this]
        simp [Nat.mul_comm]) h3
    have hnext : ∃ ty1 v1 S1,
        (more.map fun c => (TokenType.TokenOR, "OR".toList) :: clauseShape c).flatten
            ++ [(TokenType.TokenEOF, [])]
          = (ty1, v1) :: S1 ∧ ty1 ≠ .TokenAND := by
      cases more with
      | nil => exact ⟨.TokenEOF, [], [], rfl, by decide⟩
      | cons d ds => exact ⟨.TokenOR, "OR".toList, _, rfl, by decide⟩
    obtain ⟨ty1, v1, S1, hS1, hty1⟩ := hnext
    apply Parse_of_tokens _ tokens _ (0 + 3 + 4 * more.length) [] [] hq ht ?_ hE
    have hF : 4 * tokens.length + 4 = (16 * more.length + 17) + 2 + 1 := by omega
    rw [hF, parseExpression_succ,
      parseTerm_clause _ tokens 0 first hf ty1 v1 S1 (by rw [h0, hS1]) hty1]
    simp only [Result.ok_bind]
    rw [parseExpressionLoop_chain more hm _ (by omega) _ tokens (0 + 3) "OR".toList .TokenEOF
      [] [] h3 (by decide) (by decide)]
    rfl

/-- C10 at the chain `status:open`, `priority=p1`, `estimate>3`. -/
theorem C10_Parse_left_associative_witness :
    (⟨"status".toList, ":".toList, "open".toList⟩ : Clause).WellFormed ∧
    Parse "status:open AND priority=p1 AND estimate>3".toList
      = .ok (.boolean "AND".toList
          (.boolean "AND".toList (.comparison "status".toList ":".toList "open".toList)
            (some (.comparison "priority".toList "=".toList "p1".toList)))
          (some (.comparison "estimate".toList ">".toList "3".toList))) ∧
    Parse "status:open OR priority=p1 OR estimate>3".toList
      = .ok (.boolean "OR".toList
          (.boolean "OR".toList (.comparison "status".toList ":".toList "open".toList)
            (some (.comparison "priority".toList "=".toList "p1".toList)))
          (some (.comparison "estimate".toList ">".toList "3".toList))) :=
  ⟨by decide,
    (C10_Parse_left_associative ⟨"status".toList, ":".toList, "open".toList⟩
      [⟨"priority".toList, "=".toList, "p1".toList⟩, ⟨"estimate".toList, ">".toList, "3".toList⟩]
      (by decide) (by decide)).1,
    (C10_Parse_left_associative ⟨"status".toList, ":".toList, "open".toList⟩
      [⟨"priority".toList, "=".toList, "p1".toList⟩, ⟨"estimate".toList, ">".toList, "3".toList⟩]
      (by decide) (by decide)).2⟩

/-! ### Evaluation of comparisons -/

open denote

theorem compareString_colon (a e : List Char) :
    compareString a ":".toList e = decide (a = e) := by
  simp [compareString]

theorem compareString_eq (a e : List Char) :
    compareString a "=".toList e = decide (a = e) := by
  simp [compareString]

theorem compareString_lt (a e : List Char) : compareString a "<".toList e = false := by
  simp [compareString]

theorem compareString_gt (a e : List Char) : compareString a ">".toList e = false := by
  simp [compareString]

theorem Evaluate_status (Field op v : List Char) (task : Task) (cfg : config.Config)
    (now : time.Time) (loc : time.Location) (hf : strings.ToLower Field = "status".toList) :
    ComparisonNode.Evaluate Field op v task cfg now loc =
      compareString (strings.ToLower task.TaskMetadata.Status) op (strings.ToLower v) := by
  simp [ComparisonNode.Evaluate, hf]

theorem Evaluate_priority (Field op v : List Char) (task : Task) (cfg : config.Config)
    (now : time.Time) (loc : time.Location) (hf : strings.ToLower Field = "priority".toList) :
    ComparisonNode.Evaluate Field op v task cfg now loc =
      compareString (strings.ToLower task.TaskMetadata.Priority) op (strings.ToLower v) := by
  simp [ComparisonNode.Evaluate, hf]

theorem Evaluate_area (Field op v : List Char) (task : Task) (cfg : config.Config)
    (now : time.Time) (loc : time.Location) (hf : strings.ToLower Field = "area".toList) :
    ComparisonNode.Evaluate Field op v task cfg now loc =
      compareString (strings.ToLower task.TaskMetadata.Area) op (strings.ToLower v) := by
  simp [ComparisonNode.Evaluate, hf]

theorem Evaluate_assignee (Field op v : List Char) (task : Task) (cfg : config.Config)
    (now : time.Time) (loc : time.Location) (hf : strings.ToLower Field = "assignee".toList) :
    ComparisonNode.Evaluate Field op v task cfg now loc =
      compareString (strings.ToLower task.TaskMetadata.Assignee) op (strings.ToLower v) := by
  simp [ComparisonNode.Evaluate, hf]

theorem Evaluate_title (Field op v : List Char) (task : Task) (cfg : config.Config)
    (now : time.Time) (loc : time.Location) (hf : strings.ToLower Field = "title".toList) :
    ComparisonNode.Evaluate Field op v task cfg now loc =
      compareString (strings.ToLower task.TaskMetadata.Title) op (strings.ToLower v) := by
  simp [ComparisonNode.Evaluate, hf]

theorem Evaluate_estimate (Field op v : List Char) (task : Task) (cfg : config.Config)
    (now : time.Time) (loc : time.Location) (hf : strings.ToLower Field = "estimate".toList) :
    ComparisonNode.Evaluate Field op v task cfg now loc =
      compareInt task.TaskMetadata.Estimate op (strings.ToLower v) := by
  simp [ComparisonNode.Evaluate, hf]

theorem Evaluate_index_id (Field op v : List Char) (task : Task) (cfg : config.Config)
    (now : time.Time) (loc : time.Location) (hf : strings.ToLower Field = "index_id".toList) :
    ComparisonNode.Evaluate Field op v task cfg now loc =
      compareInt task.TaskMetadata.IndexID op (strings.ToLower v) := by
  simp [ComparisonNode.Evaluate, hf]

theorem Evaluate_project_id (Field op v : List Char) (task : Task) (cfg : config.Config)
    (now : time.Time) (loc : time.Location) (hf : strings.ToLower Field = "project_id".toList) :
    ComparisonNode.Evaluate Field op v task cfg now loc =
      if strings.ToLower v = "empty".toList then
        decide (op = ":".toList) && decide (task.TaskMetadata.ProjectID = [])
      else if strings.ToLower v = "set".toList then
        decide (op = ":".toList) && decide (task.TaskMetadata.ProjectID ≠ [])
      else compareString task.TaskMetadata.ProjectID op (strings.ToLower v) := by
  simp [ComparisonNode.Evaluate, hf]

theorem Evaluate_start (Field op v : List Char) (task : Task) (cfg : config.Config)
    (now : time.Time) (loc : time.Location)
    (hf : strings.ToLower Field = "start".toList ∨ strings.ToLower Field = "start_date".toList) :
    ComparisonNode.Evaluate Field op v task cfg now loc =
      if strings.ToLower v = "empty".toList then
        decide (op = ":".toList) && decide (task.TaskMetadata.StartDate = [])
      else if strings.ToLower v = "set".toList then
        decide (op = ":".toList) && decide (task.TaskMetadata.StartDate ≠ [])
      else compareString task.TaskMetadata.StartDate op (strings.ToLower v) := by
  rcases hf with hf | hf <;> simp [ComparisonNode.Evaluate, hf]

theorem Evaluate_recur (Field op v : List Char) (task : Task) (cfg : config.Config)
    (now : time.Time) (loc : time.Location) (hf : strings.ToLower Field = "recur".toList) :
    ComparisonNode.Evaluate Field op v task cfg now loc =
      if strings.ToLower v = "empty".toList then
        decide (op = ":".toList) && decide (task.TaskMetadata.Recur = [])
      else if strings.ToLower v = "set".toList then
        decide (op = ":".toList) && decide (task.TaskMetadata.Recur ≠ [])
      else compareString (strings.ToLower task.TaskMetadata.Recur) op (strings.ToLower v) := by
  simp [ComparisonNode.Evaluate, hf]

theorem Evaluate_due (Field op v : List Char) (task : Task) (cfg : config.Config)
    (now : time.Time) (loc : time.Location)
    (hf : strings.ToLower Field = "due".toList ∨ strings.ToLower Field = "due_date".toList) :
    ComparisonNode.Evaluate Field op v task cfg now loc =
      if strings.ToLower v = "empty".toList then
        decide (op = ":".toList) && decide (task.TaskMetadata.DueDate = [])
      else if strings.ToLower v = "set".toList then
        decide (op = ":".toList) && decide (task.TaskMetadata.DueDate ≠ [])
      else if strings.ToLower v = "overdue".toList then
        decide (op = ":".toList) && IsOverdue task.TaskMetadata.DueDate now loc
      else if strings.ToLower v = "today".toList then
        decide (op = ":".toList) && decide (DaysUntilDue task.TaskMetadata.DueDate now loc = 0)
      else if strings.ToLower v = "week".toList then
        decide (op = ":".toList) && IsDueThisWeek task.TaskMetadata.DueDate now loc
      else if strings.ToLower v = "soon".toList then
        decide (op = ":".toList) && IsDueSoon task.TaskMetadata.DueDate cfg.SoonHorizon now loc
      else compareString task.TaskMetadata.DueDate op (strings.ToLower v) := by
  rcases hf with hf | hf <;> simp [ComparisonNode.Evaluate, hf]

theorem Evaluate_today (Field op v : List Char) (task : Task) (cfg : config.Config)
    (now : time.Time) (loc : time.Location)
    (hf : strings.ToLower Field = "today".toList ∨ strings.ToLower Field = "today_date".toList) :
    ComparisonNode.Evaluate Field op v task cfg now loc =
      if strings.ToLower v = "tagged".toList ∨ strings.ToLower v = "true".toList then
        decide (op = ":".toList) && task.IsTaggedForToday now
      else compareString task.TaskMetadata.TodayDate op (strings.ToLower v) := by
  rcases hf with hf | hf <;> simp [ComparisonNode.Evaluate, hf]

theorem compareInt_parsed (a k : Int) (op v : List Char) (h : strconv.Atoi v = some k) :
    compareInt a op (strings.ToLower v) =
      if op = ":".toList ∨ op = "=".toList then decide (a = k)
      else if op = ">".toList then decide (a > k)
      else if op = "<".toList then decide (a < k)
      else if op = "!=".toList then decide (a ≠ k)
      else false := by
  simp only [compareInt, strconv.Atoi_ToLower, h]

theorem compareInt_unparsed (a : Int) (op v : List Char) (h : strconv.Atoi v = none) :
    compareInt a op (strings.ToLower v) = false := by
  simp only [compareInt, strconv.Atoi_ToLower, h]

/-- C13: for the integer fields `estimate` and `index_id`, with `a` the value
of the record: when the literal is an integer `k` for `strconv.Atoi`, the
operators `:` and `=` give `a = k`, `!=` gives `a ≠ k`, `>` gives `a > k` and
`<` gives `a < k`; when it is not, the comparison is false for every operator
(and `Evaluate`, a total function, does not raise). -/
theorem C13_Evaluate_integer_fields (Field v : List Char) (task : Task) (cfg : config.Config)
    (now : time.Time) (loc : time.Location) (a : Int)
    (hf : (strings.ToLower Field = "estimate".toList ∧ a = task.TaskMetadata.Estimate) ∨
      (strings.ToLower Field = "index_id".toList ∧ a = task.TaskMetadata.IndexID)) :
    (∀ k, strconv.Atoi v = some k →
      ComparisonNode.Evaluate Field ":".toList v task cfg now loc = decide (a = k) ∧
      ComparisonNode.Evaluate Field "=".toList v task cfg now loc = decide (a = k) ∧
      ComparisonNode.Evaluate Field "!=".toList v task cfg now loc = decide (a ≠ k) ∧
      ComparisonNode.Evaluate Field ">".toList v task cfg now loc = decide (a > k) ∧
      ComparisonNode.Evaluate Field "<".toList v task cfg now loc = decide (a < k)) ∧
    (strconv.Atoi v = none →
      ∀ op, ComparisonNode.Evaluate Field op v task cfg now loc = false) := by
  have key : ∀ op, ComparisonNode.Evaluate Field op v task cfg now loc =
      compareInt a op (strings.ToLower v) := by
    intro op
    rcases hf with ⟨hf, ha⟩ | ⟨hf, ha⟩
    · rw [Evaluate_estimate _ _ _ _ _ _ _ hf, ha]
    · rw [Evaluate_index_id _ _ _ _ _ _ _ hf, ha]
  constructor
  · intro k hk
    simp only [key, compareInt_parsed a k _ v hk]
    refine ⟨?_, ?_, ?_, ?_, ?_⟩ <;> simp
  · intro hn op
    rw [key, compareInt_unparsed a op v hn]

/-- C13 at concrete inputs: `Estimate:5`, `estimate>5` and `estimate:five` on a
record whose estimate is 8. -/
theorem C13_Evaluate_integer_fields_witness :
    ComparisonNode.Evaluate "Estimate".toList ":".toList "5".toList
        { Task.blank with TaskMetadata := { Task.blank.TaskMetadata with Estimate := 8 } }
        ⟨3⟩ (time.Date 2026 11 4 0 0) (time.Location.fixed 0) = false ∧
    ComparisonNode.Evaluate "Estimate".toList ">".toList "5".toList
        { Task.blank with TaskMetadata := { Task.blank.TaskMetadata with Estimate := 8 } }
        ⟨3⟩ (time.Date 2026 11 4 0 0) (time.Location.fixed 0) = true ∧
    ComparisonNode.Evaluate "Estimate".toList "!=".toList "five".toList
        { Task.blank with TaskMetadata := { Task.blank.TaskMetadata with Estimate := 8 } }
        ⟨3⟩ (time.Date 2026 11 4 0 0) (time.Location.fixed 0) = false := by
  have h := C13_Evaluate_integer_fields "Estimate".toList "5".toList
    { Task.blank with TaskMetadata := { Task.blank.TaskMetadata with Estimate := 8 } }
    ⟨3⟩ (time.Date 2026 11 4 0 0) (time.Location.fixed 0) 8 (Or.inl ⟨by decide, rfl⟩)
  have h2 := C13_Evaluate_integer_fields "Estimate".toList "five".toList
    { Task.blank with TaskMetadata := { Task.blank.TaskMetadata with Estimate := 8 } }
    ⟨3⟩ (time.Date 2026 11 4 0 0) (time.Location.fixed 0) 8 (Or.inl ⟨by decide, rfl⟩)
  obtain ⟨h3, _, _, h4, _⟩ := h.1 5 (by decide)
  refine ⟨?_, ?_, h2.2 (by decide) _⟩
  · rw [h3]; decide
  · rw [h4]; decide

/-- C15: a reserved literal is honoured only under `:`.  For every record,
every field with reserved literals (`project_id`, `due`, `start`, `recur`,
`today` and their long names, in any letter case), every reserved literal of
that field (in any letter case) and every operator other than `:`, the
comparison is false. -/
theorem C15_Evaluate_sentinel_other_operator (Field op v : List Char) (task : Task)
    (cfg : config.Config) (now : time.Time) (loc : time.Location)
    (hv : strings.ToLower v ∈ sentinels (strings.ToLower Field)) (hop : op ≠ ":".toList) :
    ComparisonNode.Evaluate Field op v task cfg now loc = false := by
  have hop : ¬ op = [':'] := hop
  unfold sentinels at hv
  split_ifs at hv with h1 h2 h3
  · simp only [List.mem_cons, List.mem_singleton, List.not_mem_nil, or_false] at hv
    rcases h1 with hf | hf | hf | hf
    · rw [Evaluate_project_id _ _ _ _ _ _ _ hf]
      rcases hv with hv | hv <;> simp [hv, hop]
    · rw [Evaluate_start _ _ _ _ _ _ _ (Or.inl hf)]
      rcases hv with hv | hv <;> simp [hv, hop]
    · rw [Evaluate_start _ _ _ _ _ _ _ (Or.inr hf)]
      rcases hv with hv | hv <;> simp [hv, hop]
    · rw [Evaluate_recur _ _ _ _ _ _ _ hf]
      rcases hv with hv | hv <;> simp [hv, hop]
  · simp only [List.mem_cons, List.mem_singleton, List.not_mem_nil, or_false] at hv
    rw [Evaluate_due _ _ _ _ _ _ _ h2]
    rcases hv with hv | hv | hv | hv | hv | hv <;> simp [hv, hop]
  · simp only [List.mem_cons, List.mem_singleton, List.not_mem_nil, or_false] at hv
    rw [Evaluate_today _ _ _ _ _ _ _ h3, if_pos hv]
    simp [hop]
  · simp at hv

/-- C15 at concrete inputs: `due=overdue`, `today!=tagged` and `recur<SET`. -/
theorem C15_Evaluate_sentinel_other_operator_witness :
    ComparisonNode.Evaluate "due".toList "=".toList "overdue".toList
        { Task.blank with
          TaskMetadata := { Task.blank.TaskMetadata with DueDate := "2020-01-01".toList } }
        ⟨3⟩ (time.Date 2026 11 4 0 0) (time.Location.fixed 0) = false ∧
    ComparisonNode.Evaluate "today".toList "!=".toList "tagged".toList Task.blank ⟨3⟩
        (time.Date 2026 11 4 0 0) (time.Location.fixed 0) = false ∧
    ComparisonNode.Evaluate "recur".toList "<".toList "SET".toList
        { Task.blank with
          TaskMetadata := { Task.blank.TaskMetadata with Recur := "daily".toList } }
        ⟨3⟩ (time.Date 2026 11 4 0 0) (time.Location.fixed 0) = false :=
  ⟨C15_Evaluate_sentinel_other_operator _ _ _ _ _ _ _ (by decide) (by decide),
   C15_Evaluate_sentinel_other_operator _ _ _ _ _ _ _ (by decide) (by decide),
   C15_Evaluate_sentinel_other_operator _ _ _ _ _ _ _ (by decide) (by decide)⟩

theorem Evaluate_blank (Field op v : List Char) (task : Task) (cfg : config.Config)
    (now : time.Time) (loc : time.Location) (hf : strings.ToLower Field ∈ blankFields) :
    ComparisonNode.Evaluate Field op v task cfg now loc =
      if strings.ToLower v = "empty".toList then
        decide (op = ":".toList) && decide (fieldValue (strings.ToLower Field) task = [])
      else if strings.ToLower v = "set".toList then
        decide (op = ":".toList) && decide (fieldValue (strings.ToLower Field) task ≠ [])
      else ComparisonNode.Evaluate Field op v task cfg now loc := by
  simp only [blankFields, List.mem_cons, List.mem_singleton, List.not_mem_nil, or_false] at hf
  by_cases he : strings.ToLower v = "empty".toList
  · rw [if_pos he]
    rcases hf with hf | hf | hf | hf | hf | hf
    · rw [Evaluate_project_id _ _ _ _ _ _ _ hf, if_pos he, hf]; rfl
    · rw [Evaluate_due _ _ _ _ _ _ _ (Or.inl hf), if_pos he, hf]; rfl
    · rw [Evaluate_due _ _ _ _ _ _ _ (Or.inr hf), if_pos he, hf]; rfl
    · rw [Evaluate_start _ _ _ _ _ _ _ (Or.inl hf), if_pos he, hf]; rfl
    · rw [Evaluate_start _ _ _ _ _ _ _ (Or.inr hf), if_pos he, hf]; rfl
    · rw [Evaluate_recur _ _ _ _ _ _ _ hf, if_pos he, hf]; rfl
  · rw [if_neg he]
    by_cases hs : strings.ToLower v = "set".toList
    · rw [if_pos hs]
      rcases hf with hf | hf | hf | hf | hf | hf
      · rw [Evaluate_project_id _ _ _ _ _ _ _ hf, if_neg he, if_pos hs, hf]; rfl
      · rw [Evaluate_due _ _ _ _ _ _ _ (Or.inl hf), if_neg he, if_pos hs, hf]; rfl
      · rw [Evaluate_due _ _ _ _ _ _ _ (Or.inr hf), if_neg he, if_pos hs, hf]; rfl
      · rw [Evaluate_start _ _ _ _ _ _ _ (Or.inl hf), if_neg he, if_pos hs, hf]; rfl
      · rw [Evaluate_start _ _ _ _ _ _ _ (Or.inr hf), if_neg he, if_pos hs, hf]; rfl
      · rw [Evaluate_recur _ _ _ _ _ _ _ hf, if_neg he, if_pos hs, hf]; rfl
    · rw [if_neg hs]

/-- C16: for the fields `project_id`, `due`/`due_date`, `start`/`start_date`
and `recur` and every record, `f:empty` is true iff the attribute of the
record is the empty string and `f:set` is true iff it is not, so exactly one
of the two holds. -/
theorem C16_Evaluate_empty_set (Field : List Char) (task : Task) (cfg : config.Config)
    (now : time.Time) (loc : time.Location) (hf : strings.ToLower Field ∈ blankFields) :
    (ComparisonNode.Evaluate Field ":".toList "empty".toList task cfg now loc = true ↔
      fieldValue (strings.ToLower Field) task = []) ∧
    (ComparisonNode.Evaluate Field ":".toList "set".toList task cfg now loc = true ↔
      fieldValue (strings.ToLower Field) task ≠ []) ∧
    ((ComparisonNode.Evaluate Field ":".toList "empty".toList task cfg now loc = true ∧
        ComparisonNode.Evaluate Field ":".toList "set".toList task cfg now loc = false) ∨
      (ComparisonNode.Evaluate Field ":".toList "empty".toList task cfg now loc = false ∧
        ComparisonNode.Evaluate Field ":".toList "set".toList task cfg now loc = true)) := by
  have he := Evaluate_blank Field ":".toList "empty".toList task cfg now loc hf
  have hs := Evaluate_blank Field ":".toList "set".toList task cfg now loc hf
  rw [if_pos (by decide)] at he
  rw [if_neg (by decide), if_pos (by decide)] at hs
  rw [he, hs]
  by_cases h : fieldValue (strings.ToLower Field) task = [] <;> simp [h]

/-- C16 at concrete inputs: `due:empty` and `due:set` on a record without a due
date. -/
theorem C16_Evaluate_empty_set_witness :
    ComparisonNode.Evaluate "due".toList ":".toList "empty".toList Task.blank ⟨3⟩
        (time.Date 2026 11 4 0 0) (time.Location.fixed 0) = true ∧
    ComparisonNode.Evaluate "due".toList ":".toList "set".toList Task.blank ⟨3⟩
        (time.Date 2026 11 4 0 0) (time.Location.fixed 0) = false := by
  have h := C16_Evaluate_empty_set "due".toList Task.blank ⟨3⟩ (time.Date 2026 11 4 0 0) (time.Location.fixed 0)
    (by decide)
  refine ⟨h.1.mpr (by decide), ?_⟩
  rcases h.2.2 with h1 | h1
  · exact h1.2
  · have := h.1.mpr (by decide)
    rw [h1.1] at this
    exact absurd this (by decide)

/-- C12 (defect): `project_id:20250704T151739` on a record whose project
reference is `20250704T151739`.  The literal is not a reserved one and equals
the attribute, yet the comparison is false with `:` and `=` and true with
`!=`: the literal is lower-cased before the comparison and the attribute is
not. -/
theorem C12_project_id_case_sensitive (cfg : config.Config) (now : time.Time)
    (loc : time.Location) :
    strings.ToLower "20250704T151739".toList ∉ sentinels "project_id".toList ∧
    ComparisonNode.Evaluate "project_id".toList ":".toList "20250704T151739".toList
      { Task.blank with
        TaskMetadata := { Task.blank.TaskMetadata with ProjectID := "20250704T151739".toList } }
      cfg now loc = false ∧
    ComparisonNode.Evaluate "project_id".toList "=".toList "20250704T151739".toList
      { Task.blank with
        TaskMetadata := { Task.blank.TaskMetadata with ProjectID := "20250704T151739".toList } }
      cfg now loc = false ∧
    ComparisonNode.Evaluate "project_id".toList "!=".toList "20250704T151739".toList
      { Task.blank with
        TaskMetadata := { Task.blank.TaskMetadata with ProjectID := "20250704T151739".toList } }
      cfg now loc = true := by
  refine ⟨by decide, ?_, ?_, ?_⟩ <;>
    rw [Evaluate_project_id _ _ _ _ _ _ _ (by decide)] <;> decide

/-- C17 (defect): `due:today` is true on a record without a due date, whatever
the current date. -/
theorem C17_due_today_without_due_date (cfg : config.Config) (now : time.Time)
    (loc : time.Location) :
    ComparisonNode.Evaluate "due".toList ":".toList "today".toList Task.blank cfg now loc
      = true := by
  rw [Evaluate_due _ _ _ _ _ _ _ (Or.inl (by decide))]
  rw [if_neg (by decide), if_neg (by decide), if_neg (by decide), if_pos (by decide)]
  have h : DaysUntilDue Task.blank.TaskMetadata.DueDate now loc = 0 := DaysUntilDue_nil now loc
  rw [h]
  decide

/-- C18 (defect): `due:week` is true on a record without a due date, whatever
the current date. -/
theorem C18_due_week_without_due_date (cfg : config.Config) (now : time.Time)
    (loc : time.Location) :
    ComparisonNode.Evaluate "due".toList ":".toList "week".toList Task.blank cfg now loc
      = true := by
  rw [Evaluate_due _ _ _ _ _ _ _ (Or.inl (by decide))]
  rw [if_neg (by decide), if_neg (by decide), if_neg (by decide), if_neg (by decide),
    if_pos (by decide)]
  have h : DaysUntilDue Task.blank.TaskMetadata.DueDate now loc = 0 := DaysUntilDue_nil now loc
  simp only [IsDueThisWeek, h]
  decide

/-- C19 (defect): in New York at noon of 2026-03-09, the day after the clocks
went forward, `due:soon` with a horizon of three days is true on a record
that was due on 2026-03-08, a date in the past, which `IsOverdue` reports as
overdue. -/
theorem C19_due_soon_past_date :
    IsOverdue "2026-03-08".toList (time.Date 2026 3 9 43200000000000 (-14400))
      time.Location.newYork2026 = true ∧
    ComparisonNode.Evaluate "due".toList ":".toList "soon".toList
      { Task.blank with
        TaskMetadata := { Task.blank.TaskMetadata with DueDate := "2026-03-08".toList } }
      ⟨3⟩ (time.Date 2026 3 9 43200000000000 (-14400)) time.Location.newYork2026 = true := by
  have hp : time.ParseInLocation "2026-03-08".toList time.Location.newYork2026 =
      some ⟨20520, 0, -18000⟩ := by decide
  constructor
  · rw [IsOverdue_parsed _ _ _ _ hp]
    decide
  · rw [Evaluate_due _ _ _ _ _ _ _ (Or.inl (by decide))]
    rw [if_neg (by decide), if_neg (by decide), if_neg (by decide), if_neg (by decide),
      if_neg (by decide), if_pos (by decide)]
    have e : ({ Task.blank with
        TaskMetadata := { Task.blank.TaskMetadata with DueDate := "2026-03-08".toList } }
        : Task).TaskMetadata.DueDate = "2026-03-08".toList := rfl
    rw [e, IsDueSoon_parsed _ _ _ _ _ hp]
    decide

end query

/-! ### A complete expression followed by a further token -/

namespace query

theorem Result.bind_eq_ok {α β : Type} (r : Result α) (f : α → Result β) (v : β)
    (h : (r >>= f) = .ok v) : ∃ a, r = .ok a ∧ f a = .ok v := by
  cases r with
  | ok a => exact ⟨a, rfl, h⟩
  | err e => cases h
  | panic => cases h
  | timeout => cases h

theorem getElem?_lt {T : List Token} {pos : Nat} {t : Token} (h : T[pos]? = some t) :
    pos < T.length := by
  by_contra hge
  rw [List.getElem?_eq_none (by omega)] at h
  cases h

/-- Function `match` at a position holding the token `t`. -/
theorem match1_at (T : List Token) (pos : Nat) (t : Token) (h : T[pos]? = some t)
    (ty : TokenType) :
    Parser.match1 ⟨T, pos⟩ ty =
      if t.Typ ≠ .TokenEOF ∧ t.Typ = ty then .ok (true, ⟨T, pos + 1⟩)
      else .ok (false, ⟨T, pos⟩) := by
  have hlt := getElem?_lt h
  unfold Parser.match1
  rw [check_shape T pos t h hlt]
  by_cases h1 : t.Typ ≠ .TokenEOF ∧ t.Typ = ty
  · rw [if_pos h1]
    have hb : (t.Typ != .TokenEOF && t.Typ == ty) = true := by simpa using h1
    rw [advance_shape T pos t h hlt h1.1]
    simp only [Result.ok_bind, hb, if_true]
    rfl
  · rw [if_neg h1]
    have hb : (t.Typ != .TokenEOF && t.Typ == ty) = false := by
      rw [← Bool.not_eq_true]
      simpa using h1
    simp only [Result.ok_bind, hb, Bool.false_eq_true, if_false]
    rfl

theorem parseFactor_at (f : Nat) (T : List Token) (pos : Nat) (t : Token)
    (h : T[pos]? = some t) :
    Parser.parseFactor (f + 1) ⟨T, pos⟩ =
      if t.Typ = .TokenNOT then
        (Parser.parseFactor f ⟨T, pos + 1⟩ >>= fun r => .ok (Node.not r.1, r.2))
      else if t.Typ = .TokenLeftParen then
        (Parser.parseExpression f ⟨T, pos + 1⟩ >>= fun r =>
          r.2.match1 .TokenRightParen >>= fun m =>
            if !m.1 then (m.2.current >>= fun c => .err (.expectedRightParen c.Pos))
            else .ok (r.1, m.2))
      else Parser.parseComparison ⟨T, pos⟩ := by
  conv_lhs => unfold Parser.parseFactor
  rw [match1_at T pos t h]
  by_cases h1 : t.Typ = .TokenNOT
  · rw [if_pos ⟨by rw [h1]; decide, h1⟩, if_pos h1]
    simp only [Result.ok_bind, if_true]
    rfl
  · rw [if_neg (fun hh => h1 hh.2), if_neg h1]
    simp only [Result.ok_bind, Bool.false_eq_true, if_false]
    rw [match1_at T pos t h]
    by_cases h2 : t.Typ = .TokenLeftParen
    · rw [if_pos ⟨by rw [h2]; decide, h2⟩, if_pos h2]
      simp only [Result.ok_bind, if_true]
      rfl
    · rw [if_neg (fun hh => h2 hh.2), if_neg h2]
      simp only [Result.ok_bind, Bool.false_eq_true, if_false]

theorem parseTermLoop_at (f : Nat) (node : Node) (T : List Token) (pos : Nat) (t : Token)
    (h : T[pos]? = some t) :
    Parser.parseTermLoop (f + 1) node ⟨T, pos⟩ =
      if t.Typ = .TokenAND then
        (Parser.parseFactor f ⟨T, pos + 1⟩ >>= fun r =>
          Parser.parseTermLoop f (Node.and node r.1) r.2)
      else .ok (node, ⟨T, pos⟩) := by
  conv_lhs => unfold Parser.parseTermLoop
  rw [match1_at T pos t h]
  by_cases h1 : t.Typ = .TokenAND
  · rw [if_pos ⟨by rw [h1]; decide, h1⟩, if_pos h1]
    simp only [Result.ok_bind, if_true]
    rfl
  · rw [if_neg (fun hh => h1 hh.2), if_neg h1]
    simp only [Result.ok_bind, Bool.false_eq_true, if_false]
    rfl

theorem parseExpressionLoop_at (f : Nat) (node : Node) (T : List Token) (pos : Nat)
    (t : Token) (h : T[pos]? = some t) :
    Parser.parseExpressionLoop (f + 1) node ⟨T, pos⟩ =
      if t.Typ = .TokenOR then
        (Parser.parseTerm f ⟨T, pos + 1⟩ >>= fun r =>
          Parser.parseExpressionLoop f (Node.or node r.1) r.2)
      else .ok (node, ⟨T, pos⟩) := by
  conv_lhs => unfold Parser.parseExpressionLoop
  rw [match1_at T pos t h]
  by_cases h1 : t.Typ = .TokenOR
  · rw [if_pos ⟨by rw [h1]; decide, h1⟩, if_pos h1]
    simp only [Result.ok_bind, if_true]
    rfl
  · rw [if_neg (fun hh => h1 hh.2), if_neg h1]
    simp only [Result.ok_bind, Bool.false_eq_true, if_false]
    rfl

/-- Function `parseComparison` stops with an error on a token that is not a field. -/
theorem parseComparison_no_field (T : List Token) (pos : Nat) (t : Token)
    (h : T[pos]? = some t) (hty : t.Typ ≠ .TokenField) :
    Parser.parseComparison ⟨T, pos⟩ = .err (.expectedField t.Pos t) := by
  have hlt := getElem?_lt h
  unfold Parser.parseComparison
  rw [check_shape T pos t h hlt, current_shape T pos t h hlt]
  have hb : (t.Typ != .TokenEOF && t.Typ == .TokenField) = false := by
    rw [← Bool.not_eq_true]
    simp [hty]
  simp only [Result.ok_bind, hb, Bool.not_false, if_true]

/-- Function `parseComparison` after a field: an error on a token that is not an
operator. -/
theorem parseComparison_no_operator (T : List Token) (pos : Nat) (t t1 : Token)
    (h : T[pos]? = some t) (hty : t.Typ = .TokenField) (h1 : T[pos + 1]? = some t1)
    (hop : isOperator t1.Typ = false) :
    Parser.parseComparison ⟨T, pos⟩ = .err (.expectedOperator t1.Pos t1) := by
  have hlt := getElem?_lt h
  have hlt1 := getElem?_lt h1
  simp only [isOperator, Bool.or_eq_false_iff, beq_eq_false_iff_ne, ne_eq] at hop
  obtain ⟨⟨⟨⟨a1, a2⟩, a3⟩, a4⟩, a5⟩ := hop
  unfold Parser.parseComparison
  rw [check_shape T pos t h hlt]
  simp only [hty, Result.ok_bind]
  rw [advance_shape T pos t h hlt (by rw [hty]; decide)]
  simp only [Result.ok_bind]
  rw [check_shape T (pos + 1) t1 h1 hlt1, check_shape T (pos + 1) t1 h1 hlt1,
    check_shape T (pos + 1) t1 h1 hlt1, check_shape T (pos + 1) t1 h1 hlt1,
    check_shape T (pos + 1) t1 h1 hlt1, current_shape T (pos + 1) t1 h1 hlt1]
  simp [a1, a2, a3, a4, a5]

/-- Function `parseComparison` after a field and an operator: an error on a token
that is not a value. -/
theorem parseComparison_no_value (T : List Token) (pos : Nat) (t t1 t2 : Token)
    (h : T[pos]? = some t) (hty : t.Typ = .TokenField) (h1 : T[pos + 1]? = some t1)
    (hop : isOperator t1.Typ = true) (h2 : T[pos + 2]? = some t2)
    (hv : t2.Typ ≠ .TokenValue) :
    Parser.parseComparison ⟨T, pos⟩ = .err (.expectedValue t2.Pos t2) := by
  have hlt := getElem?_lt h
  have hlt1 := getElem?_lt h1
  have hlt2 := getElem?_lt h2
  have hopne : t1.Typ ≠ .TokenEOF := by
    intro he; rw [he] at hop; revert hop; decide
  have hc : (t1.Typ == .TokenColon || t1.Typ == .TokenGT || t1.Typ == .TokenLT ||
      t1.Typ == .TokenEQ || t1.Typ == .TokenNE) = true := hop
  simp only [Bool.or_eq_true, beq_iff_eq] at hc
  unfold Parser.parseComparison
  rw [check_shape T pos t h hlt]
  simp only [hty, Result.ok_bind]
  rw [advance_shape T pos t h hlt (by rw [hty]; decide)]
  simp only [Result.ok_bind]
  rw [check_shape T (pos + 1) t1 h1 hlt1, check_shape T (pos + 1) t1 h1 hlt1,
    check_shape T (pos + 1) t1 h1 hlt1, check_shape T (pos + 1) t1 h1 hlt1,
    check_shape T (pos + 1) t1 h1 hlt1]
  simp only [Result.ok_bind]
  rw [advance_shape T (pos + 1) t1 h1 hlt1 hopne]
  simp only [Result.ok_bind]
  rw [check_shape T (pos + 1 + 1) t2 h2 hlt2, current_shape T (pos + 1 + 1) t2 h2 hlt2]
  have hb : (t2.Typ != .TokenEOF && t2.Typ == .TokenValue) = false := by
    rw [← Bool.not_eq_true]
    simp [hv]
  rcases hc with (((hc | hc) | hc) | hc) | hc <;> simp [hc, hb]

/-- Function `parseComparison` on a field, an operator and a value. -/
theorem parseComparison_ok (T : List Token) (pos : Nat) (t t1 t2 : Token)
    (h : T[pos]? = some t) (hty : t.Typ = .TokenField) (h1 : T[pos + 1]? = some t1)
    (hop : isOperator t1.Typ = true) (h2 : T[pos + 2]? = some t2)
    (hv : t2.Typ = .TokenValue) :
    Parser.parseComparison ⟨T, pos⟩ =
      .ok (.comparison t.Value t1.Value t2.Value, ⟨T, pos + 3⟩) := by
  have hlt := getElem?_lt h
  have hlt1 := getElem?_lt h1
  have hlt2 := getElem?_lt h2
  have hopne : t1.Typ ≠ .TokenEOF := by
    intro he; rw [he] at hop; revert hop; decide
  have hc : (t1.Typ == .TokenColon || t1.Typ == .TokenGT || t1.Typ == .TokenLT ||
      t1.Typ == .TokenEQ || t1.Typ == .TokenNE) = true := hop
  simp only [Bool.or_eq_true, beq_iff_eq] at hc
  unfold Parser.parseComparison
  rw [check_shape T pos t h hlt]
  simp only [hty, Result.ok_bind]
  rw [advance_shape T pos t h hlt (by rw [hty]; decide)]
  simp only [Result.ok_bind]
  rw [check_shape T (pos + 1) t1 h1 hlt1, check_shape T (pos + 1) t1 h1 hlt1,
    check_shape T (pos + 1) t1 h1 hlt1, check_shape T (pos + 1) t1 h1 hlt1,
    check_shape T (pos + 1) t1 h1 hlt1]
  simp only [Result.ok_bind]
  rw [advance_shape T (pos + 1) t1 h1 hlt1 hopne]
  simp only [Result.ok_bind]
  rw [check_shape T (pos + 1 + 1) t2 h2 hlt2]
  simp only [hv, Result.ok_bind]
  rw [advance_shape T (pos + 1 + 1) t2 h2 hlt2 (by rw [hv]; decide)]
  rcases hc with (((hc | hc) | hc) | hc) | hc <;> simp [hc]


theorem tok_at (L M : List Token) (k : Nat) (hS : SameTypes L M k)
    (hE : ∃ e, L[k]? = some e ∧ e.Typ = .TokenEOF) (pos : Nat) (hpos : pos ≤ k) :
    ∃ t, L[pos]? = some t := by
  rcases Nat.lt_or_ge pos k with h | h
  · obtain ⟨t, _, ht, _⟩ := hS pos h
    exact ⟨t, ht⟩
  · have : pos = k := by omega
    subst this
    obtain ⟨e, he, _⟩ := hE
    exact ⟨e, he⟩

theorem tok_below (L M : List Token) (k : Nat) (hS : SameTypes L M k)
    (hE : ∃ e, L[k]? = some e ∧ e.Typ = .TokenEOF) (pos : Nat) (hpos : pos ≤ k) (t : Token)
    (ht : L[pos]? = some t) (hne : t.Typ ≠ .TokenEOF) :
    pos < k ∧ ∃ u, M[pos]? = some u ∧ u.Typ = t.Typ := by
  rcases Nat.lt_or_ge pos k with h | h
  · obtain ⟨t1, u, ht1, hu, hty, _⟩ := hS pos h
    rw [ht] at ht1
    cases ht1
    exact ⟨h, u, hu, hty.symm⟩
  · have : pos = k := by omega
    subst this
    obtain ⟨e, he, hee⟩ := hE
    rw [ht] at he
    cases he
    exact absurd hee hne

theorem tok_other (L M : List Token) (k : Nat) (hS : SameTypes L M k)
    (hX : ∃ x, M[k]? = some x ∧ x.Typ ≠ .TokenAND ∧ x.Typ ≠ .TokenOR) (pos : Nat)
    (hpos : pos ≤ k) (t : Token) (ht : L[pos]? = some t) :
    ∃ u, M[pos]? = some u ∧
      (t.Typ ≠ .TokenAND → u.Typ ≠ .TokenAND) ∧ (t.Typ ≠ .TokenOR → u.Typ ≠ .TokenOR) := by
  rcases Nat.lt_or_ge pos k with h | h
  · obtain ⟨t1, u, ht1, hu, hty, _⟩ := hS pos h
    rw [ht] at ht1
    cases ht1
    exact ⟨u, hu, fun h1 => by rw [← hty]; exact h1, fun h1 => by rw [← hty]; exact h1⟩
  · have : pos = k := by omega
    subst this
    obtain ⟨x, hx, h1, h2⟩ := hX
    exact ⟨x, hx, fun _ => h1, fun _ => h2⟩

theorem operator_ne_EOF (ty : TokenType) (h : isOperator ty = true) : ty ≠ .TokenEOF := by
  intro he; rw [he] at h; revert h; decide

theorem sim_parseComparison (L M : List Token) (k : Nat) (hS : SameTypes L M k)
    (hE : ∃ e, L[k]? = some e ∧ e.Typ = .TokenEOF) :
    SimStep Parser.parseComparison L M k := by
  intro pos n p2 hpos hok
  obtain ⟨t, ht⟩ := tok_at L M k hS hE pos hpos
  by_cases hty : t.Typ = .TokenField
  swap
  · rw [parseComparison_no_field L pos t ht hty] at hok
    cases hok
  obtain ⟨hlt, u, hu, hut⟩ := tok_below L M k hS hE pos hpos t ht (by rw [hty]; decide)
  obtain ⟨t1, ht1⟩ := tok_at L M k hS hE (pos + 1) (by omega)
  cases hop : isOperator t1.Typ
  · rw [parseComparison_no_operator L pos t t1 ht hty ht1 hop] at hok
    cases hok
  obtain ⟨hlt1, u1, hu1, hut1⟩ := tok_below L M k hS hE (pos + 1) (by omega) t1 ht1
    (operator_ne_EOF _ hop)
  obtain ⟨t2, ht2⟩ := tok_at L M k hS hE (pos + 2) (by omega)
  by_cases hv : t2.Typ = .TokenValue
  swap
  · rw [parseComparison_no_value L pos t t1 t2 ht hty ht1 hop ht2 hv] at hok
    cases hok
  obtain ⟨hlt2, u2, hu2, hut2⟩ := tok_below L M k hS hE (pos + 2) (by omega) t2 ht2
    (by rw [hv]; decide)
  rw [parseComparison_ok L pos t t1 t2 ht hty ht1 hop ht2 hv] at hok
  cases hok
  refine ⟨pos + 3, .comparison u.Value u1.Value u2.Value, rfl, by omega, by omega, ?_,
    pos + 2, t2, rfl, ht2, Or.inl hv⟩
  exact parseComparison_ok M pos u u1 u2 hu (by rw [hut, hty]) hu1 (by rw [hut1, hop]) hu2
    (by rw [hut2, hv])


theorem sim_expression_step (f : Nat) (L M : List Token) (k : Nat)
    (hT : SimStep (Parser.parseTerm f) L M k)
    (hEL : SimLoop (Parser.parseExpressionLoop f) L M k) :
    SimStep (Parser.parseExpression (f + 1)) L M k := by
  intro pos n p2 hpos hok
  rw [parseExpression_succ] at hok
  obtain ⟨r, h1, h2⟩ := Result.bind_eq_ok _ _ _ hok
  obtain ⟨pos1, n1, hp1, hlt1, hle1, hM1, hend1⟩ := hT pos r.1 r.2 hpos h1
  rw [hp1] at h2
  obtain ⟨pos2, n2, hp2, hlt2, hle2, hM2, hend2⟩ := hEL r.1 n1 pos1 n p2 hle1 hend1 h2
  refine ⟨pos2, n2, hp2, by omega, hle2, ?_, hend2⟩
  rw [parseExpression_succ, hM1]
  exact hM2

theorem sim_term_step (f : Nat) (L M : List Token) (k : Nat)
    (hF : SimStep (Parser.parseFactor f) L M k)
    (hTL : SimLoop (Parser.parseTermLoop f) L M k) :
    SimStep (Parser.parseTerm (f + 1)) L M k := by
  intro pos n p2 hpos hok
  rw [parseTerm_succ] at hok
  obtain ⟨r, h1, h2⟩ := Result.bind_eq_ok _ _ _ hok
  obtain ⟨pos1, n1, hp1, hlt1, hle1, hM1, hend1⟩ := hF pos r.1 r.2 hpos h1
  rw [hp1] at h2
  obtain ⟨pos2, n2, hp2, hlt2, hle2, hM2, hend2⟩ := hTL r.1 n1 pos1 n p2 hle1 hend1 h2
  refine ⟨pos2, n2, hp2, by omega, hle2, ?_, hend2⟩
  rw [parseTerm_succ, hM1]
  exact hM2

theorem sim_expressionLoop_step (f : Nat) (L M : List Token) (k : Nat)
    (hS : SameTypes L M k) (hE : ∃ e, L[k]? = some e ∧ e.Typ = .TokenEOF)
    (hX : ∃ x, M[k]? = some x ∧ x.Typ ≠ .TokenAND ∧ x.Typ ≠ .TokenOR)
    (hT : SimStep (Parser.parseTerm f) L M k)
    (hEL : SimLoop (Parser.parseExpressionLoop f) L M k) :
    SimLoop (Parser.parseExpressionLoop (f + 1)) L M k := by
  intro node node1 pos n p2 hpos hend hok
  obtain ⟨t, ht⟩ := tok_at L M k hS hE pos hpos
  rw [parseExpressionLoop_at f node L pos t ht] at hok
  by_cases hty : t.Typ = .TokenOR
  · rw [if_pos hty] at hok
    obtain ⟨hlt, u, hu, hut⟩ := tok_below L M k hS hE pos hpos t ht (by rw [hty]; decide)
    obtain ⟨r, h1, h2⟩ := Result.bind_eq_ok _ _ _ hok
    obtain ⟨pos1, n1, hp1, hlt1, hle1, hM1, hend1⟩ := hT (pos + 1) r.1 r.2 (by omega) h1
    rw [hp1] at h2
    obtain ⟨pos2, n2, hp2, hlt2, hle2, hM2, hend2⟩ :=
      hEL (Node.or node r.1) (Node.or node1 n1) pos1 n p2 hle1 hend1 h2
    refine ⟨pos2, n2, hp2, by omega, hle2, ?_, hend2⟩
    rw [parseExpressionLoop_at f node1 M pos u hu, if_pos (by rw [hut, hty]), hM1]
    exact hM2
  · rw [if_neg hty] at hok
    cases hok
    obtain ⟨u, hu, _, hne⟩ := tok_other L M k hS hX pos hpos t ht
    refine ⟨pos, node1, rfl, le_refl _, hpos, ?_, hend⟩
    rw [parseExpressionLoop_at f node1 M pos u hu, if_neg (hne hty)]

theorem sim_termLoop_step (f : Nat) (L M : List Token) (k : Nat)
    (hS : SameTypes L M k) (hE : ∃ e, L[k]? = some e ∧ e.Typ = .TokenEOF)
    (hX : ∃ x, M[k]? = some x ∧ x.Typ ≠ .TokenAND ∧ x.Typ ≠ .TokenOR)
    (hF : SimStep (Parser.parseFactor f) L M k)
    (hTL : SimLoop (Parser.parseTermLoop f) L M k) :
    SimLoop (Parser.parseTermLoop (f + 1)) L M k := by
  intro node node1 pos n p2 hpos hend hok
  obtain ⟨t, ht⟩ := tok_at L M k hS hE pos hpos
  rw [parseTermLoop_at f node L pos t ht] at hok
  by_cases hty : t.Typ = .TokenAND
  · rw [if_pos hty] at hok
    obtain ⟨hlt, u, hu, hut⟩ := tok_below L M k hS hE pos hpos t ht (by rw [hty]; decide)
    obtain ⟨r, h1, h2⟩ := Result.bind_eq_ok _ _ _ hok
    obtain ⟨pos1, n1, hp1, hlt1, hle1, hM1, hend1⟩ := hF (pos + 1) r.1 r.2 (by omega) h1
    rw [hp1] at h2
    obtain ⟨pos2, n2, hp2, hlt2, hle2, hM2, hend2⟩ :=
      hTL (Node.and node r.1) (Node.and node1 n1) pos1 n p2 hle1 hend1 h2
    refine ⟨pos2, n2, hp2, by omega, hle2, ?_, hend2⟩
    rw [parseTermLoop_at f node1 M pos u hu, if_pos (by rw [hut, hty]), hM1]
    exact hM2
  · rw [if_neg hty] at hok
    cases hok
    obtain ⟨u, hu, hne, _⟩ := tok_other L M k hS hX pos hpos t ht
    refine ⟨pos, node1, rfl, le_refl _, hpos, ?_, hend⟩
    rw [parseTermLoop_at f node1 M pos u hu, if_neg (hne hty)]

theorem sim_factor_step (f : Nat) (L M : List Token) (k : Nat)
    (hS : SameTypes L M k) (hE : ∃ e, L[k]? = some e ∧ e.Typ = .TokenEOF)
    (hF : SimStep (Parser.parseFactor f) L M k)
    (hEx : SimStep (Parser.parseExpression f) L M k) :
    SimStep (Parser.parseFactor (f + 1)) L M k := by
  intro pos n p2 hpos hok
  obtain ⟨t, ht⟩ := tok_at L M k hS hE pos hpos
  rw [parseFactor_at f L pos t ht] at hok
  by_cases hnot : t.Typ = .TokenNOT
  · rw [if_pos hnot] at hok
    obtain ⟨hlt, u, hu, hut⟩ := tok_below L M k hS hE pos hpos t ht (by rw [hnot]; decide)
    obtain ⟨r, h1, h2⟩ := Result.bind_eq_ok _ _ _ hok
    obtain ⟨pos1, n1, hp1, hlt1, hle1, hM1, hend1⟩ := hF (pos + 1) r.1 r.2 (by omega) h1
    cases h2
    refine ⟨pos1, Node.not n1, hp1, by omega, hle1, ?_, hend1⟩
    rw [parseFactor_at f M pos u hu, if_pos (by rw [hut, hnot]), hM1]
    rfl
  · rw [if_neg hnot] at hok
    by_cases hpar : t.Typ = .TokenLeftParen
    · rw [if_pos hpar] at hok
      obtain ⟨hlt, u, hu, hut⟩ := tok_below L M k hS hE pos hpos t ht (by rw [hpar]; decide)
      obtain ⟨r, h1, h2⟩ := Result.bind_eq_ok _ _ _ hok
      obtain ⟨pos1, n1, hp1, hlt1, hle1, hM1, hend1⟩ := hEx (pos + 1) r.1 r.2 (by omega) h1
      rw [hp1] at h2
      obtain ⟨t3, ht3⟩ := tok_at L M k hS hE pos1 hle1
      rw [match1_at L pos1 t3 ht3] at h2
      by_cases hcl : t3.Typ ≠ .TokenEOF ∧ t3.Typ = .TokenRightParen
      · rw [if_pos hcl] at h2
        simp only [Result.ok_bind, Bool.not_true, Bool.false_eq_true, if_false] at h2
        cases h2
        obtain ⟨hlt3, u3, hu3, hut3⟩ := tok_below L M k hS hE pos1 hle1 t3 ht3 hcl.1
        refine ⟨pos1 + 1, n1, rfl, by omega, by omega, ?_, pos1, t3, rfl, ht3, Or.inr hcl.2⟩
        rw [parseFactor_at f M pos u hu, if_neg (by rw [hut]; exact hnot),
          if_pos (by rw [hut, hpar]), hM1]
        simp only [Result.ok_bind]
        rw [match1_at M pos1 u3 hu3, if_pos (by rw [hut3]; exact hcl)]
        simp only [Result.ok_bind, Bool.not_true, Bool.false_eq_true, if_false]
      · rw [if_neg hcl] at h2
        simp only [Result.ok_bind, Bool.not_false, if_true] at h2
        rw [current_shape L pos1 t3 ht3 (getElem?_lt ht3)] at h2
        cases h2
    · rw [if_neg hpar] at hok
      obtain ⟨pos2, n2, hp2, hlt2, hle2, hM2, hend2⟩ :=
        sim_parseComparison L M k hS hE pos n p2 hpos hok
      have hne : t.Typ ≠ .TokenEOF := by
        intro he
        rw [parseComparison_no_field L pos t ht (by rw [he]; decide)] at hok
        cases hok
      obtain ⟨hlt, u, hu, hut⟩ := tok_below L M k hS hE pos hpos t ht hne
      refine ⟨pos2, n2, hp2, hlt2, hle2, ?_, hend2⟩
      rw [parseFactor_at f M pos u hu, if_neg (by rw [hut]; exact hnot),
        if_neg (by rw [hut]; exact hpar)]
      exact hM2

/-- The parser on two token lists that hold tokens of the same types below `k`,
the first with EOF at `k`, the second with a token that is neither `AND` nor
`OR`: what succeeds on the first succeeds on the second, up to the same
position. -/
theorem sim_all (L M : List Token) (k : Nat)
    (hS : SameTypes L M k) (hE : ∃ e, L[k]? = some e ∧ e.Typ = .TokenEOF)
    (hX : ∃ x, M[k]? = some x ∧ x.Typ ≠ .TokenAND ∧ x.Typ ≠ .TokenOR) (f : Nat) :
    SimStep (Parser.parseExpression f) L M k ∧
    SimLoop (Parser.parseExpressionLoop f) L M k ∧
    SimStep (Parser.parseTerm f) L M k ∧
    SimLoop (Parser.parseTermLoop f) L M k ∧
    SimStep (Parser.parseFactor f) L M k := by
  induction f with
  | zero =>
    refine ⟨?_, ?_, ?_, ?_, ?_⟩
    · intro pos n p2 _ hok
      unfold Parser.parseExpression at hok
      cases hok
    · intro node node1 pos n p2 _ _ hok
      unfold Parser.parseExpressionLoop at hok
      cases hok
    · intro pos n p2 _ hok
      unfold Parser.parseTerm at hok
      cases hok
    · intro node node1 pos n p2 _ _ hok
      unfold Parser.parseTermLoop at hok
      cases hok
    · intro pos n p2 _ hok
      unfold Parser.parseFactor at hok
      cases hok
  | succ f ih =>
    obtain ⟨hEx, hEL, hT, hTL, hF⟩ := ih
    exact ⟨sim_expression_step f L M k hT hEL,
      sim_expressionLoop_step f L M k hS hE hX hT hEL,
      sim_term_step f L M k hF hTL,
      sim_termLoop_step f L M k hS hE hX hF hTL,
      sim_factor_step f L M k hS hE hF hEx⟩


theorem Result.le_refl {α : Type} (r : Result α) : Result.le r r := Or.inr rfl

theorem Result.le_bind {α β : Type} (r s : Result α) (g h : α → Result β)
    (hrs : Result.le r s) (hgh : ∀ a, Result.le (g a) (h a)) :
    Result.le (r >>= g) (s >>= h) := by
  rcases hrs with h1 | h1
  · left
    rw [h1]
    rfl
  · subst h1
    cases r with
    | ok a => exact hgh a
    | err e => exact Or.inr rfl
    | panic => exact Or.inr rfl
    | timeout => exact Or.inr rfl

theorem Result.le_ok {α : Type} (r s : Result α) (v : α) (h : Result.le r s)
    (hr : r = .ok v) : s = .ok v := by
  rcases h with h1 | h1
  · rw [h1] at hr
    cases hr
  · rw [← h1]
    exact hr

theorem parseExpressionLoop_succ (f : Nat) (node : Node) (p : Parser) :
    Parser.parseExpressionLoop (f + 1) node p =
      (p.match1 .TokenOR >>= fun m =>
        if m.1 then
          (Parser.parseTerm f m.2 >>= fun r =>
            Parser.parseExpressionLoop f (.boolean "OR".toList node (some r.1)) r.2)
        else .ok (node, m.2)) := by
  conv_lhs => unfold Parser.parseExpressionLoop
  rfl

theorem parseTermLoop_succ (f : Nat) (node : Node) (p : Parser) :
    Parser.parseTermLoop (f + 1) node p =
      (p.match1 .TokenAND >>= fun m =>
        if m.1 then
          (Parser.parseFactor f m.2 >>= fun r =>
            Parser.parseTermLoop f (.boolean "AND".toList node (some r.1)) r.2)
        else .ok (node, m.2)) := by
  conv_lhs => unfold Parser.parseTermLoop
  rfl

theorem parseFactor_succ (f : Nat) (p : Parser) :
    Parser.parseFactor (f + 1) p =
      (p.match1 .TokenNOT >>= fun a =>
        if a.1 then
          (Parser.parseFactor f a.2 >>= fun r => .ok (.boolean "NOT".toList r.1 none, r.2))
        else
          (a.2.match1 .TokenLeftParen >>= fun b =>
            if b.1 then
              (Parser.parseExpression f b.2 >>= fun r =>
                r.2.match1 .TokenRightParen >>= fun m =>
                  if !m.1 then (m.2.current >>= fun c => .err (.expectedRightParen c.Pos))
                  else .ok (r.1, m.2))
            else b.2.parseComparison)) := by
  conv_lhs => unfold Parser.parseFactor
  rfl

/-- One more unit of fuel does not change an outcome other than `timeout`. -/
theorem fuel_succ (f : Nat) :
    (∀ p, Result.le (Parser.parseExpression f p) (Parser.parseExpression (f + 1) p)) ∧
    (∀ node p, Result.le (Parser.parseExpressionLoop f node p)
      (Parser.parseExpressionLoop (f + 1) node p)) ∧
    (∀ p, Result.le (Parser.parseTerm f p) (Parser.parseTerm (f + 1) p)) ∧
    (∀ node p, Result.le (Parser.parseTermLoop f node p)
      (Parser.parseTermLoop (f + 1) node p)) ∧
    (∀ p, Result.le (Parser.parseFactor f p) (Parser.parseFactor (f + 1) p)) := by
  induction f with
  | zero =>
    refine ⟨?_, ?_, ?_, ?_, ?_⟩
    · intro p; left; unfold Parser.parseExpression; rfl
    · intro node p; left; unfold Parser.parseExpressionLoop; rfl
    · intro p; left; unfold Parser.parseTerm; rfl
    · intro node p; left; unfold Parser.parseTermLoop; rfl
    · intro p; left; unfold Parser.parseFactor; rfl
  | succ f ih =>
    obtain ⟨hEx, hEL, hT, hTL, hF⟩ := ih
    refine ⟨?_, ?_, ?_, ?_, ?_⟩
    · intro p
      rw [parseExpression_succ f, parseExpression_succ (f + 1)]
      exact Result.le_bind _ _ _ _ (hT p) (fun a => hEL _ _)
    · intro node p
      rw [parseExpressionLoop_succ f, parseExpressionLoop_succ (f + 1)]
      refine Result.le_bind _ _ _ _ (Result.le_refl _) (fun m => ?_)
      by_cases hm : m.1 = true
      · rw [if_pos hm, if_pos hm]
        exact Result.le_bind _ _ _ _ (hT _) (fun a => hEL _ _)
      · rw [if_neg hm, if_neg hm]
        exact Result.le_refl _
    · intro p
      rw [parseTerm_succ f, parseTerm_succ (f + 1)]
      exact Result.le_bind _ _ _ _ (hF p) (fun a => hTL _ _)
    · intro node p
      rw [parseTermLoop_succ f, parseTermLoop_succ (f + 1)]
      refine Result.le_bind _ _ _ _ (Result.le_refl _) (fun m => ?_)
      by_cases hm : m.1 = true
      · rw [if_pos hm, if_pos hm]
        exact Result.le_bind _ _ _ _ (hF _) (fun a => hTL _ _)
      · rw [if_neg hm, if_neg hm]
        exact Result.le_refl _
    · intro p
      rw [parseFactor_succ f, parseFactor_succ (f + 1)]
      refine Result.le_bind _ _ _ _ (Result.le_refl _) (fun a => ?_)
      by_cases ha : a.1 = true
      · rw [if_pos ha, if_pos ha]
        exact Result.le_bind _ _ _ _ (hF _) (fun r => Result.le_refl _)
      · rw [if_neg ha, if_neg ha]
        refine Result.le_bind _ _ _ _ (Result.le_refl _) (fun b => ?_)
        by_cases hb : b.1 = true
        · rw [if_pos hb, if_pos hb]
          exact Result.le_bind _ _ _ _ (hEx _) (fun r => Result.le_refl _)
        · rw [if_neg hb, if_neg hb]
          exact Result.le_refl _

/-- A parse that succeeds with some fuel succeeds with any greater fuel. -/
theorem parseExpression_fuel (f g : Nat) (hfg : f ≤ g) (p : Parser) (r : Node × Parser)
    (h : Parser.parseExpression f p = .ok r) : Parser.parseExpression g p = .ok r := by
  induction g with
  | zero =>
    have : f = 0 := by omega
    subst this
    exact h
  | succ g ih =>
    rcases Nat.lt_or_ge f (g + 1) with h1 | h1
    · exact Result.le_ok _ _ _ ((fuel_succ g).1 p) (ih (by omega))
    · have : f = g + 1 := by omega
      subst this
      exact h


theorem tokenizeLoop_space (c : Char) (hc : unicode.IsSpace c = true) (cs : List Char)
    (pos : Nat) (toks : List Token) :
    tokenizeLoop (c :: cs) pos toks = tokenizeLoop cs (pos + 1) toks := by
  rw [tokenizeLoop]
  simp [hc]

theorem tokenizeLoop_bang (cs : List Char) (h : cs.head? ≠ some '=') (pos : Nat)
    (toks : List Token) :
    tokenizeLoop ('!' :: cs) pos toks = .err (.unexpectedCharacter pos '!') := by
  rw [tokenizeLoop]
  simp [unicode.IsSpace, h, List.takeWhile, isWordByte]

/-- A byte that is not a word byte is white space or one of the seven
punctuation bytes. -/
theorem not_wordByte (c : Char) (h : isWordByte c = false) :
    unicode.IsSpace c = true ∨ c = '(' ∨ c = ')' ∨ c = ':' ∨ c = '>' ∨ c = '<' ∨ c = '=' ∨
      c = '!' := by
  by_contra hn
  simp only [not_or] at hn
  obtain ⟨h0, h1, h2, h3, h4, h5, h6, h7⟩ := hn
  have : isWordByte c = true := by
    simp [isWordByte, h0, h1, h2, h3, h4, h5, h6, h7]
  rw [this] at h
  cases h

/-- What the tokenizer finds at a byte: white space, a punctuation token (read
in the same way whatever follows it), a `!` without `=`, or the first byte of
a word. -/
theorem lexeme_cases (c : Char) (cs : List Char) :
    unicode.IsSpace c = true ∨
    (∃ ty lex r, c :: cs = lex ++ r ∧ lex ≠ [] ∧ ty ≠ TokenType.TokenEOF ∧
      ∀ rest pos toks, tokenizeLoop (lex ++ rest) pos toks
        = tokenizeLoop rest (pos + lex.length) (toks ++ [⟨ty, lex, pos⟩])) ∨
    (c = '!' ∧ cs.head? ≠ some '=') ∨
    isWordByte c = true := by
  cases hw : isWordByte c
  swap
  · exact Or.inr (Or.inr (Or.inr rfl))
  rcases not_wordByte c hw with h | h | h | h | h | h | h | h
  · exact Or.inl h
  · subst h
    exact Or.inr (Or.inl ⟨.TokenLeftParen, ['('], cs, rfl, by simp, by decide,
      fun rest pos toks => tokenizeLoop_lparen rest pos toks⟩)
  · subst h
    exact Or.inr (Or.inl ⟨.TokenRightParen, [')'], cs, rfl, by simp, by decide,
      fun rest pos toks => tokenizeLoop_rparen rest pos toks⟩)
  · subst h
    exact Or.inr (Or.inl ⟨.TokenColon, [':'], cs, rfl, by simp, by decide,
      fun rest pos toks => tokenizeLoop_operator [':'] _ rfl rest pos toks⟩)
  · subst h
    exact Or.inr (Or.inl ⟨.TokenGT, ['>'], cs, rfl, by simp, by decide,
      fun rest pos toks => tokenizeLoop_operator ['>'] _ rfl rest pos toks⟩)
  · subst h
    exact Or.inr (Or.inl ⟨.TokenLT, ['<'], cs, rfl, by simp, by decide,
      fun rest pos toks => tokenizeLoop_operator ['<'] _ rfl rest pos toks⟩)
  · subst h
    exact Or.inr (Or.inl ⟨.TokenEQ, ['='], cs, rfl, by simp, by decide,
      fun rest pos toks => tokenizeLoop_operator ['='] _ rfl rest pos toks⟩)
  · subst h
    by_cases he : cs.head? = some '='
    · cases cs with
      | nil => cases he
      | cons d cs2 =>
        simp only [List.head?_cons, Option.some.injEq] at he
        subst he
        exact Or.inr (Or.inl ⟨.TokenNE, ['!', '='], cs2, rfl, by simp, by decide,
          fun rest pos toks => tokenizeLoop_operator ['!', '='] _ rfl rest pos toks⟩)
    · exact Or.inr (Or.inr (Or.inl ⟨rfl, he⟩))

/-- A text that begins with a word byte is a word followed by text that ends
the word. -/
theorem word_split (c : Char) (cs : List Char) (hc : isWordByte c = true) :
    ∃ w r, c :: cs = w ++ r ∧ w ≠ [] ∧ (∀ x ∈ w, isWordByte x = true) ∧ EndsWord r ∧
      r.length < (c :: cs).length := by
  refine ⟨(c :: cs).takeWhile isWordByte, (c :: cs).dropWhile isWordByte,
    (List.takeWhile_append_dropWhile _ _).symm, ?_, ?_, ?_, ?_⟩
  · simp [List.takeWhile, hc]
  · intro x hx
    exact List.mem_takeWhile_imp hx
  · intro d r1 h
    have := List.head_dropWhile_not isWordByte (c :: cs) (by rw [h]; simp)
    simp only [h, List.head_cons] at this
    simpa using this
  · exact dropWhile_length_lt c cs (by simp [List.takeWhile, hc])

theorem tokenizeLoop_total_aux (n : Nat) :
    ∀ s : List Char, s.length ≤ n → ∀ pos toks,
      (∃ e, tokenizeLoop s pos toks = .err e) ∨ (∃ T, tokenizeLoop s pos toks = .ok T) := by
  induction n with
  | zero =>
    intro s hs pos toks
    have : s = [] := List.length_eq_zero.mp (by omega)
    subst this
    exact Or.inr ⟨_, tokenizeLoop_nil pos toks⟩
  | succ n ih =>
    intro s hs pos toks
    cases s with
    | nil => exact Or.inr ⟨_, tokenizeLoop_nil pos toks⟩
    | cons c cs =>
      rcases lexeme_cases c cs with h | ⟨ty, lex, r, hs1, hne, _, hstep⟩ | ⟨h1, h2⟩ | h
      · rw [tokenizeLoop_space c h]
        exact ih cs (by simpa using hs) _ _
      · have hlen : r.length ≤ n := by
          have h3 := congrArg List.length hs1
          rw [List.length_append] at h3
          have := List.length_pos.mpr hne
          omega
        rw [hs1, hstep r pos toks]
        exact ih r hlen _ _
      · subst h1
        exact Or.inl ⟨_, tokenizeLoop_bang cs h2 pos toks⟩
      · obtain ⟨w, r, hs1, hne, hw, hr, hlen⟩ := word_split c cs h
        rw [hs1, tokenizeLoop_word w r hne hw hr]
        exact ih r (by omega) _ _

/-- The tokenizer never panics and always terminates. -/
theorem tokenizeLoop_total (s : List Char) (pos : Nat) (toks : List Token) :
    (∃ e, tokenizeLoop s pos toks = .err e) ∨ (∃ T, tokenizeLoop s pos toks = .ok T) :=
  tokenizeLoop_total_aux s.length s (le_refl _) pos toks


theorem wordToken_type (w : List Char) (pos : Nat) (toks : List Token) :
    (wordToken w pos toks).Typ = .TokenAND ∨ (wordToken w pos toks).Typ = .TokenOR ∨
    (wordToken w pos toks).Typ = .TokenNOT ∨ (wordToken w pos toks).Typ = .TokenValue ∨
    (wordToken w pos toks).Typ = .TokenField := by
  unfold wordToken
  simp only
  split_ifs
  · exact Or.inl rfl
  · exact Or.inr (Or.inl rfl)
  · exact Or.inr (Or.inr (Or.inl rfl))
  · cases toks.getLast? with
    | none => exact Or.inr (Or.inr (Or.inr (Or.inr rfl)))
    | some last =>
      simp only
      split_ifs
      · exact Or.inr (Or.inr (Or.inr (Or.inl rfl)))
      · exact Or.inr (Or.inr (Or.inr (Or.inr rfl)))

theorem wordToken_ne_EOF (w : List Char) (pos : Nat) (toks : List Token) :
    (wordToken w pos toks).Typ ≠ .TokenEOF := by
  intro h
  rcases wordToken_type w pos toks with h1 | h1 | h1 | h1 | h1 <;> rw [h1] at h <;> cases h

theorem endsWord_dropWhile (r : List Char) : EndsWord (r.dropWhile isWordByte) := by
  intro d r1 h
  have := List.head_dropWhile_not isWordByte r (by rw [h]; simp)
  simp only [h, List.head_cons] at this
  simpa using this

theorem endsWord_append (r rest : List Char) (hr : EndsWord r) (hne : r ≠ []) :
    EndsWord (r ++ rest) := by
  cases r with
  | nil => exact absurd rfl hne
  | cons d r1 =>
    intro d1 r2 h
    rw [List.cons_append] at h
    cases h
    exact hr d r1 rfl

/-- The tokenizer on a text `s` followed by more text.  When `s` alone is
tokenized into `toks` and EOF, the longer text is tokenized in the same way up
to the end of `s`, except that a word at the end of `s` takes the word bytes
`ext` that follow it. -/
theorem tokenizeLoop_append_aux (n : Nat) :
    ∀ s : List Char, s.length ≤ n → ∀ (pos : Nat) (acc T : List Token),
      tokenizeLoop s pos acc = .ok T → ∀ rest : List Char,
      ∃ toks e ext rest1 toks1,
        T = acc ++ toks ++ [e] ∧ e.Typ = .TokenEOF ∧ (∀ t ∈ toks, t.Typ ≠ .TokenEOF) ∧
        rest = ext ++ rest1 ∧ (∀ x ∈ ext, isWordByte x = true) ∧
        tokenizeLoop (s ++ rest) pos acc
          = tokenizeLoop rest1 (pos + s.length + ext.length) (acc ++ toks1) ∧
        (ext = [] → toks1 = toks) ∧
        (ext ≠ [] → ∃ init w p, w ≠ [] ∧ toks = init ++ [wordToken w p (acc ++ init)] ∧
            toks1 = init ++ [wordToken (w ++ ext) p (acc ++ init)]) := by
  have base : ∀ (pos : Nat) (acc T : List Token), tokenizeLoop [] pos acc = .ok T →
      ∀ rest : List Char, ∃ toks e ext rest1 toks1,
        T = acc ++ toks ++ [e] ∧ e.Typ = .TokenEOF ∧ (∀ t ∈ toks, t.Typ ≠ .TokenEOF) ∧
        rest = ext ++ rest1 ∧ (∀ x ∈ ext, isWordByte x = true) ∧
        tokenizeLoop ([] ++ rest) pos acc
          = tokenizeLoop rest1 (pos + ([] : List Char).length + ext.length) (acc ++ toks1) ∧
        (ext = [] → toks1 = toks) ∧
        (ext ≠ [] → ∃ init w p, w ≠ [] ∧ toks = init ++ [wordToken w p (acc ++ init)] ∧
            toks1 = init ++ [wordToken (w ++ ext) p (acc ++ init)]) := by
    intro pos acc T h rest
    rw [tokenizeLoop_nil] at h
    cases h
    refine ⟨[], ⟨.TokenEOF, [], pos⟩, [], rest, [], by simp, rfl, by simp, by simp, by simp,
      by simp, fun _ => rfl, fun h => absurd rfl h⟩
  induction n with
  | zero =>
    intro s hs
    have : s = [] := List.length_eq_zero.mp (by omega)
    subst this
    exact base
  | succ n ih =>
    intro s hs pos acc T h rest
    cases s with
    | nil => exact base pos acc T h rest
    | cons c cs =>
      rcases lexeme_cases c cs with hsp | ⟨ty, lex, r, hs1, hne, hty, hstep⟩ | ⟨h1, h2⟩ | hwb
      · rw [tokenizeLoop_space c hsp] at h
        obtain ⟨toks, e, ext, rest1, toks1, hT, he, hall, hrest, hext, heq, h0, h1⟩ :=
          ih cs (by simpa using hs) (pos + 1) acc T h rest
        refine ⟨toks, e, ext, rest1, toks1, hT, he, hall, hrest, hext, ?_, h0, h1⟩
        rw [List.cons_append, tokenizeLoop_space c hsp, heq]
        have : pos + 1 + cs.length + ext.length = pos + (c :: cs).length + ext.length := by
          simp only [List.length_cons]; omega
        rw [this]
      · have hlen : r.length ≤ n := by
          have h3 := congrArg List.length hs1
          rw [List.length_append] at h3
          have := List.length_pos.mpr hne
          simp only [List.length_cons] at hs h3
          omega
        rw [hs1, hstep r pos acc] at h
        obtain ⟨toks, e, ext, rest1, toks1, hT, he, hall, hrest, hext, heq, h0, h1⟩ :=
          ih r hlen (pos + lex.length) (acc ++ [⟨ty, lex, pos⟩]) T h rest
        refine ⟨⟨ty, lex, pos⟩ :: toks, e, ext, rest1, ⟨ty, lex, pos⟩ :: toks1, ?_, he, ?_, hrest,
          hext, ?_, ?_, ?_⟩
        · rw [hT]; simp
        · intro t ht
          rcases List.mem_cons.mp ht with h4 | h4
          · rw [h4]; exact hty
          · exact hall t h4
        · rw [hs1, List.append_assoc, hstep (r ++ rest) pos acc, heq]
          have : pos + lex.length + r.length + ext.length
              = pos + (lex ++ r).length + ext.length := by
            rw [List.length_append]; omega
          rw [this]
          simp
        · intro h5
          rw [h0 h5]
        · intro h5
          obtain ⟨init, w, p, hw, ht1, ht2⟩ := h1 h5
          refine ⟨⟨ty, lex, pos⟩ :: init, w, p, hw, ?_, ?_⟩
          · rw [ht1]; simp
          · rw [ht2]; simp
      · subst h1
        rw [tokenizeLoop_bang cs h2] at h
        cases h
      · obtain ⟨w, r, hs1, hne, hw, hr, hlen⟩ := word_split c cs hwb
        rw [hs1, tokenizeLoop_word w r hne hw hr] at h
        by_cases hrn : r = []
        · subst hrn
          rw [tokenizeLoop_nil] at h
          cases h
          refine ⟨[wordToken w pos acc], ⟨.TokenEOF, [], pos + w.length⟩,
            rest.takeWhile isWordByte, rest.dropWhile isWordByte,
            [wordToken (w ++ rest.takeWhile isWordByte) pos acc], by simp, rfl, ?_,
            (List.takeWhile_append_dropWhile _ _).symm,
            fun x hx => List.mem_takeWhile_imp hx, ?_, ?_, ?_⟩
          · intro t ht
            rw [List.mem_singleton] at ht
            rw [ht]
            exact wordToken_ne_EOF _ _ _
          · have e1 : c :: cs ++ rest
                = (w ++ rest.takeWhile isWordByte) ++ rest.dropWhile isWordByte := by
              rw [hs1, List.append_nil, List.append_assoc, List.takeWhile_append_dropWhile]
            rw [e1, tokenizeLoop_word _ _ (by simp [hne])
              (by
                intro x hx
                rcases List.mem_append.mp hx with h3 | h3
                · exact hw x h3
                · exact List.mem_takeWhile_imp h3)
              (endsWord_dropWhile rest)]
            rw [hs1]
            simp only [List.length_append, List.append_nil, List.length_nil]
            rw [Nat.add_assoc]
          · intro h5
            rw [h5, List.append_nil]
          · intro _
            exact ⟨[], w, pos, hne, by simp, by simp⟩
        · have hlen1 : r.length ≤ n := by
            simp only [List.length_cons] at hs hlen
            omega
          obtain ⟨toks, e, ext, rest1, toks1, hT, he, hall, hrest, hext, heq, h0, h1⟩ :=
            ih r hlen1 (pos + w.length) (acc ++ [wordToken w pos acc]) T h rest
          refine ⟨wordToken w pos acc :: toks, e, ext, rest1, wordToken w pos acc :: toks1, ?_,
            he, ?_, hrest, hext, ?_, ?_, ?_⟩
          · rw [hT]; simp
          · intro t ht
            rcases List.mem_cons.mp ht with h4 | h4
            · rw [h4]; exact wordToken_ne_EOF _ _ _
            · exact hall t h4
          · rw [hs1, List.append_assoc,
              tokenizeLoop_word w (r ++ rest) hne hw (endsWord_append r rest hr hrn), heq]
            have : pos + w.length + r.length + ext.length
                = pos + (w ++ r).length + ext.length := by
              rw [List.length_append]; omega
            rw [this]
            simp
          · intro h5
            rw [h0 h5]
          · intro h5
            obtain ⟨init, w1, p, hw1, ht1, ht2⟩ := h1 h5
            refine ⟨wordToken w pos acc :: init, w1, p, hw1, ?_, ?_⟩
            · rw [ht1]; simp
            · rw [ht2]; simp


theorem toUpper_high (x : Char) (h : 128 ≤ x.toNat) : x.toUpper = x := by
  unfold Char.toUpper
  simp only [ge_iff_le]
  rw [if_neg (by omega)]

/-- A word holding a byte outside ASCII is not a keyword. -/
theorem not_keyword_of_high (w : List Char) (x : Char) (hx : x ∈ w) (h : 128 ≤ x.toNat) :
    strings.ToUpper w ≠ "AND".toList ∧ strings.ToUpper w ≠ "OR".toList ∧
      strings.ToUpper w ≠ "NOT".toList := by
  have hm : x ∈ strings.ToUpper w := by
    unfold strings.ToUpper
    rw [List.mem_map]
    exact ⟨x, hx, toUpper_high x h⟩
  have hlt : ∀ l : List Char, (∀ y ∈ l, y.toNat < 128) → strings.ToUpper w ≠ l := by
    intro l hl he
    rw [he] at hm
    have := hl x hm
    omega
  exact ⟨hlt _ (by decide), hlt _ (by decide), hlt _ (by decide)⟩

/-- A word that is not a keyword becomes a value or a field. -/
theorem wordToken_plain (w : List Char) (pos : Nat) (toks : List Token)
    (h1 : strings.ToUpper w ≠ "AND".toList) (h2 : strings.ToUpper w ≠ "OR".toList)
    (h3 : strings.ToUpper w ≠ "NOT".toList) :
    (wordToken w pos toks).Typ = .TokenValue ∨ (wordToken w pos toks).Typ = .TokenField := by
  unfold wordToken
  simp only [h1, h2, h3, if_false]
  cases toks.getLast? with
  | none => exact Or.inr rfl
  | some last =>
    simp only
    split_ifs
    · exact Or.inl rfl
    · exact Or.inr rfl

/-- A value stays a value when its word is replaced by a word that is not a
keyword. -/
theorem wordToken_value_of_value (w v : List Char) (pos : Nat) (toks : List Token)
    (hw : (wordToken w pos toks).Typ = .TokenValue)
    (h1 : strings.ToUpper v ≠ "AND".toList) (h2 : strings.ToUpper v ≠ "OR".toList)
    (h3 : strings.ToUpper v ≠ "NOT".toList) :
    (wordToken v pos toks).Typ = .TokenValue := by
  unfold wordToken at hw ⊢
  simp only [h1, h2, h3, if_false]
  simp only at hw
  by_cases a1 : strings.ToUpper w = "AND".toList
  · rw [if_pos a1] at hw; cases hw
  rw [if_neg a1] at hw
  by_cases a2 : strings.ToUpper w = "OR".toList
  · rw [if_pos a2] at hw; cases hw
  rw [if_neg a2] at hw
  by_cases a3 : strings.ToUpper w = "NOT".toList
  · rw [if_pos a3] at hw; cases hw
  rw [if_neg a3] at hw
  cases hl : toks.getLast? with
  | none => rw [hl] at hw; cases hw
  | some last =>
    rw [hl] at hw
    simp only at hw ⊢
    by_cases a4 : last.Typ = .TokenColon ∨ last.Typ = .TokenGT ∨ last.Typ = .TokenLT ∨
        last.Typ = .TokenEQ ∨ last.Typ = .TokenNE
    · rw [if_pos a4]
    · rw [if_neg a4] at hw; cases hw

theorem starts_space (b : Char) (hb : unicode.IsSpace b = true) (r : List Char)
    (h : Starts r) : Starts (b :: r) := by
  intro pos acc
  rw [tokenizeLoop_space b hb]
  exact h _ _

theorem starts_rparen (r : List Char) : Starts (')' :: r) := by
  intro pos acc
  right
  exact ⟨r, pos + 1, ⟨.TokenRightParen, [')'], pos⟩, tokenizeLoop_rparen r pos acc,
    by simp, by simp, by simp⟩

theorem starts_word (w r : List Char) (hne : w ≠ []) (hw : ∀ x ∈ w, isWordByte x = true)
    (hr : EndsWord r) (h1 : strings.ToUpper w ≠ "AND".toList)
    (h2 : strings.ToUpper w ≠ "OR".toList) (h3 : strings.ToUpper w ≠ "NOT".toList) :
    Starts (w ++ r) := by
  intro pos acc
  right
  refine ⟨r, pos + w.length, wordToken w pos acc, tokenizeLoop_word w r hne hw hr pos acc,
    ?_, ?_, ?_⟩ <;>
    rcases wordToken_plain w pos acc h1 h2 h3 with h | h <;> rw [h] <;> decide

theorem starts_high (b : Char) (r : List Char) (hb : isWordByte b = true)
    (h : 128 ≤ b.toNat) : Starts (b :: r) := by
  obtain ⟨w, r1, hs, hne, hw, hr, _⟩ := word_split b r hb
  have hmem : b ∈ w := by
    cases w with
    | nil => exact absurd rfl hne
    | cons c w1 =>
      rw [List.cons_append] at hs
      cases hs
      exact List.mem_cons_self _ _
  obtain ⟨h1, h2, h3⟩ := not_keyword_of_high w b hmem h
  rw [hs]
  exact starts_word w r1 hne hw hr h1 h2 h3

theorem wordByte_of_high (b : Char) (h : 128 ≤ b.toNat) (hs : unicode.IsSpace b = false) :
    isWordByte b = true := by
  cases hw : isWordByte b
  swap
  · rfl
  rcases not_wordByte b hw with h1 | h1 | h1 | h1 | h1 | h1 | h1 | h1
  · rw [h1] at hs; cases hs
  all_goals (rw [h1] at h; revert h; decide)

/-- After bytes of white-space characters and a blank, the first token is that
of the text that follows. -/
theorem starts_soft (w : List Char) (hw : ∀ b ∈ w, Soft b) (t : List Char) (ht : Starts t) :
    Starts (w ++ ' ' :: t) := by
  induction w with
  | nil => exact starts_space ' ' (by decide) t ht
  | cons b w ih =>
    rw [List.cons_append]
    cases hs : unicode.IsSpace b
    · rcases hw b (List.mem_cons_self _ _) with h | h
      · rw [h] at hs; cases hs
      · exact starts_high b _ (wordByte_of_high b h hs) h
    · exact starts_space b hs _ (ih (fun x hx => hw x (List.mem_cons_of_mem _ hx)))

theorem starts_clause (c : Clause) (hc : c.WellFormed) (r : List Char) :
    Starts (c.text ++ r) := by
  obtain ⟨⟨hne, hw, k1, k2, k3⟩, _, hop, _, _⟩ := hc
  have e : c.text ++ r = c.field ++ (c.op ++ (c.value ++ r)) := by
    simp [Clause.text]
  rw [e]
  exact starts_word c.field _ hne hw (endsWord_operator c.op _ (opType_eq c hop) _) k1 k2 k3

end query

namespace strings

theorem leadingSpace_le (s : List Char) : leadingSpace s ≤ s.length := by
  match s with
  | [] => simp [leadingSpace]
  | [c] => simp only [leadingSpace]; split_ifs <;> simp
  | [c, d] => simp only [leadingSpace]; split_ifs <;> simp
  | c :: d :: e :: r => simp only [leadingSpace]; split_ifs <;> simp

theorem leadingSpace_append_blank (q : List Char) (hq : q ≠ []) (t : List Char) :
    leadingSpace (q ++ ' ' :: t) = leadingSpace q := by
  match q, hq with
  | [c], _ =>
    cases t <;> simp [leadingSpace]
  | [c, d], _ =>
    simp [leadingSpace]
  | c :: d :: e :: r, _ => rfl


theorem trimLeft_nil : trimLeft [] = [] := by
  rw [trimLeft]
  simp [leadingSpace]

theorem trimLeft_append_blank_aux (n : Nat) :
    ∀ q : List Char, q.length ≤ n → trimLeft q ≠ [] → ∀ t : List Char,
      trimLeft (q ++ ' ' :: t) = trimLeft q ++ ' ' :: t := by
  induction n with
  | zero =>
    intro q hq hne
    have : q = [] := List.length_eq_zero.mp (by omega)
    subst this
    exact absurd trimLeft_nil hne
  | succ n ih =>
    intro q hq hne t
    have hq0 : q ≠ [] := by
      intro h
      rw [h] at hne
      exact hne trimLeft_nil
    by_cases h0 : leadingSpace q = 0
    · rw [trimLeft, dif_pos (by rw [leadingSpace_append_blank q hq0, h0])]
      rw [trimLeft, dif_pos h0]
    · have hle := leadingSpace_le q
      have e1 : trimLeft q = trimLeft (q.drop (leadingSpace q)) := by
        conv_lhs => rw [trimLeft, dif_neg h0]
      have e2 : trimLeft (q ++ ' ' :: t)
          = trimLeft ((q ++ ' ' :: t).drop (leadingSpace (q ++ ' ' :: t))) := by
        conv_lhs => rw [trimLeft, dif_neg (by rw [leadingSpace_append_blank q hq0]; exact h0)]
      rw [e2, leadingSpace_append_blank q hq0, List.drop_append_of_le_length hle, e1]
      apply ih
      · rw [List.length_drop]
        omega
      · rw [← e1]
        exact hne

/-- The leading white space of a text is the same when a blank and more text
follow it. -/
theorem trimLeft_append_blank (q : List Char) (hne : trimLeft q ≠ []) (t : List Char) :
    trimLeft (q ++ ' ' :: t) = trimLeft q ++ ' ' :: t :=
  trimLeft_append_blank_aux q.length q (le_refl _) hne t

theorem trailingSpace_le (s : List Char) : trailingSpace s ≤ s.length := by
  match s with
  | [] => simp [trailingSpace]
  | [c] => simp only [trailingSpace]; split_ifs <;> simp
  | [c, d] => simp only [trailingSpace]; split_ifs <;> simp
  | c :: d :: e :: r => simp only [trailingSpace]; split_ifs <;> simp

end strings

namespace query

theorem asciiSpace_IsSpace (c : Char) (h : strings.asciiSpace c = true) :
    unicode.IsSpace c = true := by
  simp only [strings.asciiSpace, Bool.or_eq_true, beq_iff_eq] at h
  simp only [unicode.IsSpace, Bool.or_eq_true, beq_iff_eq]
  tauto

theorem high_of_le (c : Char) (h : '\x80' ≤ c) : 128 ≤ c.toNat := h

/-- The bytes that `strings.TrimSpace` strips from the end of a text are bytes
of white-space characters. -/
theorem trailingSpace_soft (s : List Char) :
    ∀ b ∈ s.take (strings.trailingSpace s), Soft b := by
  match s with
  | [] => simp [strings.trailingSpace]
  | [c] =>
    simp only [strings.trailingSpace]
    split_ifs with h1
    · intro b hb
      simp only [List.take_succ_cons, List.take_zero, List.mem_singleton] at hb
      rw [hb]
      exact Or.inl (asciiSpace_IsSpace c h1)
    · simp
  | [c, d] =>
    simp only [strings.trailingSpace]
    split_ifs with h1 h2
    · intro b hb
      simp only [List.take_succ_cons, List.take_zero, List.mem_singleton] at hb
      rw [hb]
      exact Or.inl (asciiSpace_IsSpace c h1)
    · intro b hb
      simp only [Bool.and_eq_true, Bool.or_eq_true, beq_iff_eq] at h2
      simp only [List.take_succ_cons, List.take_zero, List.mem_cons, List.mem_singleton,
        List.not_mem_nil, or_false] at hb
      rcases hb with hb | hb
      · rw [hb]
        rcases h2.2 with h3 | h3 <;> rw [h3] <;> exact Or.inl (by decide)
      · rw [hb, h2.1]
        exact Or.inr (by decide)
    · simp
  | c :: d :: e :: r =>
    simp only [strings.trailingSpace]
    split_ifs with h1 h2 h3 h4 h5 h6
    · intro b hb
      simp only [List.take_succ_cons, List.take_zero, List.mem_singleton] at hb
      rw [hb]
      exact Or.inl (asciiSpace_IsSpace c h1)
    · intro b hb
      simp only [Bool.and_eq_true, Bool.or_eq_true, beq_iff_eq] at h2
      simp only [List.take_succ_cons, List.take_zero, List.mem_cons, List.mem_singleton,
        List.not_mem_nil, or_false] at hb
      rcases hb with hb | hb
      · rw [hb]
        rcases h2.2 with h3 | h3 <;> rw [h3] <;> exact Or.inl (by decide)
      · rw [hb, h2.1]
        exact Or.inr (by decide)
    · intro b hb
      simp only [Bool.and_eq_true, beq_iff_eq] at h3
      simp only [List.take_succ_cons, List.take_zero, List.mem_cons, List.mem_singleton,
        List.not_mem_nil, or_false] at hb
      rcases hb with hb | hb | hb
      · rw [hb, h3.2]; exact Or.inr (by decide)
      · rw [hb, h3.1.2]; exact Or.inr (by decide)
      · rw [hb, h3.1.1]; exact Or.inr (by decide)
    · intro b hb
      simp only [Bool.and_eq_true, Bool.or_eq_true, beq_iff_eq, decide_eq_true_eq] at h4
      simp only [List.take_succ_cons, List.take_zero, List.mem_cons, List.mem_singleton,
        List.not_mem_nil, or_false] at hb
      rcases hb with hb | hb | hb
      · rw [hb]
        rcases h4.2 with ((h7 | h7) | h7) | h7
        · exact Or.inr (high_of_le c h7.1)
        · rw [h7]; exact Or.inr (by decide)
        · rw [h7]; exact Or.inr (by decide)
        · rw [h7]; exact Or.inr (by decide)
      · rw [hb, h4.1.2]; exact Or.inr (by decide)
      · rw [hb, h4.1.1]; exact Or.inr (by decide)
    · intro b hb
      simp only [Bool.and_eq_true, beq_iff_eq] at h5
      simp only [List.take_succ_cons, List.take_zero, List.mem_cons, List.mem_singleton,
        List.not_mem_nil, or_false] at hb
      rcases hb with hb | hb | hb
      · rw [hb, h5.2]; exact Or.inr (by decide)
      · rw [hb, h5.1.2]; exact Or.inr (by decide)
      · rw [hb, h5.1.1]; exact Or.inr (by decide)
    · intro b hb
      simp only [Bool.and_eq_true, beq_iff_eq] at h6
      simp only [List.take_succ_cons, List.take_zero, List.mem_cons, List.mem_singleton,
        List.not_mem_nil, or_false] at hb
      rcases hb with hb | hb | hb
      · rw [hb, h6.2]; exact Or.inr (by decide)
      · rw [hb, h6.1.2]; exact Or.inr (by decide)
      · rw [hb, h6.1.1]; exact Or.inr (by decide)
    · simp


theorem trimRightRev_split_aux (n : Nat) :
    ∀ x : List Char, x.length ≤ n →
      ∃ v, x = v ++ strings.trimRightRev x ∧ ∀ b ∈ v, Soft b := by
  induction n with
  | zero =>
    intro x hx
    have : x = [] := List.length_eq_zero.mp (by omega)
    subst this
    refine ⟨[], ?_, by simp⟩
    rw [strings.trimRightRev]
    simp [strings.trailingSpace]
  | succ n ih =>
    intro x hx
    by_cases h0 : strings.trailingSpace x = 0
    · refine ⟨[], ?_, by simp⟩
      rw [strings.trimRightRev, dif_pos h0]
      rfl
    · have hle := strings.trailingSpace_le x
      have e1 : strings.trimRightRev x
          = strings.trimRightRev (x.drop (strings.trailingSpace x)) := by
        conv_lhs => rw [strings.trimRightRev, dif_neg h0]
      obtain ⟨v, hv, hsoft⟩ := ih (x.drop (strings.trailingSpace x))
        (by rw [List.length_drop]; omega)
      refine ⟨x.take (strings.trailingSpace x) ++ v, ?_, ?_⟩
      · rw [e1, List.append_assoc, ← hv, List.take_append_drop]
      · intro b hb
        rcases List.mem_append.mp hb with h | h
        · exact trailingSpace_soft x b h
        · exact hsoft b h

/-- What `strings.TrimSpace` strips from the end of a text consists of bytes of
white-space characters. -/
theorem TrimSpace_split (q : List Char) :
    ∃ w, strings.trimLeft q = strings.TrimSpace q ++ w ∧ ∀ b ∈ w, Soft b := by
  obtain ⟨v, hv, hsoft⟩ :=
    trimRightRev_split_aux (strings.trimLeft q).reverse.length (strings.trimLeft q).reverse
      (le_refl _)
  refine ⟨v.reverse, ?_, fun b hb => hsoft b (List.mem_reverse.mp hb)⟩
  unfold strings.TrimSpace
  rw [← List.reverse_append, ← hv, List.reverse_reverse]

/-- The text `q`, a blank and a text that does not end in white space: trimming
strips the leading white space of `q` only. -/
theorem TrimSpace_append_blank (q tail : List Char) (hne : strings.trimLeft q ≠ [])
    (ht : ∀ y, strings.trailingSpace (tail.reverse ++ ' ' :: y) = 0) :
    strings.TrimSpace (q ++ ' ' :: tail) = strings.trimLeft q ++ ' ' :: tail := by
  unfold strings.TrimSpace
  rw [strings.trimLeft_append_blank q hne]
  have e : (strings.trimLeft q ++ ' ' :: tail).reverse
      = tail.reverse ++ ' ' :: (strings.trimLeft q).reverse := by
    simp
  rw [e, strings.trimRightRev, dif_pos (ht _), ← e, List.reverse_reverse]

theorem trailing_clause (c : Clause) (hc : c.WellFormed) (y : List Char) :
    strings.trailingSpace (c.text.reverse ++ ' ' :: y) = 0 := by
  obtain ⟨⟨hf, _⟩, ⟨hv, _⟩, hop, _, htr⟩ := hc
  have hlen : 3 ≤ c.text.reverse.length := by
    have h1 := List.length_pos.mpr hf
    have h2 := List.length_pos.mpr hv
    have h3 := (operator_length c.op _ (opType_eq c hop)).1
    simp only [Clause.text, List.length_reverse, List.length_append]
    omega
  rw [strings.trailingSpace_append _ _ hlen]
  exact htr

theorem trailing_rparen (y : List Char) :
    strings.trailingSpace ([')'].reverse ++ ' ' :: y) = 0 := by
  cases y <;> simp [strings.trailingSpace, strings.asciiSpace]


/-- Token lists that begin with tokens of the same types, none of them EOF. -/
theorem sameTypes_of_map (toks toks1 A B : List Token)
    (hmap : toks1.map Token.Typ = toks.map Token.Typ)
    (hall : ∀ t ∈ toks, t.Typ ≠ .TokenEOF) :
    SameTypes (toks ++ A) (toks1 ++ B) toks.length := by
  intro i hi
  have hlen : toks1.length = toks.length := by
    have := congrArg List.length hmap
    simpa using this
  have hi1 : i < toks1.length := by omega
  refine ⟨toks[i], toks1[i], ?_, ?_, ?_, hall _ (List.getElem_mem _)⟩
  · rw [List.getElem?_append_left hi, List.getElem?_eq_getElem hi]
  · rw [List.getElem?_append_left hi1, List.getElem?_eq_getElem hi1]
  · have h1 : (toks.map Token.Typ)[i]? = some toks[i].Typ := by
      rw [List.getElem?_map, List.getElem?_eq_getElem hi]
      rfl
    have h2 : (toks1.map Token.Typ)[i]? = some toks1[i].Typ := by
      rw [List.getElem?_map, List.getElem?_eq_getElem hi1]
      rfl
    rw [hmap, h1] at h2
    exact Option.some.inj h2

/-- Word bytes at the front of white space, a blank and more text are at the
front of the white space. -/
theorem split_word_front (ext : List Char) (hext : ∀ x ∈ ext, isWordByte x = true) :
    ∀ (w rest1 tail : List Char), ext ++ rest1 = w ++ ' ' :: tail →
      ∃ w1, w = ext ++ w1 ∧ rest1 = w1 ++ ' ' :: tail := by
  induction ext with
  | nil =>
    intro w rest1 tail h
    exact ⟨w, rfl, h⟩
  | cons x ext ih =>
    intro w rest1 tail h
    cases w with
    | nil =>
      rw [List.cons_append, List.nil_append] at h
      have hx := hext x (List.mem_cons_self _ _)
      have : x = ' ' := (List.cons.inj h).1
      rw [this] at hx
      exact absurd hx (by decide)
    | cons b w =>
      rw [List.cons_append, List.cons_append] at h
      obtain ⟨hb, h1⟩ := List.cons.inj h
      obtain ⟨w1, hw1, hr⟩ := ih (fun y hy => hext y (List.mem_cons_of_mem _ hy)) w rest1 tail h1
      exact ⟨w1, by rw [hb, hw1]; rfl, hr⟩

theorem high_of_soft_word (b : Char) (hs : Soft b) (hw : isWordByte b = true) :
    128 ≤ b.toNat := by
  rcases hs with h | h
  · simp [isWordByte, h] at hw
  · exact h


/-- The tokens of a query followed by a blank and more text: when the query
alone gives `toks` and EOF, and `toks` ends with a value or a closing
parenthesis, the tokenizer fails on the longer text or gives tokens of the
same types as `toks`, then a token that is neither `AND`, `OR` nor EOF. -/
theorem tokenize_append (q tail : List Char) (toks : List Token) (e : Token)
    (hq : tokenizeLoop (strings.TrimSpace q) 0 [] = .ok (toks ++ [e]))
    (hne : strings.trimLeft q ≠ [])
    (ht : ∀ y, strings.trailingSpace (tail.reverse ++ ' ' :: y) = 0)
    (hst : Starts tail) (hend : EndsOK (toks ++ [e]) toks.length) :
    (∃ err, Tokenize (q ++ ' ' :: tail) = .err err) ∨
    (∃ M x, Tokenize (q ++ ' ' :: tail) = .ok M ∧ SameTypes (toks ++ [e]) M toks.length ∧
      M[toks.length]? = some x ∧ x.Typ ≠ .TokenAND ∧ x.Typ ≠ .TokenOR ∧
      x.Typ ≠ .TokenEOF ∧ toks.length + 1 ≤ M.length) := by
  obtain ⟨w, hw, hsoft⟩ := TrimSpace_split q
  have hT : Tokenize (q ++ ' ' :: tail)
      = tokenizeLoop (strings.TrimSpace q ++ (w ++ ' ' :: tail)) 0 [] := by
    unfold Tokenize
    rw [TrimSpace_append_blank q tail hne ht, hw, List.append_assoc]
  obtain ⟨toks0, e0, ext, rest1, toks1, hL, he0, hall, hrest, hext, heq, h0, h1⟩ :=
    tokenizeLoop_append_aux (strings.TrimSpace q).length (strings.TrimSpace q) (le_refl _) 0 []
      (toks ++ [e]) hq (w ++ ' ' :: tail)
  simp only [List.nil_append] at hL heq h1
  obtain ⟨htoks, _⟩ := List.append_inj' hL rfl
  subst htoks
  obtain ⟨w1, hw1, hr1⟩ := split_word_front ext hext w rest1 tail hrest.symm
  have hsoft1 : ∀ b ∈ w1, Soft b := by
    intro b hb
    exact hsoft b (by rw [hw1]; exact List.mem_append_right _ hb)
  have hmap : toks1.map Token.Typ = toks.map Token.Typ := by
    by_cases hx : ext = []
    · rw [h0 hx]
    · obtain ⟨init, w0, p, hw0, ht0, ht1⟩ := h1 hx
      obtain ⟨i, t, hi, hti, hty⟩ := hend
      have hlen : toks.length = init.length + 1 := by rw [ht0]; simp
      have hii : i = init.length := by omega
      subst hii
      have ht' : t = wordToken w0 p init := by
        rw [ht0, List.append_assoc, List.getElem?_append_right (le_refl _)] at hti
        simpa using hti.symm
      have hval : (wordToken w0 p init).Typ = .TokenValue := by
        rw [ht'] at hty
        rcases hty with h | h
        · exact h
        · rcases wordToken_type w0 p init with h2 | h2 | h2 | h2 | h2 <;> rw [h2] at h <;>
            cases h
      obtain ⟨b, ext1, hb⟩ := List.exists_cons_of_ne_nil hx
      have hbm : b ∈ ext := by rw [hb]; exact List.mem_cons_self _ _
      have hhigh : 128 ≤ b.toNat :=
        high_of_soft_word b (hsoft b (by rw [hw1]; exact List.mem_append_left _ hbm))
          (hext b hbm)
      obtain ⟨k1, k2, k3⟩ := not_keyword_of_high (w0 ++ ext) b (List.mem_append_right _ hbm)
        hhigh
      have := wordToken_value_of_value w0 (w0 ++ ext) p init hval k1 k2 k3
      rw [ht0, ht1, List.map_append, List.map_append, List.map_singleton, List.map_singleton,
        this, hval]
  have hlen1 : toks1.length = toks.length := by
    have := congrArg List.length hmap
    simpa using this
  rw [hr1] at heq
  rcases starts_soft w1 hsoft1 tail hst (0 + (strings.TrimSpace q).length + ext.length) toks1
    with ⟨err, herr⟩ | ⟨r2, pos2, x, hx, hx1, hx2, hx3⟩
  · left
    exact ⟨err, by rw [hT, heq, herr]⟩
  · rcases tokenizeLoop_total r2 pos2 (toks1 ++ [x]) with ⟨err, herr⟩ | ⟨M, hM⟩
    · left
      exact ⟨err, by rw [hT, heq, hx, herr]⟩
    · right
      obtain ⟨toks3, e3, _, _, _, hM3, _⟩ :=
        tokenizeLoop_append_aux r2.length r2 (le_refl _) pos2 (toks1 ++ [x]) M hM []
      refine ⟨M, x, by rw [hT, heq, hx, hM], ?_, ?_, hx1, hx2, hx3, ?_⟩
      · rw [hM3, List.append_assoc, List.append_assoc]
        exact sameTypes_of_map toks toks1 [e] _ hmap hall
      · rw [hM3, List.append_assoc, List.append_assoc,
          List.getElem?_append_right (by omega), hlen1]
        simp
      · rw [hM3]
        simp only [List.length_append, List.length_singleton]
        omega


theorem TrimSpace_of_trimLeft_nil (q : List Char) (h : strings.trimLeft q = []) :
    strings.TrimSpace q = [] := by
  unfold strings.TrimSpace
  rw [h, List.reverse_nil, strings.trimRightRev]
  simp [strings.trailingSpace]

/-- A query that parses, followed by a blank and a text whose first token is
neither `AND`, `OR` nor EOF and that does not end in white space, does not
parse: the tokenizer or the parser returns an error. -/
theorem Parse_trailing (q tail : List Char) (n : Node) (hq : Parse q = .ok n)
    (ht : ∀ y, strings.trailingSpace (tail.reverse ++ ' ' :: y) = 0) (hst : Starts tail) :
    ∃ err, Parse (q ++ ' ' :: tail) = .err err := by
  unfold Parse at hq
  obtain ⟨L, hL, h1⟩ := Result.bind_eq_ok _ _ _ hq
  obtain ⟨⟨node, p2⟩, hparse, h2⟩ := Result.bind_eq_ok _ _ _ h1
  obtain ⟨atEnd, hend, h3⟩ := Result.bind_eq_ok _ _ _ h2
  have hat : atEnd = true := by
    cases atEnd with
    | true => rfl
    | false =>
      simp only [Bool.not_false, if_true] at h3
      obtain ⟨c, _, h4⟩ := Result.bind_eq_ok _ _ _ h3
      cases h4
  subst hat
  unfold Tokenize at hL
  obtain ⟨toks, e, _, _, _, hLs, he, hall, _⟩ :=
    tokenizeLoop_append_aux (strings.TrimSpace q).length (strings.TrimSpace q) (le_refl _) 0 []
      L hL []
  simp only [List.nil_append] at hLs
  subst hLs
  have hE : ∃ e1, (toks ++ [e])[toks.length]? = some e1 ∧ e1.Typ = .TokenEOF :=
    ⟨e, by simp, he⟩
  -- the parse of the query ends at EOF, after a value or a closing parenthesis
  have hS0 : SameTypes (toks ++ [e]) (toks ++ [⟨.TokenField, [], 0⟩]) toks.length :=
    sameTypes_of_map toks toks _ _ rfl hall
  obtain ⟨pos2, _, hp2, hpos, hle, _, hends⟩ :=
    (sim_all _ _ _ hS0 hE ⟨⟨.TokenField, [], 0⟩, by simp, by simp, by simp⟩
      (4 * (toks ++ [e]).length + 4)).1 0 node p2 (Nat.zero_le _) hparse
  subst hp2
  have hk : pos2 = toks.length := by
    by_contra hne
    have hlt : pos2 < toks.length := by omega
    obtain ⟨t, _, ht1, _, _, htne⟩ := hS0 pos2 hlt
    rw [isAtEnd_shape _ pos2 t ht1 (getElem?_lt ht1)] at hend
    have : (t.Typ == TokenType.TokenEOF) = true := (Result.ok.inj hend).symm ▸ rfl
    exact htne (by simpa using this)
  subst hk
  have hne : strings.trimLeft q ≠ [] := by
    intro h
    rw [TrimSpace_of_trimLeft_nil q h, tokenizeLoop_nil] at hL
    have := congrArg List.length (Result.ok.inj hL)
    simp only [List.nil_append, List.length_singleton, List.length_append] at this
    omega
  rcases tokenize_append q tail toks e hL hne ht hst hends with
    ⟨err, herr⟩ | ⟨M, x, hM, hS, hx, hx1, hx2, hx3, hlen⟩
  · refine ⟨err, ?_⟩
    unfold Parse
    rw [herr]
    rfl
  · obtain ⟨pos3, n2, hp3, _, _, hM2, _⟩ :=
      (sim_all _ _ _ hS hE ⟨x, hx, hx1, hx2⟩ (4 * (toks ++ [e]).length + 4)).1 0 node _
        (Nat.zero_le _) hparse
    have hp : pos3 = toks.length := by
      cases hp3
      rfl
    subst hp
    have hfuel := parseExpression_fuel (4 * (toks ++ [e]).length + 4) (4 * M.length + 4)
      (by simp only [List.length_append, List.length_singleton]; omega) _ _ hM2
    refine ⟨.unexpectedToken x.Pos x, ?_⟩
    unfold Parse
    rw [hM]
    simp only [Result.ok_bind]
    rw [hfuel]
    simp only [Result.ok_bind]
    rw [isAtEnd_shape M _ x hx (getElem?_lt hx), current_shape M _ x hx (getElem?_lt hx)]
    have : (x.Typ == TokenType.TokenEOF) = false := by simpa using hx3
    simp only [Result.ok_bind, this, Bool.not_false, if_true]

/-- C11: a query that parses, followed by a further token, does not parse.  For
every query `q` that `Parse` accepts and every well-formed clause `c`, `Parse`
returns an error (and so no tree) on `q`, a blank and `c`, and on `q`, a blank
and a closing parenthesis. -/
theorem C11_Parse_trailing_tokens (q : List Char) (n : Node) (c : Clause)
    (hq : Parse q = .ok n) (hc : c.WellFormed) :
    (∃ err, Parse (q ++ " ".toList ++ c.text) = .err err) ∧
    (∃ err, Parse (q ++ " )".toList) = .err err) := by
  constructor
  · have h := Parse_trailing q c.text n hq (trailing_clause c hc)
      (by simpa using starts_clause c hc [])
    simpa using h
  · exact Parse_trailing q [')'] n hq trailing_rparen (starts_rparen [])


/-- A well-formed clause alone parses to its comparison node. -/
theorem Parse_clause (c : Clause) (hc : c.WellFormed) : Parse c.text = .ok c.node := by
  have hm : ∀ d ∈ ([] : List Clause), d.WellFormed := by simp
  obtain ⟨y, last, hlast, hy⟩ := chainText_ends "AND".toList c [] hc hm
  obtain ⟨tokens, ht, hshape, hlen⟩ := tokenize_chain "AND".toList .TokenAND (by decide)
    (by decide) wordToken_AND (by decide) c [] hc hm
  have hq := TrimSpace_clauses c last hc hlast _ _ y rfl hy
  have e : chainText "AND".toList c [] = c.text := by simp [chainText]
  rw [e] at ht
  simp only [List.map_nil, List.flatten_nil, List.append_nil] at hq
  simp only [List.map_nil, List.flatten_nil, List.nil_append] at hshape
  have h0 : (tokens.drop 0).map Token.shape = clauseShape c ++ [(.TokenEOF, [])] := by
    rw [List.drop_zero]; exact hshape
  have h3 := drop_shape tokens 0 3 (clauseShape c) _ rfl h0
  apply Parse_of_tokens _ tokens _ (0 + 3) [] [] hq ht ?_ h3
  have hF : 4 * tokens.length + 4 = (4 * tokens.length + 1) + 1 + 1 + 1 := by omega
  rw [hF, parseExpression_succ, parseTerm_succ, parseFactor_clause _ tokens 0 c hc _ h0]
  simp only [Result.ok_bind]
  rw [parseTermLoop_end _ _ tokens _ .TokenEOF [] [] h3 (by decide)]
  simp only [Result.ok_bind]
  rw [parseExpressionLoop_end _ _ tokens _ .TokenEOF [] [] h3 (by decide)]

/-- C11 at concrete inputs: `status:open area:work` and `status:open )`. -/
theorem C11_Parse_trailing_tokens_witness :
    Parse "status:open".toList = .ok (.comparison "status".toList ":".toList "open".toList) ∧
    (∃ err, Parse "status:open area:work".toList = .err err) ∧
    (∃ err, Parse "status:open )".toList = .err err) :=
  ⟨Parse_clause ⟨"status".toList, ":".toList, "open".toList⟩ (by decide),
    C11_Parse_trailing_tokens "status:open".toList _ ⟨"area".toList, ":".toList, "work".toList⟩
      (Parse_clause ⟨"status".toList, ":".toList, "open".toList⟩ (by decide)) (by decide)⟩

end query

/-! ### Whole queries: parsing and evaluation -/

namespace query

open denote

theorem tokenizeFuel_eq (fuel : Nat) : ∀ (rest : List Char) (pos : Nat) (tokens : List Token),
    rest.length < fuel → tokenizeFuel fuel rest pos tokens = tokenizeLoop rest pos tokens := by
  induction fuel with
  | zero => intro rest pos tokens h; omega
  | succ fuel ih =>
    intro rest pos tokens h
    match rest with
    | [] => rw [tokenizeLoop]; rfl
    | c :: cs =>
      have hcs : cs.length < fuel := by simp only [List.length_cons] at h; omega
      rw [tokenizeLoop, tokenizeFuel]
      by_cases h1 : unicode.IsSpace c = true
      · rw [if_pos h1, if_pos h1]; exact ih _ _ _ hcs
      rw [if_neg h1, if_neg h1]
      by_cases h2 : c = '('
      · rw [if_pos h2, if_pos h2]; exact ih _ _ _ hcs
      rw [if_neg h2, if_neg h2]
      by_cases h3 : c = ')'
      · rw [if_pos h3, if_pos h3]; exact ih _ _ _ hcs
      rw [if_neg h3, if_neg h3]
      by_cases h4 : c = ':'
      · rw [if_pos h4, if_pos h4]; exact ih _ _ _ hcs
      rw [if_neg h4, if_neg h4]
      by_cases h5 : c = '>'
      · rw [if_pos h5, if_pos h5]; exact ih _ _ _ hcs
      rw [if_neg h5, if_neg h5]
      by_cases h6 : c = '<'
      · rw [if_pos h6, if_pos h6]; exact ih _ _ _ hcs
      rw [if_neg h6, if_neg h6]
      by_cases h7 : c = '='
      · rw [if_pos h7, if_pos h7]; exact ih _ _ _ hcs
      rw [if_neg h7, if_neg h7]
      by_cases h8 : c = '!' ∧ cs.head? = some '='
      · rw [if_pos h8, if_pos h8]
        exact ih _ _ _ (by simp only [List.length_drop]; omega)
      rw [if_neg h8, if_neg h8]
      by_cases h9 : (c :: cs).takeWhile isWordByte = []
      · rw [if_pos h9, dif_pos h9]
      rw [if_neg h9, dif_neg h9]
      apply ih
      have := dropWhile_length_lt c cs h9
      simp only [List.length_cons] at this h
      omega

theorem Tokenize_eval (q : List Char) (h1 : strings.leadingSpace q = 0)
    (h2 : strings.trailingSpace q.reverse = 0) :
    Tokenize q = tokenizeFuel (q.length + 1) q 0 [] := by
  unfold Tokenize
  rw [strings.TrimSpace_stable q h1 h2, tokenizeFuel_eq _ _ _ _ (Nat.lt_succ_self _)]

/-- A byte whose upper case is an ASCII capital letter is a letter: a word
byte of the tokenizer, in ASCII, and no white space. -/
theorem letter_of_toUpper (x : Char) (h : 65 ≤ x.toUpper.toNat ∧ x.toUpper.toNat ≤ 90) :
    isWordByte x = true ∧ x.toNat < 128 ∧ strings.asciiSpace x = false := by
  have e : x = Char.ofNat x.toNat := (Char.ofNat_toNat x).symm
  by_cases hl : x.toNat ≥ 97 ∧ x.toNat ≤ 122
  · obtain ⟨h1, h2⟩ := hl
    generalize x.toNat = k at h1 h2 e
    subst e
    interval_cases k <;> decide
  · have hu : x.toUpper = x := by
      unfold Char.toUpper
      simp only
      rw [if_neg hl]
    rw [hu] at h
    obtain ⟨h1, h2⟩ := h
    generalize x.toNat = k at h1 h2 e
    subst e
    interval_cases k <;> decide

/-- The bytes of a word that is a keyword in some letter case are letters. -/
theorem keyword_bytes (kw target : List Char) (h : strings.ToUpper kw = target)
    (ht : ∀ y ∈ target, 65 ≤ y.toNat ∧ y.toNat ≤ 90) :
    ∀ x ∈ kw, isWordByte x = true ∧ x.toNat < 128 ∧ strings.asciiSpace x = false := by
  intro x hx
  apply letter_of_toUpper
  apply ht
  rw [← h]
  unfold strings.ToUpper
  exact List.mem_map_of_mem _ hx

theorem keyword_ne_nil (kw target : List Char) (h : strings.ToUpper kw = target)
    (ht : target ≠ []) : kw ≠ [] := by
  rintro rfl
  exact ht h.symm

theorem wordToken_and (kw : List Char) (h : strings.ToUpper kw = "AND".toList) (pos : Nat)
    (toks : List Token) : wordToken kw pos toks = ⟨.TokenAND, kw, pos⟩ := by
  simp [wordToken, h]

theorem wordToken_or (kw : List Char) (h : strings.ToUpper kw = "OR".toList) (pos : Nat)
    (toks : List Token) : wordToken kw pos toks = ⟨.TokenOR, kw, pos⟩ := by
  simp [wordToken, h]

theorem wordToken_not (kw : List Char) (h : strings.ToUpper kw = "NOT".toList) (pos : Nat)
    (toks : List Token) : wordToken kw pos toks = ⟨.TokenNOT, kw, pos⟩ := by
  simp [wordToken, h]

theorem flatten_length_four (ty : TokenType) (kw : List Char) (more : List Clause) :
    ((more.map fun c => (ty, kw) :: clauseShape c).flatten).length = 4 * more.length := by
  induction more with
  | nil => rfl
  | cons c cs ih =>
    rw [List.map_cons, List.flatten_cons, List.length_append, ih]
    simp only [List.length_cons, clauseShape, List.length_nil]
    omega

/-- A chain of clauses joined by `AND`, written in any letter case, parses to
the left-leaning tree of the chain. -/
theorem Parse_and_chain (kw : List Char) (hkw : strings.ToUpper kw = "AND".toList)
    (first : Clause) (more : List Clause)
    (hf : first.WellFormed) (hm : ∀ c ∈ more, c.WellFormed) :
    Parse (chainText kw first more) = .ok (chainNode "AND".toList first more) := by
  obtain ⟨y, last, hlast, hy⟩ := chainText_ends kw first more hf hm
  obtain ⟨tokens, ht, hshape, hlen⟩ := tokenize_chain kw .TokenAND
    (keyword_ne_nil kw _ hkw (by decide))
    (fun x hx => (keyword_bytes kw _ hkw (by decide) x hx).1) (wordToken_and kw hkw) (by decide)
    first more hf hm
  have hq := TrimSpace_clauses first last hf hlast _ _ y rfl hy
  have h0 : (tokens.drop 0).map Token.shape = clauseShape first ++
      ((more.map fun c => (TokenType.TokenAND, kw) :: clauseShape c).flatten
        ++ [(.TokenEOF, [])]) := by
    rw [List.drop_zero]; exact hshape
  have h3 := drop_shape tokens 0 3 (clauseShape first) _ rfl h0
  have hE := drop_shape tokens (0 + 3) (4 * more.length)
    ((more.map fun c => (TokenType.TokenAND, kw) :: clauseShape c).flatten) _
    (flatten_length_four _ _ _) h3
  apply Parse_of_tokens _ tokens _ (0 + 3 + 4 * more.length) [] [] hq ht ?_ hE
  have hF : 4 * tokens.length + 4 = (16 * more.length + 17) + 1 + 1 + 1 := by omega
  rw [hF, parseExpression_succ, parseTerm_succ,
    parseFactor_clause _ tokens 0 first hf _ h0]
  simp only [Result.ok_bind]
  rw [parseTermLoop_chain more hm _ (by omega) _ tokens (0 + 3) kw .TokenEOF [] []
    h3 (by decide)]
  simp only [Result.ok_bind]
  rw [parseExpressionLoop_end _ _ tokens _ .TokenEOF [] [] hE (by decide)]
  rfl

/-- The same for `OR`. -/
theorem Parse_or_chain (kw : List Char) (hkw : strings.ToUpper kw = "OR".toList)
    (first : Clause) (more : List Clause)
    (hf : first.WellFormed) (hm : ∀ c ∈ more, c.WellFormed) :
    Parse (chainText kw first more) = .ok (chainNode "OR".toList first more) := by
  obtain ⟨y, last, hlast, hy⟩ := chainText_ends kw first more hf hm
  obtain ⟨tokens, ht, hshape, hlen⟩ := tokenize_chain kw .TokenOR
    (keyword_ne_nil kw _ hkw (by decide))
    (fun x hx => (keyword_bytes kw _ hkw (by decide) x hx).1) (wordToken_or kw hkw) (by decide)
    first more hf hm
  have hq := TrimSpace_clauses first last hf hlast _ _ y rfl hy
  have h0 : (tokens.drop 0).map Token.shape = clauseShape first ++
      ((more.map fun c => (TokenType.TokenOR, kw) :: clauseShape c).flatten
        ++ [(.TokenEOF, [])]) := by
    rw [List.drop_zero]; exact hshape
  have h3 := drop_shape tokens 0 3 (clauseShape first) _ rfl h0
  have hE := drop_shape tokens (0 + 3) (4 * more.length)
    ((more.map fun c => (TokenType.TokenOR, kw) :: clauseShape c).flatten) _
    (flatten_length_four _ _ _) h3
  have hnext : ∃ ty1 v1 S1,
      (more.map fun c => (TokenType.TokenOR, kw) :: clauseShape c).flatten
          ++ [(TokenType.TokenEOF, [])]
        = (ty1, v1) :: S1 ∧ ty1 ≠ .TokenAND := by
    cases more with
    | nil => exact ⟨.TokenEOF, [], [], rfl, by decide⟩
    | cons d ds => exact ⟨.TokenOR, kw, _, rfl, by decide⟩
  obtain ⟨ty1, v1, S1, hS1, hty1⟩ := hnext
  apply Parse_of_tokens _ tokens _ (0 + 3 + 4 * more.length) [] [] hq ht ?_ hE
  have hF : 4 * tokens.length + 4 = (16 * more.length + 17) + 2 + 1 := by omega
  rw [hF, parseExpression_succ,
    parseTerm_clause _ tokens 0 first hf ty1 v1 S1 (by rw [h0, hS1]) hty1]
  simp only [Result.ok_bind]
  rw [parseExpressionLoop_chain more hm _ (by omega) _ tokens (0 + 3) kw .TokenEOF
    [] [] h3 (by decide) (by decide)]
  rfl

theorem Evaluate_comparison (f op v : List Char) (task : Task) (cfg : config.Config)
    (now : time.Time) (loc : time.Location) :
    (Node.comparison f op v).Evaluate task cfg now loc
      = .ok (ComparisonNode.Evaluate f op v task cfg now loc) := by
  rw [Node.Evaluate]

theorem Evaluate_and (l r : Node) (task : Task) (cfg : config.Config)
    (now : time.Time) (loc : time.Location) (x y : Bool)
    (hl : l.Evaluate task cfg now loc = .ok x) (hr : r.Evaluate task cfg now loc = .ok y) :
    (Node.and l r).Evaluate task cfg now loc = .ok (x && y) := by
  rw [Node.and, Node.Evaluate, if_pos rfl, hl]
  cases x
  · rfl
  · simp only [hr, Bool.true_and]

theorem Evaluate_or (l r : Node) (task : Task) (cfg : config.Config)
    (now : time.Time) (loc : time.Location) (x y : Bool)
    (hl : l.Evaluate task cfg now loc = .ok x) (hr : r.Evaluate task cfg now loc = .ok y) :
    (Node.or l r).Evaluate task cfg now loc = .ok (x || y) := by
  rw [Node.or, Node.Evaluate, if_neg (by decide), if_pos rfl, hl]
  cases x
  · simp only [hr, Bool.false_or]
  · rfl

theorem Evaluate_not_ok (l : Node) (task : Task) (cfg : config.Config)
    (now : time.Time) (loc : time.Location) (x : Bool)
    (hl : l.Evaluate task cfg now loc = .ok x) :
    (Node.not l).Evaluate task cfg now loc = .ok (!x) := by
  rw [Node.not, Node.Evaluate, if_neg (by decide), if_neg (by decide), if_pos rfl, hl]

/-- C22: for well-formed clauses `a` and `b`, the query `a AND b` parses, and
its tree is true on a task exactly when both comparisons are; the query
`a OR b` parses, and its tree is true exactly when at least one comparison
is.  The keyword may be written in any letter case. -/
theorem C22_Parse_and_or (a b : Clause) (ha : a.WellFormed) (hb : b.WellFormed)
    (kand kor : List Char) (hand : strings.ToUpper kand = "AND".toList)
    (hor : strings.ToUpper kor = "OR".toList) :
    (∃ n, Parse (a.text ++ " ".toList ++ kand ++ " ".toList ++ b.text) = .ok n ∧
      ∀ (task : Task) (cfg : config.Config) (now : time.Time) (loc : time.Location),
        n.Evaluate task cfg now loc
          = .ok (a.Evaluate task cfg now loc && b.Evaluate task cfg now loc) ∧
        (n.Evaluate task cfg now loc = .ok true ↔
          a.node.Evaluate task cfg now loc = .ok true ∧
            b.node.Evaluate task cfg now loc = .ok true)) ∧
    (∃ n, Parse (a.text ++ " ".toList ++ kor ++ " ".toList ++ b.text) = .ok n ∧
      ∀ (task : Task) (cfg : config.Config) (now : time.Time) (loc : time.Location),
        n.Evaluate task cfg now loc
          = .ok (a.Evaluate task cfg now loc || b.Evaluate task cfg now loc) ∧
        (n.Evaluate task cfg now loc = .ok true ↔
          a.node.Evaluate task cfg now loc = .ok true ∨
            b.node.Evaluate task cfg now loc = .ok true)) := by
  have ea : ∀ task cfg now loc, a.node.Evaluate task cfg now loc
      = .ok (a.Evaluate task cfg now loc) := fun _ _ _ _ => Evaluate_comparison _ _ _ _ _ _ _
  have eb : ∀ task cfg now loc, b.node.Evaluate task cfg now loc
      = .ok (b.Evaluate task cfg now loc) := fun _ _ _ _ => Evaluate_comparison _ _ _ _ _ _ _
  constructor
  · refine ⟨Node.and a.node b.node, ?_, ?_⟩
    · have h := Parse_and_chain kand hand a [b] ha (by simpa using hb)
      simpa [chainText, chainNode, Node.and] using h
    · intro task cfg now loc
      have h := Evaluate_and a.node b.node task cfg now loc _ _ (ea _ _ _ _) (eb _ _ _ _)
      refine ⟨h, ?_⟩
      rw [h, ea, eb]
      cases a.Evaluate task cfg now loc <;> cases b.Evaluate task cfg now loc <;> simp
  · refine ⟨Node.or a.node b.node, ?_, ?_⟩
    · have h := Parse_or_chain kor hor a [b] ha (by simpa using hb)
      simpa [chainText, chainNode, Node.or] using h
    · intro task cfg now loc
      have h := Evaluate_or a.node b.node task cfg now loc _ _ (ea _ _ _ _) (eb _ _ _ _)
      refine ⟨h, ?_⟩
      rw [h, ea, eb]
      cases a.Evaluate task cfg now loc <;> cases b.Evaluate task cfg now loc <;> simp

/-- C22 at the clauses `status:open` and `priority:p1`, with the keywords
written `and` and `Or`. -/
theorem C22_Parse_and_or_witness :
    (∃ n, Parse "status:open and priority:p1".toList = .ok n ∧
      ∀ (task : Task) (cfg : config.Config) (now : time.Time) (loc : time.Location),
        n.Evaluate task cfg now loc
          = .ok (ComparisonNode.Evaluate "status".toList ":".toList "open".toList task cfg now loc
            && ComparisonNode.Evaluate "priority".toList ":".toList "p1".toList task cfg now
              loc)) ∧
    (∃ n, Parse "status:open Or priority:p1".toList = .ok n ∧
      ∀ (task : Task) (cfg : config.Config) (now : time.Time) (loc : time.Location),
        n.Evaluate task cfg now loc
          = .ok (ComparisonNode.Evaluate "status".toList ":".toList "open".toList task cfg now loc
            || ComparisonNode.Evaluate "priority".toList ":".toList "p1".toList task cfg now
              loc)) := by
  obtain ⟨⟨n1, h1, e1⟩, ⟨n2, h2, e2⟩⟩ :=
    C22_Parse_and_or ⟨"status".toList, ":".toList, "open".toList⟩
      ⟨"priority".toList, ":".toList, "p1".toList⟩ (by decide) (by decide)
      "and".toList "Or".toList (by decide) (by decide)
  exact ⟨⟨n1, h1, fun task cfg now loc => (e1 task cfg now loc).1⟩,
    ⟨n2, h2, fun task cfg now loc => (e2 task cfg now loc).1⟩⟩

theorem Tokenize_and_group :
    Tokenize "area:work AND (priority:p1 OR priority:p2)".toList = .ok
      [⟨.TokenField, "area".toList, 0⟩, ⟨.TokenColon, ":".toList, 4⟩,
       ⟨.TokenValue, "work".toList, 5⟩, ⟨.TokenAND, "AND".toList, 10⟩,
       ⟨.TokenLeftParen, "(".toList, 14⟩, ⟨.TokenField, "priority".toList, 15⟩,
       ⟨.TokenColon, ":".toList, 23⟩, ⟨.TokenValue, "p1".toList, 24⟩,
       ⟨.TokenOR, "OR".toList, 27⟩, ⟨.TokenField, "priority".toList, 30⟩,
       ⟨.TokenColon, ":".toList, 38⟩, ⟨.TokenValue, "p2".toList, 39⟩,
       ⟨.TokenRightParen, ")".toList, 41⟩, ⟨.TokenEOF, [], 42⟩] := by
  rw [Tokenize_eval _ (by rfl) (by rfl)]
  rfl

theorem Parse_and_group :
    Parse "area:work AND (priority:p1 OR priority:p2)".toList = .ok
      (Node.and (.comparison "area".toList ":".toList "work".toList)
        (Node.or (.comparison "priority".toList ":".toList "p1".toList)
          (.comparison "priority".toList ":".toList "p2".toList))) := by
  unfold Parse
  rw [Tokenize_and_group]
  simp [Parser.parseExpression, Parser.parseTerm, Parser.parseFactor, Parser.parseTermLoop,
    Parser.parseExpressionLoop, Parser.match1, Parser.check, Parser.isAtEnd, Parser.current,
    Parser.advance, index, Parser.parseComparison, Result.bind, bind, Node.and, Node.or]

/-- C23: the query `area:work AND (priority:p1 OR priority:p2)` parses, and
its tree is true on every task whose area is `work` and whose priority is
`p2`, and false on every task whose area, in lower case, is not `work` and
whose priority is `p2`. -/
theorem C23_area_and_priority_group :
    ∃ n, Parse "area:work AND (priority:p1 OR priority:p2)".toList = .ok n ∧
      ∀ (task : Task) (cfg : config.Config) (now : time.Time) (loc : time.Location),
        task.TaskMetadata.Priority = "p2".toList →
        (task.TaskMetadata.Area = "work".toList → n.Evaluate task cfg now loc = .ok true) ∧
        (strings.ToLower task.TaskMetadata.Area ≠ "work".toList →
          n.Evaluate task cfg now loc = .ok false) := by
  refine ⟨_, Parse_and_group, ?_⟩
  intro task cfg now loc hp
  have e1 := Evaluate_comparison "area".toList ":".toList "work".toList task cfg now loc
  have e2 := Evaluate_comparison "priority".toList ":".toList "p1".toList task cfg now loc
  have e3 := Evaluate_comparison "priority".toList ":".toList "p2".toList task cfg now loc
  rw [Evaluate_area _ _ _ _ _ _ _ (by decide), compareString_colon] at e1
  rw [Evaluate_priority _ _ _ _ _ _ _ (by decide), compareString_colon, hp] at e2 e3
  have h := Evaluate_and _ _ task cfg now loc _ _ e1
    (Evaluate_or _ _ task cfg now loc _ _ e2 e3)
  rw [h]
  constructor
  · intro ha
    rw [ha]
    rfl
  · intro ha
    have : strings.ToLower "work".toList = "work".toList := by decide
    rw [this, decide_eq_false ha]
    rfl

end query

namespace denote

open time

/-- In a location whose midnights follow the order of the days, a due date is
overdue exactly when it is set, has the layout of a date, and is a day before
today. -/
theorem IsOverdue_iff (s : List Char) (now : Time) (loc : Location) (hloc : loc.Ordered) :
    IsOverdue s now loc = true ↔
      s ≠ [] ∧ ∃ d, ParseInLocation s loc = some d ∧ d.day < now.day := by
  cases hp : ParseInLocation s loc with
  | none =>
    have : IsOverdue s now loc = false := by
      unfold IsOverdue
      split_ifs
      · rfl
      · rw [hp]
    rw [this]
    constructor
    · intro h; cases h
    · rintro ⟨_, d, hd, _⟩; cases hd
  | some d =>
    have hs : s ≠ [] := by
      intro e
      rw [e] at hp
      simp [ParseInLocation] at hp
    rw [IsOverdue_parsed s now loc d hp]
    simp only [Time.Before, decide_eq_true_eq]
    constructor
    · intro h
      refine ⟨hs, d, rfl, ?_⟩
      by_contra hge
      rcases lt_or_eq_of_le (not_lt.mp hge) with h1 | h1
      · have := hloc _ _ h1
        omega
      · rw [h1] at h
        omega
    · rintro ⟨_, d1, hd1, hlt⟩
      cases hd1
      exact hloc _ _ hlt

end denote

namespace query

open denote

theorem Tokenize_overdue_not_done :
    Tokenize "due:overdue AND NOT status:done".toList = .ok
      [⟨.TokenField, "due".toList, 0⟩, ⟨.TokenColon, ":".toList, 3⟩,
       ⟨.TokenValue, "overdue".toList, 4⟩, ⟨.TokenAND, "AND".toList, 12⟩,
       ⟨.TokenNOT, "NOT".toList, 16⟩, ⟨.TokenField, "status".toList, 20⟩,
       ⟨.TokenColon, ":".toList, 26⟩, ⟨.TokenValue, "done".toList, 27⟩,
       ⟨.TokenEOF, [], 31⟩] := by
  rw [Tokenize_eval _ (by rfl) (by rfl)]
  rfl

theorem Parse_overdue_not_done :
    Parse "due:overdue AND NOT status:done".toList = .ok
      (Node.and (.comparison "due".toList ":".toList "overdue".toList)
        (Node.not (.comparison "status".toList ":".toList "done".toList))) := by
  unfold Parse
  rw [Tokenize_overdue_not_done]
  simp [Parser.parseExpression, Parser.parseTerm, Parser.parseFactor, Parser.parseTermLoop,
    Parser.parseExpressionLoop, Parser.match1, Parser.check, Parser.isAtEnd, Parser.current,
    Parser.advance, index, Parser.parseComparison, Result.bind, bind, Node.and, Node.not]

/-- The value of the tree of `due:overdue AND NOT status:done` on a task. -/
theorem Evaluate_overdue_not_done (task : Task) (cfg : config.Config) (now : time.Time)
    (loc : time.Location) :
    (Node.and (.comparison "due".toList ":".toList "overdue".toList)
        (Node.not (.comparison "status".toList ":".toList "done".toList))).Evaluate
        task cfg now loc
      = .ok (IsOverdue task.TaskMetadata.DueDate now loc &&
          !decide (strings.ToLower task.TaskMetadata.Status = "done".toList)) := by
  have e1 := Evaluate_comparison "due".toList ":".toList "overdue".toList task cfg now loc
  have e2 := Evaluate_comparison "status".toList ":".toList "done".toList task cfg now loc
  rw [Evaluate_due _ _ _ _ _ _ _ (Or.inl (by decide)), if_neg (by decide), if_neg (by decide),
    if_pos (by decide)] at e1
  rw [Evaluate_status _ _ _ _ _ _ _ (by decide), compareString_colon] at e2
  have h := Evaluate_and _ _ task cfg now loc _ _ e1 (Evaluate_not_ok _ _ _ _ _ _ e2)
  rw [h]
  have : strings.ToLower "done".toList = "done".toList := by decide
  rw [this]
  simp

/-- C24: the query `due:overdue AND NOT status:done` parses; its tree is false
on every task whose status, in lower case, is `done`, whatever the due date;
on a task with another status it is true exactly when the due date is set, has
the layout of a date and is a day before today (in a location whose midnights
follow the order of the days), and false otherwise. -/
theorem C24_overdue_and_not_done :
    ∃ n, Parse "due:overdue AND NOT status:done".toList = .ok n ∧
      ∀ (task : Task) (cfg : config.Config) (now : time.Time) (loc : time.Location),
        (strings.ToLower task.TaskMetadata.Status = "done".toList →
          n.Evaluate task cfg now loc = .ok false) ∧
        (strings.ToLower task.TaskMetadata.Status ≠ "done".toList → loc.Ordered →
          (n.Evaluate task cfg now loc = .ok true ∨ n.Evaluate task cfg now loc = .ok false) ∧
          (n.Evaluate task cfg now loc = .ok true ↔
            task.TaskMetadata.DueDate ≠ [] ∧
              ∃ d, time.ParseInLocation task.TaskMetadata.DueDate loc = some d ∧
                d.day < now.day)) := by
  refine ⟨_, Parse_overdue_not_done, ?_⟩
  intro task cfg now loc
  rw [Evaluate_overdue_not_done]
  constructor
  · intro hs
    rw [decide_eq_true hs]
    simp
  · intro hs hloc
    rw [decide_eq_false hs, ← IsOverdue_iff _ _ _ hloc]
    cases IsOverdue task.TaskMetadata.DueDate now loc <;> simp

end query

namespace time

theorem fixed_ordered (offset : Int) : (Location.fixed offset).Ordered := by
  intro a b h
  simp only [Location.fixed, Time.instant]
  omega

end time

namespace query

open denote

/-- C23 on a task of the area `work` with the priority `p2`, and on a task of
the area `home` with the same priority. -/
theorem C23_area_and_priority_group_witness :
    ∃ n, Parse "area:work AND (priority:p1 OR priority:p2)".toList = .ok n ∧
      n.Evaluate { Task.blank with TaskMetadata :=
          { Task.blank.TaskMetadata with Area := "work".toList, Priority := "p2".toList } }
        ⟨3⟩ (time.Date 2026 11 4 0 0) (time.Location.fixed 0) = .ok true ∧
      n.Evaluate { Task.blank with TaskMetadata :=
          { Task.blank.TaskMetadata with Area := "Home".toList, Priority := "p2".toList } }
        ⟨3⟩ (time.Date 2026 11 4 0 0) (time.Location.fixed 0) = .ok false := by
  obtain ⟨n, hp, h⟩ := C23_area_and_priority_group
  exact ⟨n, hp, (h _ ⟨3⟩ (time.Date 2026 11 4 0 0) (time.Location.fixed 0) rfl).1 rfl,
    (h _ ⟨3⟩ (time.Date 2026 11 4 0 0) (time.Location.fixed 0) rfl).2 (by decide)⟩

/-- C24 on 2026-11-04: a task done and due the day before, and a task open
and due the day before. -/
theorem C24_overdue_and_not_done_witness :
    ∃ n, Parse "due:overdue AND NOT status:done".toList = .ok n ∧
      n.Evaluate { Task.blank with TaskMetadata :=
        { Task.blank.TaskMetadata with Status := "Done".toList, DueDate := "2026-11-03".toList } }
        ⟨3⟩ (time.Date 2026 11 4 0 0) (time.Location.fixed 0) = .ok false ∧
      n.Evaluate { Task.blank with TaskMetadata :=
        { Task.blank.TaskMetadata with Status := "open".toList, DueDate := "2026-11-03".toList } }
        ⟨3⟩ (time.Date 2026 11 4 0 0) (time.Location.fixed 0) = .ok true := by
  obtain ⟨n, hp, h⟩ := C24_overdue_and_not_done
  refine ⟨n, hp, (h _ ⟨3⟩ (time.Date 2026 11 4 0 0) (time.Location.fixed 0)).1 (by decide), ?_⟩
  refine ((h _ ⟨3⟩ (time.Date 2026 11 4 0 0) (time.Location.fixed 0)).2 (by decide)
    (time.fixed_ordered 0)).2.mpr ⟨by decide, ⟨20760, 0, 0⟩, by decide, by decide⟩

theorem Result.err_bind {α β : Type} (e : Error) (f : α → Result β) :
    (Result.err e >>= f) = .err e := rfl

/-- A keyword in any letter case: its token, and its bytes. -/
theorem keywordType_spec (k : List Char) (kty : TokenType) (h : keywordType k = some kty) :
    (∀ pos toks, wordToken k pos toks = ⟨kty, k, pos⟩) ∧ k ≠ [] ∧
    (∀ x ∈ k, isWordByte x = true ∧ x.toNat < 128 ∧ strings.asciiSpace x = false) ∧
    (kty = .TokenAND ∨ kty = .TokenOR ∨ kty = .TokenNOT) := by
  unfold keywordType at h
  by_cases h1 : strings.ToUpper k = "AND".toList
  · rw [if_pos h1] at h
    cases h
    exact ⟨wordToken_and k h1, keyword_ne_nil k _ h1 (by decide),
      keyword_bytes k _ h1 (by decide), Or.inl rfl⟩
  rw [if_neg h1] at h
  by_cases h2 : strings.ToUpper k = "OR".toList
  · rw [if_pos h2] at h
    cases h
    exact ⟨wordToken_or k h2, keyword_ne_nil k _ h2 (by decide),
      keyword_bytes k _ h2 (by decide), Or.inr (Or.inl rfl)⟩
  rw [if_neg h2] at h
  by_cases h3 : strings.ToUpper k = "NOT".toList
  · rw [if_pos h3] at h
    cases h
    exact ⟨wordToken_not k h3, keyword_ne_nil k _ h3 (by decide),
      keyword_bytes k _ h3 (by decide), Or.inr (Or.inr rfl)⟩
  rw [if_neg h3] at h
  cases h

/-- A text that ends with a byte of ASCII that is no white space has no
trailing white space. -/
theorem trailingSpace_of_last (s : List Char) (hne : s ≠ [])
    (h : ∀ x ∈ s, x.toNat < 128 ∧ strings.asciiSpace x = false) (pre : List Char) :
    strings.trailingSpace (pre ++ s).reverse = 0 := by
  obtain ⟨s1, c, rfl⟩ : ∃ s1 c, s = s1 ++ [c] := by
    rcases List.eq_nil_or_concat s with h0 | ⟨s1, c, h1⟩
    · exact absurd h0 hne
    · exact ⟨s1, c, by simpa using h1⟩
  obtain ⟨h1, h2⟩ := h c (by simp)
  rw [← List.append_assoc, List.reverse_append]
  exact strings.trailingSpace_low c _ h1 h2

/-- The tokens of a field, an operator and a keyword written one after the
other. -/
theorem Tokenize_keyword_value (f op k : List Char) (ty kty : TokenType)
    (hf : IsWord f) (hop : operatorType op = some ty) (hk : keywordType k = some kty)
    (hl : strings.leadingSpace (f ++ op ++ k) = 0) :
    Tokenize (f ++ op ++ k) = .ok
      [⟨.TokenField, f, 0⟩, ⟨ty, op, f.length⟩, ⟨kty, k, f.length + op.length⟩,
       ⟨.TokenEOF, [], f.length + op.length + k.length⟩] := by
  obtain ⟨hw, hne, hb, _⟩ := keywordType_spec k kty hk
  unfold Tokenize
  rw [strings.TrimSpace_stable _ hl
    (trailingSpace_of_last k hne (fun x hx => (hb x hx).2) (f ++ op))]
  rw [List.append_assoc, tokenizeLoop_word f (op ++ k) hf.1 hf.2.1 (endsWord_operator op ty hop k),
    wordToken_field f hf 0 [] last_nil, tokenizeLoop_operator op ty hop]
  have e : k = k ++ [] := by simp
  rw [e, tokenizeLoop_word k [] hne (fun x hx => (hb x hx).1) endsWord_nil, hw, tokenizeLoop_nil]
  simp

/-- C29: a word spelling `AND`, `OR` or `NOT`, in any letter case, written
where a value is expected, after a field word `f` and a comparison operator
`op`, is a keyword token, and `Parse` returns the error `expected value`, at
the offset of the word and with the keyword token. -/
theorem C29_keyword_as_value (f op k : List Char) (ty kty : TokenType)
    (hf : IsWord f) (hop : operatorType op = some ty) (hk : keywordType k = some kty)
    (hl : strings.leadingSpace (f ++ op ++ k) = 0) :
    (kty = .TokenAND ∨ kty = .TokenOR ∨ kty = .TokenNOT) ∧
    Tokenize (f ++ op ++ k) = .ok
      [⟨.TokenField, f, 0⟩, ⟨ty, op, f.length⟩, ⟨kty, k, f.length + op.length⟩,
       ⟨.TokenEOF, [], f.length + op.length + k.length⟩] ∧
    Parse (f ++ op ++ k)
      = .err (.expectedValue (f.length + op.length) ⟨kty, k, f.length + op.length⟩) := by
  have hT := Tokenize_keyword_value f op k ty kty hf hop hk hl
  obtain ⟨_, _, _, hty⟩ := keywordType_spec k kty hk
  refine ⟨hty, hT, ?_⟩
  unfold Parse
  rw [hT]
  simp only [Result.ok_bind]
  have hF : 4 * [(⟨.TokenField, f, 0⟩ : Token), ⟨ty, op, f.length⟩,
      ⟨kty, k, f.length + op.length⟩,
      ⟨.TokenEOF, [], f.length + op.length + k.length⟩].length + 4 = 17 + 1 + 1 + 1 := rfl
  have hv : kty ≠ .TokenValue := by
    rcases hty with h | h | h <;> rw [h] <;> decide
  rw [hF, parseExpression_succ, parseTerm_succ,
    parseFactor_at _ _ 0 ⟨.TokenField, f, 0⟩ rfl,
    if_neg (by simp), if_neg (by simp),
    parseComparison_no_value _ 0 ⟨.TokenField, f, 0⟩ ⟨ty, op, f.length⟩
      ⟨kty, k, f.length + op.length⟩ rfl rfl rfl (operator_length op ty hop).2 rfl hv]
  rfl

/-- C29 at `tag:and`. -/
theorem C29_keyword_as_value_witness :
    Tokenize "tag:and".toList = .ok
      [⟨.TokenField, "tag".toList, 0⟩, ⟨.TokenColon, ":".toList, 3⟩,
       ⟨.TokenAND, "and".toList, 4⟩, ⟨.TokenEOF, [], 7⟩] ∧
    Parse "tag:and".toList = .err (.expectedValue 4 ⟨.TokenAND, "and".toList, 4⟩) :=
  (C29_keyword_as_value "tag".toList ":".toList "and".toList .TokenColon .TokenAND
    (by decide) (by decide) (by decide) (by rfl)).2

theorem Tokenize_open_paren :
    Tokenize "(status:open".toList = .ok
      [⟨.TokenLeftParen, "(".toList, 0⟩, ⟨.TokenField, "status".toList, 1⟩,
       ⟨.TokenColon, ":".toList, 7⟩, ⟨.TokenValue, "open".toList, 8⟩,
       ⟨.TokenEOF, [], 12⟩] := by
  rw [Tokenize_eval _ (by rfl) (by rfl)]
  rfl

theorem Tokenize_trailing_field :
    Tokenize "status:open priority".toList = .ok
      [⟨.TokenField, "status".toList, 0⟩, ⟨.TokenColon, ":".toList, 6⟩,
       ⟨.TokenValue, "open".toList, 7⟩, ⟨.TokenField, "priority".toList, 12⟩,
       ⟨.TokenEOF, [], 20⟩] := by
  rw [Tokenize_eval _ (by rfl) (by rfl)]
  rfl

/-- C28 (defect): on the query `(status:open`, whose closing parenthesis is
missing, parsing stops at the end-of-input token, at offset 12, and the error
of `Parse` is `expected ) at position 12`: it carries the offset and not the
token found.  On `status:open priority`, where parsing stops at the trailing
word, the error `unexpected token` carries the offset and the token. -/
theorem C28_missing_paren_error_without_token :
    Tokenize "(status:open".toList = .ok
      [⟨.TokenLeftParen, "(".toList, 0⟩, ⟨.TokenField, "status".toList, 1⟩,
       ⟨.TokenColon, ":".toList, 7⟩, ⟨.TokenValue, "open".toList, 8⟩,
       ⟨.TokenEOF, [], 12⟩] ∧
    Parse "(status:open".toList = .err (.expectedRightParen 12) ∧
    Parse "status:open priority".toList
      = .err (.unexpectedToken 12 ⟨.TokenField, "priority".toList, 12⟩) := by
  refine ⟨Tokenize_open_paren, ?_, ?_⟩
  · unfold Parse
    rw [Tokenize_open_paren]
    simp [Parser.parseExpression, Parser.parseTerm, Parser.parseFactor, Parser.parseTermLoop,
      Parser.parseExpressionLoop, Parser.match1, Parser.check, Parser.isAtEnd, Parser.current,
      Parser.advance, index, Parser.parseComparison, Result.bind, bind]
  · unfold Parse
    rw [Tokenize_trailing_field]
    simp [Parser.parseExpression, Parser.parseTerm, Parser.parseFactor, Parser.parseTermLoop,
      Parser.parseExpressionLoop, Parser.match1, Parser.check, Parser.isAtEnd, Parser.current,
      Parser.advance, index, Parser.parseComparison, Result.bind, bind]

end query

/-! ### The words of a query -/

namespace query

open denote

/-- The token of a word: its text is the word, its offset the offset of the
word, and its type the one the description of the tokenizer gives. -/
theorem wordToken_spec (w : List Char) (pos : Nat) (acc : List Token) :
    (wordToken w pos acc).Value = w ∧ (wordToken w pos acc).Pos = pos ∧
      (wordToken w pos acc).Typ = wordClass w acc.getLast? := by
  unfold wordToken wordClass keywordType
  simp only
  by_cases h1 : strings.ToUpper w = "AND".toList
  · simp only [if_pos h1, and_self]
  by_cases h2 : strings.ToUpper w = "OR".toList
  · simp only [if_neg h1, if_pos h2, and_self]
  by_cases h3 : strings.ToUpper w = "NOT".toList
  · simp only [if_neg h1, if_neg h2, if_pos h3, and_self]
  simp only [if_neg h1, if_neg h2, if_neg h3]
  cases acc.getLast? with
  | none => exact ⟨rfl, rfl, rfl⟩
  | some last =>
    simp only
    by_cases hop : last.Typ = .TokenColon ∨ last.Typ = .TokenGT ∨ last.Typ = .TokenLT ∨
        last.Typ = .TokenEQ ∨ last.Typ = .TokenNE
    · rw [if_pos hop]
      have : isOperator last.Typ = true := by
        rcases hop with h | h | h | h | h <;> rw [h] <;> rfl
      rw [if_pos this]
      exact ⟨rfl, rfl, rfl⟩
    · rw [if_neg hop]
      have : ¬ isOperator last.Typ = true := by
        intro ho
        apply hop
        revert ho
        cases last.Typ <;> simp [isOperator]
      rw [if_neg this]
      exact ⟨rfl, rfl, rfl⟩

/-- What the tokenizer finds at a byte that is not a word byte: white space,
a punctuation token, or a `!` without `=`. -/
theorem lexeme_cases_nonword (c : Char) (cs : List Char) (hw : isWordByte c = false) :
    (unicode.IsSpace c = true) ∨
    (∃ ty lex r, c :: cs = lex ++ r ∧ lex ≠ [] ∧ (∀ x ∈ lex, isWordByte x = false) ∧
      ∀ rest pos toks, tokenizeLoop (lex ++ rest) pos toks
        = tokenizeLoop rest (pos + lex.length) (toks ++ [⟨ty, lex, pos⟩])) ∨
    (c = '!' ∧ cs.head? ≠ some '=') := by
  rcases not_wordByte c hw with h | h | h | h | h | h | h | h
  · exact Or.inl h
  · subst h
    exact Or.inr (Or.inl ⟨.TokenLeftParen, ['('], cs, rfl, by simp, by decide,
      fun rest pos toks => tokenizeLoop_lparen rest pos toks⟩)
  · subst h
    exact Or.inr (Or.inl ⟨.TokenRightParen, [')'], cs, rfl, by simp, by decide,
      fun rest pos toks => tokenizeLoop_rparen rest pos toks⟩)
  · subst h
    exact Or.inr (Or.inl ⟨.TokenColon, [':'], cs, rfl, by simp, by decide,
      fun rest pos toks => tokenizeLoop_operator [':'] _ rfl rest pos toks⟩)
  · subst h
    exact Or.inr (Or.inl ⟨.TokenGT, ['>'], cs, rfl, by simp, by decide,
      fun rest pos toks => tokenizeLoop_operator ['>'] _ rfl rest pos toks⟩)
  · subst h
    exact Or.inr (Or.inl ⟨.TokenLT, ['<'], cs, rfl, by simp, by decide,
      fun rest pos toks => tokenizeLoop_operator ['<'] _ rfl rest pos toks⟩)
  · subst h
    exact Or.inr (Or.inl ⟨.TokenEQ, ['='], cs, rfl, by simp, by decide,
      fun rest pos toks => tokenizeLoop_operator ['='] _ rfl rest pos toks⟩)
  · subst h
    by_cases he : cs.head? = some '='
    · cases cs with
      | nil => cases he
      | cons d cs2 =>
        simp only [List.head?_cons, Option.some.injEq] at he
        subst he
        exact Or.inr (Or.inl ⟨.TokenNE, ['!', '='], cs2, rfl, by simp, by decide,
          fun rest pos toks => tokenizeLoop_operator ['!', '='] _ rfl rest pos toks⟩)
    · exact Or.inr (Or.inr ⟨rfl, he⟩)

/-- Bytes that are not word bytes, at the head of a text, stand before any
word of the text. -/
theorem strip_nonword (lex : List Char) (hlex : ∀ x ∈ lex, isWordByte x = false) :
    ∀ (r pre w post : List Char), lex ++ r = pre ++ w ++ post → w ≠ [] →
      (∀ x ∈ w, isWordByte x = true) → ∃ p, pre = lex ++ p ∧ r = p ++ w ++ post := by
  induction lex with
  | nil => intro r pre w post h _ _; exact ⟨pre, rfl, h⟩
  | cons x l ih =>
    intro r pre w post h hne hw
    cases pre with
    | nil =>
      cases w with
      | nil => exact absurd rfl hne
      | cons y w1 =>
        simp only [List.nil_append, List.cons_append, List.cons.injEq] at h
        have h1 := hlex x (List.mem_cons_self _ _)
        have h2 := hw y (List.mem_cons_self _ _)
        rw [h.1, h2] at h1
        cases h1
    | cons y p =>
      simp only [List.cons_append, List.cons.injEq] at h
      obtain ⟨p1, e1, e2⟩ := ih (fun z hz => hlex z (List.mem_cons_of_mem _ hz)) r p w post
        (by simpa using h.2) hne hw
      exact ⟨p1, by rw [h.1, e1]; rfl, e2⟩

/-- The byte before a word is still not a word byte when bytes are taken off
the front of the text before it. -/
theorem endsWord_reverse_drop (a p : List Char) (h : EndsWord (a ++ p).reverse) :
    EndsWord p.reverse := by
  rcases List.eq_nil_or_concat p with h0 | ⟨p1, d, h1⟩
  · rw [h0]; exact endsWord_nil
  · rw [h1] at h ⊢
    intro d1 r1 e
    simp only [List.concat_eq_append, List.reverse_append, List.reverse_cons, List.reverse_nil,
      List.nil_append, List.singleton_append, List.cons_append, List.cons.injEq] at e h
    apply h d1 (p1.reverse ++ a.reverse)
    rw [e.1]

/-- Two maximal runs of word bytes at the head of a text are the same. -/
theorem maximal_unique : ∀ (w0 r w post : List Char), w0 ++ r = w ++ post →
    (∀ x ∈ w0, isWordByte x = true) → (∀ x ∈ w, isWordByte x = true) →
    EndsWord r → EndsWord post → w0 = w ∧ r = post := by
  intro w0
  induction w0 with
  | nil =>
    intro r w post h _ hw hr _
    cases w with
    | nil => exact ⟨rfl, h⟩
    | cons y w1 =>
      have := hr y (w1 ++ post) (by simpa using h)
      rw [hw y (List.mem_cons_self _ _)] at this
      cases this
  | cons x l ih =>
    intro r w post h h0 hw hr hp
    cases w with
    | nil =>
      have := hp x (l ++ r) (by simpa using h.symm)
      rw [h0 x (List.mem_cons_self _ _)] at this
      cases this
    | cons y w1 =>
      simp only [List.cons_append, List.cons.injEq] at h
      obtain ⟨e1, e2⟩ := ih r w1 post h.2 (fun z hz => h0 z (List.mem_cons_of_mem _ hz))
        (fun z hz => hw z (List.mem_cons_of_mem _ hz)) hr hp
      exact ⟨by rw [h.1, e1], e2⟩

theorem tokenizeLoop_extends (s : List Char) (pos : Nat) (acc T : List Token)
    (h : tokenizeLoop s pos acc = .ok T) : ∃ N, T = acc ++ N := by
  obtain ⟨toks, e, _, _, _, hT, _⟩ :=
    tokenizeLoop_append_aux s.length s (le_refl _) pos acc T h []
  exact ⟨toks ++ [e], by rw [hT, List.append_assoc]⟩

/-- The token before the first token appended to `acc` is the last of `acc`. -/
theorem prev_of_extends (acc rest : List Token) :
    (if acc.length = 0 then none else (acc ++ rest)[acc.length - 1]?) = acc.getLast? := by
  rcases List.eq_nil_or_concat acc with h0 | ⟨a1, d, h1⟩
  · subst h0; rfl
  · subst h1
    have hl : (a1.concat d).length = a1.length + 1 := by simp
    rw [if_neg (by omega), hl, Nat.add_sub_cancel, List.concat_eq_append, List.append_assoc,
      List.getElem?_append_right (le_refl _)]
    simp

/-- The last byte of a text whose reversal ends a word is not a word byte. -/
theorem not_all_word (pre : List Char) (hne : pre ≠ []) (h : EndsWord pre.reverse)
    (hw : ∀ x ∈ pre, isWordByte x = true) : False := by
  rcases List.eq_nil_or_concat pre with h0 | ⟨p1, d, h1⟩
  · exact hne h0
  · subst h1
    have := h d p1.reverse (by simp)
    rw [hw d (by simp)] at this
    cases this

/-- Every maximal run of word bytes of the text gives a token of the loop of
the tokenizer: its text is the run, its offset the offset of the run, and its
type follows from the run and from the token before it. -/
theorem tokenizeLoop_words (n : Nat) :
    ∀ s : List Char, s.length ≤ n → ∀ (pos : Nat) (acc T : List Token),
      tokenizeLoop s pos acc = .ok T → ∀ pre w post : List Char, s = pre ++ w ++ post →
      MaximalWord pre w post →
      ∃ i t, acc.length ≤ i ∧ T[i]? = some t ∧ t.Value = w ∧ t.Pos = pos + pre.length ∧
        t.Typ = wordClass w (if i = 0 then none else T[i - 1]?) := by
  induction n with
  | zero =>
    intro s hs pos acc T _ pre w post hsp hm
    have : s = [] := List.length_eq_zero.mp (by omega)
    rw [this] at hsp
    have hw : w = [] := by
      have := congrArg List.length hsp
      simp only [List.length_nil, List.length_append] at this
      exact List.length_eq_zero.mp (by omega)
    exact absurd hw hm.1
  | succ n ih =>
    intro s hs pos acc T h pre w post hsp hm
    obtain ⟨hne, hw, hpost, hpre⟩ := hm
    cases s with
    | nil =>
      have hw0 : w = [] := by
        have := congrArg List.length hsp
        simp only [List.length_nil, List.length_append] at this
        exact List.length_eq_zero.mp (by omega)
      exact absurd hw0 hne
    | cons c cs =>
      cases hwb : isWordByte c with
      | true =>
        obtain ⟨w0, r, hs0, hne0, hw0, hr0, hlen0⟩ := word_split c cs hwb
        rw [hs0, tokenizeLoop_word w0 r hne0 hw0 hr0] at h
        rw [hs0] at hsp
        by_cases hp0 : pre = []
        · subst hp0
          obtain ⟨e1, e2⟩ := maximal_unique w0 r w post (by simpa using hsp) hw0 hw hr0 hpost
          subst e1
          obtain ⟨N, hN⟩ := tokenizeLoop_extends _ _ _ _ h
          obtain ⟨v1, v2, v3⟩ := wordToken_spec w0 pos acc
          refine ⟨acc.length, wordToken w0 pos acc, le_refl _, ?_, v1, by simpa using v2, ?_⟩
          · rw [hN, List.append_assoc, List.getElem?_append_right (le_refl _)]
            simp
          · rw [v3, hN, List.append_assoc, prev_of_extends]
        · rw [List.append_assoc] at hsp
          rcases List.append_eq_append_iff.mp hsp with ⟨a, ha1, ha2⟩ | ⟨a, ha1, ha2⟩
          · have hane : a ≠ [] := by
              rintro rfl
              rw [List.append_nil] at ha1
              exact not_all_word pre hp0 hpre (by rw [ha1]; exact hw0)
            have hrl : r.length ≤ n := by
              simp only [List.length_cons] at hs hlen0
              omega
            obtain ⟨i, t, hi, ht, hv, hpos, hty⟩ := ih r hrl _ _ T h a w post
              (by rw [ha2, List.append_assoc])
              ⟨hne, hw, hpost, endsWord_reverse_drop w0 a (by rw [← ha1]; exact hpre)⟩
            refine ⟨i, t, ?_, ht, hv, ?_, hty⟩
            · simp only [List.length_append, List.length_singleton] at hi
              omega
            · rw [hpos, ha1, List.length_append]
              omega
          · exfalso
            apply not_all_word pre hp0 hpre
            intro x hx
            exact hw0 x (by rw [ha1]; exact List.mem_append_left _ hx)
      | false =>
        rcases lexeme_cases_nonword c cs hwb with hsp1 | ⟨ty, lex, r, hs0, hne0, hlex, hstep⟩ |
          ⟨hb1, hb2⟩
        · rw [tokenizeLoop_space c hsp1] at h
          obtain ⟨p, hp1, hp2⟩ := strip_nonword [c] (by simpa using hwb) cs pre w post
            (by simpa using hsp) hne hw
          obtain ⟨i, t, hi, ht, hv, hpos, hty⟩ := ih cs (by simpa using hs) _ _ T h p w post hp2
            ⟨hne, hw, hpost, endsWord_reverse_drop [c] p (by rw [← hp1]; exact hpre)⟩
          refine ⟨i, t, hi, ht, hv, ?_, hty⟩
          rw [hpos, hp1]
          simp only [List.length_append, List.length_singleton]
          omega
        · rw [hs0, hstep] at h
          rw [hs0] at hsp hs
          obtain ⟨p, hp1, hp2⟩ := strip_nonword lex hlex r pre w post hsp hne hw
          have hrl : r.length ≤ n := by
            have := List.length_pos.mpr hne0
            simp only [List.length_append] at hs
            omega
          obtain ⟨i, t, hi, ht, hv, hpos, hty⟩ := ih r hrl _ _ T h p w post hp2
            ⟨hne, hw, hpost, endsWord_reverse_drop lex p (by rw [← hp1]; exact hpre)⟩
          refine ⟨i, t, ?_, ht, hv, ?_, hty⟩
          · simp only [List.length_append, List.length_singleton] at hi
            omega
          · rw [hpos, hp1, List.length_append]
            omega
        · subst hb1
          rw [tokenizeLoop_bang cs hb2] at h
          cases h

/-- C30: `Tokenize` classifies every word of the query.  For every maximal run
`w` of word bytes (bytes that are neither white space nor one of `(`, `)`,
`:`, `>`, `<`, `=`, `!`) of the trimmed query, the tokens hold a token whose
text is `w` exactly, at the offset of `w`, and whose type is the keyword that
`w` spells in any letter case; if it spells none, a value when the token just
before it is a comparison operator, and a field when it is not or when the
token is the first. -/
theorem C30_Tokenize_classifies_words (q : List Char) (toks : List Token)
    (h : Tokenize q = .ok toks) (pre w post : List Char)
    (hs : strings.TrimSpace q = pre ++ w ++ post) (hm : MaximalWord pre w post) :
    ∃ i t, toks[i]? = some t ∧ t.Value = w ∧ t.Pos = pre.length ∧
      t.Typ = wordClass w (if i = 0 then none else toks[i - 1]?) := by
  obtain ⟨i, t, _, ht, hv, hpos, hty⟩ :=
    tokenizeLoop_words (strings.TrimSpace q).length _ (le_refl _) 0 [] toks h pre w post hs hm
  exact ⟨i, t, ht, hv, by simpa using hpos, hty⟩

/-- C30 at the word `open` of the query `status:open`. -/
theorem C30_Tokenize_classifies_words_witness :
    MaximalWord "status:".toList "open".toList [] ∧
    ∃ i t, [(⟨.TokenField, "status".toList, 0⟩ : Token), ⟨.TokenColon, ":".toList, 6⟩,
        ⟨.TokenValue, "open".toList, 7⟩, ⟨.TokenEOF, [], 11⟩][i]? = some t ∧
      t.Value = "open".toList ∧ t.Pos = "status:".toList.length ∧
      t.Typ = wordClass "open".toList
        (if i = 0 then none
          else [(⟨.TokenField, "status".toList, 0⟩ : Token), ⟨.TokenColon, ":".toList, 6⟩,
            ⟨.TokenValue, "open".toList, 7⟩, ⟨.TokenEOF, [], 11⟩][i - 1]?) := by
  have hm : MaximalWord "status:".toList "open".toList [] :=
    ⟨by decide, by decide, endsWord_nil, endsWord_cons ':' "sutats".toList (by decide)⟩
  have hT : Tokenize "status:open".toList = .ok
      [⟨.TokenField, "status".toList, 0⟩, ⟨.TokenColon, ":".toList, 6⟩,
        ⟨.TokenValue, "open".toList, 7⟩, ⟨.TokenEOF, [], 11⟩] := by
    rw [Tokenize_eval _ (by rfl) (by rfl)]
    rfl
  exact ⟨hm, C30_Tokenize_classifies_words "status:open".toList _ hT "status:".toList
    "open".toList [] (strings.TrimSpace_stable _ rfl rfl) hm⟩

end query

/-! ### A factor after `NOT NOT` -/

namespace query

open denote

theorem parseFactor_fuel (f g : Nat) (hfg : f ≤ g) (p : Parser) (r : Node × Parser)
    (h : Parser.parseFactor f p = .ok r) : Parser.parseFactor g p = .ok r := by
  induction g with
  | zero =>
    have : f = 0 := by omega
    subst this
    exact h
  | succ g ih =>
    rcases Nat.lt_or_ge f (g + 1) with h1 | h1
    · exact Result.le_ok _ _ _ ((fuel_succ g).2.2.2.2 p) (ih (by omega))
    · have : f = g + 1 := by omega
      subst this
      exact h

end query

namespace strings

end strings

namespace query

open denote

/-- The tokens of a text end with the EOF token, which stands nowhere else. -/
theorem tokens_end (s : List Char) (L : List Token) (h : tokenizeLoop s 0 [] = .ok L) :
    ∃ toks e, L = toks ++ [e] ∧ e.Typ = .TokenEOF := by
  obtain ⟨toks, e, _, _, _, hT, he, _⟩ :=
    tokenizeLoop_append_aux s.length s (le_refl _) 0 [] L h []
  exact ⟨toks, e, by simpa using hT, he⟩

end query

/-! ### Accepted patterns, calendar units and the passes of the loops -/

namespace recurrence

open time

end recurrence

namespace strings

theorem Split_cons_sep (r : List Char) (sep : Char) :
    Split (sep :: r) sep = [] :: Split r sep := by
  simp [Split]

theorem Split_append_sep (p r : List Char) (sep : Char) (h : ∀ c ∈ p, c ≠ sep) :
    Split (p ++ sep :: r) sep = p :: Split r sep := by
  induction p with
  | nil => exact Split_cons_sep r sep
  | cons c p ih =>
    have hc : c ≠ sep := h c (List.mem_cons_self _ _)
    rw [List.cons_append, Split, if_neg hc, ih (fun x hx => h x (List.mem_cons_of_mem _ hx))]

theorem Split_single (p : List Char) (sep : Char) (h : ∀ c ∈ p, c ≠ sep) :
    Split p sep = [p] := by
  induction p with
  | nil => rfl
  | cons c p ih =>
    have hc : c ≠ sep := h c (List.mem_cons_self _ _)
    rw [Split, if_neg hc, ih (fun x hx => h x (List.mem_cons_of_mem _ hx))]

/-- Splitting at the separator the parts joined by it gives the parts back,
when there is a part and no part holds the separator. -/
theorem Split_Join (parts : List (List Char)) (sep : Char) (hne : parts ≠ [])
    (h : ∀ p ∈ parts, ∀ c ∈ p, c ≠ sep) : Split (Join parts sep) sep = parts := by
  induction parts with
  | nil => exact absurd rfl hne
  | cons p ps ih =>
    cases ps with
    | nil =>
      simp only [Join]
      exact Split_single p sep (h p (List.mem_cons_self _ _))
    | cons q qs =>
      simp only [Join]
      rw [Split_append_sep p _ sep (h p (List.mem_cons_self _ _)),
        ih (by simp) (fun x hx => h x (List.mem_cons_of_mem _ hx))]

theorem Join_mem (parts : List (List Char)) (sep : Char) (P : Char → Prop) (hs : P sep)
    (h : ∀ p ∈ parts, ∀ c ∈ p, P c) : ∀ c ∈ Join parts sep, P c := by
  induction parts with
  | nil => intro c hc; simp [Join] at hc
  | cons p ps ih =>
    cases ps with
    | nil =>
      simp only [Join]
      exact h p (List.mem_cons_self _ _)
    | cons q qs =>
      simp only [Join]
      intro c hc
      rw [List.mem_append, List.mem_cons] at hc
      rcases hc with hc | hc | hc
      · exact h p (List.mem_cons_self _ _) c hc
      · rw [hc]; exact hs
      · exact ih (fun x hx => h x (List.mem_cons_of_mem _ hx)) c hc

/-- The first byte of the parts joined is the first byte of the first part. -/
theorem Join_head (p : List Char) (ps : List (List Char)) (sep c : Char) (r : List Char)
    (hp : p = c :: r) : ∃ r1, Join (p :: ps) sep = c :: r1 := by
  cases ps with
  | nil => exact ⟨r, by simp [Join, hp]⟩
  | cons q qs => exact ⟨r ++ sep :: Join (q :: qs) sep, by simp [Join, hp]⟩

/-- The last byte of the parts joined is the last byte of the last part. -/
theorem Join_last (parts : List (List Char)) (sep : Char) (hne : parts ≠ [])
    (h : ∀ p ∈ parts, p ≠ []) :
    ∃ p ∈ parts, ∃ a c r, p = a ++ [c] ∧ Join parts sep = r ++ [c] := by
  induction parts with
  | nil => exact absurd rfl hne
  | cons p ps ih =>
    cases ps with
    | nil =>
      have hp := h p (List.mem_cons_self _ _)
      rcases List.eq_nil_or_concat p with h0 | ⟨a, c, h1⟩
      · exact absurd h0 hp
      · exact ⟨p, List.mem_cons_self _ _, a, c, a, by simpa using h1, by simpa [Join] using h1⟩
    | cons q qs =>
      obtain ⟨x, hx, a, c, r, e1, e2⟩ := ih (by simp) (fun y hy => h y (List.mem_cons_of_mem _ hy))
      refine ⟨x, List.mem_cons_of_mem _ hx, a, c, p ++ sep :: r, e1, ?_⟩
      simp only [Join]
      rw [e2]
      simp

end strings

namespace recurrence

open time

/-- A lower-case ASCII letter: kept by `ToLower`, no comma, no white space, no
digit and no sign. -/
theorem lower_letter (c : Char) (h : 97 ≤ c.toNat ∧ c.toNat ≤ 122) :
    c.toLower = c ∧ c ≠ ',' ∧ c.toNat < 128 ∧ strings.asciiSpace c = false ∧
      c ∉ ['-', '+', '0', '1', '2', '3', '4', '5', '6', '7', '8', '9'] := by
  obtain ⟨h1, h2⟩ := h
  have e : c = Char.ofNat c.toNat := (Char.ofNat_toNat c).symm
  generalize c.toNat = k at h1 h2 e
  subst e
  interval_cases k <;> decide

/-- The names of the table `weekdayNames` are made of lower-case letters. -/
theorem names_letters :
    ∀ d ∈ weekdayNames.map Prod.fst, d ≠ [] ∧ ∀ c ∈ d, 97 ≤ c.toNat ∧ c.toNat ≤ 122 := by
  decide

theorem IsInterval.isEvery {p : List Char} {n : Int} {u : Char} (h : IsInterval p n u)
    (hpre : strings.HasPrefix p "every ".toList = true) : IsEvery p n u := by
  obtain ⟨_, hk⟩ := every_not_keyword p hpre
  simp only [keywords, List.mem_cons, List.mem_singleton, List.not_mem_nil, or_false,
    not_or] at hk
  rcases h with ⟨h1, _⟩ | ⟨h1, _⟩ | ⟨h1, _⟩ | ⟨h1, _⟩ | h5
  · exact absurd h1 hk.1
  · exact absurd h1 hk.2.1
  · exact absurd h1 hk.2.2.1
  · exact absurd h1 hk.2.2.2
  · exact h5

/-- The interval attempt of `ParsePattern`, when it returns with no error. -/
theorem parseInterval_ok (spec t : List Char) (h : parseInterval spec = some (t, none)) :
    ∃ s u n, spec = s ++ [u] ∧ isUnit u ∧ strconv.Atoi s = some n ∧ 0 < n ∧
      t = "every ".toList ++ strconv.formatInt n ++ [u] := by
  unfold parseInterval at h
  by_cases a : 2 ≤ spec.length
  · rw [if_pos a] at h
    simp only at h
    by_cases b : isUnit (spec.getLastD ' ')
    · rw [if_pos b] at h
      cases hA : strconv.Atoi spec.dropLast with
      | none => rw [hA] at h; cases h
      | some n =>
        rw [hA] at h
        simp only at h
        by_cases c : n ≤ 0
        · rw [if_pos c] at h; cases h
        · rw [if_neg c] at h
          have hne : spec ≠ [] := by
            intro e; rw [e] at a; simp at a
          refine ⟨spec.dropLast, spec.getLastD ' ', n,
            eq_dropLast_append_getLastD spec hne ' ', b, hA, by omega, ?_⟩
          cases h
          rfl
    · rw [if_neg b] at h; cases h
  · rw [if_neg a] at h; cases h

/-- The forms of a pattern that `ParsePattern` returns with no error: a
keyword, an interval `every <n><unit>` with the count in decimal, or a
weekday list. -/
theorem ParsePattern_cases (s p : List Char) (h : ParsePattern s = (p, none)) :
    p ∈ keywords ∨
    (∃ n u, 0 < n ∧ n < 2 ^ 63 ∧ isUnit u ∧
      p = "every ".toList ++ strconv.formatInt n ++ [u]) ∨
    (∃ days, IsDayList p days) := by
  by_cases hk : normalize s ∈ keywords
  · rw [ParsePattern_of_keyword s hk] at h
    cases h
    exact Or.inl hk
  · by_cases hpre : strings.HasPrefix (normalize s) "every ".toList = true
    · rw [ParsePattern_every s hpre] at h
      by_cases h0 : strings.TrimSpace ((normalize s).drop 6) = []
      · rw [if_pos h0] at h; cases h
      · rw [if_neg h0] at h
        cases hi : parseInterval (strings.TrimSpace ((normalize s).drop 6)) with
        | some r =>
          rw [hi] at h
          simp only at h
          rw [h] at hi
          obtain ⟨s1, u, n, _, hu, hA, hn, ht⟩ := parseInterval_ok _ _ hi
          exact Or.inr (Or.inl ⟨n, u, hn, strconv.Atoi_lt s1 n hA, hu, ht⟩)
        | none =>
          rw [hi] at h
          simp only at h
          by_cases hall : ∀ t ∈ strings.Split (strings.TrimSpace ((normalize s).drop 6)) ',',
              weekdayOf (strings.TrimSpace t) ≠ none
          · rw [parseDays_ok _ _ [] hall] at h
            cases h
            refine Or.inr (Or.inr ⟨(strings.Split
              (strings.TrimSpace ((normalize s).drop 6)) ',').map strings.TrimSpace, ?_, ?_, ?_⟩)
            · intro e
              exact Split_ne_nil _ ',' (List.map_eq_nil_iff.mp e)
            · intro d hd
              obtain ⟨t, ht, rfl⟩ := List.mem_map.mp hd
              exact (weekdayOf_ne_none _).mp (hall t ht)
            · simp
          · push_neg at hall
            obtain ⟨e, he⟩ := parseDays_error (normalize s) _ [] hall
            rw [he] at h
            cases h
    · exfalso
      unfold normalize at hk hpre
      unfold ParsePattern at h
      simp only [keywords, List.mem_cons, List.mem_singleton, List.not_mem_nil, or_false] at hk
      simp only [hk, hpre] at h
      by_cases h0 : strings.TrimSpace (strings.ToLower s) = []
      · simp [h0] at h
      · simp [h0] at h

theorem toLower_letters (xs : List Char) (h : ∀ c ∈ xs, c.toLower = c) :
    strings.ToLower xs = xs := by
  induction xs with
  | nil => rfl
  | cons c r ih =>
    simp only [strings.ToLower, List.map_cons]
    rw [h c (List.mem_cons_self _ _)]
    congr 1
    exact ih (fun d hd => h d (List.mem_cons_of_mem _ hd))

/-- A text that begins and ends with bytes of ASCII that are no white space is
free of surrounding white space. -/
theorem TrimSpace_plain (c : Char) (r : List Char) (d : Char) (a : List Char)
    (h : c :: r = a ++ [d]) (hc : c.toNat < 128 ∧ strings.asciiSpace c = false)
    (hd : d.toNat < 128 ∧ strings.asciiSpace d = false) :
    strings.TrimSpace (c :: r) = c :: r := by
  apply strings.TrimSpace_stable
  · exact strings.leadingSpace_low c r hc.1 hc.2
  · rw [h, List.reverse_append]
    exact strings.trailingSpace_low d _ hd.1 hd.2

/-- A name of the table is free of surrounding white space. -/
theorem TrimSpace_name (d : List Char) (h : d ∈ weekdayNames.map Prod.fst) :
    strings.TrimSpace d = d := by
  obtain ⟨hne, hl⟩ := names_letters d h
  rcases List.eq_nil_or_concat d with h0 | ⟨a, x, h1⟩
  · exact absurd h0 hne
  · have h1a : d = a ++ [x] := by simpa using h1
    match d, hne with
    | c :: r, _ =>
      have f1 := lower_letter c (hl c (List.mem_cons_self _ _))
      have f2 := lower_letter x (hl x (by rw [h1a]; simp))
      exact TrimSpace_plain c r x a h1a ⟨f1.2.2.1, f1.2.2.2.1⟩ ⟨f2.2.2.1, f2.2.2.2.1⟩

/-- What the two functions of the package read in a normalised weekday list:
the pattern is kept by the normalisation, begins with `every `, and the text
after it is the list of names, none of which parses as an interval. -/
theorem dayList_spec (p : List Char) (days : List (List Char)) (h : IsDayList p days) :
    normalize p = p ∧ strings.HasPrefix p "every ".toList = true ∧
    strings.TrimSpace (p.drop 6) = strings.Join days ',' ∧
    strings.Split (strings.Join days ',') ',' = days ∧
    strings.Join days ',' ≠ [] ∧
    parseInterval (strings.Join days ',') = none ∧
    (∀ t ∈ days, strings.TrimSpace t = t ∧ weekdayOf (strings.TrimSpace t) ≠ none) := by
  obtain ⟨hne, hall, hp⟩ := h
  have hnames : ∀ d ∈ days, d ≠ [] ∧ ∀ c ∈ d, 97 ≤ c.toNat ∧ c.toNat ≤ 122 :=
    fun d hd => names_letters d (hall d hd)
  have hsplit : strings.Split (strings.Join days ',') ',' = days :=
    strings.Split_Join days ',' hne
      (fun d hd c hc => (lower_letter c ((hnames d hd).2 c hc)).2.1)
  obtain ⟨x, hx, a, c, r, e1, e2⟩ := strings.Join_last days ',' hne (fun d hd => (hnames d hd).1)
  have hc := lower_letter c ((hnames x hx).2 c (by rw [e1]; simp))
  obtain ⟨d0, ds, rfl⟩ : ∃ d0 ds, days = d0 :: ds := by
    cases days with
    | nil => exact absurd rfl hne
    | cons d0 ds => exact ⟨d0, ds, rfl⟩
  obtain ⟨c0, r0, hd0⟩ : ∃ c0 r0, d0 = c0 :: r0 := by
    cases hd : d0 with
    | nil => exact absurd hd (hnames d0 (List.mem_cons_self _ _)).1
    | cons c0 r0 => exact ⟨c0, r0, rfl⟩
  have hc0 := lower_letter c0 ((hnames d0 (List.mem_cons_self _ _)).2 c0 (by rw [hd0]; simp))
  obtain ⟨r1, hj⟩ := strings.Join_head d0 ds ',' c0 r0 hd0
  have htrim : strings.TrimSpace (strings.Join (d0 :: ds) ',') = strings.Join (d0 :: ds) ',' := by
    rw [hj]
    exact TrimSpace_plain c0 r1 c r (by rw [← hj, e2]) ⟨hc0.2.2.1, hc0.2.2.2.1⟩
      ⟨hc.2.2.1, hc.2.2.2.1⟩
  have hlow : strings.ToLower (strings.Join (d0 :: ds) ',') = strings.Join (d0 :: ds) ',' :=
    toLower_letters _ (strings.Join_mem _ ',' (fun c => c.toLower = c) (by decide)
      (fun d hd c hc => (lower_letter c ((hnames d hd).2 c hc)).1))
  have hnorm : normalize p = p := by
    rw [hp]
    apply normalize_plain
    · simp only [strings.ToLower, List.map_append] at hlow ⊢
      rw [hlow]
      rfl
    · exact strings.leadingSpace_low 'e' _ (by decide) (by decide)
    · rw [e2, ← List.append_assoc, List.reverse_append]
      exact strings.trailingSpace_low c _ hc.2.2.1 hc.2.2.2.1
  have hdrop : p.drop 6 = strings.Join (d0 :: ds) ',' := by
    rw [hp]; rfl
  refine ⟨hnorm, by rw [hp]; simp [strings.HasPrefix], by rw [hdrop, htrim], hsplit,
    by rw [hj]; simp, ?_, ?_⟩
  · rw [parseInterval_none]
    intro s u n hs _ hA
    obtain ⟨c1, r2, hs1, hc1, _⟩ := atoi_shape s n hA
    rw [hj, hs1, List.cons_append] at hs
    have : c0 = c1 := (List.cons.inj hs).1
    rw [← this] at hc1
    exact hc0.2.2.2.2 hc1
  · intro t ht
    have := TrimSpace_name t (hall t ht)
    rw [this]
    exact ⟨rfl, (weekdayOf_ne_none t).mpr (hall t ht)⟩

theorem map_id_of (f : List Char → List Char) (xs : List (List Char))
    (h : ∀ x ∈ xs, f x = x) : xs.map f = xs := by
  induction xs with
  | nil => rfl
  | cons x r ih =>
    rw [List.map_cons, h x (List.mem_cons_self _ _),
      ih (fun y hy => h y (List.mem_cons_of_mem _ hy))]

/-- C37: `ParsePattern` is idempotent: when it succeeds on an input `s` with
the result `p`, it succeeds on `p` and returns `p` unchanged. -/
theorem C37_ParsePattern_idempotent (s p : List Char) (h : ParsePattern s = (p, none)) :
    ParsePattern p = (p, none) := by
  rcases ParsePattern_cases s p h with hk | ⟨n, u, hn, hlt, hu, hp⟩ | ⟨days, hd⟩
  · have := ParsePattern_of_keyword p (by rw [normalize_keyword p hk]; exact hk)
    rw [this, normalize_keyword p hk]
  · obtain ⟨h1, h2⟩ := isInterval_normalized n u hn hlt hu
    rw [← hp] at h1 h2
    have hpre : strings.HasPrefix (normalize p) "every ".toList = true := by
      rw [h1, hp]
      simp [strings.HasPrefix]
    rw [(ParsePattern_isEvery p n u (h2.isEvery hpre)).1, hp]
  · obtain ⟨h1, h2, h3, h4, h5, h6, h7⟩ := dayList_spec p days hd
    rw [ParsePattern_every p (by rw [h1]; exact h2), h1, h3, if_neg h5, h6]
    simp only []
    rw [h4, parseDays_ok p days [] (fun t ht => (h7 t ht).2),
      map_id_of _ days (fun t ht => (h7 t ht).1), List.nil_append]
    rw [hd.2.2]

/-- C37 at concrete inputs. -/
theorem C37_ParsePattern_idempotent_witness :
    ParsePattern "Every Mon, FRI".toList = ("every mon,fri".toList, none) ∧
    ParsePattern "every mon,fri".toList = ("every mon,fri".toList, none) :=
  have h : ParsePattern "Every Mon, FRI".toList = ("every mon,fri".toList, none) := by
    simp [ParsePattern, strings.ToLower, strings.TrimSpace, strings.trimLeft, strings.trimRightRev,
      strings.leadingSpace, strings.trailingSpace, strings.HasPrefix, parseInterval, isUnit,
      strings.Split, parseDays, weekdayOf, weekdayNames, strings.Join, strings.asciiSpace,
      List.lookup]
  ⟨h, C37_ParsePattern_idempotent _ _ h⟩

end recurrence

namespace time

end time

namespace recurrence

open time

end recurrence

/-! ### Tags, lexical errors, offsets, totality and printing -/

namespace query

open denote

theorem leadingSpace_soft (s : List Char) :
    ∀ b ∈ s.take (strings.leadingSpace s), Soft b := by
  have hi : ∀ c : Char, '\x80' ≤ c → Soft c := fun c h => Or.inr (high_of_le c h)
  match s with
  | [] => simp [strings.leadingSpace]
  | [c] =>
    simp only [strings.leadingSpace]
    split_ifs with h1
    · intro b hb
      simp only [List.take_succ_cons, List.take_zero, List.mem_singleton] at hb
      rw [hb]
      exact Or.inl (asciiSpace_IsSpace c h1)
    all_goals simp
  | [c, d] =>
    simp only [strings.leadingSpace]
    split_ifs with h1 h2 h3
    · intro b hb
      simp only [List.take_succ_cons, List.take_zero, List.mem_singleton] at hb
      rw [hb]
      exact Or.inl (asciiSpace_IsSpace c h1)
    · intro b hb
      simp only [Bool.or_eq_true, beq_iff_eq] at h2 h3
      simp only [List.take_succ_cons, List.take_zero, List.mem_cons, List.mem_singleton,
        List.not_mem_nil, or_false, List.take_nil] at hb
      rcases hb with hb | hb
      · rw [hb, h2]; exact Or.inr (by decide)
      · rw [hb]
        rcases h3 with h | h <;> rw [h] <;> exact Or.inr (by decide)
    all_goals simp
  | c :: d :: e :: r =>
    simp only [strings.leadingSpace]
    split_ifs with h1 h2 h3 h4 h5 h6 h7 h8 h9 h10
    · intro b hb
      simp only [List.take_succ_cons, List.take_zero, List.mem_singleton] at hb
      rw [hb]
      exact Or.inl (asciiSpace_IsSpace c h1)
    all_goals first
      | (intro b hb; simp at hb; done)
      | (intro b hb
         simp only [Bool.or_eq_true, Bool.and_eq_true, beq_iff_eq, decide_eq_true_eq] at *
         simp only [List.take_succ_cons, List.take_zero, List.mem_cons, List.mem_singleton,
           List.not_mem_nil, or_false, List.take_nil] at hb
         have hc : Soft c := by
           first
             | (rw [h2]; exact Or.inr (by decide))
             | (rw [h4]; exact Or.inr (by decide))
             | (rw [h6]; exact Or.inr (by decide))
             | (rw [h9]; exact Or.inr (by decide))
         have hd : Soft d := by
           first
             | (rcases h3 with h | h <;> rw [h] <;> exact Or.inr (by decide))
             | (rw [h5.1]; exact Or.inr (by decide))
             | (rw [h8.1]; exact Or.inr (by decide))
             | (rw [h7.1]; exact Or.inr (by decide))
             | (rw [h10.1]; exact Or.inr (by decide))
         first
           | (have he : Soft e := by
                first
                  | (rw [h5.2]; exact Or.inr (by decide))
                  | (rw [h8.2]; exact Or.inr (by decide))
                  | (rw [h10.2]; exact Or.inr (by decide))
                  | (rcases h7.2 with ((h | h) | h) | h
                     · exact hi e h.1
                     · rw [h]; exact Or.inr (by decide)
                     · rw [h]; exact Or.inr (by decide)
                     · rw [h]; exact Or.inr (by decide))
              rcases hb with hb | hb | hb
              · rw [hb]; exact hc
              · rw [hb]; exact hd
              · rw [hb]; exact he)
           | (rcases hb with hb | hb
              · rw [hb]; exact hc
              · rw [hb]; exact hd))

theorem trimLeft_split_aux (n : Nat) :
    ∀ x : List Char, x.length ≤ n →
      ∃ v, x = v ++ strings.trimLeft x ∧ ∀ b ∈ v, Soft b := by
  induction n with
  | zero =>
    intro x hx
    have : x = [] := List.length_eq_zero.mp (by omega)
    subst this
    refine ⟨[], ?_, by simp⟩
    rw [strings.trimLeft_nil]
    rfl
  | succ n ih =>
    intro x hx
    by_cases h0 : strings.leadingSpace x = 0
    · refine ⟨[], ?_, by simp⟩
      rw [strings.trimLeft, dif_pos h0]
      rfl
    · have hle := strings.leadingSpace_le x
      have e1 : strings.trimLeft x
          = strings.trimLeft (x.drop (strings.leadingSpace x)) := by
        conv_lhs => rw [strings.trimLeft, dif_neg h0]
      obtain ⟨v, hv, hsoft⟩ := ih (x.drop (strings.leadingSpace x))
        (by rw [List.length_drop]; omega)
      refine ⟨x.take (strings.leadingSpace x) ++ v, ?_, ?_⟩
      · rw [e1, List.append_assoc, ← hv, List.take_append_drop]
      · intro b hb
        rcases List.mem_append.mp hb with h | h
        · exact leadingSpace_soft x b h
        · exact hsoft b h

/-- What `strings.TrimSpace` strips from a text, at its front and at its end,
consists of bytes of white-space characters. -/
theorem TrimSpace_between (q : List Char) :
    ∃ v w, q = v ++ strings.TrimSpace q ++ w ∧ (∀ b ∈ v, Soft b) ∧ ∀ b ∈ w, Soft b := by
  obtain ⟨v, hv, hsv⟩ := trimLeft_split_aux q.length q (le_refl _)
  obtain ⟨w, hw, hsw⟩ := TrimSpace_split q
  refine ⟨v, w, ?_, hsv, hsw⟩
  rw [List.append_assoc, ← hw, ← hv]

theorem wordByte_ne_bang (x : Char) (h : isWordByte x = true) : x ≠ '!' := by
  intro hx
  subst hx
  simp [isWordByte] at h

/-- A text without `!` in front of a text moves the offsets of the `!` that are
not followed by `=`. -/
theorem BadBangAt_append (w r : List Char) (hw : ∀ x ∈ w, x ≠ '!') (j : Nat) :
    BadBangAt (w ++ r) j ↔ w.length ≤ j ∧ BadBangAt r (j - w.length) := by
  unfold BadBangAt
  by_cases hj : j < w.length
  · constructor
    · intro h
      exfalso
      rw [List.getElem?_append_left hj] at h
      have hm : w[j] ∈ w := List.getElem_mem hj
      rw [List.getElem?_eq_getElem hj] at h
      exact hw _ hm (Option.some.inj h.1)
    · intro h
      omega
  · have hj1 : w.length ≤ j := by omega
    rw [List.getElem?_append_right hj1, List.getElem?_append_right (by omega)]
    have e : j + 1 - w.length = j - w.length + 1 := by omega
    rw [e]
    constructor
    · intro h; exact ⟨hj1, h⟩
    · intro h; exact h.2

theorem mem_of_get {l : List Char} {i : Nat} {a : Char} (h : l[i]? = some a) : a ∈ l := by
  obtain ⟨hi, rfl⟩ := List.getElem?_eq_some.mp h
  exact List.getElem_mem hi

theorem BadBangAt_ne (r : List Char) (j : Nat) :
    BadBangAt ('!' :: '=' :: r) j ↔ 2 ≤ j ∧ BadBangAt r (j - 2) := by
  unfold BadBangAt
  match j with
  | 0 => simp
  | 1 => simp
  | j + 2 => simp

/-- Bytes that are neither `!` nor `=` after a text leave the `!` that are not
followed by `=` where they are. -/
theorem BadBangAt_suffix (s w : List Char) (hw : ∀ x ∈ w, x ≠ '!' ∧ x ≠ '=') (j : Nat) :
    BadBangAt (s ++ w) j ↔ BadBangAt s j := by
  unfold BadBangAt
  by_cases hj : j < s.length
  · rw [List.getElem?_append_left hj]
    by_cases hj1 : j + 1 < s.length
    · rw [List.getElem?_append_left hj1]
    · have e : s[j + 1]? = none := List.getElem?_eq_none (by omega)
      rw [e, List.getElem?_append_right (by omega)]
      have : (w[j + 1 - s.length]? ≠ some '=') := by
        intro h
        have hm := mem_of_get h
        exact (hw _ hm).2 rfl
      simp [this]
  · have e : s[j]? = none := List.getElem?_eq_none (by omega)
    rw [e, List.getElem?_append_right (by omega)]
    constructor
    · intro h
      exfalso
      have hm := mem_of_get h.1
      exact (hw _ hm).1 rfl
    · intro h
      cases h.1

theorem soft_plain (b : Char) (h : Soft b) : b ≠ '!' ∧ b ≠ '=' := by
  constructor
  · intro hb
    subst hb
    rcases h with h | h
    · simp [unicode.IsSpace] at h
    · revert h; decide
  · intro hb
    subst hb
    rcases h with h | h
    · simp [unicode.IsSpace] at h
    · revert h; decide

theorem BadBangAt_lt (s : List Char) (i : Nat) (h : BadBangAt s i) : i < s.length := by
  obtain ⟨hi, _⟩ := List.getElem?_eq_some.mp h.1
  exact hi

theorem BadBang_iff (s : List Char) : BadBang s ↔ ∃ i, BadBangAt s i :=
  ⟨fun ⟨i, _, h⟩ => ⟨i, h⟩, fun ⟨i, h⟩ => ⟨i, BadBangAt_lt s i h, h⟩⟩

/-- Trimming a text neither adds nor removes a `!` that is not followed by `=`. -/
theorem BadBang_TrimSpace (q : List Char) : BadBang q ↔ BadBang (strings.TrimSpace q) := by
  obtain ⟨v, w, hq, hv, hw⟩ := TrimSpace_between q
  have h1 : ∀ j, BadBangAt q j ↔ v.length ≤ j ∧ BadBangAt (strings.TrimSpace q) (j - v.length) := by
    intro j
    conv_lhs => rw [hq, List.append_assoc]
    rw [BadBangAt_append v _ (fun x hx => (soft_plain x (hv x hx)).1),
      BadBangAt_suffix _ w (fun x hx => soft_plain x (hw x hx))]
  rw [BadBang_iff, BadBang_iff]
  constructor
  · rintro ⟨j, hj⟩
    exact ⟨j - v.length, ((h1 j).mp hj).2⟩
  · rintro ⟨j, hj⟩
    exact ⟨v.length + j, (h1 _).mpr ⟨by omega, by rwa [Nat.add_sub_cancel_left]⟩⟩

theorem good_at (ty : TokenType) (v : List Char) (pos : Nat) (h : GoodToken ⟨ty, v, 0⟩) :
    GoodToken ⟨ty, v, pos⟩ := h

/-- The token made of a word is a keyword, or a field or a value whose text is
a word that is no keyword. -/
theorem wordToken_good (w : List Char) (hne : w ≠ []) (hw : ∀ x ∈ w, isWordByte x = true)
    (pos : Nat) (acc : List Token) : GoodToken (wordToken w pos acc) := by
  obtain ⟨hv, _, hty⟩ := wordToken_spec w pos acc
  unfold GoodToken
  rw [hv, hty]
  unfold wordClass
  cases hk : keywordType w with
  | some ty =>
    obtain ⟨_, _, _, h4⟩ := keywordType_spec w ty hk
    simp only
    constructor
    · intro h
      exfalso
      rcases h4 with h5 | h5 | h5 <;> rw [h5] at h <;> rcases h with h | h <;> cases h
    · intro h
      exfalso
      rcases h4 with h5 | h5 | h5 <;> rw [h5] at h <;> exact absurd h (by decide)
  | none =>
    have hword : IsWord w := by
      unfold keywordType at hk
      refine ⟨hne, hw, ?_, ?_, ?_⟩
      · intro h; rw [if_pos h] at hk; cases hk
      · intro h
        by_cases h1 : strings.ToUpper w = "AND".toList
        · rw [if_pos h1] at hk; cases hk
        · rw [if_neg h1, if_pos h] at hk; cases hk
      · intro h
        by_cases h1 : strings.ToUpper w = "AND".toList
        · rw [if_pos h1] at hk; cases hk
        · by_cases h2 : strings.ToUpper w = "OR".toList
          · rw [if_neg h1, if_pos h2] at hk; cases hk
          · rw [if_neg h1, if_neg h2, if_pos h] at hk; cases hk
    simp only
    constructor
    · intro _; exact hword
    · cases acc.getLast? with
      | none => intro h; exact absurd h (by decide)
      | some t =>
        simp only
        by_cases ho : isOperator t.Typ = true
        · rw [if_pos ho]; intro h; exact absurd h (by decide)
        · rw [if_neg ho]; intro h; exact absurd h (by decide)

/-- One step of the tokenizer at a byte: an error at a `!` that is not followed
by `=`; otherwise the tokenizer consumes a piece `lex` of the text, not empty,
and appends no token (white space) or the token with the text `lex` and the
offset of the piece.  The piece is `!=` or has no `!`. -/
theorem scan_step (c : Char) (cs : List Char) :
    (c = '!' ∧ cs.head? ≠ some '=') ∨
    ∃ lex r, c :: cs = lex ++ r ∧ lex ≠ [] ∧ (lex = ['!', '='] ∨ ∀ x ∈ lex, x ≠ '!') ∧
      ∀ pos acc, ∃ add, tokenizeLoop (c :: cs) pos acc
          = tokenizeLoop r (pos + lex.length) (acc ++ add) ∧
        (add = [] ∨ ∃ t, add = [t] ∧ t.Typ ≠ .TokenEOF ∧ t.Value = lex ∧ t.Pos = pos ∧
          GoodToken t) := by
  cases hw : isWordByte c
  swap
  · right
    obtain ⟨w, r, hs1, hne, hwb, hr, _⟩ := word_split c cs hw
    refine ⟨w, r, hs1, hne, Or.inr (fun x hx => wordByte_ne_bang x (hwb x hx)), ?_⟩
    intro pos acc
    refine ⟨[wordToken w pos acc], ?_, Or.inr ⟨_, rfl, wordToken_ne_EOF w pos acc,
      (wordToken_spec w pos acc).1, (wordToken_spec w pos acc).2.1,
      wordToken_good w hne hwb pos acc⟩⟩
    rw [hs1, tokenizeLoop_word w r hne hwb hr]
  have one : ∀ (x : Char) (ty : TokenType), x ≠ '!' → ty ≠ .TokenEOF →
      (∀ pos, GoodToken ⟨ty, [x], pos⟩) →
      (∀ rest pos toks, tokenizeLoop (x :: rest) pos toks
        = tokenizeLoop rest (pos + 1) (toks ++ [⟨ty, [x], pos⟩])) →
      ∃ lex r, x :: cs = lex ++ r ∧ lex ≠ [] ∧ (lex = ['!', '='] ∨ ∀ y ∈ lex, y ≠ '!') ∧
        ∀ pos acc, ∃ add, tokenizeLoop (x :: cs) pos acc
            = tokenizeLoop r (pos + lex.length) (acc ++ add) ∧
          (add = [] ∨ ∃ t, add = [t] ∧ t.Typ ≠ .TokenEOF ∧ t.Value = lex ∧ t.Pos = pos ∧
          GoodToken t) := by
    intro x ty hx hty hgood hstep
    refine ⟨[x], cs, rfl, by simp, Or.inr (by simpa using hx), ?_⟩
    intro pos acc
    exact ⟨[⟨ty, [x], pos⟩], hstep cs pos acc, Or.inr ⟨_, rfl, hty, rfl, rfl, hgood pos⟩⟩
  rcases not_wordByte c hw with h | h | h | h | h | h | h | h
  · right
    refine ⟨[c], cs, rfl, by simp, Or.inr ?_, ?_⟩
    · intro x hx
      rw [List.mem_singleton] at hx
      subst hx
      intro hb
      subst hb
      simp [unicode.IsSpace] at h
    · intro pos acc
      exact ⟨[], by rw [tokenizeLoop_space c h, List.append_nil]; rfl, Or.inl rfl⟩
  · subst h
    exact Or.inr (one '(' .TokenLeftParen (by decide) (by decide) (fun _ => good_at _ _ _ (by decide))
      (fun rest pos toks => tokenizeLoop_lparen rest pos toks))
  · subst h
    exact Or.inr (one ')' .TokenRightParen (by decide) (by decide) (fun _ => good_at _ _ _ (by decide))
      (fun rest pos toks => tokenizeLoop_rparen rest pos toks))
  · subst h
    exact Or.inr (one ':' .TokenColon (by decide) (by decide) (fun _ => good_at _ _ _ (by decide))
      (fun rest pos toks => tokenizeLoop_operator [':'] _ rfl rest pos toks))
  · subst h
    exact Or.inr (one '>' .TokenGT (by decide) (by decide) (fun _ => good_at _ _ _ (by decide))
      (fun rest pos toks => tokenizeLoop_operator ['>'] _ rfl rest pos toks))
  · subst h
    exact Or.inr (one '<' .TokenLT (by decide) (by decide) (fun _ => good_at _ _ _ (by decide))
      (fun rest pos toks => tokenizeLoop_operator ['<'] _ rfl rest pos toks))
  · subst h
    exact Or.inr (one '=' .TokenEQ (by decide) (by decide) (fun _ => good_at _ _ _ (by decide))
      (fun rest pos toks => tokenizeLoop_operator ['='] _ rfl rest pos toks))
  · subst h
    by_cases he : cs.head? = some '='
    · cases cs with
      | nil => cases he
      | cons d cs2 =>
        simp only [List.head?_cons, Option.some.injEq] at he
        subst he
        right
        refine ⟨['!', '='], cs2, rfl, by simp, Or.inl rfl, ?_⟩
        intro pos acc
        exact ⟨[⟨.TokenNE, ['!', '='], pos⟩],
          tokenizeLoop_operator ['!', '='] _ rfl cs2 pos acc,
          Or.inr ⟨_, rfl, by simp, rfl, rfl, good_at _ _ _ (by decide)⟩⟩
    · exact Or.inl ⟨rfl, he⟩

/-- The tokenizer succeeds on a text without a `!` that is not followed by
`=`, and fails at the first such `!` otherwise. -/
theorem tokenizeLoop_bad_aux (n : Nat) :
    ∀ s : List Char, s.length ≤ n → ∀ pos toks,
      (∃ T, tokenizeLoop s pos toks = .ok T ∧ ∀ i, ¬ BadBangAt s i) ∨
      (∃ i, tokenizeLoop s pos toks = .err (.unexpectedCharacter (pos + i) '!') ∧
        BadBangAt s i ∧ ∀ j, j < i → ¬ BadBangAt s j) := by
  induction n with
  | zero =>
    intro s hs pos toks
    have : s = [] := List.length_eq_zero.mp (by omega)
    subst this
    exact Or.inl ⟨_, tokenizeLoop_nil pos toks, fun i h => by simp [BadBangAt] at h⟩
  | succ n ih =>
    intro s hs pos toks
    cases s with
    | nil => exact Or.inl ⟨_, tokenizeLoop_nil pos toks, fun i h => by simp [BadBangAt] at h⟩
    | cons c cs =>
      rcases scan_step c cs with ⟨hc, hh⟩ | ⟨lex, r, hs1, hne, hlex, hstep⟩
      · subst hc
        right
        refine ⟨0, tokenizeLoop_bang cs hh pos toks, ?_, fun j hj => absurd hj (Nat.not_lt_zero j)⟩
        refine ⟨by simp, ?_⟩
        cases cs with
        | nil => simp
        | cons d cs2 => simpa using hh
      · obtain ⟨add, hrun, _⟩ := hstep pos toks
        have hlen : r.length ≤ n := by
          have h3 := congrArg List.length hs1
          rw [List.length_append] at h3
          have := List.length_pos.mpr hne
          simp only [List.length_cons] at hs h3
          omega
        have hneutral : ∀ j, BadBangAt (c :: cs) j ↔ lex.length ≤ j ∧ BadBangAt r (j - lex.length) := by
          intro j
          rw [hs1]
          rcases hlex with h | h
          · subst h
            exact BadBangAt_ne r j
          · exact BadBangAt_append lex r h j
        rcases ih r hlen (pos + lex.length) (toks ++ add) with ⟨T, hT, hno⟩ | ⟨i, he, hbad, hmin⟩
        · exact Or.inl ⟨T, by rw [hrun, hT], fun i hi => hno _ ((hneutral i).mp hi).2⟩
        · right
          refine ⟨lex.length + i, ?_, ?_, ?_⟩
          · rw [hrun, he, Nat.add_assoc]
          · exact (hneutral _).mpr ⟨by omega, by rwa [Nat.add_sub_cancel_left]⟩
          · intro j hj hb
            have h2 := (hneutral j).mp hb
            exact hmin (j - lex.length) (by omega) h2.2

/-- C31: `Tokenize` returns an error exactly when the query contains a `!` that
is not immediately followed by `=`.  The error is the lex error that carries
the byte `!` and its offset in the trimmed query, which is the offset of the
first such `!`: the scan has reached that offset, and the word read there has
no bytes.  On every other query `Tokenize` returns tokens. -/
theorem C31_Tokenize_lex_error (q : List Char) :
    ((∃ e, Tokenize q = .err e) ↔ BadBang q) ∧
    (∀ e, Tokenize q = .err e →
      ∃ i, e = .unexpectedCharacter i '!' ∧ BadBangAt (strings.TrimSpace q) i ∧
        (∀ j, j < i → ¬ BadBangAt (strings.TrimSpace q) j) ∧
        ((strings.TrimSpace q).drop i).takeWhile isWordByte = []) ∧
    (¬ BadBang q → ∃ toks, Tokenize q = .ok toks) := by
  have key := tokenizeLoop_bad_aux (strings.TrimSpace q).length (strings.TrimSpace q)
    (le_refl _) 0 []
  simp only [Nat.zero_add] at key
  have hB := BadBang_TrimSpace q
  rw [BadBang_iff (strings.TrimSpace q)] at hB
  unfold Tokenize
  refine ⟨?_, ?_, ?_⟩
  · rw [hB]
    constructor
    · rintro ⟨e, he⟩
      rcases key with ⟨T, hT, _⟩ | ⟨i, _, hbad, _⟩
      · rw [hT] at he; cases he
      · exact ⟨i, hbad⟩
    · rintro ⟨i, hi⟩
      rcases key with ⟨T, _, hno⟩ | ⟨j, he, _, _⟩
      · exact absurd hi (hno i)
      · exact ⟨_, he⟩
  · intro e he
    rcases key with ⟨T, hT, _⟩ | ⟨i, hi, hbad, hmin⟩
    · rw [hT] at he; cases he
    · rw [hi] at he
      cases he
      refine ⟨i, rfl, hbad, hmin, ?_⟩
      obtain ⟨hlt, hget⟩ := List.getElem?_eq_some.mp hbad.1
      rw [List.drop_eq_getElem_cons hlt, hget]
      simp [List.takeWhile, isWordByte]
  · intro hnb
    rcases key with ⟨T, hT, _⟩ | ⟨i, _, hbad, _⟩
    · exact ⟨T, hT⟩
    · exact absurd (hB.mpr ⟨i, hbad⟩) hnb

/-- C31 at concrete inputs: a query with a `!` before a letter, and a query
whose only `!` is followed by `=`. -/
theorem C31_Tokenize_lex_error_witness :
    BadBang "a !b".toList ∧
    (∃ e, Tokenize "a !b".toList = .err e ∧
      ∃ i, e = .unexpectedCharacter i '!' ∧ BadBangAt (strings.TrimSpace "a !b".toList) i ∧
        (∀ j, j < i → ¬ BadBangAt (strings.TrimSpace "a !b".toList) j) ∧
        ((strings.TrimSpace "a !b".toList).drop i).takeWhile isWordByte = []) ∧
    ¬ BadBang "a!=b".toList ∧ ∃ toks, Tokenize "a!=b".toList = .ok toks :=
  have h1 : BadBang "a !b".toList := by decide
  have h2 : ¬ BadBang "a!=b".toList := by decide
  have ⟨e, he⟩ := (C31_Tokenize_lex_error "a !b".toList).1.mpr h1
  ⟨h1, ⟨e, he, (C31_Tokenize_lex_error "a !b".toList).2.1 e he⟩, h2,
    (C31_Tokenize_lex_error "a!=b".toList).2.2 h2⟩

/-- The offsets of the tokens: the tokenizer run on the part `s` of the text
`full` from the offset `pos` on appends tokens that lie in that part, each
with the piece of `full` at its offset as text, one after the other, and then
the EOF token at the end of the text. -/
theorem tokenizeLoop_offsets_aux (n : Nat) :
    ∀ s : List Char, s.length ≤ n → ∀ (full : List Char) (pos : Nat) (acc T : List Token),
      full.drop pos = s → tokenizeLoop s pos acc = .ok T →
      ∃ N, T = acc ++ N ++ [⟨.TokenEOF, [], pos + s.length⟩] ∧
        (∀ t ∈ N, t.Typ ≠ .TokenEOF ∧ t.Value ≠ [] ∧ pos ≤ t.Pos ∧
          t.Pos + t.Value.length ≤ pos + s.length ∧
          (full.drop t.Pos).take t.Value.length = t.Value) ∧
        N.Pairwise (fun a b => a.Pos + a.Value.length ≤ b.Pos) := by
  induction n with
  | zero =>
    intro s hs full pos acc T _ hT
    have : s = [] := List.length_eq_zero.mp (by omega)
    subst this
    rw [tokenizeLoop_nil] at hT
    cases hT
    exact ⟨[], by simp, by simp, List.Pairwise.nil⟩
  | succ n ih =>
    intro s hs full pos acc T hfull hT
    cases s with
    | nil =>
      rw [tokenizeLoop_nil] at hT
      cases hT
      exact ⟨[], by simp, by simp, List.Pairwise.nil⟩
    | cons c cs =>
      rcases scan_step c cs with ⟨hc, hh⟩ | ⟨lex, r, hs1, hne, _, hstep⟩
      · subst hc
        rw [tokenizeLoop_bang cs hh] at hT
        cases hT
      · obtain ⟨add, hrun, hadd⟩ := hstep pos acc
        have hl : (c :: cs).length = lex.length + r.length := by
          rw [hs1, List.length_append]
        have hpos := List.length_pos.mpr hne
        have hlen : r.length ≤ n := by
          simp only [List.length_cons] at hs hl
          omega
        have hdrop : full.drop (pos + lex.length) = r := by
          rw [← List.drop_drop, hfull, hs1, List.drop_left]
        rw [hrun] at hT
        obtain ⟨N, hN, hall, hpw⟩ := ih r hlen full (pos + lex.length) (acc ++ add) T hdrop hT
        have hall2 : ∀ t ∈ N, t.Typ ≠ .TokenEOF ∧ t.Value ≠ [] ∧ pos ≤ t.Pos ∧
            t.Pos + t.Value.length ≤ pos + (c :: cs).length ∧
            (full.drop t.Pos).take t.Value.length = t.Value := by
          intro t ht
          obtain ⟨a1, a2, a3, a4, a5⟩ := hall t ht
          exact ⟨a1, a2, by omega, by omega, a5⟩
        have heof : pos + lex.length + r.length = pos + (c :: cs).length := by omega
        rcases hadd with h0 | ⟨t, ht, h1, h2, h3, _⟩
        · subst h0
          refine ⟨N, ?_, hall2, hpw⟩
          rw [hN, heof, List.append_nil]
        · subst ht
          refine ⟨t :: N, ?_, ?_, ?_⟩
          · rw [hN, heof]
            simp
          · intro x hx
            rcases List.mem_cons.mp hx with hx | hx
            · subst hx
              refine ⟨h1, by rw [h2]; exact hne, by omega, by rw [h2, h3]; omega, ?_⟩
              rw [h2, h3, hfull, hs1, List.take_left]
            · exact hall2 x hx
          · refine List.Pairwise.cons ?_ hpw
            intro b hb
            have := (hall b hb).2.2.1
            rw [h2, h3]
            exact this

/-- C32 (as amended): when `Tokenize` succeeds on a query `q`, the tokens are
non-EOF tokens followed by exactly one EOF token.  The text of each non-EOF
token is not empty and is the piece of the trimmed query that starts at the
offset of the token; the offsets increase strictly along the sequence, no
token reaching into the next one; and the offset of the EOF token is the
length of the trimmed query. -/
theorem C32_token_offsets (q : List Char) (T : List Token) (h : Tokenize q = .ok T) :
    ∃ toks, T = toks ++ [⟨.TokenEOF, [], (strings.TrimSpace q).length⟩] ∧
      (∀ t ∈ toks, t.Typ ≠ .TokenEOF ∧ t.Value ≠ [] ∧
        ((strings.TrimSpace q).drop t.Pos).take t.Value.length = t.Value) ∧
      T.Pairwise (fun a b => a.Pos < b.Pos) ∧
      T.Pairwise (fun a b => a.Pos + a.Value.length ≤ b.Pos) := by
  obtain ⟨N, hN, hall, hpw⟩ := tokenizeLoop_offsets_aux (strings.TrimSpace q).length
    (strings.TrimSpace q) (le_refl _) (strings.TrimSpace q) 0 [] T rfl h
  simp only [List.nil_append, Nat.zero_add] at hN hall
  have hpw2 : T.Pairwise (fun a b => a.Pos + a.Value.length ≤ b.Pos) := by
    rw [hN, List.pairwise_append]
    refine ⟨hpw, List.pairwise_singleton _ _, ?_⟩
    intro a ha b hb
    rw [List.mem_singleton] at hb
    subst hb
    exact (hall a ha).2.2.2.1
  refine ⟨N, hN, fun t ht => ⟨(hall t ht).1, (hall t ht).2.1, (hall t ht).2.2.2.2⟩, ?_, hpw2⟩
  rw [hN, List.pairwise_append]
  refine ⟨?_, List.pairwise_singleton _ _, ?_⟩
  · refine hpw.imp_of_mem ?_
    intro a b ha _ hab
    have := List.length_pos.mpr (hall a ha).2.1
    omega
  · intro a ha b hb
    rw [List.mem_singleton] at hb
    subst hb
    have := List.length_pos.mpr (hall a ha).2.1
    have := (hall a ha).2.2.2.1
    show a.Pos < (strings.TrimSpace q).length
    omega

theorem Tokenize_blank_a :
    Tokenize " a".toList = .ok [⟨.TokenField, "a".toList, 0⟩, ⟨.TokenEOF, [], 1⟩] := by
  have t : strings.TrimSpace " a".toList = "a".toList := by
    simp [strings.TrimSpace, strings.trimLeft, strings.trimRightRev, strings.leadingSpace,
      strings.trailingSpace, strings.asciiSpace]
  unfold Tokenize
  rw [t, ← tokenizeFuel_eq 2 _ _ _ (by decide)]
  rfl

/-- C32 at concrete inputs. -/
theorem C32_token_offsets_witness :
    Tokenize " a".toList = .ok [⟨.TokenField, "a".toList, 0⟩, ⟨.TokenEOF, [], 1⟩] ∧
    ∃ toks, [⟨.TokenField, "a".toList, 0⟩, ⟨.TokenEOF, [], 1⟩]
        = toks ++ [(⟨.TokenEOF, [], (strings.TrimSpace " a".toList).length⟩ : Token)] ∧
      (∀ t ∈ toks, t.Typ ≠ .TokenEOF ∧ t.Value ≠ [] ∧
        ((strings.TrimSpace " a".toList).drop t.Pos).take t.Value.length = t.Value) ∧
      ([⟨.TokenField, "a".toList, 0⟩, ⟨.TokenEOF, [], 1⟩] : List Token).Pairwise
        (fun a b => a.Pos < b.Pos) ∧
      ([⟨.TokenField, "a".toList, 0⟩, ⟨.TokenEOF, [], 1⟩] : List Token).Pairwise
        (fun a b => a.Pos + a.Value.length ≤ b.Pos) :=
  ⟨Tokenize_blank_a, C32_token_offsets " a".toList _ Tokenize_blank_a⟩

/-- C32 as stated fails: on the query made of a blank and the letter `a`,
`Tokenize` returns the field token `a` with the offset 0 and the EOF token
with the offset 1.  The byte of the query at the offset 0 is the blank, not
`a`, and the length of the query is 2, not 1. -/
theorem C32_offsets_in_trimmed_query :
    Tokenize " a".toList = .ok [⟨.TokenField, "a".toList, 0⟩, ⟨.TokenEOF, [], 1⟩] ∧
    (" a".toList.drop 0).take "a".toList.length ≠ "a".toList ∧
    " a".toList.length ≠ 1 :=
  ⟨Tokenize_blank_a, by decide, by decide⟩

theorem Steps.bind {L : List Token} {k pos d pos1 d1 : Nat} {r : Result (Node × Parser)}
    {g : Node × Parser → Result (Node × Parser)} (h : Steps L k pos d r)
    (hg : ∀ n pos2, pos + d ≤ pos2 → pos2 ≤ k → Steps L k pos1 d1 (g (n, ⟨L, pos2⟩))) :
    Steps L k pos1 d1 (r >>= g) := by
  rcases h with ⟨e, he⟩ | ⟨n, pos2, hr, h1, h2⟩
  · exact Or.inl ⟨e, by rw [he]; rfl⟩
  · rw [hr]
    exact hg n pos2 h1 h2

theorem Steps.mono {L : List Token} {k pos d pos1 d1 : Nat} {r : Result (Node × Parser)}
    (h : Steps L k pos d r) (hle : pos1 + d1 ≤ pos + d) : Steps L k pos1 d1 r := by
  rcases h with ⟨e, he⟩ | ⟨n, pos2, hr, h1, h2⟩
  · exact Or.inl ⟨e, he⟩
  · exact Or.inr ⟨n, pos2, hr, by omega, h2⟩

/-- The tokens at the positions up to that of the EOF token. -/
theorem token_at (L : List Token) (k : Nat) (hlen : L.length = k + 1) (pos : Nat)
    (hpos : pos ≤ k) : ∃ t, L[pos]? = some t :=
  ⟨L[pos], List.getElem?_eq_getElem (by omega)⟩

/-- A token that is not the EOF token stands before the EOF token. -/
theorem before_EOF (L : List Token) (k : Nat) (e : Token) (hE : L[k]? = some e)
    (he : e.Typ = .TokenEOF) (pos : Nat) (hpos : pos ≤ k) (t : Token) (ht : L[pos]? = some t)
    (hne : t.Typ ≠ .TokenEOF) : pos + 1 ≤ k := by
  rcases Nat.lt_or_ge pos k with h | h
  · exact h
  · have : pos = k := by omega
    subst this
    rw [hE] at ht
    cases ht
    exact absurd he hne

theorem isOperator_ne_EOF (t : Token) (h : isOperator t.Typ = true) : t.Typ ≠ .TokenEOF := by
  intro he
  rw [he] at h
  revert h
  decide

/-- Function `parseComparison` ends with an error or three tokens further. -/
theorem parseComparison_steps (L : List Token) (k : Nat) (e : Token) (hlen : L.length = k + 1)
    (hE : L[k]? = some e) (he : e.Typ = .TokenEOF) (pos : Nat) (hpos : pos ≤ k) :
    Steps L k pos 1 (Parser.parseComparison ⟨L, pos⟩) := by
  obtain ⟨t, ht⟩ := token_at L k hlen pos hpos
  by_cases h0 : t.Typ = .TokenField
  swap
  · exact Or.inl ⟨_, parseComparison_no_field L pos t ht h0⟩
  have p1 := before_EOF L k e hE he pos hpos t ht (by rw [h0]; decide)
  obtain ⟨t1, ht1⟩ := token_at L k hlen (pos + 1) p1
  cases h1 : isOperator t1.Typ
  · exact Or.inl ⟨_, parseComparison_no_operator L pos t t1 ht h0 ht1 h1⟩
  have p2 := before_EOF L k e hE he (pos + 1) p1 t1 ht1 (isOperator_ne_EOF t1 h1)
  obtain ⟨t2, ht2⟩ := token_at L k hlen (pos + 2) p2
  by_cases h2 : t2.Typ = .TokenValue
  swap
  · exact Or.inl ⟨_, parseComparison_no_value L pos t t1 t2 ht h0 ht1 h1 ht2 h2⟩
  have p3 := before_EOF L k e hE he (pos + 2) p2 t2 ht2 (by rw [h2]; decide)
  exact Or.inr ⟨_, pos + 3, parseComparison_ok L pos t t1 t2 ht h0 ht1 h1 ht2 h2, by omega, p3⟩

/-- The parser on tokens that end with the EOF token, with a depth of three
calls for each token left, and up to three more: each function ends with an
error or with a node, the parser being left at a position that is not beyond
the EOF token; the functions `parseFactor`, `parseTerm` and `parseExpression`
consume at least one token. -/
theorem parser_steps (L : List Token) (k : Nat) (e : Token) (hlen : L.length = k + 1)
    (hE : L[k]? = some e) (he : e.Typ = .TokenEOF) :
    ∀ f : Nat,
      (∀ pos, pos ≤ k → 3 * (k - pos) + 1 ≤ f → Steps L k pos 1 (Parser.parseFactor f ⟨L, pos⟩)) ∧
      (∀ node pos, pos ≤ k → 3 * (k - pos) + 1 ≤ f →
        Steps L k pos 0 (Parser.parseTermLoop f node ⟨L, pos⟩)) ∧
      (∀ pos, pos ≤ k → 3 * (k - pos) + 2 ≤ f → Steps L k pos 1 (Parser.parseTerm f ⟨L, pos⟩)) ∧
      (∀ node pos, pos ≤ k → 3 * (k - pos) + 2 ≤ f →
        Steps L k pos 0 (Parser.parseExpressionLoop f node ⟨L, pos⟩)) ∧
      (∀ pos, pos ≤ k → 3 * (k - pos) + 3 ≤ f →
        Steps L k pos 1 (Parser.parseExpression f ⟨L, pos⟩)) := by
  intro f
  induction f with
  | zero =>
    refine ⟨?_, ?_, ?_, ?_, ?_⟩ <;> intros <;> omega
  | succ f ih =>
    obtain ⟨iF, iTL, iT, iEL, iE⟩ := ih
    refine ⟨?_, ?_, ?_, ?_, ?_⟩
    · intro pos hpos hf
      obtain ⟨t, ht⟩ := token_at L k hlen pos hpos
      rw [parseFactor_at f L pos t ht]
      by_cases h1 : t.Typ = .TokenNOT
      · rw [if_pos h1]
        have p1 := before_EOF L k e hE he pos hpos t ht (by rw [h1]; decide)
        refine (iF (pos + 1) p1 (by omega)).bind ?_
        intro n pos2 h2 h3
        exact Or.inr ⟨_, pos2, rfl, by omega, h3⟩
      rw [if_neg h1]
      by_cases h2 : t.Typ = .TokenLeftParen
      · rw [if_pos h2]
        have p1 := before_EOF L k e hE he pos hpos t ht (by rw [h2]; decide)
        refine (iE (pos + 1) p1 (by omega)).bind ?_
        intro n pos2 h3 h4
        obtain ⟨t2, ht2⟩ := token_at L k hlen pos2 h4
        show Steps L k pos 1 (Parser.match1 ⟨L, pos2⟩ .TokenRightParen >>= _)
        rw [match1_at L pos2 t2 ht2]
        by_cases h5 : t2.Typ ≠ .TokenEOF ∧ t2.Typ = .TokenRightParen
        · rw [if_pos h5]
          have p2 := before_EOF L k e hE he pos2 h4 t2 ht2 h5.1
          exact Or.inr ⟨n, pos2 + 1, rfl, by omega, p2⟩
        · rw [if_neg h5]
          simp only [Result.ok_bind, Bool.not_false, if_true]
          rw [current_shape L pos2 t2 ht2 (getElem?_lt ht2)]
          exact Or.inl ⟨_, rfl⟩
      · rw [if_neg h2]
        exact parseComparison_steps L k e hlen hE he pos hpos
    · intro node pos hpos hf
      obtain ⟨t, ht⟩ := token_at L k hlen pos hpos
      rw [parseTermLoop_at f node L pos t ht]
      by_cases h1 : t.Typ = .TokenAND
      · rw [if_pos h1]
        have p1 := before_EOF L k e hE he pos hpos t ht (by rw [h1]; decide)
        refine (iF (pos + 1) p1 (by omega)).bind ?_
        intro n pos2 h2 h3
        exact (iTL (Node.and node n) pos2 h3 (by omega)).mono (by omega)
      · rw [if_neg h1]
        exact Or.inr ⟨node, pos, rfl, by omega, hpos⟩
    · intro pos hpos hf
      rw [parseTerm_succ]
      refine (iF pos hpos (by omega)).bind ?_
      intro n pos2 h2 h3
      exact (iTL n pos2 h3 (by omega)).mono (by omega)
    · intro node pos hpos hf
      obtain ⟨t, ht⟩ := token_at L k hlen pos hpos
      rw [parseExpressionLoop_at f node L pos t ht]
      by_cases h1 : t.Typ = .TokenOR
      · rw [if_pos h1]
        have p1 := before_EOF L k e hE he pos hpos t ht (by rw [h1]; decide)
        refine (iT (pos + 1) p1 (by omega)).bind ?_
        intro n pos2 h2 h3
        exact (iEL (Node.or node n) pos2 h3 (by omega)).mono (by omega)
      · rw [if_neg h1]
        exact Or.inr ⟨node, pos, rfl, by omega, hpos⟩
    · intro pos hpos hf
      rw [parseExpression_succ]
      refine (iT pos hpos (by omega)).bind ?_
      intro n pos2 h2 h3
      exact (iEL n pos2 h3 (by omega)).mono (by omega)

theorem Tokenize_nil : Tokenize [] = .ok [⟨.TokenEOF, [], 0⟩] := by
  have t : strings.TrimSpace [] = [] := by
    simp [strings.TrimSpace, strings.trimLeft, strings.trimRightRev, strings.leadingSpace,
      strings.trailingSpace]
  unfold Tokenize
  rw [t, tokenizeLoop_nil]
  rfl

/-- The tokens that `Tokenize` returns end with the EOF token, at the position
of the number of tokens before it. -/
theorem Tokenize_ends (q : List Char) (T : List Token) (h : Tokenize q = .ok T) :
    ∃ k e, T.length = k + 1 ∧ T[k]? = some e ∧ e.Typ = .TokenEOF := by
  obtain ⟨toks, e, hT, he⟩ := tokens_end _ T h
  refine ⟨toks.length, e, by rw [hT]; simp, by rw [hT]; simp, he⟩

/-- C40: `Parse` is total and safe.  On every query `Tokenize` returns tokens
or an error, and `Parse` returns a tree or an error: it ends within the depth
allowed to the parser and no index is out of range, which would be a panic.
The parser stops at a position that is not beyond the EOF token.  On the
empty query `Parse` returns the error `expected field name`, at the EOF
token. -/
theorem C40_Parse_total_and_safe (q : List Char) :
    ((∃ T, Tokenize q = .ok T) ∨ (∃ e, Tokenize q = .err e)) ∧
    ((∃ n, Parse q = .ok n) ∨ (∃ e, Parse q = .err e)) ∧
    (∀ T, Tokenize q = .ok T →
      Steps T (T.length - 1) 0 1 (Parser.parseExpression (4 * T.length + 4) ⟨T, 0⟩)) ∧
    Parse [] = .err (.expectedField 0 ⟨.TokenEOF, [], 0⟩) := by
  have hrun : ∀ T, Tokenize q = .ok T →
      Steps T (T.length - 1) 0 1 (Parser.parseExpression (4 * T.length + 4) ⟨T, 0⟩) := by
    intro T hT
    obtain ⟨k, e, hlen, hE, he⟩ := Tokenize_ends q T hT
    have e1 : T.length - 1 = k := by omega
    rw [e1]
    exact (parser_steps T k e hlen hE he (4 * T.length + 4)).2.2.2.2 0 (Nat.zero_le _)
      (by omega)
  refine ⟨?_, ?_, hrun, ?_⟩
  · rcases tokenizeLoop_total (strings.TrimSpace q) 0 [] with h | h
    · exact Or.inr h
    · exact Or.inl h
  · rcases tokenizeLoop_total (strings.TrimSpace q) 0 [] with ⟨e, h⟩ | ⟨T, h⟩
    · right
      refine ⟨e, ?_⟩
      unfold Parse
      have h2 : Tokenize q = .err e := h
      rw [h2]
      rfl
    · have h2 : Tokenize q = .ok T := h
      obtain ⟨k, e, hlen, hE, he⟩ := Tokenize_ends q T h2
      unfold Parse
      rw [h2]
      simp only [Result.ok_bind]
      rcases hrun T h2 with ⟨e1, h3⟩ | ⟨n, pos2, h3, _, h4⟩
      · right
        refine ⟨e1, ?_⟩
        rw [h3]
        rfl
      · rw [h3]
        simp only [Result.ok_bind]
        obtain ⟨t, ht⟩ := token_at T k hlen pos2 (by omega)
        rw [isAtEnd_shape T pos2 t ht (getElem?_lt ht)]
        simp only [Result.ok_bind]
        by_cases hb : (t.Typ == .TokenEOF) = true
        · left
          refine ⟨n, ?_⟩
          rw [hb]
          rfl
        · right
          have hb2 : (t.Typ == .TokenEOF) = false := by simpa using hb
          refine ⟨.unexpectedToken t.Pos t, ?_⟩
          rw [hb2, current_shape T pos2 t ht (getElem?_lt ht)]
          rfl
  · unfold Parse
    rw [Tokenize_nil]
    simp [Parser.parseExpression, Parser.parseTerm, Parser.parseFactor, Parser.parseTermLoop,
      Parser.parseExpressionLoop, Parser.match1, Parser.check, Parser.isAtEnd, Parser.current,
      Parser.advance, index, Parser.parseComparison, Result.bind, bind]

theorem Tokenize_a_colon :
    Tokenize "a:".toList = .ok [⟨.TokenField, "a".toList, 0⟩, ⟨.TokenColon, ":".toList, 1⟩,
      ⟨.TokenEOF, [], 2⟩] := by
  rw [Tokenize_eval _ (by rfl) (by rfl)]
  rfl

/-- C40 at concrete inputs: a query that ends in an operator. -/
theorem C40_Parse_total_and_safe_witness :
    Tokenize "a:".toList = .ok [⟨.TokenField, "a".toList, 0⟩, ⟨.TokenColon, ":".toList, 1⟩,
      ⟨.TokenEOF, [], 2⟩] ∧
    Steps [⟨.TokenField, "a".toList, 0⟩, ⟨.TokenColon, ":".toList, 1⟩, ⟨.TokenEOF, [], 2⟩]
      2 0 1 (Parser.parseExpression 16
        ⟨[⟨.TokenField, "a".toList, 0⟩, ⟨.TokenColon, ":".toList, 1⟩, ⟨.TokenEOF, [], 2⟩], 0⟩) ∧
    ((∃ n, Parse "a:".toList = .ok n) ∨ (∃ e, Parse "a:".toList = .err e)) :=
  ⟨Tokenize_a_colon, (C40_Parse_total_and_safe "a:".toList).2.2.1 _ Tokenize_a_colon,
    (C40_Parse_total_and_safe "a:".toList).2.1⟩

end query
